import Mathlib

/-!
# Multi-source version reconciliation: a shallow embedding

The definitions below follow `group.go`, `helpers.go`, `sources.go` and `debug.go`
of the repository, together with a model of the parts of the external library
`github.com/Masterminds/semver/v3` that those files call.

Conventions of the embedding:

* a Go `*semver.Version` is an `Option Version` (`none` is the nil pointer);
* a Go `error` is an `Option Error` (`none` is the nil error);
* a Go `map[Name]SourceWithMeta` is the list of its entries in the order in which one
  `range` statement visits them; every ordering of the entries is a possible list;
* the outside world (files, tags, processes) is a state of an arbitrary type `σ`,
  passed to and returned by every call of a source;
* the three logging sinks and the calls made on sources are recorded as a list of events;
* a Go panic is the outcome `Outcome.panic`.
-/

/-- Go's `string` type. -/
abbrev GoString := String

namespace Version

/-! ## Model of `github.com/Masterminds/semver/v3` -/

/-- The largest value of a Go `uint64`, plus one. -/
def uint64Size : Nat := 2 ^ 64

/-- Decimal digit `d` (below ten) as a character. -/
def digitChar (d : Nat) : Char := Char.ofNat (48 + d)

/-- Decimal digits of `n`, most significant first, in front of `acc`; `fuel` bounds the
number of digits. -/
def fmtDigits : Nat → Nat → List Char → List Char
  | 0, _, acc => acc
  | fuel + 1, n, acc =>
    if n < 10 then digitChar n :: acc
    else fmtDigits fuel (n / 10) (digitChar (n % 10) :: acc)

/-- The decimal spelling of an unsigned integer, as `%d` of Go's `fmt` prints it. -/
def formatUint (n : Nat) : List Char := fmtDigits (n + 1) n []

/-- Whether `c` is one of `0123456789`. -/
def isNum (c : Char) : Bool := 48 ≤ c.toNat && c.toNat ≤ 57

/-- Whether `c` is one of the characters the library allows in pre-release and metadata
parts: ASCII letters, digits and the hyphen. -/
def isAllowed (c : Char) : Bool :=
  isNum c || (65 ≤ c.toNat && c.toNat ≤ 90) || (97 ≤ c.toNat && c.toNat ≤ 122) || c == '-'

/-- Value of a string of decimal digits, most significant first, on top of `acc`. -/
def digitsValue (acc : Nat) : List Char → Nat
  | [] => acc
  | c :: cs => digitsValue (10 * acc + (c.toNat - 48)) cs

/-- Go's `strconv.ParseUint(s, 10, 64)`: `none` is a non-nil error (empty input, a
character that is no digit, or a value that does not fit 64 bits). -/
def parseUint (cs : List Char) : Option Nat :=
  if cs = [] then none
  else if cs.all isNum then
    (if digitsValue 0 cs < uint64Size then some (digitsValue 0 cs) else none)
  else none

/-- Go's `strings.Split(s, ".")` on the characters of `s`: the parts between dots; the
result is never empty. -/
def splitDots : List Char → List (List Char)
  | [] => [[]]
  | c :: cs =>
    if c = '.' then [] :: splitDots cs
    else
      match splitDots cs with
      | [] => [[c]]
      | p :: ps => (c :: p) :: ps

end Version

/-- A value of `semver.Version`: the three numeric segments, the pre-release and build
metadata strings, and the text the value was parsed from. -/
structure Version where
  major : Nat
  minor : Nat
  patch : Nat
  pre : String
  metadata : String
  original : String
  deriving DecidableEq, Repr

namespace Version

/-- The library's `validatePrerelease`: every dot-separated part is non-empty, a part
made of digits only has no leading zero, any other part has allowed characters only. -/
def validPrerelease (cs : List Char) : Bool :=
  (splitDots cs).all fun p =>
    if p = [] then false
    else if p.all isNum then !(1 < p.length && p.head? = some '0')
    else p.all isAllowed

/-- The library's `validateMetadata`: every dot-separated part is non-empty and has
allowed characters only. -/
def validMetadata (cs : List Char) : Bool :=
  (splitDots cs).all fun p => !(p = []) && p.all isAllowed

/-- An optional `.digits` group of the version pattern: the digits and the rest of the
input when the group matches, the input unchanged otherwise. -/
def optSegment (cs : List Char) : Option (List Char) × List Char :=
  match cs with
  | '.' :: rest =>
    let ds := rest.takeWhile isNum
    if ds = [] then (none, cs) else (some ds, rest.dropWhile isNum)
  | _ => (none, cs)

/-- A numeric segment of the version pattern: `0` when its group did not match. -/
def segmentValue : Option (List Char) → Option Nat
  | none => some 0
  | some ds => parseUint ds

/-- The optional `-prerelease` group of the version pattern: the characters up to the
next `+`, which the pattern's character class excludes. -/
def optPrerelease (cs : List Char) : Option (List Char) × List Char :=
  match cs with
  | '-' :: rest => (some (rest.takeWhile (· != '+')), rest.dropWhile (· != '+'))
  | _ => (none, cs)

/-- The optional `+metadata` group of the version pattern: the characters up to the end. -/
def optMetadata (cs : List Char) : Option (List Char) × List Char :=
  match cs with
  | '+' :: rest => (some rest, [])
  | _ => (none, cs)

/-- The optional leading `v` of the version pattern. -/
def stripV (cs : List Char) : List Char :=
  match cs with
  | 'v' :: rest => rest
  | _ => cs

/-- The library's `NewVersion`: an optional leading `v`, one to three numeric segments, an
optional `-prerelease` and an optional `+metadata`, anchored at both ends; the segments
are read by `strconv.ParseUint`, the pre-release and the metadata are validated, and the
whole input is kept as the original text. `none` is a non-nil error. -/
def NewVersion (s : GoString) : Option Version :=
  let body := stripV s.data
  let seg2 := optSegment (body.dropWhile isNum)
  let seg3 := optSegment seg2.2
  let pre := optPrerelease seg3.2
  let mtd := optMetadata pre.2
  if mtd.2 ≠ [] then none
  else if pre.1 = some [] ∨ mtd.1 = some [] then none
  else if !(pre.1.getD [] = [] || validPrerelease (pre.1.getD [])) then none
  else if !(mtd.1.getD [] = [] || validMetadata (mtd.1.getD [])) then none
  else
    match parseUint (body.takeWhile isNum), segmentValue seg2.1, segmentValue seg3.1 with
    | some major, some minor, some patch =>
      some ⟨major, minor, patch, ⟨pre.1.getD []⟩, ⟨mtd.1.getD []⟩, s⟩
    | _, _, _ => none

/-- The values of `semver.Version` the library's parser can produce: segments that fit
64 bits, a pre-release and a metadata string that are empty or pass the library's
validation. -/
def Valid (v : Version) : Prop :=
  v.major < uint64Size ∧ v.minor < uint64Size ∧ v.patch < uint64Size
    ∧ (v.pre.data = [] ∨ validPrerelease v.pre.data = true)
    ∧ (v.metadata.data = [] ∨ validMetadata v.metadata.data = true)

instance (v : Version) : Decidable v.Valid :=
  inferInstanceAs (Decidable (v.major < uint64Size ∧ v.minor < uint64Size ∧ v.patch < uint64Size
    ∧ (v.pre.data = [] ∨ validPrerelease v.pre.data = true)
    ∧ (v.metadata.data = [] ∨ validMetadata v.metadata.data = true)))

/-- The part of the canonical spelling that follows the three numeric segments. -/
def canonTail (pre mtd : List Char) : List Char :=
  (if pre = [] then [] else '-' :: pre) ++ (if mtd = [] then [] else '+' :: mtd)

/-- The library's `Version.String`: `major.minor.patch`, then `-pre` and `+metadata` when
they are not empty; never a leading `v`. -/
def String (v : Version) : GoString :=
  ⟨formatUint v.major ++ '.' :: formatUint v.minor ++ '.' :: formatUint v.patch
    ++ (if v.pre = "" then [] else '-' :: v.pre.data)
    ++ (if v.metadata = "" then [] else '+' :: v.metadata.data)⟩

/-- The library's `Version.Original`. -/
def Original (v : Version) : GoString := v.original

/-- The library's `compareSegment`. -/
def compareSegment (v o : Nat) : Int :=
  if v < o then -1 else if v > o then 1 else 0

/-- Go's comparison `s > o` of two strings: lexicographic on the bytes, which for UTF-8
text is lexicographic on the code points of the characters. -/
def strGt : List Char → List Char → Bool
  | [], _ => false
  | _ :: _, [] => true
  | a :: as, b :: bs =>
    if a.toNat > b.toNat then true else if a.toNat < b.toNat then false else strGt as bs

/-- The library's `comparePrePart`. -/
def comparePrePart (s o : List Char) : Int :=
  if s = o then 0
  else if s = [] then -1
  else if o = [] then 1
  else
    match parseUint o, parseUint s with
    | none, none => if strGt s o then 1 else -1
    | none, some _ => -1
    | some _, none => 1
    | some oi, some si => if si > oi then 1 else -1

/-- The loop of the library's `comparePrerelease` once the first list of parts is
exhausted: each remaining part of the second is compared with the empty placeholder. -/
def comparePartsLeft : List (List Char) → Int
  | [] => 0
  | o :: os => if comparePrePart [] o ≠ 0 then comparePrePart [] o else comparePartsLeft os

/-- The loop of the library's `comparePrerelease` once the second list of parts is
exhausted: each remaining part of the first is compared with the empty placeholder. -/
def comparePartsRight : List (List Char) → Int
  | [] => 0
  | s :: ss => if comparePrePart s [] ≠ 0 then comparePrePart s [] else comparePartsRight ss

/-- The loop of the library's `comparePrerelease` over the two lists of parts, the
shorter list padded with empty parts. -/
def compareParts : List (List Char) → List (List Char) → Int
  | [], os => comparePartsLeft os
  | s :: ss, [] => comparePartsRight (s :: ss)
  | s :: ss, o :: os => if comparePrePart s o ≠ 0 then comparePrePart s o else compareParts ss os

/-- The library's `comparePrerelease`. -/
def comparePrerelease (v o : GoString) : Int :=
  compareParts (splitDots v.data) (splitDots o.data)

/-- The library's `Version.Compare`: `-1`, `0` or `1`; metadata is ignored, a version
with a pre-release is below the same version without one. -/
def Compare (v o : Version) : Int :=
  if compareSegment v.major o.major ≠ 0 then compareSegment v.major o.major
  else if compareSegment v.minor o.minor ≠ 0 then compareSegment v.minor o.minor
  else if compareSegment v.patch o.patch ≠ 0 then compareSegment v.patch o.patch
  else if v.pre = "" ∧ o.pre = "" then 0
  else if v.pre = "" then 1
  else if o.pre = "" then -1
  else comparePrerelease v.pre o.pre

/-- The library's `Version.Equal`. -/
def Equal (v o : Version) : Bool := v.Compare o == 0

/-- The library's `Version.LessThan`. -/
def LessThan (v o : Version) : Bool := v.Compare o < 0

/-- The library's `Version.GreaterThan`. -/
def GreaterThan (v o : Version) : Bool := v.Compare o > 0

/-- A part of a valid pre-release: not empty, and without a leading zero when it is
made of digits only. -/
def PartOK (p : List Char) : Prop :=
  p ≠ [] ∧ (p.all isNum = true → ¬ (1 < p.length ∧ p.head? = some '0'))

/-- A list of parts of a valid pre-release. -/
def PartsOK (ps : List (List Char)) : Prop := ∀ p ∈ ps, PartOK p

/-- The last stage of `Compare`, reached when the three numeric segments agree. -/
def comparePre (v o : Version) : Int :=
  if v.pre = "" ∧ o.pre = "" then 0
  else if v.pre = "" then 1
  else if o.pre = "" then -1
  else comparePrerelease v.pre o.pre

end Version

/-! ## Three-way comparisons -/

/-- A three-way comparison `c` that is a total preorder on the values satisfying `P`:
reflexive, with opposite results for swapped arguments, and transitive. -/
structure CmpOK {α : Type} (P : α → Prop) (c : α → α → Int) : Prop where
  refl : ∀ x, c x x = 0
  symm : ∀ x y, P x → P y → c x y = -(c y x)
  trans : ∀ x y z, P x → P y → P z → c x y ≤ 0 → c y z ≤ 0 → c x z ≤ 0

/-- The comparison that decides by `c1` and, where `c1` gives `0`, by `c2`. -/
def lexCmp {α : Type} (c1 c2 : α → α → Int) (x y : α) : Int :=
  if c1 x y ≠ 0 then c1 x y else c2 x y

/-! ## Errors, events and outcomes -/

/-- A Go `error` value of the program: the sentinels of `helpers.go` and `group.go`, the
conflict error that `SourceGroup.Get` creates, the parse error of the version library,
any other error identified by its message, and an error wrapping another one. -/
inductive Error where
  | errNoChanges
  | errUnsync
  | errSubtreeNotFound
  | differentVersions
  | invalidSemVer
  | other (msg : String)
  | wrap (msg : String) (inner : Error)
  deriving DecidableEq, Repr

namespace Error

/-- The message of an error, the result of Go's `Error()` method. -/
def message : Error → String
  | errNoChanges => "no changes"
  | errUnsync => "multiple files reports different versions"
  | errSubtreeNotFound => "subtree not found"
  | differentVersions => "  sources reporting different versions"
  | invalidSemVer => "invalid semantic version"
  | other msg => msg
  | wrap msg inner => msg ++ inner.message

/-- Go's `errors.Is(e, target)` for a non-nil `e`: `e` is `target` or wraps it. -/
def Is : Error → Error → Bool
  | wrap msg inner, target => (wrap msg inner == target) || Is inner target
  | e, target => e == target

end Error

/-- Go's `errors.Is(e, target)`, `e` possibly nil. -/
def errorsIs (e : Option Error) (target : Error) : Bool :=
  match e with
  | none => false
  | some e => e.Is target

/-- The outcome of a Go call: it returns a value or it panics. -/
inductive Outcome (α : Type) where
  | ret (a : α)
  | panic
  deriving DecidableEq, Repr

/-- Go's `type Name = string`. -/
abbrev Name := String

/-- What a run leaves behind besides its results: a message on one of the three logging
sinks of the group, or a call of `Get` or `Set` on the source of the given name (`Set`
with the version handed to it). -/
inductive Event where
  | Trace (msg : String)
  | Log (msg : String)
  | Err (msg : String)
  | sourceGet (n : Name)
  | sourceSet (n : Name) (v : Version)
  deriving DecidableEq, Repr

/-! ## `helpers.go` -/

/-- Go's `strings.HasPrefix`. -/
def HasPrefix (s pre : String) : Bool := pre.data.isPrefixOf s.data

/-- Go's `strings.TrimLeft(s, "v")`: `s` without its leading run of `v`. -/
def TrimLeftV (s : String) : String := ⟨s.data.dropWhile (· = 'v')⟩

/-- The library's `MustParse`: `NewVersion`, panicking on an error. -/
def MustParse (s : String) : Outcome (Option Version) :=
  match Version.NewVersion s with
  | some v => Outcome.ret (some v)
  | none => Outcome.panic

/-- The function `hasVPrefix` of `helpers.go`. -/
def hasVPrefix (v : Option Version) : Bool :=
  match v with
  | none => false
  | some v => HasPrefix v.Original "v"

/-- The function `addVPrefix` of `helpers.go`; on a nil pointer `v.String()` panics. -/
def addVPrefix (v : Option Version) : Outcome (Option Version) :=
  if hasVPrefix v then Outcome.ret v
  else
    match v with
    | none => Outcome.panic
    | some x => MustParse ("v" ++ x.String)

/-- The function `trimVPrefix` of `helpers.go`; `hasVPrefix` is false on a nil pointer,
which is then returned as it is. -/
def trimVPrefix (v : Option Version) : Outcome (Option Version) :=
  if !hasVPrefix v then Outcome.ret v
  else
    match v with
    | none => Outcome.panic
    | some x => MustParse (TrimLeftV x.String)

/-- The function `verToString` of `helpers.go`; on a nil pointer `version.String()` panics. -/
def verToString (version : Option Version) : Outcome String :=
  match version with
  | none => Outcome.panic
  | some x => if hasVPrefix version then Outcome.ret ("v" ++ x.String) else Outcome.ret x.String

/-! ## `fs.go`, `sources.go`, `debug.go` -/

/-- The filesystem views of `fs.go`: the root view and a view that filters the glob
results of another one by a list of patterns. -/
inductive FS where
  | osRootFS
  | filteredFS (fs : FS) (patterns : List String)
  deriving DecidableEq, Repr

/-- The `Source` interface of `sources.go`, over a world of type `σ`: the two capability
flags, `Get`, which returns a version pointer and an error, and `Set`, which returns an
error; both calls may change the world. -/
structure Source (σ : Type) where
  IsCanBeLesser : Bool
  IsReadOnly : Bool
  Get : FS → σ → (Option Version × Option Error) × σ
  Set : Version → FS → σ → Option Error × σ

/-- The struct `DebugSource` of `debug.go`; its unexported `log` field is nil. -/
structure DebugSource where
  Version : String
  RO : Bool
  CanBeLesser : Bool
  deriving DecidableEq, Repr

/-- The methods of `DebugSource` as a `Source`: `Get` returns no version for an empty
`Version` string and `semver.NewVersion(d.Version)` otherwise, `Set` does nothing. -/
def DebugSource.toSource {σ : Type} (d : DebugSource) : Source σ where
  IsCanBeLesser := d.CanBeLesser
  IsReadOnly := d.RO
  Get := fun _ w =>
    if d.Version = "" then ((none, none), w)
    else
      match Version.NewVersion d.Version with
      | some v => ((some v, none), w)
      | none => ((none, some Error.invalidSemVer), w)
  Set := fun _ _ w => (none, w)

/-! ## `group.go` -/

/-- Go's `type VPrefixMode = int`. -/
abbrev VPrefixMode := Int

/-- The constant `VPrefixAuto`. -/
def VPrefixAuto : VPrefixMode := 0

/-- The constant `VPrefixTrue`. -/
def VPrefixTrue : VPrefixMode := 1

/-- The constant `VPrefixFalse`. -/
def VPrefixFalse : VPrefixMode := 2

/-- The struct `SourceWithMeta` of `group.go`. -/
structure SourceWithMeta (σ : Type) where
  VPrefix : VPrefixMode
  Disabled : Bool
  Source : Source σ

/-- The `report` struct of `group.go`. -/
structure report (σ : Type) where
  v : Option Version
  s : SourceWithMeta σ
  n : Name

/-- The struct `SourceGroup` of `group.go`. `Sources` lists the entries of the map in
iteration order; the three logging sinks are the `Trace`, `Log` and `Err` events of a
run. -/
structure SourceGroup (σ : Type) where
  DefaultVersion : String
  Sources : List (Name × SourceWithMeta σ)
  Strict : Bool
  getFS : FS
  setFS : FS
  IgnoredFiles : List String
  ReadOnlyFiles : List String

/-- Go's `slices.SortFunc(·, cmp)` on reports. Its algorithm is not part of the
repository and is not stable, so it is an argument of `Fetch`, `Get` and `GetMax`. -/
abbrev SortFunc (σ : Type) := (report σ → report σ → Int) → List (report σ) → List (report σ)

namespace SourceGroup

variable {σ : Type}

/-- The method `SourceGroup.Filter`: the entries whose name is in `names`, none at all
when `names` contains `"none"`. -/
def Filter (g : SourceGroup σ) (names : List Name) : List (Name × SourceWithMeta σ) :=
  g.Sources.filter fun entry => !names.contains "none" && names.contains entry.1

/-- The sources `Fetch` and `Set` range over: the filtered ones when names are given. -/
def selected (g : SourceGroup σ) (names : List Name) : List (Name × SourceWithMeta σ) :=
  if names.length > 0 then g.Filter names else g.Sources

/-- The comparison function `Fetch` sorts with: descending by version, nil last. -/
def reportCmp (a b : report σ) : Int :=
  match b.v with
  | none =>
    match a.v with
    | none => 0
    | some _ => -1
  | some bv =>
    match a.v with
    | none => 1
    | some av => bv.Compare av

/-- The variables of `Fetch` while it ranges over the sources. -/
structure FetchState (σ : Type) where
  reports : List (report σ)
  vp : Bool
  err : Option Error
  events : List Event
  world : σ

/-- One iteration of the loop of `Fetch`. -/
def fetchStep (g : SourceGroup σ) (st : FetchState σ) (entry : Name × SourceWithMeta σ) :
    FetchState σ :=
  if entry.2.Disabled then
    { st with events := st.events ++ [Event.Trace ("  " ++ entry.1 ++ " skipped as disabled")] }
  else
    match entry.2.Source.Get g.getFS st.world with
    | ((_, some e), w) =>
      { st with
        err := if st.err = none then some e else st.err
        events := st.events ++
          [Event.sourceGet entry.1, Event.Err ("  " ++ entry.1 ++ " failed with: " ++ e.message)]
        world := w }
    | ((v, none), w) =>
      { reports := st.reports ++ [⟨v, entry.2, entry.1⟩]
        vp := st.vp || hasVPrefix v
        err := st.err
        events := st.events ++ [Event.sourceGet entry.1]
        world := w }

/-- The method `SourceGroup.Fetch`: the reports (sorted unless a source failed), the `vp`
flag and the first error, with the events and the world it leaves. -/
def Fetch (g : SourceGroup σ) (sortFunc : SortFunc σ) (names : List Name) (w : σ) :
    FetchState σ :=
  let st := (g.selected names).foldl (fetchStep g) ⟨[], false, none, [], w⟩
  if st.err ≠ none then st
  else { st with reports := sortFunc reportCmp st.reports }

/-- The variables of the reconciliation loop of `Get`. -/
structure GetState where
  version : Option Version
  lower : Option Version
  err : Option Error

/-- One iteration of the reconciliation loop of `Get`: the variables after it, and the
message it sends to a logging sink. -/
def getStep (g : SourceGroup σ) (st : GetState) (r : report σ) : GetState × Event :=
  match r.v with
  | none => (st, Event.Trace ("  " ++ r.n ++ " reports no version"))
  | some rv =>
    match st.version with
    | none =>
      ({ st with version := some rv },
        Event.Log ("  " ++ r.n ++ " reports version: " ++ rv.String))
    | some version =>
      if version.Equal rv then
        (st, Event.Log ("  " ++ r.n ++ " report version: " ++ rv.String))
      else if !g.Strict && st.lower = none && r.s.Source.IsCanBeLesser && rv.LessThan version then
        ({ st with lower := some rv },
          Event.Log ("  " ++ r.n ++ " report lesser version: " ++ rv.String ++ " (allowed)"))
      else
        ({ st with err := if st.err = none then some Error.differentVersions else st.err },
          Event.Err ("  " ++ r.n ++ " report different version: " ++ rv.String))

/-- The reconciliation loop of `Get` over the reports, from the variables `st`: the
variables after the loop, and the messages of its iterations. -/
def reconcile (g : SourceGroup σ) : List (report σ) → GetState → GetState × List Event
  | [], st => (st, [])
  | r :: rs, st =>
    ((reconcile g rs (getStep g st r).1).1,
      (getStep g st r).2 :: (reconcile g rs (getStep g st r).1).2)

/-- What a call of `Get` or `GetMax` gives: the returned pair of version pointer and
error, or a panic, with the events and the world it leaves. -/
structure GetResult (σ : Type) where
  out : Outcome (Option Version × Option Error)
  events : List Event
  world : σ

/-- The end of `Get`, from the test `if err != nil`: `st` holds the variables after the
loop, `prefixed` is `version` after the leading `v` was added where `vp` asks for it,
`events` are the events so far. -/
def finishGet (g : SourceGroup σ) (st : GetState) (prefixed : Option Version)
    (events : List Event) (w : σ) : GetResult σ :=
  let version := if st.err ≠ none then none else prefixed
  if version = none then
    let events := events ++ [Event.Log "  no version found in project, using default one"]
    if g.DefaultVersion = "" then
      match Version.NewVersion "0.1.0" with
      | some v => ⟨Outcome.ret (some v, none), events, w⟩
      | none => ⟨Outcome.ret (none, some Error.invalidSemVer), events, w⟩
    else ⟨Outcome.ret (version, none), events, w⟩
  else ⟨Outcome.ret (version, none), events, w⟩

/-- The method `SourceGroup.Get`. The loop starts with no version, no tolerated lower
version and no error. -/
def Get (g : SourceGroup σ) (sortFunc : SortFunc σ) (names : List Name) (w : σ) :
    GetResult σ :=
  let f := g.Fetch sortFunc names w
  let events := Event.Log "fetching versions from sources..." :: f.events
  if f.err ≠ none then ⟨Outcome.ret (none, f.err), events, f.world⟩
  else
    let loop := g.reconcile f.reports ⟨none, none, none⟩
    match (if f.vp && loop.1.version ≠ none then addVPrefix loop.1.version
      else Outcome.ret loop.1.version) with
    | Outcome.panic => ⟨Outcome.panic, events ++ loop.2, f.world⟩
    | Outcome.ret prefixed => g.finishGet loop.1 prefixed (events ++ loop.2) f.world

/-- One iteration of the loop of `GetMax` over the explicit versions. -/
def getMaxVersionStep (version : Option Version) (v : Version) : Option Version :=
  match version with
  | none => some v
  | some cur => if v.GreaterThan cur then some v else version

/-- One iteration of the loop of `GetMax` over the reports. After the first assignment
`version` is nil only when `r.v` is nil, so `GreaterThan` never meets a nil pointer. -/
def getMaxReportStep (version : Option Version) (r : report σ) : Option Version :=
  let version := if version = none then r.v else version
  match r.v, version with
  | some rv, some cur => if rv.GreaterThan cur then r.v else version
  | _, _ => version

/-- The method `SourceGroup.GetMax`. Each iteration over `versions` has its own variable
`v`, so `&v` is a pointer to that element's copy. -/
def GetMax (g : SourceGroup σ) (sortFunc : SortFunc σ) (names : List Name)
    (versions : List Version) (w : σ) : GetResult σ :=
  let f : FetchState σ :=
    if names.length > 0 then g.Fetch sortFunc names w else ⟨[], false, none, [], w⟩
  if f.err ≠ none then ⟨Outcome.ret (none, f.err), f.events, f.world⟩
  else
    let version := versions.foldl getMaxVersionStep none
    let version := f.reports.foldl getMaxReportStep version
    if version = none then
      let dv := if g.DefaultVersion = "" then "0.1.0" else g.DefaultVersion
      match Version.NewVersion dv with
      | none => ⟨Outcome.ret (none, some Error.invalidSemVer), f.events, f.world⟩
      | some v => ⟨Outcome.ret (some v, none), f.events, f.world⟩
    else ⟨Outcome.ret (version, none), f.events, f.world⟩

/-- The variables of the loop of `Set`; `panicked` records that an iteration panicked,
after which nothing more runs. -/
structure SetState (σ : Type) where
  err : Option Error
  events : List Event
  world : σ
  panicked : Bool

/-- The version `Set` hands to a source under its `VPrefix` policy: `v` for Auto,
`*addVPrefix(&v)` for True, `*trimVPrefix(&v)` for False; `none` inside `ret` when the
policy is none of the three, in which case no call is made. -/
def versionToWrite (mode : VPrefixMode) (v : Version) : Outcome (Option Version) :=
  if mode = VPrefixAuto then Outcome.ret (some v)
  else if mode = VPrefixTrue then
    match addVPrefix (some v) with
    | Outcome.ret (some x) => Outcome.ret (some x)
    | _ => Outcome.panic
  else if mode = VPrefixFalse then
    match trimVPrefix (some v) with
    | Outcome.ret (some x) => Outcome.ret (some x)
    | _ => Outcome.panic
  else Outcome.ret none

/-- The end of an iteration of `Set`, after the source's call, if any, returned `e`. -/
def setFinish (st : SetState σ) (name : Name) (e : Option Error) (events : List Event)
    (w : σ) : SetState σ :=
  if errorsIs e Error.errNoChanges then
    { st with events := events ++ [Event.Trace ("  " ++ name ++ ": no changes")], world := w }
  else
    match e with
    | some x =>
      { st with
        events := events ++ [Event.Err ("  " ++ name ++ " failed with: " ++ x.message)]
        err := if st.err = none then some x else st.err
        world := w }
    | none => { st with events := events ++ [Event.Log ("  " ++ name ++ ": ok")], world := w }

/-- One iteration of the loop of `Set`. The three tests of `src.VPrefix` are on distinct
constants, so at most one of the three calls is made. -/
def setStep (g : SourceGroup σ) (v : Version) (st : SetState σ)
    (entry : Name × SourceWithMeta σ) : SetState σ :=
  if st.panicked then st
  else if entry.2.Disabled then
    { st with events := st.events ++ [Event.Trace ("  " ++ entry.1 ++ " skipped as disabled")] }
  else if entry.2.Source.IsReadOnly then
    { st with events := st.events ++ [Event.Trace ("  " ++ entry.1 ++ " skipped as readonly")] }
  else
    match versionToWrite entry.2.VPrefix v with
    | Outcome.panic => { st with panicked := true }
    | Outcome.ret none => setFinish st entry.1 none st.events st.world
    | Outcome.ret (some x) =>
      match entry.2.Source.Set x g.setFS st.world with
      | (e, w) => setFinish st entry.1 e (st.events ++ [Event.sourceSet entry.1 x]) w

/-- What a call of `Set` gives: the returned error, or a panic, with the events and the
world it leaves. -/
structure SetResult (σ : Type) where
  out : Outcome (Option Error)
  events : List Event
  world : σ

/-- The method `SourceGroup.Set`. -/
def Set (g : SourceGroup σ) (v : Version) (names : List Name) (w : σ) : SetResult σ :=
  let st := (g.selected names).foldl (setStep g v)
    ⟨none, [Event.Log "writing versions to sources..."], w, false⟩
  ⟨if st.panicked then Outcome.panic else Outcome.ret st.err, st.events, st.world⟩

end SourceGroup

/-! ## A sorting function for concrete runs -/

/-- Insertion of `a` into a list sorted by `cmp`, before the first element that `a`
does not come after. -/
def insertSorted {α : Type} (cmp : α → α → Int) (a : α) : List α → List α
  | [] => [a]
  | b :: l => if cmp a b ≤ 0 then a :: b :: l else b :: insertSorted cmp a l

/-- Insertion sort by `cmp`, stable: one function that has the contract of
`slices.SortFunc`, used for concrete runs. -/
def insertionSortFunc {α : Type} (cmp : α → α → Int) : List α → List α
  | [] => []
  | a :: l => insertSorted cmp a (insertionSortFunc cmp l)

/-- A group of debug sources, as the default constructor would configure them: every
source enabled with policy Auto, no ignored or read-only files. -/
def debugGroup (defaultVersion : String) (strict : Bool) (sources : List (Name × DebugSource)) :
    SourceGroup Unit where
  DefaultVersion := defaultVersion
  Sources := sources.map fun e => (e.1, ⟨VPrefixAuto, false, e.2.toSource⟩)
  Strict := strict
  getFS := FS.filteredFS FS.osRootFS []
  setFS := FS.filteredFS (FS.filteredFS FS.osRootFS []) []
  IgnoredFiles := []
  ReadOnlyFiles := []

/-! ## What a run did: the calls on sources read off the events -/

/-- The names of the sources on which `Get` was called, in the order of the calls. -/
def getCalls (events : List Event) : List Name :=
  events.filterMap fun e =>
    match e with
    | Event.sourceGet n => some n
    | _ => none

/-- The names of the sources on which `Set` was called, each with the version handed to
it, in the order of the calls. -/
def setCalls (events : List Event) : List (Name × Version) :=
  events.filterMap fun e =>
    match e with
    | Event.sourceSet n v => some (n, v)
    | _ => none

/-- One call of a source's `Get`: the source, its name, and what the call returned. -/
structure GetCall (σ : Type) where
  name : Name
  src : SourceWithMeta σ
  v : Option Version
  err : Option Error

/-- The method `Get` called once on each source of a list, in order, each call starting
from the world the previous call left: the calls with their results, and the final
world. -/
def callGets {σ : Type} (fs : FS) : List (Name × SourceWithMeta σ) → σ → List (GetCall σ) × σ
  | [], w => ([], w)
  | e :: es, w =>
    (⟨e.1, e.2, (e.2.Source.Get fs w).1.1, (e.2.Source.Get fs w).1.2⟩
        :: (callGets fs es (e.2.Source.Get fs w).2).1,
      (callGets fs es (e.2.Source.Get fs w).2).2)

/-- The first non-nil error of a list of returned errors. -/
def firstError (errs : List (Option Error)) : Option Error :=
  (errs.filterMap id).head?

/-- The sources of a selection that are not disabled. -/
def enabledSources {σ : Type} (l : List (Name × SourceWithMeta σ)) :
    List (Name × SourceWithMeta σ) :=
  l.filter fun e => !e.2.Disabled

/-- The report `Fetch` makes of a call that returned no error. -/
def GetCall.report {σ : Type} (c : GetCall σ) : report σ := ⟨c.v, c.src, c.name⟩

/-- One call of a source's `Set`: the source, its name, the version handed to it and the
error it returned. -/
structure SetCall (σ : Type) where
  name : Name
  src : SourceWithMeta σ
  v : Version
  err : Option Error

/-- The sources of a selection that `Set` writes: not disabled and not read-only. -/
def writableSources {σ : Type} (l : List (Name × SourceWithMeta σ)) :
    List (Name × SourceWithMeta σ) :=
  l.filter fun e => !e.2.Disabled && !e.2.Source.IsReadOnly

/-- The version with the spelling a policy asks for: `v` itself under Auto, or when its
spelling already fits; otherwise `v` with its canonical text as original, with a leading
`v` under True and without one under False. -/
def writtenVersion (mode : VPrefixMode) (v : Version) : Version :=
  if mode = VPrefixTrue then
    (if hasVPrefix (some v) then v else { v with original := "v" ++ v.String })
  else if mode = VPrefixFalse then
    (if hasVPrefix (some v) then { v with original := v.String } else v)
  else v

/-- The method `Set` called once on each source of a list, in order, with the version
`written` gives for the source, each call starting from the world the previous call
left: the calls with their results, and the final world. -/
def callSets {σ : Type} (fs : FS) (written : SourceWithMeta σ → Version) :
    List (Name × SourceWithMeta σ) → σ → List (SetCall σ) × σ
  | [], w => ([], w)
  | e :: es, w =>
    (⟨e.1, e.2, written e.2, (e.2.Source.Set (written e.2) fs w).1⟩
        :: (callSets fs written es (e.2.Source.Set (written e.2) fs w).2).1,
      (callSets fs written es (e.2.Source.Set (written e.2) fs w).2).2)

/-- Whether a returned error counts as a failure for `Set`: it is not nil and is not the
"no changes" condition. -/
def isHardError (e : Option Error) : Bool :=
  e != none && !errorsIs e Error.errNoChanges

/-- The calls of `Set` that writing `v` to the selected sources consists of: one on each
selected source that is neither disabled nor read-only, in iteration order, with the
version the source's policy gives. -/
def SourceGroup.setCallsMade {σ : Type} (g : SourceGroup σ) (v : Version) (names : List Name)
    (w : σ) : List (SetCall σ) × σ :=
  callSets g.setFS (fun s => writtenVersion s.VPrefix v) (writableSources (g.selected names)) w

/-- Go's `slices.IsSortedFunc(x, cmp)`: no element is strictly before its predecessor
under `cmp`. This is how `slices.SortFunc` leaves a slice when `cmp` is a strict weak
ordering. -/
def IsSortedFunc {α : Type} (cmp : α → α → Int) : List α → Bool
  | [] => true
  | a :: l =>
    (match l with
      | [] => true
      | b :: _ => decide (0 ≤ cmp b a)) && IsSortedFunc cmp l

/-- All versions of a list of reports are values the parser produces. -/
def validReports {σ : Type} (l : List (report σ)) : Prop :=
  ∀ r ∈ l, ∀ u, r.v = some u → u.Valid

/-- A report agrees with `V`: it has no version, or one that is Equal to `V`. -/
def report.agrees {σ : Type} (r : report σ) (V : Version) : Prop :=
  r.v = none ∨ ∃ u, r.v = some u ∧ u.Equal V = true

/-- The versions `GetMax` chooses from: the explicit ones, then those of the reports
fetched, which are fetched only when names are given; absent reports add nothing. -/
def SourceGroup.available {σ : Type} (g : SourceGroup σ) (sortFunc : SortFunc σ)
    (names : List Name) (versions : List Version) (w : σ) : List Version :=
  versions ++ (if names.length > 0 then (g.Fetch sortFunc names w).reports else []).filterMap
    (·.v)

/-! ## Concrete groups -/

/-- The version `major.minor.patch` as the parser returns it for the text `original`. -/
def plainVersion (major minor patch : Nat) (original : String) : Version :=
  ⟨major, minor, patch, "", "", original⟩

/-- Two sources that cannot lag, reporting 1.2.0 and 1.3.0. -/
def conflictSources : List (Name × DebugSource) :=
  [("A", ⟨"1.2.0", false, false⟩), ("B", ⟨"1.3.0", false, false⟩)]

/-- Two sources reporting 1.2.0 and one reporting 1.1.9, the last one CanBeLesser or not. -/
def lagSources (canBeLesser : Bool) : List (Name × DebugSource) :=
  [("A", ⟨"1.2.0", false, false⟩), ("B", ⟨"1.2.0", false, false⟩),
    ("Tag", ⟨"1.1.9", false, canBeLesser⟩)]

/-- One source that reports no version. -/
def silentSources : List (Name × DebugSource) := [("A", ⟨"", false, false⟩)]

/-- A group with one source of each policy, a disabled source and a read-only source. -/
def policyGroup : SourceGroup Unit where
  DefaultVersion := ""
  Sources :=
    [("Auto", ⟨VPrefixAuto, false, (⟨"1.2.0", false, false⟩ : DebugSource).toSource⟩),
      ("WithV", ⟨VPrefixTrue, false, (⟨"v1.2.0", false, false⟩ : DebugSource).toSource⟩),
      ("NoV", ⟨VPrefixFalse, false, (⟨"1.2.0", false, false⟩ : DebugSource).toSource⟩),
      ("Off", ⟨VPrefixAuto, true, (⟨"9.9.9", false, false⟩ : DebugSource).toSource⟩),
      ("Locked", ⟨VPrefixTrue, false, (⟨"1.2.0", true, false⟩ : DebugSource).toSource⟩)]
  Strict := false
  getFS := FS.filteredFS FS.osRootFS []
  setFS := FS.filteredFS (FS.filteredFS FS.osRootFS []) []
  IgnoredFiles := []
  ReadOnlyFiles := []

/-- Two sources reporting the same version, the second one with a leading `v`. -/
def mixedSpellingSources : List (Name × DebugSource) :=
  [("A", ⟨"1.2.0", false, false⟩), ("B", ⟨"v1.2.0", false, false⟩)]

/-- The source named `Off` of `policyGroup`. -/
def offSource : SourceWithMeta Unit :=
  ⟨VPrefixAuto, true, (⟨"9.9.9", false, false⟩ : DebugSource).toSource⟩

/-- The source named `Locked` of `policyGroup`. -/
def lockedSource : SourceWithMeta Unit :=
  ⟨VPrefixTrue, false, (⟨"1.2.0", true, false⟩ : DebugSource).toSource⟩

/-! ## Files, glob patterns and filesystem views (`fs.go`) -/

/-- The bytes of a file. -/
abbrev Bytes := String

/-- The files under the root the program runs in: what the root filesystem's `Glob`
returns for a pattern, what reading a path through `Open` gives (the bytes or an error),
and the error, if any, with which writing a path fails. -/
structure Disk where
  glob : String → Except Error (List String)
  file : String → Except Error Bytes
  writeErr : String → Option Error

/-- Writing a file, as the library call `rewrite.Write` does: it fails with the error the
disk has for the path, or the path reads as the bytes written from then on; no other
file and no glob result changes. -/
def Disk.write (d : Disk) (path : String) (b : Bytes) : Except Error Disk :=
  match d.writeErr path with
  | some e => Except.error e
  | none => Except.ok { d with file := fun p => if p = path then Except.ok b else d.file p }

/-- Go's `path.Match(pattern, name)`: whether `name` matches, or `none` for the error it
returns on a malformed pattern. The function is part of Go's library, so it is an
argument of everything that filters glob results. -/
abbrev PathMatch := String → String → Option Bool

/-- The inner loop of `filteredFS.Glob`: an entry is skipped when `path.Match` with some
pattern returns an error or reports a match. -/
def skipEntry (pm : PathMatch) (patterns : List String) (m : String) : Bool :=
  patterns.any fun p =>
    match pm p m with
    | none => true
    | some t => t

/-- The method `Glob` of a filesystem view. The root view returns what the disk's glob
gives. A filtered view builds `result` with `make([]string, len(m))`, a slice of
`len(m)` empty strings, and appends the entries it does not skip. -/
def FS.Glob (pm : PathMatch) (disk : Disk) : FS → String → Except Error (List String)
  | FS.osRootFS, pattern => disk.glob pattern
  | FS.filteredFS fs patterns, pattern =>
    match FS.Glob pm disk fs pattern with
    | Except.error e => Except.error e
    | Except.ok m =>
      Except.ok (List.replicate m.length "" ++ m.filter fun x => !skipEntry pm patterns x)

/-! ## Documents (`helpers.go`) -/

/-- Go's `inplace.KeyPath`. -/
abbrev KeyPath := List String

/-- A document codec of the library `inplace`: the constructor `New` that parses bytes
into a document, and the methods `Get`, `Set` and `Save` of a document; `Set` returns the
document it leaves, or an error. -/
structure Codec (δ : Type) where
  New : Bytes → Except Error δ
  Get : δ → KeyPath → String
  Set : δ → KeyPath → String → Except Error δ
  Save : δ → Bytes

/-- The loop of `getFromDoc` over the matched files; `n` is `len(files)`, `v` the version
found so far. -/
def getFromDocLoop {δ : Type} (codec : Codec δ) (disk : Disk) (kp : KeyPath) (n : Nat) :
    List String → Option Version → Option Version × Option Error
  | [], v => (v, none)
  | p :: ps, v =>
    match disk.file p with
    | Except.error e => if n < 2 then (none, some e) else getFromDocLoop codec disk kp n ps v
    | Except.ok bytes =>
      match codec.New bytes with
      | Except.error e => (none, some e)
      | Except.ok doc =>
        if codec.Get doc kp ≠ "" then
          match Version.NewVersion (codec.Get doc kp) with
          | none => (none, some Error.invalidSemVer)
          | some cv =>
            match v with
            | none => getFromDocLoop codec disk kp n ps (some cv)
            | some v0 =>
              if !cv.Equal v0 then (none, some Error.errUnsync)
              else getFromDocLoop codec disk kp n ps v
        else getFromDocLoop codec disk kp n ps v

/-- The function `getFromDoc` of `helpers.go`. -/
def getFromDoc {δ : Type} (pm : PathMatch) (codec : Codec δ) (disk : Disk) (fs : FS)
    (kp : KeyPath) (path : String) : Option Version × Option Error :=
  match FS.Glob pm disk fs path with
  | Except.error e => (none, some e)
  | Except.ok files => getFromDocLoop codec disk kp files.length files none

/-- The text `setToDoc` writes: `verToString(&v)`, which cannot panic on a non-nil
pointer. -/
def writtenText (v : Version) : String :=
  if hasVPrefix (some v) then "v" ++ v.String else v.String

/-- The loop of `setToDoc` over the matched files, from the disk `d`; `changes` is the
flag of that name. It returns the error and the disk it leaves. -/
def setToDocLoop {δ : Type} (codec : Codec δ) (kp : KeyPath) (val : String) :
    List String → Disk → Bool → Option Error × Disk
  | [], d, changes => (if changes then none else some Error.errNoChanges, d)
  | p :: ps, d, changes =>
    match d.file p with
    | Except.error _ => setToDocLoop codec kp val ps d changes
    | Except.ok bytes =>
      match codec.New bytes with
      | Except.error _ => setToDocLoop codec kp val ps d changes
      | Except.ok doc =>
        if codec.Get doc kp = "" then setToDocLoop codec kp val ps d changes
        else
          match codec.Set doc kp val with
          | Except.error e => (some e, d)
          | Except.ok doc1 =>
            match d.write p (codec.Save doc1) with
            | Except.error e => (some e, d)
            | Except.ok d1 => setToDocLoop codec kp val ps d1 true

/-- The function `setToDoc` of `helpers.go`: the error it returns and the disk it
leaves. -/
def setToDoc {δ : Type} (pm : PathMatch) (codec : Codec δ) (v : Version) (disk : Disk)
    (fs : FS) (kp : KeyPath) (path : String) : Option Error × Disk :=
  match FS.Glob pm disk fs path with
  | Except.error e => (some e, disk)
  | Except.ok files => setToDocLoop codec kp (writtenText v) files disk false

/-! ## Building a group (`group.go`, `helpers.go`) -/

/-- The tables of Go's package `unicode` for the runes outside ASCII: which of them are
letters and which are upper case. -/
structure UnicodeTables where
  letter : Char → Bool
  upper : Char → Bool

/-- Go's `unicode.IsLetter`: for an ASCII rune, whether it is one of `A`-`Z`, `a`-`z`;
otherwise what the tables hold. -/
def IsLetter (t : UnicodeTables) (r : Char) : Bool :=
  if r.toNat < 128 then (65 ≤ r.toNat && r.toNat ≤ 90) || (97 ≤ r.toNat && r.toNat ≤ 122)
  else t.letter r

/-- Go's `unicode.IsUpper`: for an ASCII rune, whether it is one of `A`-`Z`; otherwise
what the tables hold. -/
def IsUpper (t : UnicodeTables) (r : Char) : Bool :=
  if r.toNat < 128 then 65 ≤ r.toNat && r.toNat ≤ 90 else t.upper r

/-- The function `startsWithCapital` of `helpers.go`: false on the empty string, otherwise
whether the first rune is a letter and is upper case. -/
def startsWithCapital (t : UnicodeTables) (s : String) : Bool :=
  match s.data with
  | [] => false
  | r :: _ => IsLetter t r && IsUpper t r

/-- The loop of `SourceGroup.verify` over the names of the sources. -/
def verifyNames (t : UnicodeTables) : List Name → Option Error
  | [] => none
  | name :: names =>
    if !startsWithCapital t name then some (Error.other (name ++ " must be in CamelCase"))
    else verifyNames t names

/-- The method `SourceGroup.verify`. -/
def SourceGroup.verify {σ : Type} (t : UnicodeTables) (g : SourceGroup σ) : Option Error :=
  verifyNames t (g.Sources.map (·.1))

/-- The function `NewGroupSource`: the group pointer and the error it returns. -/
def NewGroupSource {σ : Type} (t : UnicodeTables) (defaultVersion : String)
    (sources : List (Name × SourceWithMeta σ)) (strict : Bool) (fs : FS)
    (ignoredFiles roFiles : List String) : Option (SourceGroup σ) × Option Error :=
  match SourceGroup.verify t
      (⟨defaultVersion, sources, strict, FS.filteredFS fs ignoredFiles,
        FS.filteredFS (FS.filteredFS fs ignoredFiles) roFiles, ignoredFiles, roFiles⟩ :
        SourceGroup σ) with
  | some e => (none, some e)
  | none =>
    (some ⟨defaultVersion, sources, strict, FS.filteredFS fs ignoredFiles,
      FS.filteredFS (FS.filteredFS fs ignoredFiles) roFiles, ignoredFiles, roFiles⟩, none)

/-- The fields of `SourceGroup` that `tree.Unmarshal` fills from a group file. -/
structure GroupFile (σ : Type) where
  DefaultVersion : String
  Sources : List (Name × SourceWithMeta σ)
  Strict : Bool
  IgnoredFiles : List String
  ReadOnlyFiles : List String

/-- The calls `GroupFromToml` makes on the library `go-toml`, over its tree type `τ`:
`LoadBytes`; `Tree.Get`, which returns nil (`none`), a tree, or a value that is no tree
(`some none`); and `Tree.Unmarshal` into a `SourceGroup`, which fails on a source table
that does not decode, such as one of an unknown type. -/
structure TomlLib (σ τ : Type) where
  LoadBytes : Bytes → Except Error τ
  Get : τ → String → Option (Option τ)
  Unmarshal : τ → Except Error (GroupFile σ)

/-- The function `GroupFromToml`: the group pointer and the error it returns. -/
def GroupFromToml {σ τ : Type} (t : UnicodeTables) (lib : TomlLib σ τ) (data : Bytes) (fs : FS)
    (subtree : String) : Option (SourceGroup σ) × Option Error :=
  match lib.LoadBytes data with
  | Except.error e => (none, some e)
  | Except.ok tree =>
    match lib.Get tree subtree with
    | none => (none, some Error.errSubtreeNotFound)
    | some stree =>
      match lib.Unmarshal (stree.getD tree) with
      | Except.error e => (none, some e)
      | Except.ok gf =>
        match SourceGroup.verify t
            (⟨gf.DefaultVersion, gf.Sources, gf.Strict, FS.filteredFS fs gf.IgnoredFiles,
              FS.filteredFS (FS.filteredFS fs gf.IgnoredFiles) gf.ReadOnlyFiles,
              gf.IgnoredFiles, gf.ReadOnlyFiles⟩ : SourceGroup σ) with
        | some e => (none, some e)
        | none =>
          (some ⟨gf.DefaultVersion, gf.Sources, gf.Strict, FS.filteredFS fs gf.IgnoredFiles,
            FS.filteredFS (FS.filteredFS fs gf.IgnoredFiles) gf.ReadOnlyFiles,
            gf.IgnoredFiles, gf.ReadOnlyFiles⟩, none)

/-- The candidates of `GroupFromConfig`: file name and subtree, in the order tried. -/
def configFiles : List (String × String) :=
  [("version.toml", ""), (".version.toml", ""), ("pyproject.toml", "tool.version")]

/-- The end of an iteration of `GroupFromConfig` that did not `continue`:
`if strict { gr.Strict = strict }`, which dereferences `gr`, then `return gr, nil`. -/
def finishConfig {σ : Type} (gr : Option (SourceGroup σ)) (strict : Bool) :
    Outcome (Option (SourceGroup σ) × Option Error) :=
  if strict then
    match gr with
    | none => Outcome.panic
    | some g => Outcome.ret (some { g with Strict := strict }, none)
  else Outcome.ret (gr, none)

/-- The loop of `GroupFromConfig` over the candidates, followed by the construction of
the default group from the registered default sources. -/
def configLoop {σ τ : Type} (t : UnicodeTables) (lib : TomlLib σ τ) (disk : Disk) (fs : FS)
    (defaultSources : List (Name × SourceWithMeta σ)) (strict : Bool) :
    List (String × String) → Outcome (Option (SourceGroup σ) × Option Error)
  | [] => Outcome.ret (NewGroupSource t "" defaultSources strict fs [] [])
  | file :: files =>
    match disk.file file.1 with
    | Except.error _ => configLoop t lib disk fs defaultSources strict files
    | Except.ok bytes =>
      if errorsIs (GroupFromToml t lib bytes fs file.2).2 Error.errSubtreeNotFound then
        configLoop t lib disk fs defaultSources strict files
      else finishConfig (GroupFromToml t lib bytes fs file.2).1 strict

/-- The function `GroupFromConfig`: a panic, or the group pointer and the error it
returns. -/
def GroupFromConfig {σ τ : Type} (t : UnicodeTables) (lib : TomlLib σ τ) (disk : Disk) (fs : FS)
    (defaultSources : List (Name × SourceWithMeta σ)) (strict : Bool) :
    Outcome (Option (SourceGroup σ) × Option Error) :=
  configLoop t lib disk fs defaultSources strict configFiles

/-! ## What the claims speak of -/

/-- A name starts with an uppercase letter: it has a first rune, and `unicode` classes
that rune as a letter and as upper case. -/
def StartsWithUpper (t : UnicodeTables) (s : String) : Prop :=
  ∃ r rest, s.data = r :: rest ∧ IsLetter t r = true ∧ IsUpper t r = true

/-- A path matches a pattern: `path.Match` reports a match (and hence no error). -/
def Matches (pm : PathMatch) (p f : String) : Prop := pm p f = some true

instance (pm : PathMatch) (p f : String) : Decidable (Matches pm p f) :=
  inferInstanceAs (Decidable (pm p f = some true))

/-- A pattern is well-formed for a path: `path.Match` returns no error on them. -/
def WellFormed (pm : PathMatch) (p f : String) : Prop := pm p f ≠ none

instance (pm : PathMatch) (p f : String) : Decidable (WellFormed pm p f) :=
  inferInstanceAs (Decidable (pm p f ≠ none))

/-- The entries of `m` that match none of the patterns, in their original order. -/
def matchNone (pm : PathMatch) (patterns : List String) (m : List String) : List String :=
  m.filter fun x => patterns.all fun p => pm p x != some true

/-! ## Concrete libraries, disks and files -/

/-- Tables without any letter outside ASCII, for runs on ASCII names. -/
def asciiTables : UnicodeTables := ⟨fun _ => false, fun _ => false⟩

/-- A matcher that agrees with `path.Match` on the patterns of the concrete runs below:
a pattern without metacharacters matches the name equal to it, and the pattern `[`, an
unclosed character class, is malformed. -/
def literalMatch : PathMatch := fun p name => if p = "[" then none else some (p == name)

/-- A decoder standing for `go-toml` in the concrete runs below. The file `broken` does
not load; the file `unknown` loads, but its source table does not decode; every other
file decodes to a group of one enabled debug source, whose name is the text of the
file. -/
def nameToml : TomlLib Unit Bytes where
  LoadBytes := fun b =>
    if b = "broken" then Except.error (Error.other "toml: parse error") else Except.ok b
  Get := fun tree _ => some (some tree)
  Unmarshal := fun tree =>
    if tree = "unknown" then Except.error (Error.other "unknown source type")
    else
      Except.ok ⟨"", [(tree, ⟨VPrefixAuto, false, (⟨"1.2.0", false, false⟩ : DebugSource).toSource⟩)],
        false, [], []⟩

/-- A disk whose files are those of a list of paths and contents: a pattern globs to the
paths given for it, a listed path reads as its content, any other path fails to open
with `missing`, and every write succeeds. -/
def diskOf (globs : List (String × List String)) (files : List (String × Bytes))
    (missing : Error) : Disk where
  glob := fun pattern => Except.ok ((globs.lookup pattern).getD [])
  file := fun p =>
    match files.lookup p with
    | some b => Except.ok b
    | none => Except.error missing
  writeErr := fun _ => none

/-! ## The values of document files -/

/-- The value a file holds at the key-path: the text `Get` returns for the document the
file decodes to, when the file opens and decodes and that text is not empty. -/
def fileText {δ : Type} (codec : Codec δ) (disk : Disk) (kp : KeyPath) (p : String) :
    Option String :=
  match disk.file p with
  | Except.error _ => none
  | Except.ok b =>
    match codec.New b with
    | Except.error _ => none
    | Except.ok d => if codec.Get d kp = "" then none else some (codec.Get d kp)

/-- The version a file holds at the key-path: its value, parsed. -/
def fileVersion {δ : Type} (codec : Codec δ) (disk : Disk) (kp : KeyPath) (p : String) :
    Option Version :=
  (fileText codec disk kp p).bind Version.NewVersion

/-- A codec for concrete runs. A file is the character `=` followed by the value, which is
the document; any other file does not decode. `Set` replaces the value. -/
def markCodec : Codec String where
  New := fun b =>
    match b.data with
    | '=' :: rest => Except.ok ⟨rest⟩
    | _ => Except.error (Error.other "syntax error")
  Get := fun d _ => d
  Set := fun _ _ val => Except.ok val
  Save := fun d => ⟨'=' :: d.data⟩

/-- A codec for concrete runs that reads less than it writes, as a regular expression
whose group captures only the numeric core of a version does: files and `Set` are those
of `markCodec`, and `Get` returns the stored text up to the first `-`. -/
def coreCodec : Codec String where
  New := markCodec.New
  Get := fun d _ => ⟨d.data.takeWhile (· ≠ '-')⟩
  Set := markCodec.Set
  Save := markCodec.Save

/-- A file opens and decodes. -/
def decodes {δ : Type} (codec : Codec δ) (disk : Disk) (p : String) : Bool :=
  match disk.file p with
  | Except.error _ => false
  | Except.ok b =>
    match codec.New b with
    | Except.error _ => false
    | Except.ok _ => true

/-- The file `p` decodes to a document whose value at the key-path is `val`. -/
def HoldsValue {δ : Type} (codec : Codec δ) (disk : Disk) (kp : KeyPath) (val : String)
    (p : String) : Prop :=
  ∃ b doc, disk.file p = Except.ok b ∧ codec.New b = Except.ok doc ∧ codec.Get doc kp = val

/-- The file `p` holds what `Save` gave for a document that `Set(kp, val)` left. -/
def WrittenWith {δ : Type} (codec : Codec δ) (disk : Disk) (kp : KeyPath) (val : String)
    (p : String) : Prop :=
  ∃ doc doc1, codec.Set doc kp val = Except.ok doc1 ∧ disk.file p = Except.ok (codec.Save doc1)

/-- The codec reads back what it stored: the bytes saved for a document that
`Set(kp, val)` left decode to a document whose `Get(kp)` is `val`. -/
def Codec.ReadsBack {δ : Type} (codec : Codec δ) (kp : KeyPath) (val : String) : Prop :=
  ∀ doc doc1, codec.Set doc kp val = Except.ok doc1 →
    ∃ doc2, codec.New (codec.Save doc1) = Except.ok doc2 ∧ codec.Get doc2 kp = val

/-- Storing again the value that was stored saves the same bytes. -/
def Codec.Stable {δ : Type} (codec : Codec δ) (kp : KeyPath) (val : String) : Prop :=
  ∀ doc doc1 doc2 doc3, codec.Set doc kp val = Except.ok doc1 →
    codec.New (codec.Save doc1) = Except.ok doc2 → codec.Set doc2 kp val = Except.ok doc3 →
    codec.Save doc3 = codec.Save doc1

/-- A file opens. -/
def opens (disk : Disk) (p : String) : Bool :=
  match disk.file p with
  | Except.error _ => false
  | Except.ok _ => true

/-! ## `tool.go` -/

/-- The decimal spelling of a signed integer, as `%d` of Go's `fmt` prints it. -/
def formatInt (i : Int) : String :=
  if i < 0 then ⟨'-' :: Version.formatUint i.natAbs⟩ else ⟨Version.formatUint i.toNat⟩

/-- The struct `ToolSource` of `tool.go`; `Env` lists the entries of the map. -/
structure ToolSource where
  Cmd : List String
  Pipe : String
  ExpectedStatus : Int
  Regexps : List String
  CD : String
  Env : List (String × String)

/-- The fields of an `exec.Cmd` that `constructCmd` sets. -/
structure ExecCmd where
  Args : List String
  Dir : String
  Env : List String
  deriving DecidableEq, Repr

/-- A non-nil error of `cmd.Run()`: an `*exec.ExitError`, with what its `ExitCode()`
returns, or any other error. -/
inductive RunError where
  | exitError (code : Int)
  | other (e : Error)
  deriving DecidableEq, Repr

/-- What `cmd.Run()` leaves: the error it returns and the contents of the two buffers
that capture the standard output and the standard error of the process. -/
structure RunResult where
  err : Option RunError
  stdout : Bytes
  stderr : Bytes
  deriving DecidableEq, Repr

/-- What `tool.go` takes from the operating system and the packages `os`,
`path/filepath` and `os/exec`: `os.Getwd`, `filepath.IsAbs`, `filepath.Join`,
`os.Environ`, and the run of a command. -/
structure OSEnv where
  getwd : Except Error String
  isAbs : String → Bool
  join : String → String → String
  environ : List String
  run : ExecCmd → RunResult

/-- The assignment `m[k] = v` on a Go map held as the list of its entries. -/
def mapSet (m : List (String × String)) (k v : String) : List (String × String) :=
  if m.any (fun e => e.1 == k) then m.map (fun e => if e.1 = k then (k, v) else e)
  else m ++ [(k, v)]

/-- Go's `strings.SplitN(kv, "=", 2)` as `constructCmd` uses it: the text before the
first `=`, and the text after it, empty when there is none. -/
def splitEnv (kv : String) : String × String :=
  (⟨kv.data.takeWhile (· ≠ '=')⟩, ⟨(kv.data.dropWhile (· ≠ '=')).drop 1⟩)

/-- The function `constructCmd`. It indexes `args[0]`, which panics on an empty slice. -/
def constructCmd (os : OSEnv) (args : List String) (pwd : String)
    (env : List (String × String)) : Outcome (Except Error ExecCmd) :=
  match args with
  | [] => Outcome.panic
  | _ :: _ =>
    let envMap := (os.environ.map splitEnv).foldl (fun m e => mapSet m e.1 e.2) []
    let envMap := env.foldl (fun m e => mapSet m e.1 e.2) envMap
    let envList := envMap.map fun e => e.1 ++ "=" ++ e.2
    if pwd ≠ "" then
      if os.isAbs pwd then Outcome.ret (Except.ok ⟨args, pwd, envList⟩)
      else
        match os.getwd with
        | Except.error gerr =>
          Outcome.ret (Except.error (Error.wrap "getting current working directory: " gerr))
        | Except.ok wd => Outcome.ret (Except.ok ⟨args, os.join wd pwd, envList⟩)
    else Outcome.ret (Except.ok ⟨args, "", envList⟩)

/-- The function `choosePipe`. -/
def choosePipe (pipe : String) (stdout stderr : Bytes) : Bytes :=
  if pipe = "" ∨ pipe = "stdout" then stdout
  else if pipe = "stderr" then stderr
  else if pipe = "both" then stdout ++ stderr
  else stdout

/-- The method `ToolSource.exec`: the bytes (`none` is a nil slice) and the error it
returns. -/
def ToolSource.exec (os : OSEnv) (d : ToolSource) : Outcome (Option Bytes × Option Error) :=
  if d.Cmd.length = 0 then Outcome.ret (none, some (Error.other "no command specified"))
  else
    match constructCmd os d.Cmd d.CD d.Env with
    | Outcome.panic => Outcome.panic
    | Outcome.ret (Except.error err) => Outcome.ret (none, some err)
    | Outcome.ret (Except.ok cmd) =>
      match (os.run cmd).err with
      | some (RunError.other runErr) =>
        Outcome.ret (some (choosePipe d.Pipe (os.run cmd).stdout (os.run cmd).stderr),
          some (Error.wrap "failed to run command: " runErr))
      | runErr =>
        let exitCode : Int :=
          match runErr with
          | some (RunError.exitError code) => code
          | _ => 0
        if exitCode ≠ d.ExpectedStatus then
          Outcome.ret (some (choosePipe d.Pipe (os.run cmd).stdout (os.run cmd).stderr),
            some (Error.other ("unexpected exit status: got " ++ formatInt exitCode
              ++ ", expected " ++ formatInt d.ExpectedStatus)))
        else
          Outcome.ret (some (choosePipe d.Pipe (os.run cmd).stdout (os.run cmd).stderr), none)

/-- The process started: `cmd.Run()` returned no error or an `*exec.ExitError`. -/
def RunResult.started (r : RunResult) : Bool :=
  match r.err with
  | some (RunError.other _) => false
  | _ => true

/-- The exit code of a process that started: `0` when `cmd.Run()` returned no error. -/
def RunResult.exitCode (r : RunResult) : Int :=
  match r.err with
  | some (RunError.exitError code) => code
  | _ => 0

/-- An operating system for concrete runs: the working directory is `/work`, the
environment is empty, and every command gives the same result. -/
def osOf (r : RunResult) : OSEnv where
  getwd := Except.ok "/work"
  isAbs := fun p => p.data.head? = some '/'
  join := fun a b => a ++ "/" ++ b
  environ := []
  run := fun _ => r

/-! ## Decoding a source table (`group.go`) -/

/-- The simple case folding of Go's package `unicode` for the runes outside ASCII: a
representative of the rune's folding orbit, which for the two orbits that hold an ASCII
letter (those of `k` and `s`) is that lower-case letter. -/
abbrev FoldTable := Char → Char

/-- The representative of a rune's folding orbit: the lower-case letter for an ASCII
letter, the rune itself for any other ASCII rune, and what the table holds otherwise. -/
def foldRune (t : FoldTable) (c : Char) : Char :=
  if c.toNat < 128 then (if 65 ≤ c.toNat ∧ c.toNat ≤ 90 then Char.ofNat (c.toNat + 32) else c)
  else t c

/-- Go's `strings.EqualFold`: the two strings have the same length in runes and their
runes are pairwise in the same folding orbit. -/
def EqualFold (t : FoldTable) (s u : String) : Bool :=
  s.data.map (foldRune t) == u.data.map (foldRune t)

/-- The function `NewVPrefixMode`. -/
def NewVPrefixMode (t : FoldTable) (name : String) : VPrefixMode :=
  if EqualFold t name "True" then VPrefixTrue
  else if EqualFold t name "False" then VPrefixFalse
  else VPrefixAuto

/-- A value of a decoded TOML table as `UnmarshalTOML` looks at it: a string, a bool, an
`int64`, an `int`, a `float64` (held as what `int(val)` and `fmt.Sprint(val)` give for
it), or a value of another type (held as the name of its type and what `fmt.Sprint`
gives for it). -/
inductive TomlValue where
  | str (s : String)
  | bool (b : Bool)
  | int64 (i : Int)
  | int (i : Int)
  | float64 (truncated : Int) (text : String)
  | other (typeName : String) (text : String)
  deriving DecidableEq, Repr

/-- Go's `fmt.Sprint(v)`. -/
def TomlValue.Sprint : TomlValue → String
  | str s => s
  | bool b => if b then "true" else "false"
  | int64 i => formatInt i
  | int i => formatInt i
  | float64 _ text => text
  | other _ text => text

/-- What `%T` of Go's `fmt` prints for a value. -/
def TomlValue.typeName : TomlValue → String
  | str _ => "string"
  | bool _ => "bool"
  | int64 _ => "int64"
  | int _ => "int"
  | float64 _ _ => "float64"
  | other typeName _ => typeName

/-- A decoded TOML table, a `map[string]any`: its entries in the order in which a
`range` statement visits them. -/
abbrev TomlTable := List (String × TomlValue)

/-- The first loop of `UnmarshalTOML`: the value of the first key visited that folds to
`Type`, which must be a string; the empty string when there is no such key. -/
def typeLoop (t : FoldTable) : TomlTable → Except Error String
  | [] => Except.ok ""
  | (k, v) :: rest =>
    if EqualFold t k "Type" then
      match v with
      | TomlValue.str s => Except.ok s
      | _ => Except.error (Error.other ("type field is not a string (got " ++ v.typeName ++ ")"))
    else typeLoop t rest

/-- The fields `VPrefix` and `Disabled` of the receiver of `UnmarshalTOML`. -/
structure SourceMeta where
  VPrefix : VPrefixMode
  Disabled : Bool
  deriving DecidableEq, Repr

/-- The type switch of `UnmarshalTOML` on the value of the `VPrefix` key. An `int64` is
converted to `int`, which has 64 bits on the platforms the program is built for. -/
def vprefixOf (t : FoldTable) (swm : SourceMeta) : TomlValue → SourceMeta
  | TomlValue.str val => { swm with VPrefix := NewVPrefixMode t val }
  | TomlValue.bool val => { swm with VPrefix := if val then VPrefixTrue else VPrefixFalse }
  | TomlValue.int64 val => { swm with VPrefix := val }
  | TomlValue.int val => { swm with VPrefix := val }
  | TomlValue.float64 truncated _ => { swm with VPrefix := truncated }
  | TomlValue.other _ _ => swm

/-- The second loop of `UnmarshalTOML`: at a key that folds to `VPrefix` the policy is
set and the loop ends (`break`); at a key that folds to `Disabled` the flag is set when
the value prints as `true`, and the loop goes on. -/
def metaLoop (t : FoldTable) : TomlTable → SourceMeta → SourceMeta
  | [], swm => swm
  | (k, v) :: rest, swm =>
    if EqualFold t k "VPrefix" then vprefixOf t swm v
    else if EqualFold t k "Disabled" then
      metaLoop t rest (if EqualFold t v.Sprint "true" then { swm with Disabled := true } else swm)
    else metaLoop t rest swm

/-- The registry `sources` of `sources.go` together with the library calls that fill an
instance: for a type name, `none` when no constructor is registered, otherwise the
decoding of a table into a fresh instance (`toml.Marshal` followed by
`toml.Unmarshal`), which may fail. -/
abbrev Registry (σ : Type) := String → Option (TomlTable → Except Error (Source σ))

/-- The data handed to `UnmarshalTOML`: a `map[string]any`, given by the orders in which
the two `range` statements visit it, or a value of another type. -/
inductive TomlData where
  | table (first second : TomlTable)
  | notTable (typeName : String)

/-- The method `SourceWithMeta.UnmarshalTOML` on a receiver with the fields `swm`: the
error it returns, or the receiver it leaves. -/
def UnmarshalTOML {σ : Type} (t : FoldTable) (sources : Registry σ) (swm : SourceMeta)
    (data : TomlData) : Except Error (SourceWithMeta σ) :=
  match data with
  | TomlData.notTable typeName =>
    Except.error (Error.other ("expected table for source, got " ++ typeName))
  | TomlData.table first second =>
    match typeLoop t first with
    | Except.error e => Except.error e
    | Except.ok typ =>
      if typ = "" then Except.error (Error.other "missing type field for source")
      else
        match sources typ with
        | none =>
          Except.error
            (Error.other ("there is no registered constructor for source type " ++ typ))
        | some decode =>
          match decode first with
          | Except.error e => Except.error e
          | Except.ok src =>
            Except.ok ⟨(metaLoop t second swm).VPrefix, (metaLoop t second swm).Disabled, src⟩

/-- The folding table without any orbit outside ASCII, for runs on ASCII keys. -/
def asciiFold : FoldTable := fun c => c

/-- A registry for concrete runs: the type `debug` decodes to a debug source that
reports 1.2.0, and no other type is registered. -/
def debugRegistry : Registry Unit := fun typ =>
  if typ = "debug" then
    some fun _ => Except.ok (⟨"1.2.0", false, false⟩ : DebugSource).toSource
  else none

/-- A source as `UnmarshalTOML` leaves it for a table with `VPrefix = 3`: enabled,
writable, with a policy that is none of the three constants. -/
def oddSource : SourceWithMeta Unit :=
  ⟨3, false, (⟨"1.2.0", false, false⟩ : DebugSource).toSource⟩

/-- A group whose only source is `oddSource`, named `Odd`. -/
def oddGroup : SourceGroup Unit where
  DefaultVersion := ""
  Sources := [("Odd", oddSource)]
  Strict := false
  getFS := FS.filteredFS FS.osRootFS []
  setFS := FS.filteredFS (FS.filteredFS FS.osRootFS []) []
  IgnoredFiles := []
  ReadOnlyFiles := []

/-! ## The consensus and the lagging reports -/

/-- The consensus version of a list of reports: the version of the first report that has
one. -/
def firstVersion {σ : Type} (l : List (report σ)) : Option Version :=
  (l.filterMap (·.v)).head?

/-- A report lags behind `c` and may do so: it comes from a CanBeLesser source and its
version is strictly lower than `c`. -/
def report.lagging {σ : Type} (c : Version) (r : report σ) : Bool :=
  match r.v with
  | none => false
  | some u => u.LessThan c && r.s.Source.IsCanBeLesser

/-- The message `Get` sends for a report once the consensus is `c` and a lag has been
tolerated: the report has no version, agrees with `c`, or is a conflict. -/
def laterEvent {σ : Type} (c : Version) (r : report σ) : Event :=
  match r.v with
  | none => Event.Trace ("  " ++ r.n ++ " reports no version")
  | some u =>
    if c.Equal u then Event.Log ("  " ++ r.n ++ " report version: " ++ u.String)
    else Event.Err ("  " ++ r.n ++ " report different version: " ++ u.String)

/-! ## Reports and iteration order -/

/-- The reports `Fetch` collects, before it sorts them, from sources each of which
returns the version `res` gives for it and no error: one from each enabled source, in
iteration order. -/
def reportsOf {σ : Type} (res : Name × SourceWithMeta σ → Option Version)
    (l : List (Name × SourceWithMeta σ)) : List (report σ) :=
  (enabledSources l).map fun e => ⟨res e, e.2, e.1⟩

/-- The reports that have a version not Equal to `c`. -/
def disagreeing {σ : Type} (c : Version) (l : List (report σ)) : List (report σ) :=
  l.filter fun r =>
    match r.v with
    | none => false
    | some u => !c.Equal u

/-- The disagreeing reports are tolerated: there is none, or there is one, from a
CanBeLesser source, and the group is not strict. -/
def tolerable {σ : Type} (strict : Bool) : List (report σ) → Bool
  | [] => true
  | [r] => !strict && r.s.Source.IsCanBeLesser
  | _ => false

/-- The group with its sources visited in another order. -/
def SourceGroup.reordered {σ : Type} (g : SourceGroup σ)
    (sources : List (Name × SourceWithMeta σ)) : SourceGroup σ :=
  { g with Sources := sources }

/-- Two sources reporting 1.2.0 with different build metadata. -/
def metadataSources : List (Name × DebugSource) :=
  [("A", ⟨"1.2.0+a", false, false⟩), ("B", ⟨"1.2.0+b", false, false⟩)]

/-- Two outcomes of `Get` are the same up to what Equal versions may differ in: both
return no error, and both return no version, or versions that are Equal, have the same
leading-`v` spelling and, when their build metadata is the same, the same
`verToString`. -/
def SameOutcome (o1 o2 : Outcome (Option Version × Option Error)) : Prop :=
  ∃ v1 v2, o1 = Outcome.ret (v1, none) ∧ o2 = Outcome.ret (v2, none)
    ∧ ((v1 = none ∧ v2 = none)
      ∨ ∃ x1 x2, v1 = some x1 ∧ v2 = some x2 ∧ x1.Equal x2 = true
          ∧ hasVPrefix (some x1) = hasVPrefix (some x2)
          ∧ (x1.metadata = x2.metadata → verToString (some x1) = verToString (some x2)))

/-- What the sources of `mixedSpellingSources` report: `A` reports 1.2.0, spelled
`1.2.0`, and `B` reports it spelled `v1.2.0`. -/
def mixedSpellingReports (e : Name × SourceWithMeta Unit) : Option Version :=
  if e.1 = "A" then some (plainVersion 1 2 0 "1.2.0") else some (plainVersion 1 2 0 "v1.2.0")

/-- The sources of `lagSources true` in another iteration order: the CanBeLesser source
reporting 1.1.9 is visited first, before the two sources reporting 1.2.0. -/
def lagFirstSources : List (Name × DebugSource) :=
  [("Tag", ⟨"1.1.9", false, true⟩), ("A", ⟨"1.2.0", false, false⟩),
    ("B", ⟨"1.2.0", false, false⟩)]

/-- The call of `Get` on a debug source of a `debugGroup` that returned `v` and no
error. -/
def debugCall (name : Name) (d : DebugSource) (v : Option Version) : GetCall Unit :=
  ⟨name, ⟨VPrefixAuto, false, d.toSource⟩, v, none⟩

/-- Two CanBeLesser sources reporting 1.1.9 and one source reporting 1.2.0, which is
visited after the first of them. -/
def twoLagFirstSources : List (Name × DebugSource) :=
  [("TagA", ⟨"1.1.9", false, true⟩), ("A", ⟨"1.2.0", false, false⟩),
    ("TagB", ⟨"1.1.9", false, true⟩)]

/-- Whether a call of `doc.Set` or of `rewrite.Write` fails in the loop of `setToDoc`
over the matched files, from the disk `d`: these are the two calls of the loop whose
error it returns. The calls are made on the files that have a value at the key-path
when the loop reaches them. -/
def setToDocLoopFails {δ : Type} (codec : Codec δ) (kp : KeyPath) (val : String) :
    List String → Disk → Bool
  | [], _ => false
  | p :: ps, d =>
    match d.file p with
    | Except.error _ => setToDocLoopFails codec kp val ps d
    | Except.ok bytes =>
      match codec.New bytes with
      | Except.error _ => setToDocLoopFails codec kp val ps d
      | Except.ok doc =>
        if codec.Get doc kp = "" then setToDocLoopFails codec kp val ps d
        else
          match codec.Set doc kp val with
          | Except.error _ => true
          | Except.ok doc1 =>
            match d.write p (codec.Save doc1) with
            | Except.error _ => true
            | Except.ok d1 => setToDocLoopFails codec kp val ps d1

/-- A codec for concrete runs whose `Set` fails on a document without a value: files,
`Get` and `Save` are those of `markCodec`, and `Set` replaces a value that is there. -/
def strictCodec : Codec String where
  New := markCodec.New
  Get := markCodec.Get
  Set := fun d _ val => if d = "" then Except.error (Error.other "no such key") else Except.ok val
  Save := markCodec.Save

/-- The disk of `diskOf` on which every write to one of the paths `locked` fails. -/
def lockedDisk (globs : List (String × List String)) (files : List (String × Bytes))
    (missing : Error) (locked : List String) : Disk where
  glob := (diskOf globs files missing).glob
  file := (diskOf globs files missing).file
  writeErr := fun p => if p ∈ locked then some (Error.other "permission denied") else none

/-! # Properties

## The version library: formatting and parsing -/

namespace Version

theorem digitChar_toNat (d : Nat) (h : d < 10) : (digitChar d).toNat = 48 + d := by
  interval_cases d <;> decide

theorem digitChar_isNum (d : Nat) (h : d < 10) : isNum (digitChar d) = true := by
  interval_cases d <;> decide

theorem digitsValue_append (a : Nat) (xs ys : List Char) :
    digitsValue a (xs ++ ys) = digitsValue (digitsValue a xs) ys := by
  induction xs generalizing a with
  | nil => rfl
  | cons x xs ih => exact ih _

theorem digitsValue_singleton (a : Nat) (c : Char) :
    digitsValue a [c] = 10 * a + (c.toNat - 48) := rfl

theorem fmtDigits_spec (fuel : Nat) : ∀ (n : Nat), n < fuel → ∀ acc : List Char,
    ∃ ds : List Char, fmtDigits fuel n acc = ds ++ acc ∧ ds ≠ [] ∧ (∀ c ∈ ds, isNum c = true)
      ∧ ∀ a, digitsValue a ds = a * 10 ^ ds.length + n := by
  induction fuel with
  | zero => intro n h; omega
  | succ fuel ih =>
    intro n h acc
    by_cases hn : n < 10
    · refine ⟨[digitChar n], by simp [fmtDigits, hn], by simp, ?_, ?_⟩
      · intro c hc
        simp at hc
        subst hc
        exact digitChar_isNum n hn
      · intro a
        rw [digitsValue_singleton, digitChar_toNat n hn]
        simp only [List.length_singleton, pow_one]
        omega
    · have hlt : n / 10 < fuel := by omega
      obtain ⟨ds, h1, h2, h3, h4⟩ := ih (n / 10) hlt (digitChar (n % 10) :: acc)
      have hm : n % 10 < 10 := Nat.mod_lt _ (by decide)
      refine ⟨ds ++ [digitChar (n % 10)], by simp [fmtDigits, hn, h1], by simp, ?_, ?_⟩
      · intro c hc
        simp at hc
        rcases hc with hc | hc
        · exact h3 c hc
        · subst hc; exact digitChar_isNum _ hm
      · intro a
        rw [digitsValue_append, h4, digitsValue_singleton, digitChar_toNat _ hm]
        simp only [List.length_append, List.length_singleton, pow_succ]
        have := Nat.div_add_mod n 10
        have h48 : 48 + n % 10 - 48 = n % 10 := by omega
        rw [h48]
        nlinarith [this]

theorem formatUint_spec (n : Nat) :
    formatUint n ≠ [] ∧ (∀ c ∈ formatUint n, isNum c = true)
      ∧ digitsValue 0 (formatUint n) = n := by
  obtain ⟨ds, h1, h2, h3, h4⟩ := fmtDigits_spec (n + 1) n (Nat.lt_succ_self n) []
  have : formatUint n = ds := by simp [formatUint, h1]
  rw [this]
  exact ⟨h2, h3, by simpa using h4 0⟩

theorem parseUint_formatUint (n : Nat) (h : n < uint64Size) : parseUint (formatUint n) = some n := by
  obtain ⟨h1, h2, h3⟩ := formatUint_spec n
  have hall : (formatUint n).all isNum = true := by simpa using h2
  simp [parseUint, h1, hall, h3, h]

theorem takeWhile_append_stop (p : Char → Bool) (ds rest : List Char)
    (h1 : ∀ c ∈ ds, p c = true) (h2 : ∀ c ∈ rest.head?, p c = false) :
    (ds ++ rest).takeWhile p = ds ∧ (ds ++ rest).dropWhile p = rest := by
  induction ds with
  | nil =>
    cases rest with
    | nil => simp
    | cons r rs =>
      have : p r = false := h2 r (by simp)
      simp [List.takeWhile, List.dropWhile, this]
  | cons d ds ih =>
    have hd : p d = true := h1 d (by simp)
    have := ih (fun c hc => h1 c (by simp [hc]))
    simp [List.takeWhile, List.dropWhile, hd, this]

theorem splitDots_ne_nil (cs : List Char) : splitDots cs ≠ [] := by
  cases cs with
  | nil => simp [splitDots]
  | cons y ys =>
    simp only [splitDots]
    split
    · simp
    · split <;> simp

theorem mem_splitDots (cs : List Char) :
    ∀ c ∈ cs, c ≠ '.' → ∃ p ∈ splitDots cs, c ∈ p := by
  induction cs with
  | nil => intro c hc; simp at hc
  | cons x xs ih =>
    intro c hc hdot
    by_cases hx : x = '.'
    · rcases List.mem_cons.1 hc with h | h
      · exact absurd (h.trans hx) hdot
      · obtain ⟨p, hp, hcp⟩ := ih c h hdot
        exact ⟨p, by simp [splitDots, hx, hp], hcp⟩
    · cases hsplit : splitDots xs with
      | nil => exact absurd hsplit (splitDots_ne_nil xs)
      | cons q qs =>
        rcases List.mem_cons.1 hc with h | h
        · exact ⟨x :: q, by simp [splitDots, hx, hsplit], by simp [h]⟩
        · obtain ⟨p, hp, hcp⟩ := ih c h hdot
          rw [hsplit] at hp
          rcases List.mem_cons.1 hp with hpq | hpq
          · exact ⟨x :: q, by simp [splitDots, hx, hsplit], by simp [← hpq, hcp]⟩
          · exact ⟨p, by simp [splitDots, hx, hsplit, hpq], hcp⟩

theorem isNum_ne_plus (c : Char) (h : isNum c = true) : (c != '+') = true := by
  simp only [bne_iff_ne, ne_eq]
  intro hc
  subst hc
  exact absurd h (by decide)

theorem isAllowed_ne_plus (c : Char) (h : isAllowed c = true) : (c != '+') = true := by
  simp only [bne_iff_ne, ne_eq]
  intro hc
  subst hc
  exact absurd h (by decide)

theorem validPrerelease_ne_plus (cs : List Char) (h : validPrerelease cs = true) :
    ∀ c ∈ cs, (c != '+') = true := by
  intro c hc
  by_cases hdot : c = '.'
  · subst hdot; decide
  · obtain ⟨p, hp, hcp⟩ := mem_splitDots cs c hc hdot
    have hall := List.all_eq_true.1 h p hp
    by_cases hnil : p = []
    · simp [hnil] at hcp
    · simp only [hnil, if_false] at hall
      by_cases hnum : p.all isNum = true
      · exact isNum_ne_plus c (List.all_eq_true.1 hnum c hcp)
      · simp only [hnum, if_false] at hall
        exact isAllowed_ne_plus c (List.all_eq_true.1 hall c hcp)

/-- The characters of the canonical spelling after an optional leading `v`. -/
theorem String_data (v : Version) :
    v.String.data = formatUint v.major ++ ('.' :: (formatUint v.minor ++ ('.' ::
      (formatUint v.patch ++ ((if v.pre.data = [] then [] else '-' :: v.pre.data)
        ++ (if v.metadata.data = [] then [] else '+' :: v.metadata.data)))))) := by
  have h1 : (v.pre = "") = (v.pre.data = []) := by
    apply propext
    constructor
    · intro h; rw [h]
    · intro h; exact String.ext h
  have h2 : (v.metadata = "") = (v.metadata.data = []) := by
    apply propext
    constructor
    · intro h; rw [h]
    · intro h; exact String.ext h
  simp only [String, h1, h2, List.append_assoc, List.cons_append]

theorem optSegment_format (n : Nat) (rest : List Char)
    (h : ∀ c ∈ rest.head?, isNum c = false) :
    optSegment ('.' :: (formatUint n ++ rest)) = (some (formatUint n), rest) := by
  obtain ⟨h1, h2, _⟩ := formatUint_spec n
  obtain ⟨ht, hd⟩ := takeWhile_append_stop isNum (formatUint n) rest h2 h
  simp only [optSegment, ht, hd, h1, if_false]

theorem optSegment_none (cs : List Char) (h : ∀ c ∈ cs.head?, c ≠ '.') :
    optSegment cs = (none, cs) := by
  cases cs with
  | nil => rfl
  | cons c cs =>
    have hc : c ≠ '.' := h c (by simp)
    unfold optSegment
    split
    · rename_i heq
      simp at heq
      exact absurd heq.1 hc
    · rfl

theorem optPrerelease_dash (pre rest : List Char) (hpre : ∀ c ∈ pre, (c != '+') = true)
    (hrest : ∀ c ∈ rest.head?, c = '+') :
    optPrerelease ('-' :: (pre ++ rest)) = (some pre, rest) := by
  have h2 : ∀ c ∈ rest.head?, (c != '+') = false := by
    intro c hc
    rw [hrest c hc]
    decide
  obtain ⟨ht, hd⟩ := takeWhile_append_stop (· != '+') pre rest hpre h2
  simp only [optPrerelease, ht, hd]

theorem optPrerelease_none (cs : List Char) (h : ∀ c ∈ cs.head?, c ≠ '-') :
    optPrerelease cs = (none, cs) := by
  cases cs with
  | nil => rfl
  | cons c cs =>
    have hc : c ≠ '-' := h c (by simp)
    unfold optPrerelease
    split
    · rename_i heq
      simp at heq
      exact absurd heq.1 hc
    · rfl

theorem optMetadata_plus (rest : List Char) : optMetadata ('+' :: rest) = (some rest, []) := rfl

theorem canonTail_head (pre mtd : List Char) :
    ∀ c ∈ (canonTail pre mtd).head?, c = '-' ∨ c = '+' := by
  intro c hc
  unfold canonTail at hc
  by_cases h1 : pre = [] <;> by_cases h2 : mtd = [] <;> simp [h1, h2] at hc <;>
    subst hc <;> simp

theorem parse_canonTail (pre mtd : List Char)
    (hpre : pre = [] ∨ validPrerelease pre = true) :
    optPrerelease (canonTail pre mtd) = (if pre = [] then none else some pre,
        if mtd = [] then [] else '+' :: mtd)
      ∧ optMetadata (if mtd = [] then [] else '+' :: mtd)
        = (if mtd = [] then none else some mtd, []) := by
  constructor
  · by_cases h1 : pre = []
    · simp only [canonTail, h1, if_true, List.nil_append]
      apply optPrerelease_none
      intro c hc
      by_cases h2 : mtd = []
      · simp [h2] at hc
      · simp [h2] at hc
        rw [← hc]; decide
    · simp only [canonTail, h1, if_false, List.cons_append]
      apply optPrerelease_dash
      · exact validPrerelease_ne_plus pre (hpre.resolve_left h1)
      · intro c hc
        by_cases h2 : mtd = []
        · simp [h2] at hc
        · simp [h2] at hc
          exact hc.symm
  · by_cases h2 : mtd = []
    · simp [h2, optMetadata]
    · simp [h2, optMetadata]

theorem NewVersion_of_body (s : GoString) (M m p : Nat) (pre mtd : List Char)
    (hM : M < uint64Size) (hm : m < uint64Size) (hp : p < uint64Size)
    (hpre : pre = [] ∨ validPrerelease pre = true)
    (hmtd : mtd = [] ∨ validMetadata mtd = true)
    (hs : stripV s.data = formatUint M ++ ('.' :: (formatUint m ++ ('.' ::
      (formatUint p ++ canonTail pre mtd))))) :
    NewVersion s = some ⟨M, m, p, ⟨pre⟩, ⟨mtd⟩, s⟩ := by
  have hnotnum : ∀ c, c = '-' ∨ c = '+' → isNum c = false := by
    intro c hc
    rcases hc with h | h <;> subst h <;> decide
  have htail : ∀ c ∈ (canonTail pre mtd).head?, isNum c = false :=
    fun c hc => hnotnum c (canonTail_head pre mtd c hc)
  obtain ⟨hM1, hM2, _⟩ := formatUint_spec M
  obtain ⟨ht, hd⟩ := takeWhile_append_stop isNum (formatUint M)
    ('.' :: (formatUint m ++ ('.' :: (formatUint p ++ canonTail pre mtd)))) hM2
    (by intro c hc; simp at hc; subst hc; decide)
  have hseg2 := optSegment_format m ('.' :: (formatUint p ++ canonTail pre mtd))
    (by intro c hc; simp at hc; subst hc; decide)
  have hseg3 := optSegment_format p (canonTail pre mtd) htail
  obtain ⟨hpr, hmt⟩ := parse_canonTail pre mtd hpre
  unfold NewVersion
  simp only [hs, ht, hd, hseg2, hseg3, hpr, hmt, segmentValue, parseUint_formatUint M hM,
    parseUint_formatUint m hm, parseUint_formatUint p hp]
  by_cases h1 : pre = [] <;> by_cases h2 : mtd = []
  · simp [h1, h2]
  · simp [h1, h2, hmtd.resolve_left h2]
  · simp [h1, h2, hpre.resolve_left h1]
  · simp [h1, h2, hpre.resolve_left h1, hmtd.resolve_left h2]

theorem String_data_canon (v : Version) :
    v.String.data = formatUint v.major ++ ('.' :: (formatUint v.minor ++ ('.' ::
      (formatUint v.patch ++ canonTail v.pre.data v.metadata.data)))) := by
  rw [String_data]; rfl

theorem String_head_isNum (v : Version) : ∃ c cs, v.String.data = c :: cs ∧ isNum c = true := by
  obtain ⟨h1, h2, _⟩ := formatUint_spec v.major
  rw [String_data_canon]
  cases hf : formatUint v.major with
  | nil => exact absurd hf h1
  | cons c cs =>
    exact ⟨c, _, rfl, h2 c (by simp [hf])⟩

theorem stripV_String (v : Version) : stripV v.String.data = v.String.data := by
  obtain ⟨c, cs, h, hc⟩ := String_head_isNum v
  rw [h]
  unfold stripV
  split
  · rename_i heq
    simp at heq
    rw [heq.1] at hc
    exact absurd hc (by decide)
  · rfl

theorem NewVersion_String (v : Version) (hv : v.Valid) :
    NewVersion v.String = some { v with original := v.String } := by
  obtain ⟨hM, hm, hp, hpre, hmtd⟩ := hv
  have := NewVersion_of_body v.String v.major v.minor v.patch v.pre.data v.metadata.data
    hM hm hp hpre hmtd (by rw [stripV_String, String_data_canon])
  rw [this]

theorem NewVersion_vString (v : Version) (hv : v.Valid) :
    NewVersion ("v" ++ v.String) = some { v with original := "v" ++ v.String } := by
  obtain ⟨hM, hm, hp, hpre, hmtd⟩ := hv
  have := NewVersion_of_body ("v" ++ v.String) v.major v.minor v.patch v.pre.data
    v.metadata.data hM hm hp hpre hmtd (by
      rw [← String_data_canon]
      rfl)
  rw [this]

end Version

theorem TrimLeftV_String (v : Version) : TrimLeftV v.String = v.String := by
  obtain ⟨c, cs, h, hc⟩ := Version.String_head_isNum v
  have hne : c ≠ 'v' := by
    intro hv
    rw [hv] at hc
    exact absurd hc (by decide)
  unfold TrimLeftV
  apply String.ext
  simp [h, List.dropWhile, hne]

theorem hasVPrefix_v_append (v : Version) (s : String) :
    hasVPrefix (some { v with original := "v" ++ s }) = true := by
  simp [hasVPrefix, HasPrefix, Version.Original, List.isPrefixOf]

theorem hasVPrefix_String (v : Version) :
    hasVPrefix (some { v with original := v.String }) = false := by
  obtain ⟨c, cs, h, hc⟩ := Version.String_head_isNum v
  have hne : ¬ 'v' = c := by
    intro hv
    rw [← hv] at hc
    exact absurd hc (by decide)
  simp [hasVPrefix, HasPrefix, Version.Original, h, List.isPrefixOf, hne]

theorem addVPrefix_valid (v : Version) (hv : v.Valid) :
    addVPrefix (some v) = Outcome.ret (some
      (if hasVPrefix (some v) then v else { v with original := "v" ++ v.String })) := by
  unfold addVPrefix
  by_cases h : hasVPrefix (some v) = true
  · simp [h]
  · simp [h, MustParse, Version.NewVersion_vString v hv]

theorem trimVPrefix_valid (v : Version) (hv : v.Valid) :
    trimVPrefix (some v) = Outcome.ret (some
      (if hasVPrefix (some v) then { v with original := v.String } else v)) := by
  unfold trimVPrefix
  by_cases h : hasVPrefix (some v) = true
  · simp [h, MustParse, TrimLeftV_String, Version.NewVersion_String v hv]
  · simp [h]

/-! ## The version library: the order of `Compare` -/

namespace Version

theorem char_toNat_inj (a b : Char) (h : a.toNat = b.toNat) : a = b := by
  apply Char.ext
  apply UInt32.ext
  exact h

theorem strGt_irrefl (x : List Char) : strGt x x = false := by
  induction x with
  | nil => rfl
  | cons a x ih => simp [strGt, ih]

theorem strGt_asymm (x : List Char) : ∀ y, strGt x y = true → strGt y x = false := by
  induction x with
  | nil => intro y h; simp [strGt] at h
  | cons a x ih =>
    intro y h
    cases y with
    | nil => simp [strGt]
    | cons b y =>
      simp only [strGt] at h ⊢
      by_cases h1 : a.toNat > b.toNat
      · have h2 : ¬ b.toNat > a.toNat := by omega
        have h3 : b.toNat < a.toNat := by omega
        simp [h2, h3]
      · by_cases h2 : a.toNat < b.toNat
        · simp [h1, h2] at h
        · simp only [h1, h2, if_false] at h
          have h3 : ¬ b.toNat > a.toNat := by omega
          have h4 : ¬ b.toNat < a.toNat := by omega
          simp only [h3, h4, if_false]
          exact ih y h

theorem strGt_total (x : List Char) : ∀ y, x ≠ y → strGt x y = false → strGt y x = true := by
  induction x with
  | nil =>
    intro y hne _
    cases y with
    | nil => exact absurd rfl hne
    | cons b y => simp [strGt]
  | cons a x ih =>
    intro y hne h
    cases y with
    | nil => simp [strGt] at h
    | cons b y =>
      simp only [strGt] at h ⊢
      by_cases h1 : a.toNat > b.toNat
      · simp [h1] at h
      · by_cases h2 : a.toNat < b.toNat
        · have h3 : b.toNat > a.toNat := by omega
          simp [h3]
        · simp only [h1, h2, if_false] at h
          have h3 : ¬ b.toNat > a.toNat := by omega
          have h4 : ¬ b.toNat < a.toNat := by omega
          simp only [h3, h4, if_false]
          have hab : a = b := char_toNat_inj a b (by omega)
          apply ih y _ h
          intro hxy
          exact hne (by rw [hab, hxy])

theorem strGt_trans (x : List Char) :
    ∀ y z, strGt x y = false → strGt y z = false → strGt x z = false := by
  induction x with
  | nil => intro y z _ _; rfl
  | cons a x ih =>
    intro y z h1 h2
    cases y with
    | nil => simp [strGt] at h1
    | cons b y =>
      cases z with
      | nil => simp [strGt] at h2
      | cons c z =>
        simp only [strGt] at h1 h2 ⊢
        by_cases hab : a.toNat > b.toNat
        · simp [hab] at h1
        · by_cases hbc : b.toNat > c.toNat
          · simp [hbc] at h2
          · by_cases hab2 : a.toNat < b.toNat
            · have : ¬ a.toNat > c.toNat := by omega
              have h3 : a.toNat < c.toNat := by omega
              simp [this, h3]
            · by_cases hbc2 : b.toNat < c.toNat
              · have : ¬ a.toNat > c.toNat := by omega
                have h3 : a.toNat < c.toNat := by omega
                simp [this, h3]
              · simp only [hab, hab2, if_false] at h1
                simp only [hbc, hbc2, if_false] at h2
                have h3 : ¬ a.toNat > c.toNat := by omega
                have h4 : ¬ a.toNat < c.toNat := by omega
                simp only [h3, h4, if_false]
                exact ih y z h1 h2

theorem isNum_digit (c : Char) (h : isNum c = true) : 48 ≤ c.toNat ∧ c.toNat ≤ 57 := by
  simpa [isNum] using h

theorem digitsValue_cons (a : Nat) (c : Char) (cs : List Char) :
    digitsValue a (c :: cs) = digitsValue (10 * a + (c.toNat - 48)) cs := rfl

theorem digitsValue_nil (a : Nat) : digitsValue a [] = a := rfl

theorem digitsValue_bound (ds : List Char) (hall : ∀ c ∈ ds, isNum c = true) :
    ∀ a, digitsValue a ds = a * 10 ^ ds.length + digitsValue 0 ds
      ∧ digitsValue 0 ds < 10 ^ ds.length := by
  induction ds with
  | nil =>
    intro a
    rw [digitsValue_nil, digitsValue_nil]
    simp
  | cons c cs ih =>
    intro a
    have hc := isNum_digit c (hall c (by simp))
    have ih' := ih (fun x hx => hall x (by simp [hx]))
    obtain ⟨h1, _⟩ := ih' (10 * a + (c.toNat - 48))
    obtain ⟨h2, h3⟩ := ih' (10 * 0 + (c.toNat - 48))
    rw [digitsValue_cons, digitsValue_cons, h1, h2]
    simp only [List.length_cons, pow_succ]
    have hd : c.toNat - 48 ≤ 9 := by omega
    constructor
    · ring
    · nlinarith [h3, hd]

theorem digitsValue_lower (c : Char) (cs : List Char) (hall : ∀ x ∈ c :: cs, isNum x = true)
    (hc : c ≠ '0') : 10 ^ cs.length ≤ digitsValue 0 (c :: cs) := by
  have hnum := isNum_digit c (hall c (by simp))
  have hne : c.toNat ≠ 48 := by
    intro h
    exact hc (char_toNat_inj c '0' (by rw [h]; rfl))
  obtain ⟨h1, _⟩ := digitsValue_bound cs (fun x hx => hall x (by simp [hx]))
    (10 * 0 + (c.toNat - 48))
  rw [digitsValue_cons, h1]
  have hd : 1 ≤ c.toNat - 48 := by omega
  nlinarith [hd, Nat.zero_le (digitsValue 0 cs), Nat.one_le_two_pow (n := 0),
    Nat.pow_pos (n := cs.length) (show 0 < 10 by decide)]

theorem digitsValue_inj_len (x : List Char) : ∀ y : List Char, x.length = y.length →
    (∀ c ∈ x, isNum c = true) → (∀ c ∈ y, isNum c = true) →
    digitsValue 0 x = digitsValue 0 y → x = y := by
  induction x with
  | nil =>
    intro y hlen _ _ _
    cases y with
    | nil => rfl
    | cons b y => simp at hlen
  | cons a x ih =>
    intro y hlen hx hy hval
    cases y with
    | nil => simp at hlen
    | cons b y =>
      have hlen' : x.length = y.length := by simpa using hlen
      have ha := isNum_digit a (hx a (by simp))
      have hb := isNum_digit b (hy b (by simp))
      have hx' : ∀ c ∈ x, isNum c = true := fun c hc => hx c (by simp [hc])
      have hy' : ∀ c ∈ y, isNum c = true := fun c hc => hy c (by simp [hc])
      obtain ⟨h1, _⟩ := digitsValue_bound x hx' (10 * 0 + (a.toNat - 48))
      obtain ⟨h2, _⟩ := digitsValue_bound y hy' (10 * 0 + (b.toNat - 48))
      obtain ⟨_, h3⟩ := digitsValue_bound x hx' 0
      obtain ⟨_, h4⟩ := digitsValue_bound y hy' 0
      rw [digitsValue_cons, digitsValue_cons, h1, h2, ← hlen'] at hval
      rw [← hlen'] at h4
      have hpos : 0 < 10 ^ x.length := Nat.pow_pos (by decide)
      have hdiv1 : ((10 * 0 + (a.toNat - 48)) * 10 ^ x.length + digitsValue 0 x) / 10 ^ x.length
          = 10 * 0 + (a.toNat - 48) := by
        rw [Nat.add_comm, Nat.add_mul_div_right _ _ hpos, Nat.div_eq_of_lt h3, Nat.zero_add]
      have hdiv2 : ((10 * 0 + (b.toNat - 48)) * 10 ^ x.length + digitsValue 0 y) / 10 ^ x.length
          = 10 * 0 + (b.toNat - 48) := by
        rw [Nat.add_comm, Nat.add_mul_div_right _ _ hpos, Nat.div_eq_of_lt h4, Nat.zero_add]
      have hd : 10 * 0 + (a.toNat - 48) = 10 * 0 + (b.toNat - 48) := by
        rw [← hdiv1, ← hdiv2, hval]
      have hab : a = b := char_toNat_inj a b (by omega)
      have hrest : digitsValue 0 x = digitsValue 0 y := by
        rw [hd] at hval
        omega
      rw [hab, ih y hlen' hx' hy' hrest]

theorem digitsValue_lt_of_shorter (x y : List Char) (hx : ∀ c ∈ x, isNum c = true)
    (hy : ∀ c ∈ y, isNum c = true) (hyok : PartOK y) (hlen : x.length < y.length)
    (hxne : x ≠ []) : digitsValue 0 x < digitsValue 0 y := by
  obtain ⟨_, h1⟩ := digitsValue_bound x hx 0
  cases y with
  | nil => simp at hlen
  | cons b y =>
    have hlen1 : 1 < (b :: y).length := by
      cases x with
      | nil => exact absurd rfl hxne
      | cons a x => simp at hlen ⊢; omega
    have hb : b ≠ '0' := by
      intro hb0
      exact hyok.2 (by simpa using hy) ⟨hlen1, by simp [hb0]⟩
    have h2 := digitsValue_lower b y hy hb
    have h3 : 10 ^ x.length ≤ 10 ^ y.length :=
      Nat.pow_le_pow_right (by decide) (by simp at hlen; omega)
    omega

theorem parseUint_some (p : List Char) (n : Nat) (h : parseUint p = some n) :
    p ≠ [] ∧ (∀ c ∈ p, isNum c = true) ∧ digitsValue 0 p = n := by
  unfold parseUint at h
  by_cases h1 : p = []
  · simp [h1] at h
  · by_cases h2 : p.all isNum = true
    · by_cases h3 : digitsValue 0 p < uint64Size
      · simp [h1, h2, h3] at h
        exact ⟨h1, by simpa using h2, h⟩
      · simp [h1, h2, h3] at h
    · simp [h1, h2] at h

theorem parseUint_inj (x y : List Char) (n : Nat) (hx : PartOK x) (hy : PartOK y)
    (h1 : parseUint x = some n) (h2 : parseUint y = some n) : x = y := by
  obtain ⟨hx1, hx2, hx3⟩ := parseUint_some x n h1
  obtain ⟨hy1, hy2, hy3⟩ := parseUint_some y n h2
  rcases Nat.lt_trichotomy x.length y.length with hlt | heq | hgt
  · have := digitsValue_lt_of_shorter x y hx2 hy2 hy hlt hx1
    omega
  · exact digitsValue_inj_len x y heq hx2 hy2 (by rw [hx3, hy3])
  · have := digitsValue_lt_of_shorter y x hy2 hx2 hx hgt hy1
    omega

theorem comparePrePart_self (x : List Char) : comparePrePart x x = 0 := by
  simp [comparePrePart]

theorem comparePrePart_eq_zero (x y : List Char) (h : comparePrePart x y = 0) : x = y := by
  by_contra hne
  unfold comparePrePart at h
  simp only [hne, if_false] at h
  by_cases hx : x = []
  · simp [hx] at h
  · by_cases hy : y = []
    · simp [hx, hy] at h
    · simp only [hx, hy, if_false] at h
      cases h1 : parseUint y <;> cases h2 : parseUint x <;> simp only [h1, h2] at h
      · by_cases hg : strGt x y = true <;> simp [hg] at h
      · simp at h
      · simp at h
      · rename_i oi si
        by_cases hg : si > oi <;> simp [hg] at h

theorem comparePrePart_symm (x y : List Char) (hx : PartOK x) (hy : PartOK y) :
    comparePrePart x y = -(comparePrePart y x) := by
  by_cases hxy : x = y
  · rw [hxy, comparePrePart_self]; rfl
  · have hyx : ¬ y = x := fun h => hxy h.symm
    unfold comparePrePart
    simp only [hxy, hyx, hx.1, hy.1, if_false]
    cases h1 : parseUint y with
    | none =>
      cases h2 : parseUint x with
      | none =>
        by_cases hg : strGt x y = true
        · simp [hg, strGt_asymm x y hg]
        · have hg' : strGt x y = false := by simpa using hg
          simp [hg', strGt_total x y hxy hg']
      | some si => simp
    | some oi =>
      cases h2 : parseUint x with
      | none => simp
      | some si =>
        have hne : si ≠ oi := by
          intro h
          rw [h] at h2
          exact hxy (parseUint_inj x y oi hx hy h2 h1)
        by_cases hg : si > oi
        · have : ¬ oi > si := by omega
          simp [hg, this]
        · have : oi > si := by omega
          simp [hg, this]

theorem comparePrePart_trans (x y z : List Char) (hx : x ≠ []) (hy : y ≠ []) (hz : z ≠ [])
    (h1 : comparePrePart x y ≤ 0) (h2 : comparePrePart y z ≤ 0) : comparePrePart x z ≤ 0 := by
  by_cases hxz : x = z
  · rw [hxz, comparePrePart_self]
  · by_cases hxy : x = y
    · rw [hxy]; exact h2
    · by_cases hyz : y = z
      · rw [← hyz]; exact h1
      · unfold comparePrePart at h1 h2 ⊢
        simp only [hxy, hyz, hxz, hx, hy, hz, if_false] at h1 h2 ⊢
        cases px : parseUint x <;> cases py : parseUint y <;> cases pz : parseUint z <;>
          simp only [px, py, pz] at h1 h2 ⊢
        · by_cases g1 : strGt x y = true
          · simp [g1] at h1
          · by_cases g2 : strGt y z = true
            · simp [g2] at h2
            · have := strGt_trans x y z (by simpa using g1) (by simpa using g2)
              simp [this]
        · simp at h2
        · simp at h1
        · simp at h1
        · simp
        · simp at h2
        · simp
        · rename_i a b c
          by_cases g1 : a > b
          · simp [g1] at h1
          · by_cases g2 : b > c
            · simp [g2] at h2
            · have : ¬ a > c := by omega
              simp [this]

end Version

theorem lex_trans_int (xy yz xz e f g : Int) (t1 : xy ≤ 0 → yz ≤ 0 → xz ≤ 0)
    (t2 : -xz ≤ 0 → xy ≤ 0 → -yz ≤ 0) (t3 : yz ≤ 0 → -xz ≤ 0 → -xy ≤ 0)
    (t4 : e ≤ 0 → f ≤ 0 → g ≤ 0) (h1 : (if xy ≠ 0 then xy else e) ≤ 0)
    (h2 : (if yz ≠ 0 then yz else f) ≤ 0) : (if xz ≠ 0 then xz else g) ≤ 0 := by
  have a1 : xy ≤ 0 := by
    by_cases h : xy = 0
    · omega
    · simpa [h] using h1
  have a2 : yz ≤ 0 := by
    by_cases h : yz = 0
    · omega
    · simpa [h] using h2
  have a3 : xz ≤ 0 := t1 a1 a2
  by_cases h : xz = 0
  · simp only [h, ne_eq, not_true_eq_false, if_false]
    have b1 := t2 (by omega) a1
    have b2 := t3 a2 (by omega)
    have e1 : xy = 0 := by omega
    have e2 : yz = 0 := by omega
    simp only [e1, e2, ne_eq, not_true_eq_false, if_false] at h1 h2
    exact t4 h1 h2
  · simpa [h] using a3

theorem CmpOK.lex {α : Type} {P : α → Prop} {c1 c2 : α → α → Int}
    (h1 : CmpOK P c1) (h2 : CmpOK P c2) : CmpOK P (lexCmp c1 c2) where
  refl := by
    intro x
    simp [lexCmp, h1.refl x, h2.refl x]
  symm := by
    intro x y hx hy
    have s1 := h1.symm x y hx hy
    have s2 := h2.symm x y hx hy
    unfold lexCmp
    by_cases hz : c1 x y = 0
    · have hz' : c1 y x = 0 := by omega
      simp [hz, hz', s2]
    · have hz' : c1 y x ≠ 0 := by omega
      simp [hz, hz', s1]
  trans := by
    intro x y z hx hy hz hxy hyz
    unfold lexCmp at hxy hyz ⊢
    apply lex_trans_int (c1 x y) (c1 y z) (c1 x z) (c2 x y) (c2 y z) (c2 x z)
      (h1.trans x y z hx hy hz) _ _ (h2.trans x y z hx hy hz) hxy hyz
    · rw [← h1.symm z x hz hx, ← h1.symm z y hz hy]
      exact h1.trans z x y hz hx hy
    · rw [← h1.symm z x hz hx, ← h1.symm y x hy hx]
      exact h1.trans y z x hy hz hx

namespace Version

theorem comparePrePart_nil_left (o : List Char) (h : o ≠ []) : comparePrePart [] o = -1 := by
  have : ¬ ([] : List Char) = o := fun e => h e.symm
  simp [comparePrePart, this]

theorem comparePrePart_nil_right (s : List Char) (h : s ≠ []) : comparePrePart s [] = 1 := by
  simp [comparePrePart, h]

theorem compareParts_nil_cons (o : List Char) (os : List (List Char)) (h : o ≠ []) :
    compareParts [] (o :: os) = -1 := by
  simp [compareParts, comparePartsLeft, comparePrePart_nil_left o h]

theorem compareParts_cons_nil (s : List Char) (ss : List (List Char)) (h : s ≠ []) :
    compareParts (s :: ss) [] = 1 := by
  simp [compareParts, comparePartsRight, comparePrePart_nil_right s h]

theorem compareParts_cons_cons (s o : List Char) (ss os : List (List Char)) :
    compareParts (s :: ss) (o :: os)
      = if comparePrePart s o ≠ 0 then comparePrePart s o else compareParts ss os := rfl

theorem compareParts_self (a : List (List Char)) : compareParts a a = 0 := by
  induction a with
  | nil => rfl
  | cons s ss ih => rw [compareParts_cons_cons]; simp [comparePrePart_self, ih]

theorem compareParts_symm (a : List (List Char)) : ∀ b, PartsOK a → PartsOK b →
    compareParts a b = -(compareParts b a) := by
  induction a with
  | nil =>
    intro b _ hb
    cases b with
    | nil => rfl
    | cons o os =>
      have ho : o ≠ [] := (hb o (by simp)).1
      rw [compareParts_nil_cons o os ho, compareParts_cons_nil o os ho]
  | cons s ss ih =>
    intro b ha hb
    have hs := ha s (by simp)
    cases b with
    | nil => rw [compareParts_nil_cons s ss hs.1, compareParts_cons_nil s ss hs.1]; rfl
    | cons o os =>
      have ho := hb o (by simp)
      have hsym := comparePrePart_symm s o hs ho
      have ih' := ih os (fun p hp => ha p (by simp [hp])) (fun p hp => hb p (by simp [hp]))
      rw [compareParts_cons_cons, compareParts_cons_cons]
      by_cases hz : comparePrePart s o = 0
      · have hz' : comparePrePart o s = 0 := by omega
        simp [hz, hz', ih']
      · have hz' : comparePrePart o s ≠ 0 := by omega
        simp [hz, hz', hsym]

theorem compareParts_trans (a : List (List Char)) : ∀ b c, PartsOK a → PartsOK b → PartsOK c →
    compareParts a b ≤ 0 → compareParts b c ≤ 0 → compareParts a c ≤ 0 := by
  induction a with
  | nil =>
    intro b c _ _ hc _ _
    cases c with
    | nil => simp [compareParts, comparePartsLeft]
    | cons o os => rw [compareParts_nil_cons o os (hc o (by simp)).1]; decide
  | cons s ss ih =>
    intro b c ha hb hc hab hbc
    have hs := ha s (by simp)
    cases b with
    | nil => rw [compareParts_cons_nil s ss hs.1] at hab; exact absurd hab (by decide)
    | cons t ts =>
      have ht := hb t (by simp)
      cases c with
      | nil => rw [compareParts_cons_nil t ts ht.1] at hbc; exact absurd hbc (by decide)
      | cons u us =>
        have hu := hc u (by simp)
        rw [compareParts_cons_cons] at hab hbc ⊢
        have ih' := ih ts us (fun p hp => ha p (by simp [hp])) (fun p hp => hb p (by simp [hp]))
          (fun p hp => hc p (by simp [hp]))
        apply lex_trans_int _ _ _ _ _ _
          (comparePrePart_trans s t u hs.1 ht.1 hu.1) _ _ ih' hab hbc
        · rw [← comparePrePart_symm u s hu hs, ← comparePrePart_symm u t hu ht]
          exact comparePrePart_trans u s t hu.1 hs.1 ht.1
        · rw [← comparePrePart_symm u s hu hs, ← comparePrePart_symm t s ht hs]
          exact comparePrePart_trans t u s ht.1 hu.1 hs.1

theorem validPrerelease_partsOK (cs : List Char) (h : validPrerelease cs = true) :
    PartsOK (splitDots cs) := by
  intro p hp
  have hall := List.all_eq_true.1 h p hp
  by_cases hnil : p = []
  · simp [hnil] at hall
  · refine ⟨hnil, ?_⟩
    intro hnum
    simp only [hnil, hnum, if_false, if_true] at hall
    intro hbad
    simp [hbad.1, hbad.2] at hall

theorem pre_eq_empty_iff (s : GoString) : s = "" ↔ s.data = [] := by
  constructor
  · intro h; rw [h]
  · intro h; exact String.ext h

theorem Valid.partsOK {v : Version} (hv : v.Valid) (h : ¬ v.pre = "") :
    PartsOK (splitDots v.pre.data) := by
  have hne : ¬ v.pre.data = [] := fun e => h ((pre_eq_empty_iff v.pre).2 e)
  exact validPrerelease_partsOK _ (hv.2.2.2.1.resolve_left hne)

theorem comparePre_cmpOK : CmpOK Valid comparePre where
  refl := by
    intro x
    unfold comparePre
    by_cases h : x.pre = ""
    · simp [h]
    · simp [h, comparePrerelease, compareParts_self]
  symm := by
    intro x y hx hy
    unfold comparePre
    by_cases h1 : x.pre = "" <;> by_cases h2 : y.pre = "" <;> simp [h1, h2]
    exact compareParts_symm _ _ (hx.partsOK h1) (hy.partsOK h2)
  trans := by
    intro x y z hx hy hz
    unfold comparePre
    by_cases h1 : x.pre = "" <;> by_cases h2 : y.pre = "" <;> by_cases h3 : z.pre = "" <;>
      simp [h1, h2, h3]
    exact compareParts_trans _ _ _ (hx.partsOK h1) (hy.partsOK h2) (hz.partsOK h3)

theorem compareSegment_cmpOK (f : Version → Nat) :
    CmpOK Valid (fun v o => compareSegment (f v) (f o)) where
  refl := by
    intro x
    simp [compareSegment]
  symm := by
    intro x y _ _
    simp only [compareSegment]
    rcases Nat.lt_trichotomy (f x) (f y) with h | h | h
    · have h' : ¬ f y < f x := by omega
      simp [h, h']
    · simp [h]
    · have h' : ¬ f x < f y := by omega
      simp [h, h']
  trans := by
    intro x y z _ _ _
    simp only [compareSegment]
    intro h1 h2
    by_cases a : f x < f y
    · by_cases b : f y < f z
      · have : f x < f z := by omega
        simp [this]
      · by_cases b' : f y > f z
        · simp [b, b'] at h2
        · have : f x < f z := by omega
          simp [this]
    · by_cases a' : f x > f y
      · simp [a, a'] at h1
      · by_cases b : f y < f z
        · have : f x < f z := by omega
          simp [this]
        · by_cases b' : f y > f z
          · simp [b, b'] at h2
          · have c1 : ¬ f x < f z := by omega
            have c2 : ¬ f x > f z := by omega
            simp [c1, c2]

theorem Compare_eq_lex : Compare = lexCmp (fun v o => compareSegment v.major o.major)
    (lexCmp (fun v o => compareSegment v.minor o.minor)
      (lexCmp (fun v o => compareSegment v.patch o.patch) comparePre)) := by
  funext v o
  rfl

theorem Compare_cmpOK : CmpOK Valid Compare := by
  rw [Compare_eq_lex]
  exact (compareSegment_cmpOK _).lex ((compareSegment_cmpOK _).lex
    ((compareSegment_cmpOK _).lex comparePre_cmpOK))

theorem Compare_self (v : Version) : v.Compare v = 0 := Compare_cmpOK.refl v

theorem parseUint_lt (cs : List Char) (n : Nat) (h : parseUint cs = some n) : n < uint64Size := by
  unfold parseUint at h
  by_cases h1 : cs = []
  · simp [h1] at h
  · by_cases h2 : cs.all isNum = true
    · by_cases h3 : digitsValue 0 cs < uint64Size
      · simp [h1, h2, h3] at h
        rw [← h]; exact h3
      · simp [h1, h2, h3] at h
    · simp [h1, h2] at h

theorem segmentValue_lt (ds : Option (List Char)) (n : Nat) (h : segmentValue ds = some n) :
    n < uint64Size := by
  cases ds with
  | none =>
    simp [segmentValue] at h
    rw [← h]; decide
  | some d => exact parseUint_lt d n h

/-- Every version the parser returns is valid. -/
theorem NewVersion_valid (s : GoString) (v : Version) (h : NewVersion s = some v) : v.Valid := by
  unfold NewVersion at h
  simp only at h
  split at h
  · exact absurd h (by simp)
  · split at h
    · exact absurd h (by simp)
    · split at h
      · exact absurd h (by simp)
      · split at h
        · exact absurd h (by simp)
        · rename_i hpre hmtd
          split at h
          · rename_i major minor patch h1 h2 h3
            simp only [Option.some.injEq] at h
            subst h
            refine ⟨parseUint_lt _ _ h1, segmentValue_lt _ _ h2, segmentValue_lt _ _ h3, ?_, ?_⟩
            · simpa [or_iff_not_imp_left] using hpre
            · simpa [or_iff_not_imp_left] using hmtd
          · exact absurd h (by simp)

end Version

/-! ## The loop of `Fetch` -/

namespace SourceGroup

variable {σ : Type}

theorem getCalls_append (a b : List Event) : getCalls (a ++ b) = getCalls a ++ getCalls b := by
  simp [getCalls, List.filterMap_append]

theorem setCalls_append (a b : List Event) : setCalls (a ++ b) = setCalls a ++ setCalls b := by
  simp [setCalls, List.filterMap_append]

theorem firstError_cons_none (errs : List (Option Error)) :
    firstError (none :: errs) = firstError errs := by
  simp [firstError]

theorem firstError_cons_some (e : Error) (errs : List (Option Error)) :
    firstError (some e :: errs) = some e := by
  simp [firstError]

/-- The loop of `Fetch` from any state: it calls `Get` once on every enabled source of
the list, in order, keeps the reports of the calls that returned no error, and remembers
the first error. -/
theorem fetchLoop_spec (g : SourceGroup σ) (l : List (Name × SourceWithMeta σ)) :
    ∀ st : FetchState σ,
      (l.foldl (fetchStep g) st).reports = st.reports
          ++ (((callGets g.getFS (enabledSources l) st.world).1.filter
            (fun c => c.err = none)).map GetCall.report)
      ∧ (l.foldl (fetchStep g) st).vp = (st.vp
          || ((callGets g.getFS (enabledSources l) st.world).1.filter
            (fun c => c.err = none)).any (fun c => hasVPrefix c.v))
      ∧ (l.foldl (fetchStep g) st).err = (if st.err = none then
          firstError ((callGets g.getFS (enabledSources l) st.world).1.map (·.err))
          else st.err)
      ∧ getCalls (l.foldl (fetchStep g) st).events = getCalls st.events
          ++ (callGets g.getFS (enabledSources l) st.world).1.map (·.name)
      ∧ (l.foldl (fetchStep g) st).world = (callGets g.getFS (enabledSources l) st.world).2 := by
  induction l with
  | nil =>
    intro st
    simp only [enabledSources, callGets, firstError, List.filter_nil, List.map_nil,
      List.append_nil, List.any_nil, Bool.or_false, List.foldl_nil, List.filterMap_nil,
      List.head?_nil, true_and]
    by_cases h : st.err = none <;> simp [h]
  | cons e es ih =>
    intro st
    rw [List.foldl_cons]
    by_cases hd : e.2.Disabled = true
    · have hstep : fetchStep g st e = { st with events := st.events ++
          [Event.Trace ("  " ++ e.1 ++ " skipped as disabled")] } := by
        simp [fetchStep, hd]
      have hen : enabledSources (e :: es) = enabledSources es := by
        simp [enabledSources, hd]
      rw [hstep, hen]
      obtain ⟨h1, h2, h3, h4, h5⟩ := ih { st with events := st.events ++
          [Event.Trace ("  " ++ e.1 ++ " skipped as disabled")] }
      refine ⟨h1, h2, h3, ?_, h5⟩
      rw [h4, getCalls_append]
      simp [getCalls]
    · have hen : enabledSources (e :: es) = e :: enabledSources es := by
        simp [enabledSources, hd]
      rw [hen]
      rcases hget : e.2.Source.Get g.getFS st.world with ⟨⟨v, err⟩, w'⟩
      cases err with
      | some x =>
        have hstep : fetchStep g st e = { st with
            err := if st.err = none then some x else st.err
            events := st.events ++
              [Event.sourceGet e.1, Event.Err ("  " ++ e.1 ++ " failed with: " ++ x.message)]
            world := w' } := by
          simp [fetchStep, hd, hget]
        rw [hstep]
        obtain ⟨h1, h2, h3, h4, h5⟩ := ih { st with
            err := if st.err = none then some x else st.err
            events := st.events ++
              [Event.sourceGet e.1, Event.Err ("  " ++ e.1 ++ " failed with: " ++ x.message)]
            world := w' }
        simp only [callGets, hget]
        refine ⟨?_, ?_, ?_, ?_, ?_⟩
        · rw [h1]; simp
        · rw [h2]; simp
        · rw [h3]
          by_cases hst : st.err = none
          · simp [hst, firstError_cons_some]
          · simp [hst]
        · rw [h4, getCalls_append]
          simp [getCalls]
        · rw [h5]
      | none =>
        have hstep : fetchStep g st e =
            { reports := st.reports ++ [⟨v, e.2, e.1⟩]
              vp := st.vp || hasVPrefix v
              err := st.err
              events := st.events ++ [Event.sourceGet e.1]
              world := w' } := by
          simp [fetchStep, hd, hget]
        rw [hstep]
        obtain ⟨h1, h2, h3, h4, h5⟩ := ih
            { reports := st.reports ++ [⟨v, e.2, e.1⟩]
              vp := st.vp || hasVPrefix v
              err := st.err
              events := st.events ++ [Event.sourceGet e.1]
              world := w' }
        simp only [callGets, hget]
        refine ⟨?_, ?_, ?_, ?_, ?_⟩
        · rw [h1]; simp [GetCall.report]
        · rw [h2]; simp [Bool.or_assoc]
        · rw [h3]
          by_cases hst : st.err = none
          · simp [hst, firstError_cons_none]
          · simp [hst]
        · rw [h4, getCalls_append]
          simp [getCalls]
        · rw [h5]

end SourceGroup

/-! ## The loop of `Set` -/

namespace SourceGroup

variable {σ : Type}

theorem versionToWrite_valid (mode : VPrefixMode) (v : Version) (hv : v.Valid)
    (hmode : mode = VPrefixAuto ∨ mode = VPrefixTrue ∨ mode = VPrefixFalse) :
    versionToWrite mode v = Outcome.ret (some (writtenVersion mode v)) := by
  rcases hmode with h | h | h
  · subst h
    simp [versionToWrite, writtenVersion, VPrefixAuto, VPrefixTrue, VPrefixFalse]
  · subst h
    simp [versionToWrite, writtenVersion, VPrefixAuto, VPrefixTrue, addVPrefix_valid v hv]
  · subst h
    simp [versionToWrite, writtenVersion, VPrefixAuto, VPrefixTrue, VPrefixFalse,
      trimVPrefix_valid v hv]

theorem setFinish_spec (st : SetState σ) (name : Name) (e : Option Error)
    (events : List Event) (w : σ) :
    (setFinish st name e events w).err
        = (if st.err = none then (if isHardError e then e else none) else st.err)
      ∧ setCalls (setFinish st name e events w).events = setCalls events
      ∧ (setFinish st name e events w).world = w
      ∧ (setFinish st name e events w).panicked = st.panicked := by
  by_cases h1 : errorsIs e Error.errNoChanges = true
  · have hform : setFinish st name e events w = { st with
        events := events ++ [Event.Trace ("  " ++ name ++ ": no changes")], world := w } := by
      simp [setFinish, h1]
    rw [hform]
    refine ⟨?_, ?_, rfl, rfl⟩
    · by_cases hst : st.err = none <;> simp [hst, isHardError, h1]
    · rw [setCalls_append]; simp [setCalls]
  · cases e with
    | none =>
      have hform : setFinish st name none events w = { st with
          events := events ++ [Event.Log ("  " ++ name ++ ": ok")], world := w } := by
        simp [setFinish, errorsIs]
      rw [hform]
      refine ⟨?_, ?_, rfl, rfl⟩
      · by_cases hst : st.err = none <;> simp [hst, isHardError]
      · rw [setCalls_append]; simp [setCalls]
    | some x =>
      have hform : setFinish st name (some x) events w = { st with
          events := events ++ [Event.Err ("  " ++ name ++ " failed with: " ++ x.message)]
          err := if st.err = none then some x else st.err
          world := w } := by
        simp [setFinish, h1]
      rw [hform]
      refine ⟨?_, ?_, rfl, rfl⟩
      · have : isHardError (some x) = true := by
          simp [isHardError, h1]
        by_cases hst : st.err = none <;> simp [hst, this]
      · rw [setCalls_append]; simp [setCalls]

/-- The loop of `Set` from any state that has not panicked, for a valid version and
sources whose policy is one of the three constants: it calls `Set` once on every
writable source of the list, in order, and remembers the first failure. -/
theorem setLoop_spec (g : SourceGroup σ) (v : Version) (hv : v.Valid)
    (l : List (Name × SourceWithMeta σ))
    (hl : ∀ e ∈ l, e.2.VPrefix = VPrefixAuto ∨ e.2.VPrefix = VPrefixTrue
      ∨ e.2.VPrefix = VPrefixFalse) :
    ∀ st : SetState σ, st.panicked = false →
      (l.foldl (setStep g v) st).err = (if st.err = none then
          firstError (((callSets g.setFS (fun s => writtenVersion s.VPrefix v)
            (writableSources l) st.world).1.map (·.err)).filter isHardError)
          else st.err)
      ∧ setCalls (l.foldl (setStep g v) st).events = setCalls st.events
          ++ (callSets g.setFS (fun s => writtenVersion s.VPrefix v)
            (writableSources l) st.world).1.map (fun c => (c.name, c.v))
      ∧ (l.foldl (setStep g v) st).world
          = (callSets g.setFS (fun s => writtenVersion s.VPrefix v)
            (writableSources l) st.world).2
      ∧ (l.foldl (setStep g v) st).panicked = false := by
  induction l with
  | nil =>
    intro st hp
    simp only [writableSources, callSets, firstError, List.filter_nil, List.map_nil,
      List.append_nil, List.foldl_nil, List.filterMap_nil, List.head?_nil, true_and, hp,
      and_true]
    by_cases h : st.err = none <;> simp [h]
  | cons e es ih =>
    intro st hp
    have ih' := ih (fun x hx => hl x (by simp [hx]))
    rw [List.foldl_cons]
    by_cases hd : e.2.Disabled = true
    · have hstep : setStep g v st e = { st with events := st.events ++
          [Event.Trace ("  " ++ e.1 ++ " skipped as disabled")] } := by
        simp [setStep, hd, hp]
      have hen : writableSources (e :: es) = writableSources es := by
        simp [writableSources, hd]
      rw [hstep, hen]
      obtain ⟨h1, h2, h3, h4⟩ := ih' { st with events := st.events ++
          [Event.Trace ("  " ++ e.1 ++ " skipped as disabled")] } hp
      refine ⟨h1, ?_, h3, h4⟩
      rw [h2, setCalls_append]
      simp [setCalls]
    · by_cases hro : e.2.Source.IsReadOnly = true
      · have hstep : setStep g v st e = { st with events := st.events ++
            [Event.Trace ("  " ++ e.1 ++ " skipped as readonly")] } := by
          simp [setStep, hd, hro, hp]
        have hen : writableSources (e :: es) = writableSources es := by
          simp [writableSources, hro]
        rw [hstep, hen]
        obtain ⟨h1, h2, h3, h4⟩ := ih' { st with events := st.events ++
            [Event.Trace ("  " ++ e.1 ++ " skipped as readonly")] } hp
        refine ⟨h1, ?_, h3, h4⟩
        rw [h2, setCalls_append]
        simp [setCalls]
      · have hen : writableSources (e :: es) = e :: writableSources es := by
          simp [writableSources, hd, hro]
        have hw := versionToWrite_valid e.2.VPrefix v hv (hl e (by simp))
        rcases hset : e.2.Source.Set (writtenVersion e.2.VPrefix v) g.setFS st.world
          with ⟨err, w'⟩
        have hstep : setStep g v st e = setFinish st e.1 err
            (st.events ++ [Event.sourceSet e.1 (writtenVersion e.2.VPrefix v)]) w' := by
          simp [setStep, hd, hro, hp, hw, hset]
        obtain ⟨f1, f2, f3, f4⟩ := setFinish_spec st e.1 err
            (st.events ++ [Event.sourceSet e.1 (writtenVersion e.2.VPrefix v)]) w'
        obtain ⟨h1, h2, h3, h4⟩ := ih' (setFinish st e.1 err
            (st.events ++ [Event.sourceSet e.1 (writtenVersion e.2.VPrefix v)]) w')
            (by rw [f4, hp])
        rw [hstep, hen]
        simp only [callSets, hset]
        refine ⟨?_, ?_, ?_, h4⟩
        · rw [h1, f1, f3]
          by_cases hst : st.err = none
          · by_cases hh : isHardError err = true
            · cases err with
              | none => simp [isHardError] at hh
              | some x => simp [hst, hh, firstError]
            · simp [hst, hh]
          · simp [hst]
        · rw [h2, f2, f3, setCalls_append]
          simp [setCalls]
        · rw [h3, f3]

theorem setStep_calls (g : SourceGroup σ) (v : Version) (st : SetState σ)
    (e : Name × SourceWithMeta σ) :
    ∀ c ∈ setCalls (setStep g v st e).events, c ∈ setCalls st.events
      ∨ (e.2.Disabled = false ∧ e.2.Source.IsReadOnly = false ∧ c.1 = e.1
        ∧ versionToWrite e.2.VPrefix v = Outcome.ret (some c.2)) := by
  intro c hc
  unfold setStep at hc
  by_cases hp : st.panicked = true
  · simp only [hp, if_true] at hc
    exact Or.inl hc
  · by_cases hd : e.2.Disabled = true
    · simp only [hp, hd, if_true, if_false, setCalls_append] at hc
      left
      simpa [setCalls] using hc
    · by_cases hro : e.2.Source.IsReadOnly = true
      · simp only [hp, hd, hro, if_true, if_false, setCalls_append] at hc
        left
        simpa [setCalls] using hc
      · simp only [hp, hd, hro, if_false, Bool.false_eq_true] at hc
        cases hw : versionToWrite e.2.VPrefix v with
        | panic =>
          simp only [hw] at hc
          exact Or.inl hc
        | ret o =>
          cases o with
          | none =>
            simp only [hw] at hc
            rw [(setFinish_spec st e.1 none st.events st.world).2.1] at hc
            exact Or.inl hc
          | some x =>
            simp only [hw] at hc
            rw [(setFinish_spec st e.1 _ _ _).2.1, setCalls_append] at hc
            rcases List.mem_append.1 hc with h | h
            · exact Or.inl h
            · right
              have hcx : c = (e.1, x) := by simpa [setCalls] using h
              subst hcx
              exact ⟨by simpa using hd, by simpa using hro, rfl, rfl⟩

/-- Whatever the version and the policies: every call of `Set` the loop adds is on a
source of the list that is neither disabled nor read-only, with the version its policy
gives. -/
theorem setLoop_calls (g : SourceGroup σ) (v : Version) (l : List (Name × SourceWithMeta σ)) :
    ∀ st : SetState σ, ∀ c ∈ setCalls (l.foldl (setStep g v) st).events,
      c ∈ setCalls st.events ∨ ∃ e ∈ l, e.2.Disabled = false ∧ e.2.Source.IsReadOnly = false
        ∧ c.1 = e.1 ∧ versionToWrite e.2.VPrefix v = Outcome.ret (some c.2) := by
  induction l with
  | nil => intro st c hc; exact Or.inl hc
  | cons e es ih =>
    intro st c hc
    rw [List.foldl_cons] at hc
    rcases ih (setStep g v st e) c hc with h | ⟨x, hx, hxc⟩
    · rcases setStep_calls g v st e c h with h' | h'
      · exact Or.inl h'
      · exact Or.inr ⟨e, by simp, h'⟩
    · exact Or.inr ⟨x, by simp [hx], hxc⟩

end SourceGroup

/-! ## `Fetch`, `Get` and `GetMax` in terms of the calls made -/

namespace SourceGroup

variable {σ : Type}

theorem NewVersion_default :
    Version.NewVersion "0.1.0" = some ⟨0, 1, 0, "", "", "0.1.0"⟩ := by decide

theorem Fetch_fields (g : SourceGroup σ) (sortFunc : SortFunc σ) (names : List Name) (w : σ) :
    (g.Fetch sortFunc names w).err
        = ((g.selected names).foldl (fetchStep g) ⟨[], false, none, [], w⟩).err
      ∧ (g.Fetch sortFunc names w).vp
        = ((g.selected names).foldl (fetchStep g) ⟨[], false, none, [], w⟩).vp
      ∧ (g.Fetch sortFunc names w).events
        = ((g.selected names).foldl (fetchStep g) ⟨[], false, none, [], w⟩).events
      ∧ (g.Fetch sortFunc names w).world
        = ((g.selected names).foldl (fetchStep g) ⟨[], false, none, [], w⟩).world := by
  unfold Fetch
  simp only
  split <;> exact ⟨rfl, rfl, rfl, rfl⟩

/-- The method `Fetch` in terms of the calls of `Get` on the enabled selected sources. -/
theorem Fetch_spec (g : SourceGroup σ) (sortFunc : SortFunc σ) (names : List Name) (w : σ) :
    (g.Fetch sortFunc names w).err
        = firstError ((callGets g.getFS (enabledSources (g.selected names)) w).1.map (·.err))
      ∧ (g.Fetch sortFunc names w).vp
        = ((callGets g.getFS (enabledSources (g.selected names)) w).1.filter
            (fun c => c.err = none)).any (fun c => hasVPrefix c.v)
      ∧ getCalls (g.Fetch sortFunc names w).events
        = (callGets g.getFS (enabledSources (g.selected names)) w).1.map (·.name)
      ∧ (g.Fetch sortFunc names w).world
        = (callGets g.getFS (enabledSources (g.selected names)) w).2 := by
  obtain ⟨f1, f2, f3, f4⟩ := Fetch_fields g sortFunc names w
  obtain ⟨_, h2, h3, h4, h5⟩ := fetchLoop_spec g (g.selected names) ⟨[], false, none, [], w⟩
  rw [f1, f2, f3, f4, h2, h3, h4, h5]
  simp [getCalls]

theorem callGets_names (fs : FS) (l : List (Name × SourceWithMeta σ)) :
    ∀ w, (callGets fs l w).1.map (·.name) = l.map (·.1) := by
  induction l with
  | nil => intro w; rfl
  | cons e es ih => intro w; simp [callGets, ih]

theorem getStep_event (g : SourceGroup σ) (st : GetState) (r : report σ) :
    getCalls [(getStep g st r).2] = [] := by
  unfold getStep
  split
  · rfl
  · split
    · rfl
    · split
      · rfl
      · split <;> rfl

theorem reconcile_getCalls (g : SourceGroup σ) (reports : List (report σ)) :
    ∀ st : GetState, getCalls (g.reconcile reports st).2 = [] := by
  induction reports with
  | nil => intro st; rfl
  | cons r rs ih =>
    intro st
    show getCalls ([(getStep g st r).2] ++ (reconcile g rs (getStep g st r).1).2) = []
    rw [getCalls_append, getStep_event, ih]
    rfl

/-- What the end of `Get` returns: the default version 0.1.0, or nothing when a default
version is configured, if the loop recorded a conflict or found no version; the version
found otherwise. The error is nil in every case. -/
theorem finishGet_out (g : SourceGroup σ) (st : GetState) (prefixed : Option Version)
    (events : List Event) (w : σ) :
    (g.finishGet st prefixed events w).out
      = if st.err ≠ none ∨ prefixed = none then
          (if g.DefaultVersion = "" then
            Outcome.ret (some ⟨0, 1, 0, "", "", "0.1.0"⟩, none)
          else Outcome.ret (none, none))
        else Outcome.ret (prefixed, none) := by
  unfold finishGet
  simp only [NewVersion_default]
  by_cases h1 : st.err = none
  · by_cases h2 : prefixed = none
    · by_cases h3 : g.DefaultVersion = "" <;> simp [h1, h2, h3]
    · simp [h1, h2]
  · by_cases h3 : g.DefaultVersion = "" <;> simp [h1, h3]

theorem finishGet_events (g : SourceGroup σ) (st : GetState) (prefixed : Option Version)
    (events : List Event) (w : σ) : (g.finishGet st prefixed events w).events
      = if st.err ≠ none ∨ prefixed = none then
          events ++ [Event.Log "  no version found in project, using default one"]
        else events := by
  unfold finishGet
  simp only [NewVersion_default]
  by_cases h1 : st.err = none
  · by_cases h2 : prefixed = none
    · by_cases h3 : g.DefaultVersion = "" <;> simp [h1, h2, h3]
    · simp [h1, h2]
  · by_cases h3 : g.DefaultVersion = "" <;> simp [h1, h3]

theorem finishGet_getCalls (g : SourceGroup σ) (st : GetState) (prefixed : Option Version)
    (events : List Event) (w : σ) :
    getCalls (g.finishGet st prefixed events w).events = getCalls events := by
  rw [finishGet_events]
  split
  · rw [getCalls_append]; simp [getCalls]
  · rfl

theorem finishGet_world (g : SourceGroup σ) (st : GetState) (prefixed : Option Version)
    (events : List Event) (w : σ) : (g.finishGet st prefixed events w).world = w := by
  unfold finishGet
  simp only [NewVersion_default]
  by_cases h1 : st.err = none
  · by_cases h2 : prefixed = none
    · by_cases h3 : g.DefaultVersion = "" <;> simp [h1, h2, h3]
    · simp [h1, h2]
  · by_cases h3 : g.DefaultVersion = "" <;> simp [h1, h3]

/-- The calls of `Get` on sources that `SourceGroup.Get` makes are those of `Fetch`. -/
theorem Get_getCalls (g : SourceGroup σ) (sortFunc : SortFunc σ) (names : List Name) (w : σ) :
    getCalls (g.Get sortFunc names w).events = getCalls (g.Fetch sortFunc names w).events := by
  have hlog : ∀ ev : List Event, getCalls (Event.Log "fetching versions from sources..." :: ev)
      = getCalls ev := by
    intro ev; simp [getCalls]
  have hrec : getCalls (Event.Log "fetching versions from sources..."
      :: (g.Fetch sortFunc names w).events
        ++ (g.reconcile (g.Fetch sortFunc names w).reports ⟨none, none, none⟩).2)
      = getCalls (g.Fetch sortFunc names w).events := by
    rw [getCalls_append, reconcile_getCalls, hlog, List.append_nil]
  unfold Get
  simp only
  split
  · exact hlog _
  · split
    · exact hrec
    · rw [finishGet_getCalls]; exact hrec

/-- The calls of `Get` on sources that `GetMax` makes are those of `Fetch` when names
are given, and none otherwise. -/
theorem GetMax_getCalls (g : SourceGroup σ) (sortFunc : SortFunc σ) (names : List Name)
    (versions : List Version) (w : σ) :
    getCalls (g.GetMax sortFunc names versions w).events
      = if names.length > 0 then getCalls (g.Fetch sortFunc names w).events else [] := by
  unfold GetMax
  simp only
  by_cases hn : names.length > 0
  · simp only [hn, if_true]
    split
    · rfl
    · split
      · split <;> rfl
      · rfl
  · simp only [hn, if_false]
    split
    · rfl
    · split
      · split <;> rfl
      · rfl

end SourceGroup

namespace SourceGroup

variable {σ : Type}

theorem firstError_eq_some (errs : List (Option Error)) (e : Error)
    (h : firstError errs = some e) :
    ∃ before after, errs = before ++ some e :: after ∧ ∀ x ∈ before, x = none := by
  induction errs with
  | nil => simp [firstError] at h
  | cons x xs ih =>
    cases x with
    | none =>
      rw [firstError_cons_none] at h
      obtain ⟨b, a, h1, h2⟩ := ih h
      refine ⟨none :: b, a, by rw [h1]; rfl, ?_⟩
      intro y hy
      rcases List.mem_cons.1 hy with hy | hy
      · exact hy
      · exact h2 y hy
    | some x =>
      rw [firstError_cons_some] at h
      injection h with h
      subst h
      exact ⟨[], xs, rfl, by simp⟩

theorem firstError_ne_none_iff (errs : List (Option Error)) :
    firstError errs ≠ none ↔ ∃ x ∈ errs, x ≠ none := by
  induction errs with
  | nil => simp [firstError]
  | cons x xs ih =>
    cases x with
    | none => rw [firstError_cons_none, ih]; simp
    | some x => rw [firstError_cons_some]; simp

theorem selected_subset (g : SourceGroup σ) (names : List Name) :
    ∀ e ∈ g.selected names, e ∈ g.Sources := by
  intro e he
  unfold selected at he
  split at he
  · exact (List.mem_filter.1 he).1
  · exact he

theorem Set_setCalls_mem (g : SourceGroup σ) (v : Version) (names : List Name) (w : σ) :
    ∀ c ∈ setCalls (g.Set v names w).events, ∃ e ∈ g.selected names,
      e.2.Disabled = false ∧ e.2.Source.IsReadOnly = false ∧ c.1 = e.1
        ∧ versionToWrite e.2.VPrefix v = Outcome.ret (some c.2) := by
  intro c hc
  rcases setLoop_calls g v (g.selected names)
    ⟨none, [Event.Log "writing versions to sources..."], w, false⟩ c hc with h | h
  · simp [setCalls] at h
  · exact h

theorem Fetch_getCalls (g : SourceGroup σ) (sortFunc : SortFunc σ) (names : List Name) (w : σ) :
    getCalls (g.Fetch sortFunc names w).events
      = (enabledSources (g.selected names)).map (·.1) := by
  rw [(Fetch_spec g sortFunc names w).2.2.1, callGets_names]

theorem unique_of_nodup_keys (l : List (Name × SourceWithMeta σ))
    (hkeys : (l.map (·.1)).Nodup) (a b : Name × SourceWithMeta σ) (ha : a ∈ l) (hb : b ∈ l)
    (h : a.1 = b.1) : a = b :=
  List.inj_on_of_nodup_map hkeys ha hb h

end SourceGroup

/-- C7: `Fetch` calls `Get` once on every selected enabled source, in iteration order,
whatever the earlier calls returned; the error it returns is the first error those calls
returned, so it is non-nil exactly when some call failed; and `SourceGroup.Get` then
returns that error together with a nil version. -/
theorem C7_Fetch_tries_every_source {σ : Type} (g : SourceGroup σ) (sortFunc : SortFunc σ)
    (names : List Name) (w : σ) :
    getCalls (g.Fetch sortFunc names w).events
        = (enabledSources (g.selected names)).map (·.1)
      ∧ ((g.Fetch sortFunc names w).err ≠ none ↔
          ∃ c ∈ (callGets g.getFS (enabledSources (g.selected names)) w).1, c.err ≠ none)
      ∧ (∀ e, (g.Fetch sortFunc names w).err = some e →
          (∃ before c after,
            (callGets g.getFS (enabledSources (g.selected names)) w).1 = before ++ c :: after
              ∧ (∀ b ∈ before, b.err = none) ∧ c.err = some e)
          ∧ (g.Get sortFunc names w).out = Outcome.ret (none, some e)) := by
  obtain ⟨h1, _, _, _⟩ := SourceGroup.Fetch_spec g sortFunc names w
  refine ⟨SourceGroup.Fetch_getCalls g sortFunc names w, ?_, ?_⟩
  · rw [h1, SourceGroup.firstError_ne_none_iff]
    simp
  · intro e he
    constructor
    · rw [h1] at he
      obtain ⟨b, a, hsplit, hb⟩ := SourceGroup.firstError_eq_some _ e he
      obtain ⟨before, rest, hl, hbefore, hrest⟩ := List.map_eq_append_iff.1 hsplit
      obtain ⟨c, after, hr, hc, _⟩ := List.map_eq_cons_iff.1 hrest
      refine ⟨before, c, after, by rw [hl, hr], ?_, hc⟩
      intro x hx
      exact hb _ (by rw [← hbefore]; exact List.mem_map_of_mem _ hx)
    · unfold SourceGroup.Get
      simp [he]

/-- C10: a source whose `Disabled` flag is set is never asked for its version by
`Fetch`, `Get` or `GetMax` and never written by `Set`; a source that is read-only is
never written by `Set`, whatever its `VPrefix` policy. The names of a group are the keys
of a map, hence distinct. -/
theorem C10_disabled_and_read_only_skipped {σ : Type} (g : SourceGroup σ)
    (sortFunc : SortFunc σ) (names : List Name) (versions : List Version) (v : Version)
    (w : σ) (n : Name) (src : SourceWithMeta σ)
    (hkeys : (g.Sources.map (·.1)).Nodup) (hmem : (n, src) ∈ g.Sources) :
    (src.Disabled = true →
        n ∉ getCalls (g.Fetch sortFunc names w).events
        ∧ n ∉ getCalls (g.Get sortFunc names w).events
        ∧ n ∉ getCalls (g.GetMax sortFunc names versions w).events
        ∧ ∀ x, (n, x) ∉ setCalls (g.Set v names w).events)
      ∧ (src.Source.IsReadOnly = true → ∀ x, (n, x) ∉ setCalls (g.Set v names w).events) := by
  have hfetch : src.Disabled = true → n ∉ getCalls (g.Fetch sortFunc names w).events := by
    intro hd hn
    rw [SourceGroup.Fetch_getCalls g sortFunc names w] at hn
    obtain ⟨e, he, hen⟩ := List.mem_map.1 hn
    have he' := List.mem_filter.1 he
    have heq := SourceGroup.unique_of_nodup_keys g.Sources hkeys e (n, src)
      (SourceGroup.selected_subset g names e he'.1) hmem hen
    rw [heq] at he'
    simp [hd] at he'
  have hset : (src.Disabled = true ∨ src.Source.IsReadOnly = true) →
      ∀ x, (n, x) ∉ setCalls (g.Set v names w).events := by
    intro hor x hx
    obtain ⟨e, he, hd, hro, hname, _⟩ := SourceGroup.Set_setCalls_mem g v names w (n, x) hx
    have heq := SourceGroup.unique_of_nodup_keys g.Sources hkeys e (n, src)
      (SourceGroup.selected_subset g names e he) hmem hname.symm
    rw [heq] at hd hro
    rcases hor with h | h
    · simp [h] at hd
    · simp [h] at hro
  refine ⟨fun hd => ⟨hfetch hd, ?_, ?_, hset (Or.inl hd)⟩, fun hro => hset (Or.inr hro)⟩
  · rw [SourceGroup.Get_getCalls]; exact hfetch hd
  · rw [SourceGroup.GetMax_getCalls]
    split
    · exact hfetch hd
    · simp

/-! ## The spelling `Set` writes -/

theorem Version.NewVersion_original (s : GoString) (v : Version)
    (h : Version.NewVersion s = some v) : v.original = s := by
  unfold Version.NewVersion at h
  simp only at h
  split at h
  · exact absurd h (by simp)
  · split at h
    · exact absurd h (by simp)
    · split at h
      · exact absurd h (by simp)
      · split at h
        · exact absurd h (by simp)
        · split at h
          · simp only [Option.some.injEq] at h
            subst h
            rfl
          · exact absurd h (by simp)

theorem MustParse_original (s : String) (y : Option Version)
    (h : MustParse s = Outcome.ret y) : ∃ x, y = some x ∧ x.original = s := by
  unfold MustParse at h
  cases hp : Version.NewVersion s with
  | none => simp [hp] at h
  | some x =>
    simp only [hp, Outcome.ret.injEq] at h
    exact ⟨x, h.symm, Version.NewVersion_original s x hp⟩

theorem HasPrefix_v_append (s : String) : HasPrefix ("v" ++ s) "v" = true := by
  simp [HasPrefix, List.isPrefixOf]

theorem HasPrefix_TrimLeftV (s : String) : HasPrefix (TrimLeftV s) "v" = false := by
  unfold HasPrefix TrimLeftV
  show List.isPrefixOf ['v'] (List.dropWhile (fun x => decide (x = 'v')) s.data) = false
  induction s.data with
  | nil => rfl
  | cons c cs ih =>
    by_cases hc : c = 'v'
    · simp only [List.dropWhile, hc, decide_True]
      exact ih
    · have : ¬ 'v' = c := fun h => hc h.symm
      simp [List.dropWhile, hc, List.isPrefixOf, this]

theorem HasPrefix_String (v : Version) : HasPrefix v.String "v" = false := by
  obtain ⟨c, cs, h, hc⟩ := Version.String_head_isNum v
  have hne : ¬ 'v' = c := by
    intro hv
    rw [← hv] at hc
    exact absurd hc (by decide)
  simp [HasPrefix, h, List.isPrefixOf, hne]

/-- The function `addVPrefix` is idempotent: applied to what it returned, it returns the same. -/
theorem addVPrefix_idem (y z : Option Version) (h : addVPrefix y = Outcome.ret z) :
    addVPrefix z = Outcome.ret z := by
  unfold addVPrefix at h
  by_cases hy : hasVPrefix y = true
  · simp only [hy, if_true, Outcome.ret.injEq] at h
    subst h
    simp [addVPrefix, hy]
  · simp only [hy, if_false, Bool.false_eq_true] at h
    cases y with
    | none => simp at h
    | some x =>
      simp only at h
      obtain ⟨a, ha, horig⟩ := MustParse_original _ z h
      subst ha
      have : hasVPrefix (some a) = true := by
        simp only [hasVPrefix, Version.Original, horig]
        exact HasPrefix_v_append _
      simp [addVPrefix, this]

/-- The function `trimVPrefix` is idempotent: applied to what it returned, it returns the same. -/
theorem trimVPrefix_idem (y z : Option Version) (h : trimVPrefix y = Outcome.ret z) :
    trimVPrefix z = Outcome.ret z := by
  unfold trimVPrefix at h
  by_cases hy : hasVPrefix y = true
  · simp only [hy, Bool.not_true, if_false, Bool.false_eq_true] at h
    cases y with
    | none => simp at h
    | some x =>
      simp only at h
      obtain ⟨a, ha, horig⟩ := MustParse_original _ z h
      subst ha
      have : hasVPrefix (some a) = false := by
        simp only [hasVPrefix, Version.Original, horig]
        exact HasPrefix_TrimLeftV _
      simp [trimVPrefix, this]
  · have hy' : hasVPrefix y = false := by simpa using hy
    simp only [hy', Bool.not_false, if_true, Outcome.ret.injEq] at h
    subst h
    simp [trimVPrefix, hy']

theorem Version.Equal_of_fields (x v : Version) (h1 : x.major = v.major)
    (h2 : x.minor = v.minor) (h3 : x.patch = v.patch) (h4 : x.pre = v.pre) :
    x.Equal v = true := by
  have : x.Compare v = v.Compare v := by
    unfold Version.Compare
    rw [h1, h2, h3, h4]
  simp [Version.Equal, this, Version.Compare_self]

theorem writtenVersion_true (v : Version) : writtenVersion VPrefixTrue v
    = if hasVPrefix (some v) then v else { v with original := "v" ++ v.String } := by
  simp [writtenVersion, VPrefixTrue]

theorem writtenVersion_false (v : Version) : writtenVersion VPrefixFalse v
    = if hasVPrefix (some v) then { v with original := v.String } else v := by
  simp [writtenVersion, VPrefixTrue, VPrefixFalse]

/-- The version written under each policy: the same value in every case, spelled as the
policy asks. -/
theorem writtenVersion_spec (v : Version) :
    writtenVersion VPrefixAuto v = v
      ∧ ((writtenVersion VPrefixTrue v).Equal v = true
        ∧ verToString (some (writtenVersion VPrefixTrue v)) = Outcome.ret ("v" ++ v.String))
      ∧ ((writtenVersion VPrefixFalse v).Equal v = true
        ∧ verToString (some (writtenVersion VPrefixFalse v)) = Outcome.ret v.String) := by
  rw [writtenVersion_true, writtenVersion_false]
  refine ⟨by simp [writtenVersion, VPrefixAuto, VPrefixTrue, VPrefixFalse], ⟨?_, ?_⟩, ⟨?_, ?_⟩⟩
  · by_cases h : hasVPrefix (some v) = true
    · simp [h, Version.Equal, Version.Compare_self]
    · simp only [h, if_false, Bool.false_eq_true]
      exact Version.Equal_of_fields _ _ rfl rfl rfl rfl
  · by_cases h : hasVPrefix (some v) = true
    · simp [h, verToString]
    · simp only [h, if_false, Bool.false_eq_true]
      simp only [verToString, hasVPrefix_v_append, if_true]
      rfl
  · by_cases h : hasVPrefix (some v) = true
    · simp only [h, if_true]
      exact Version.Equal_of_fields _ _ rfl rfl rfl rfl
    · simp [h, Version.Equal, Version.Compare_self]
  · by_cases h : hasVPrefix (some v) = true
    · simp only [h, if_true]
      simp only [verToString, hasVPrefix_String]
      rfl
    · simp [h, verToString]

namespace SourceGroup

variable {σ : Type}

theorem callSets_names (fs : FS) (written : SourceWithMeta σ → Version)
    (l : List (Name × SourceWithMeta σ)) :
    ∀ w, (callSets fs written l w).1.map (·.name) = l.map (·.1) := by
  induction l with
  | nil => intro w; rfl
  | cons e es ih => intro w; simp [callSets, ih]

/-- The method `Set` for a valid version and policies among the three constants, in terms of the
calls it consists of. -/
theorem Set_spec (g : SourceGroup σ) (v : Version) (names : List Name) (w : σ)
    (hv : v.Valid)
    (hmodes : ∀ e ∈ g.Sources, e.2.VPrefix = VPrefixAuto ∨ e.2.VPrefix = VPrefixTrue
      ∨ e.2.VPrefix = VPrefixFalse) :
    (g.Set v names w).out = Outcome.ret
        (firstError (((g.setCallsMade v names w).1.map (·.err)).filter isHardError))
      ∧ setCalls (g.Set v names w).events
        = (g.setCallsMade v names w).1.map (fun c => (c.name, c.v))
      ∧ (g.Set v names w).world = (g.setCallsMade v names w).2 := by
  obtain ⟨h1, h2, h3, h4⟩ := setLoop_spec g v hv (g.selected names)
    (fun e he => hmodes e (selected_subset g names e he))
    ⟨none, [Event.Log "writing versions to sources..."], w, false⟩ rfl
  unfold Set setCallsMade
  simp only [h4, h1, h2, h3]
  simp [setCalls]

theorem firstError_filter_eq_some (errs : List (Option Error)) (e : Error)
    (h : firstError (errs.filter isHardError) = some e) :
    ∃ before after, errs = before ++ some e :: after
      ∧ (∀ x ∈ before, isHardError x = false) ∧ isHardError (some e) = true := by
  induction errs with
  | nil => simp [firstError] at h
  | cons x xs ih =>
    by_cases hx : isHardError x = true
    · cases x with
      | none => simp [isHardError] at hx
      | some y =>
        simp only [List.filter_cons, hx, if_true, firstError_cons_some, Option.some.injEq] at h
        subst h
        exact ⟨[], xs, rfl, by simp, hx⟩
    · simp only [List.filter_cons, hx, if_false, Bool.false_eq_true] at h
      obtain ⟨b, a, h1, h2, h3⟩ := ih h
      refine ⟨x :: b, a, by rw [h1]; rfl, ?_, h3⟩
      intro y hy
      rcases List.mem_cons.1 hy with hy | hy
      · rw [hy]; simpa using hx
      · exact h2 y hy

theorem firstError_filter_eq_none (errs : List (Option Error)) :
    firstError (errs.filter isHardError) = none ↔ ∀ x ∈ errs, isHardError x = false := by
  induction errs with
  | nil => simp [firstError]
  | cons x xs ih =>
    by_cases hx : isHardError x = true
    · cases x with
      | none => simp [isHardError] at hx
      | some y =>
        simp only [List.filter_cons, hx, if_true, firstError_cons_some]
        simp [hx]
    · have hx' : isHardError x = false := by simpa using hx
      simp only [List.filter_cons, hx', if_false, Bool.false_eq_true, ih]
      simp [hx']

theorem isHardError_false_iff (e : Option Error) :
    isHardError e = false ↔ (e = none ∨ errorsIs e Error.errNoChanges = true) := by
  cases e with
  | none => simp [isHardError]
  | some x => simp [isHardError]

end SourceGroup

/-- C8: for a valid version and sources whose `VPrefix` is Auto, True or False, `Set`
calls `Set` once on every selected source that is neither disabled nor read-only, in
iteration order, whatever the earlier calls returned; it returns nil exactly when every
call returned nil or the "no changes" condition, and otherwise the first returned error
that is not "no changes". -/
theorem C8_Set_tries_every_source {σ : Type} (g : SourceGroup σ) (v : Version)
    (names : List Name) (w : σ) (hv : v.Valid)
    (hmodes : ∀ e ∈ g.Sources, e.2.VPrefix = VPrefixAuto ∨ e.2.VPrefix = VPrefixTrue
      ∨ e.2.VPrefix = VPrefixFalse) :
    (setCalls (g.Set v names w).events).map (·.1)
        = (writableSources (g.selected names)).map (·.1)
      ∧ setCalls (g.Set v names w).events
        = (g.setCallsMade v names w).1.map (fun c => (c.name, c.v))
      ∧ ((g.Set v names w).out = Outcome.ret none ↔
          ∀ c ∈ (g.setCallsMade v names w).1,
            c.err = none ∨ errorsIs c.err Error.errNoChanges = true)
      ∧ (¬ (∀ c ∈ (g.setCallsMade v names w).1,
            c.err = none ∨ errorsIs c.err Error.errNoChanges = true) →
          ∃ before c after e, (g.setCallsMade v names w).1 = before ++ c :: after
            ∧ (∀ b ∈ before, b.err = none ∨ errorsIs b.err Error.errNoChanges = true)
            ∧ c.err = some e ∧ errorsIs (some e) Error.errNoChanges = false
            ∧ (g.Set v names w).out = Outcome.ret (some e)) := by
  obtain ⟨h1, h2, _⟩ := SourceGroup.Set_spec g v names w hv hmodes
  have hnone : firstError (((g.setCallsMade v names w).1.map (·.err)).filter isHardError) = none
      ↔ ∀ c ∈ (g.setCallsMade v names w).1,
        c.err = none ∨ errorsIs c.err Error.errNoChanges = true := by
    rw [SourceGroup.firstError_filter_eq_none]
    constructor
    · intro h c hc
      exact (SourceGroup.isHardError_false_iff _).1 (h _ (List.mem_map_of_mem _ hc))
    · intro h x hx
      obtain ⟨c, hc, hcx⟩ := List.mem_map.1 hx
      rw [← hcx]
      exact (SourceGroup.isHardError_false_iff _).2 (h c hc)
  refine ⟨?_, h2, ?_, ?_⟩
  · rw [h2, List.map_map]
    exact SourceGroup.callSets_names _ _ _ w
  · rw [h1, ← hnone]
    simp
  · intro hnot
    cases hfe : firstError (((g.setCallsMade v names w).1.map (·.err)).filter isHardError) with
    | none => exact absurd (hnone.1 hfe) hnot
    | some e =>
      obtain ⟨b, a, hsplit, hb, he⟩ := SourceGroup.firstError_filter_eq_some _ e hfe
      obtain ⟨before, rest, hl, hbefore, hrest⟩ := List.map_eq_append_iff.1 hsplit
      obtain ⟨c, after, hr, hc, _⟩ := List.map_eq_cons_iff.1 hrest
      refine ⟨before, c, after, e, by rw [hl, hr], ?_, hc, ?_, by rw [h1, hfe]⟩
      · intro x hx
        exact (SourceGroup.isHardError_false_iff _).1
          (hb _ (by rw [← hbefore]; exact List.mem_map_of_mem _ hx))
      · simpa [isHardError] using he

/-- C9: for a valid version `v`, every call of a source's `Set` that `SourceGroup.Set`
makes is on a selected source and hands it `v` itself under policy Auto, a version Equal
to `v` whose `verToString` begins with `v` under True, and a version Equal to `v` whose
`verToString` does not begin with `v` under False. `addVPrefix` and `trimVPrefix` return
on `v`, are idempotent, and return their argument unchanged when its spelling fits. -/
theorem C9_written_spelling {σ : Type} (g : SourceGroup σ) (v : Version)
    (names : List Name) (w : σ) (hv : v.Valid) :
    (∀ c ∈ setCalls (g.Set v names w).events, ∃ e ∈ g.selected names, e.1 = c.1
        ∧ (e.2.VPrefix = VPrefixAuto → c.2 = v)
        ∧ (e.2.VPrefix = VPrefixTrue → c.2.Equal v = true
            ∧ ∃ s, verToString (some c.2) = Outcome.ret s ∧ HasPrefix s "v" = true)
        ∧ (e.2.VPrefix = VPrefixFalse → c.2.Equal v = true
            ∧ ∃ s, verToString (some c.2) = Outcome.ret s ∧ HasPrefix s "v" = false))
      ∧ (∃ a, addVPrefix (some v) = Outcome.ret (some a))
      ∧ (∃ a, trimVPrefix (some v) = Outcome.ret (some a))
      ∧ (∀ y z, addVPrefix y = Outcome.ret z → addVPrefix z = Outcome.ret z)
      ∧ (∀ y z, trimVPrefix y = Outcome.ret z → trimVPrefix z = Outcome.ret z)
      ∧ (∀ y, hasVPrefix y = true → addVPrefix y = Outcome.ret y)
      ∧ (∀ y, hasVPrefix y = false → trimVPrefix y = Outcome.ret y) := by
  obtain ⟨ha, ⟨ht1, ht2⟩, ⟨hf1, hf2⟩⟩ := writtenVersion_spec v
  refine ⟨?_, ⟨_, addVPrefix_valid v hv⟩, ⟨_, trimVPrefix_valid v hv⟩, addVPrefix_idem,
    trimVPrefix_idem, ?_, ?_⟩
  · intro c hc
    obtain ⟨e, he, _, _, hname, hw⟩ := SourceGroup.Set_setCalls_mem g v names w c hc
    refine ⟨e, he, hname.symm, ?_, ?_, ?_⟩
    · intro hmode
      rw [SourceGroup.versionToWrite_valid _ v hv (Or.inl hmode), hmode, ha] at hw
      simp only [Outcome.ret.injEq, Option.some.injEq] at hw
      exact hw.symm
    · intro hmode
      rw [SourceGroup.versionToWrite_valid _ v hv (Or.inr (Or.inl hmode)), hmode] at hw
      simp only [Outcome.ret.injEq, Option.some.injEq] at hw
      rw [← hw]
      exact ⟨ht1, _, ht2, HasPrefix_v_append _⟩
    · intro hmode
      rw [SourceGroup.versionToWrite_valid _ v hv (Or.inr (Or.inr hmode)), hmode] at hw
      simp only [Outcome.ret.injEq, Option.some.injEq] at hw
      rw [← hw]
      exact ⟨hf1, _, hf2, HasPrefix_String v⟩
  · intro y hy
    simp [addVPrefix, hy]
  · intro y hy
    simp [trimVPrefix, hy]

/-! ## The order of versions and sorted reports -/

namespace Version

theorem Compare_symm (x y : Version) (hx : x.Valid) (hy : y.Valid) :
    x.Compare y = -(y.Compare x) := Compare_cmpOK.symm x y hx hy

theorem Compare_trans (x y z : Version) (hx : x.Valid) (hy : y.Valid) (hz : z.Valid)
    (h1 : x.Compare y ≤ 0) (h2 : y.Compare z ≤ 0) : x.Compare z ≤ 0 :=
  Compare_cmpOK.trans x y z hx hy hz h1 h2

theorem Compare_ge_trans (x y z : Version) (hx : x.Valid) (hy : y.Valid) (hz : z.Valid)
    (h1 : 0 ≤ x.Compare y) (h2 : 0 ≤ y.Compare z) : 0 ≤ x.Compare z := by
  have a := Compare_symm x y hx hy
  have b := Compare_symm y z hy hz
  have c := Compare_symm x z hx hz
  have := Compare_trans z y x hz hy hx (by omega) (by omega)
  omega

theorem Compare_eq_of_eq (a b V : Version) (ha : a.Valid) (hb : b.Valid) (hV : V.Valid)
    (h1 : a.Compare V = 0) (h2 : b.Compare V = 0) : a.Compare b = 0 := by
  have s1 := Compare_symm b V hb hV
  have s2 := Compare_symm a V ha hV
  have s3 := Compare_symm a b ha hb
  have t1 := Compare_trans a V b ha hV hb (by omega) (by omega)
  have t2 := Compare_trans b V a hb hV ha (by omega) (by omega)
  omega

theorem Compare_lt_of_lt_of_eq (l c V : Version) (hl : l.Valid) (hc : c.Valid) (hV : V.Valid)
    (h1 : l.Compare V < 0) (h2 : c.Compare V = 0) : l.Compare c < 0 := by
  by_contra hcon
  have s1 := Compare_symm l c hl hc
  have s2 := Compare_symm l V hl hV
  have t := Compare_trans V c l hV hc hl (by have := Compare_symm c V hc hV; omega) (by omega)
  omega

end Version

namespace SourceGroup

variable {σ : Type}

theorem reportCmp_some_some (a b : report σ) (av bv : Version) (ha : a.v = some av)
    (hb : b.v = some bv) : reportCmp a b = bv.Compare av := by
  simp [reportCmp, ha, hb]

theorem reportCmp_some_none (a b : report σ) (av : Version) (ha : a.v = some av)
    (hb : b.v = none) : reportCmp a b = -1 := by
  simp [reportCmp, ha, hb]

theorem reportCmp_none_some (a b : report σ) (bv : Version) (ha : a.v = none)
    (hb : b.v = some bv) : reportCmp a b = 1 := by
  simp [reportCmp, ha, hb]

theorem reportCmp_none_none (a b : report σ) (ha : a.v = none) (hb : b.v = none) :
    reportCmp a b = 0 := by
  simp [reportCmp, ha, hb]

theorem reportCmp_trans (a b c : report σ) (ha : ∀ u, a.v = some u → u.Valid)
    (hb : ∀ u, b.v = some u → u.Valid) (hc : ∀ u, c.v = some u → u.Valid)
    (h1 : 0 ≤ reportCmp b a) (h2 : 0 ≤ reportCmp c b) : 0 ≤ reportCmp c a := by
  cases hav : a.v with
  | none =>
    cases hbv : b.v with
    | none =>
      cases hcv : c.v with
      | none => rw [reportCmp_none_none c a hcv hav]
      | some cv => rw [reportCmp_some_none c b cv hcv hbv] at h2; omega
    | some bv => rw [reportCmp_some_none b a bv hbv hav] at h1; omega
  | some av =>
    cases hcv : c.v with
    | none => rw [reportCmp_none_some c a av hcv hav]; decide
    | some cv =>
      cases hbv : b.v with
      | none => rw [reportCmp_some_none c b cv hcv hbv] at h2; omega
      | some bv =>
        rw [reportCmp_some_some b a bv av hbv hav] at h1
        rw [reportCmp_some_some c b cv bv hcv hbv] at h2
        rw [reportCmp_some_some c a cv av hcv hav]
        exact Version.Compare_ge_trans av bv cv (ha av hav) (hb bv hbv) (hc cv hcv) h1 h2

/-- In a list of valid reports that `slices.IsSortedFunc` accepts, every report is
followed only by reports that the comparison does not put strictly before it. -/
theorem pairwise_of_isSortedFunc (l : List (report σ)) (hv : validReports l)
    (h : IsSortedFunc reportCmp l = true) : l.Pairwise fun a b => 0 ≤ reportCmp b a := by
  induction l with
  | nil => exact List.Pairwise.nil
  | cons a l ih =>
    have htail : IsSortedFunc reportCmp l = true := by
      simp only [IsSortedFunc, Bool.and_eq_true] at h
      exact h.2
    have hvl : validReports l := fun r hr => hv r (by simp [hr])
    have ihl := ih hvl htail
    refine List.Pairwise.cons ?_ ihl
    intro b hb
    cases l with
    | nil => simp at hb
    | cons x xs =>
      have hax : 0 ≤ reportCmp x a := by
        simp only [IsSortedFunc, Bool.and_eq_true, decide_eq_true_eq] at h
        exact h.1
      rcases List.mem_cons.1 hb with hbx | hbx
      · rw [hbx]; exact hax
      · have hxb : 0 ≤ reportCmp b x := (List.pairwise_cons.1 ihl).1 b hbx
        exact reportCmp_trans a x b (hv a (by simp)) (hv x (by simp)) (hv b (by simp [hbx]))
          hax hxb

end SourceGroup

/-! ## The reconciliation loop of `Get` -/

namespace SourceGroup

variable {σ : Type}

theorem reconcile_append (g : SourceGroup σ) (l1 l2 : List (report σ)) :
    ∀ st, (g.reconcile (l1 ++ l2) st).1 = (g.reconcile l2 (g.reconcile l1 st).1).1 := by
  induction l1 with
  | nil => intro st; rfl
  | cons r rs ih => intro st; exact ih _

theorem reconcile_cons (g : SourceGroup σ) (r : report σ) (l : List (report σ)) (st : GetState) :
    (g.reconcile (r :: l) st).1 = (g.reconcile l (getStep g st r).1).1 := rfl

theorem getStep_first (g : SourceGroup σ) (st : GetState) (r : report σ) (c : Version)
    (h : st.version = none) (hr : r.v = some c) :
    (getStep g st r).1 = { st with version := some c } := by
  simp [getStep, h, hr]

theorem getStep_agree (g : SourceGroup σ) (st : GetState) (r : report σ) (c : Version)
    (h : st.version = some c) (hr : r.v = none ∨ ∃ u, r.v = some u ∧ c.Equal u = true) :
    (getStep g st r).1 = st := by
  rcases hr with hr | ⟨u, hr, hu⟩
  · simp [getStep, hr]
  · simp [getStep, h, hr, hu]

theorem getStep_lower (g : SourceGroup σ) (st : GetState) (r : report σ) (c lv : Version)
    (h : st.version = some c) (hlow : st.lower = none) (hstrict : g.Strict = false)
    (hr : r.v = some lv) (hcan : r.s.Source.IsCanBeLesser = true)
    (hne : c.Equal lv = false) (hlt : lv.LessThan c = true) :
    (getStep g st r).1 = { st with lower := some lv } := by
  simp [getStep, h, hr, hne, hlow, hstrict, hcan, hlt]

theorem reconcile_agree (g : SourceGroup σ) (c : Version) (l : List (report σ)) :
    ∀ st : GetState, st.version = some c →
      (∀ r ∈ l, r.v = none ∨ ∃ u, r.v = some u ∧ c.Equal u = true) →
      (g.reconcile l st).1 = st := by
  induction l with
  | nil => intro st _ _; rfl
  | cons r rs ih =>
    intro st h hall
    rw [reconcile_cons, getStep_agree g st r c h (hall r (by simp))]
    exact ih st h (fun x hx => hall x (by simp [hx]))

/-- What `Get` returns when no source failed and the loop ended without a conflict on
the valid version `c`: `c`, spelled with a leading `v` when some report was. -/
theorem Get_out_of_consensus (g : SourceGroup σ) (sortFunc : SortFunc σ) (names : List Name)
    (w : σ) (c : Version) (herr : (g.Fetch sortFunc names w).err = none)
    (hver : (g.reconcile (g.Fetch sortFunc names w).reports ⟨none, none, none⟩).1.version
      = some c)
    (hfree : (g.reconcile (g.Fetch sortFunc names w).reports ⟨none, none, none⟩).1.err = none)
    (hc : c.Valid) :
    (g.Get sortFunc names w).out = Outcome.ret
      (some (if (g.Fetch sortFunc names w).vp = true ∧ hasVPrefix (some c) = false then
        { c with original := "v" ++ c.String } else c), none) := by
  unfold Get
  simp only [herr, hver, ne_eq, not_true_eq_false, if_false]
  by_cases hvp : (g.Fetch sortFunc names w).vp = true
  · simp only [hvp, Bool.true_and, reduceCtorEq, not_false_eq_true, decide_True, if_true,
      addVPrefix_valid c hc, true_and]
    rw [finishGet_out]
    by_cases hp : hasVPrefix (some c) = true
    · simp [hfree, hp]
    · simp [hfree, hp]
  · simp only [hvp, Bool.false_and, Bool.false_eq_true, if_false, false_and]
    rw [finishGet_out]
    simp [hfree]

/-- The method `Get` returns a non-nil error only when `Fetch` does: a conflict recorded by the loop
is not returned. -/
theorem Get_error_none (g : SourceGroup σ) (sortFunc : SortFunc σ) (names : List Name)
    (w : σ) (herr : (g.Fetch sortFunc names w).err = none) (v : Option Version)
    (e : Option Error) (h : (g.Get sortFunc names w).out = Outcome.ret (v, e)) : e = none := by
  unfold Get at h
  simp only [herr, ne_eq, not_true_eq_false, if_false] at h
  split at h
  · simp at h
  · rw [finishGet_out] at h
    split at h
    · split at h <;>
      · simp only [Outcome.ret.injEq, Prod.mk.injEq] at h
        exact h.2.symm
    · simp only [Outcome.ret.injEq, Prod.mk.injEq] at h
      exact h.2.symm

end SourceGroup

theorem Version.Equal_iff (a b : Version) : a.Equal b = true ↔ a.Compare b = 0 := by
  simp [Version.Equal]

theorem Version.LessThan_iff (a b : Version) : a.LessThan b = true ↔ a.Compare b < 0 := by
  simp [Version.LessThan]

theorem Version.Compare_with_original (c : Version) (s : GoString) (V : Version) :
    Version.Compare { c with original := s } V = c.Compare V := rfl

/-- What `Get` returns once `Fetch` has returned sorted reports of which one, from a
CanBeLesser source, is strictly lower than `V` and every other one is absent or Equal to
`V`, at least one being Equal to `V`: a version Equal to `V` and a nil error. -/
theorem Get_one_lag_of_sorted {σ : Type} (g : SourceGroup σ) (sortFunc : SortFunc σ)
    (names : List Name) (w : σ) (V lv : Version) (before after : List (report σ))
    (low : report σ)
    (hstrict : g.Strict = false)
    (herr : (g.Fetch sortFunc names w).err = none)
    (hsorted : IsSortedFunc SourceGroup.reportCmp (g.Fetch sortFunc names w).reports = true)
    (hvalid : validReports (g.Fetch sortFunc names w).reports)
    (hV : V.Valid)
    (hsplit : (g.Fetch sortFunc names w).reports = before ++ low :: after)
    (hlow : low.v = some lv ∧ lv.LessThan V = true ∧ low.s.Source.IsCanBeLesser = true)
    (hothers : ∀ r ∈ before ++ after, r.agrees V)
    (hreported : ∃ r ∈ before ++ after, ∃ u, r.v = some u ∧ u.Equal V = true) :
    ∃ x, (g.Get sortFunc names w).out = Outcome.ret (some x, none) ∧ x.Equal V = true := by
  obtain ⟨hlv, hlt, hcan⟩ := hlow
  have hpw := SourceGroup.pairwise_of_isSortedFunc _ hvalid hsorted
  rw [hsplit] at hpw hvalid
  have hlvV : lv.Valid := hvalid low (by simp) lv hlv
  have hlt' : lv.Compare V < 0 := (Version.LessThan_iff lv V).1 hlt
  -- every report before the lower one has a version, Equal to `V`
  have hbefore : ∀ r ∈ before, ∃ u, r.v = some u ∧ u.Equal V = true := by
    intro r hr
    rcases hothers r (by simp [hr]) with hnone | h
    · have h0 : 0 ≤ SourceGroup.reportCmp low r :=
        (List.pairwise_append.1 hpw).2.2 r hr low (by simp)
      rw [SourceGroup.reportCmp_some_none low r lv hlv hnone] at h0
      omega
    · exact h
  -- the list before the lower report is not empty
  cases before with
  | nil =>
    obtain ⟨r, hr, u, hru, huV⟩ := hreported
    have hr' : r ∈ after := by simpa using hr
    have hu : u.Valid := hvalid r (by simp [hr']) u hru
    have h0 : 0 ≤ SourceGroup.reportCmp r low := by
      have hpw' : List.Pairwise (fun a b => 0 ≤ SourceGroup.reportCmp b a) (low :: after) := by
        simpa using hpw
      exact (List.pairwise_cons.1 hpw').1 r hr'
    rw [SourceGroup.reportCmp_some_some r low u lv hru hlv] at h0
    have := Version.Compare_lt_of_lt_of_eq lv u V hlvV hu hV hlt' ((Version.Equal_iff u V).1 huV)
    omega
  | cons h bt =>
    obtain ⟨c, hc, hcV⟩ := hbefore h (by simp)
    have hcValid : c.Valid := hvalid h (by simp) c hc
    have hcV' : c.Compare V = 0 := (Version.Equal_iff c V).1 hcV
    have hagree : ∀ r ∈ bt ++ after, r.v = none ∨ ∃ u, r.v = some u ∧ c.Equal u = true := by
      intro r hr
      have hmem : r ∈ (h :: bt) ++ after := by
        rcases List.mem_append.1 hr with h1 | h1
        · simp [h1]
        · simp [h1]
      rcases hothers r hmem with hnone | ⟨u, hru, huV⟩
      · exact Or.inl hnone
      · right
        have hu : u.Valid := hvalid r (by
          rcases List.mem_append.1 hr with h1 | h1
          · simp [h1]
          · simp [h1]) u hru
        exact ⟨u, hru, (Version.Equal_iff c u).2
          (Version.Compare_eq_of_eq c u V hcValid hu hV hcV' ((Version.Equal_iff u V).1 huV))⟩
    have hlvc : lv.Compare c < 0 := Version.Compare_lt_of_lt_of_eq lv c V hlvV hcValid hV hlt' hcV'
    have hne : c.Equal lv = false := by
      have := Version.Compare_symm c lv hcValid hlvV
      simp only [Version.Equal, beq_eq_false_iff_ne, ne_eq]
      omega
    have hloop : (g.reconcile ((h :: bt) ++ low :: after) ⟨none, none, none⟩).1
        = ⟨some c, some lv, none⟩ := by
      rw [List.cons_append, SourceGroup.reconcile_cons,
        SourceGroup.getStep_first g _ h c rfl hc, SourceGroup.reconcile_append,
        SourceGroup.reconcile_agree g c bt _ rfl (fun r hr => hagree r (by simp [hr])),
        SourceGroup.reconcile_cons,
        SourceGroup.getStep_lower g _ low c lv rfl rfl hstrict hlv hcan hne
          ((Version.LessThan_iff lv c).2 hlvc),
        SourceGroup.reconcile_agree g c after _ rfl (fun r hr => hagree r (by simp [hr]))]
    rw [← hsplit] at hloop
    have hout := SourceGroup.Get_out_of_consensus g sortFunc names w c herr
      (by rw [hloop]) (by rw [hloop]) hcValid
    refine ⟨_, hout, ?_⟩
    rw [Version.Equal_iff]
    split
    · exact hcV'
    · exact hcV'

/-- C5: when no source fails, the loop of `Get` ends without a conflict on the valid
version `c`, and some source's `Get` returned a version whose original text begins with
`v`, then `Get` returns a version Equal to `c` whose `verToString` begins with `v`,
whether or not the text of `c` itself does. -/
theorem C5_leading_v_propagates {σ : Type} (g : SourceGroup σ) (sortFunc : SortFunc σ)
    (names : List Name) (w : σ) (c : Version)
    (herr : (g.Fetch sortFunc names w).err = none)
    (hfree : (g.reconcile (g.Fetch sortFunc names w).reports ⟨none, none, none⟩).1.err = none)
    (hver : (g.reconcile (g.Fetch sortFunc names w).reports ⟨none, none, none⟩).1.version
      = some c)
    (hc : c.Valid)
    (hv : ∃ call ∈ (callGets g.getFS (enabledSources (g.selected names)) w).1,
      call.err = none ∧ hasVPrefix call.v = true) :
    ∃ x s, (g.Get sortFunc names w).out = Outcome.ret (some x, none) ∧ x.Equal c = true
      ∧ verToString (some x) = Outcome.ret s ∧ HasPrefix s "v" = true := by
  have hvp : (g.Fetch sortFunc names w).vp = true := by
    rw [(SourceGroup.Fetch_spec g sortFunc names w).2.1, List.any_eq_true]
    obtain ⟨call, hcall, he, hp⟩ := hv
    exact ⟨call, List.mem_filter.2 ⟨hcall, by simpa using he⟩, hp⟩
  have hout := SourceGroup.Get_out_of_consensus g sortFunc names w c herr hver hfree hc
  by_cases hp : hasVPrefix (some c) = true
  · refine ⟨c, "v" ++ c.String, ?_, ?_, ?_, HasPrefix_v_append _⟩
    · rw [hout]; simp [hp]
    · rw [Version.Equal_iff]; exact Version.Compare_self c
    · simp [verToString, hp]
  · refine ⟨{ c with original := "v" ++ c.String }, "v" ++ c.String, ?_, ?_, ?_,
      HasPrefix_v_append _⟩
    · rw [hout]; simp [hp, hvp]
    · rw [Version.Equal_iff, Version.Compare_with_original]; exact Version.Compare_self c
    · simp only [verToString, hasVPrefix_v_append, if_true]
      rfl

/-! ## `GetMax` -/

namespace SourceGroup

variable {σ : Type}

theorem getMaxReportStep_eq (version : Option Version) (r : report σ) :
    getMaxReportStep version r
      = match r.v with
        | none => version
        | some rv => getMaxVersionStep version rv := by
  unfold getMaxReportStep getMaxVersionStep
  cases hr : r.v with
  | none =>
    cases version <;> simp
  | some rv =>
    cases version with
    | none => simp [Version.GreaterThan, Version.Compare_self]
    | some cur => simp

theorem foldl_getMaxReportStep (reports : List (report σ)) :
    ∀ version, reports.foldl getMaxReportStep version
      = (reports.filterMap (·.v)).foldl getMaxVersionStep version := by
  induction reports with
  | nil => intro version; rfl
  | cons r rs ih =>
    intro version
    rw [List.foldl_cons, ih, getMaxReportStep_eq]
    cases hr : r.v with
    | none => simp [List.filterMap_cons, hr]
    | some rv => simp [List.filterMap_cons, hr]

/-- The fold of `GetMax` from a valid version over valid versions ends on one of them
that is greater than or equal to all of them. -/
theorem foldl_getMaxVersionStep_some (l : List Version) :
    ∀ m0 : Version, m0.Valid → (∀ u ∈ l, u.Valid) →
      ∃ m, l.foldl getMaxVersionStep (some m0) = some m ∧ m ∈ m0 :: l
        ∧ ∀ u ∈ m0 :: l, 0 ≤ m.Compare u := by
  induction l with
  | nil =>
    intro m0 _ _
    refine ⟨m0, rfl, by simp, ?_⟩
    intro u hu
    have : u = m0 := by simpa using hu
    rw [this, Version.Compare_self]
  | cons v vs ih =>
    intro m0 hm0 hl
    have hv : v.Valid := hl v (by simp)
    have hvs : ∀ u ∈ vs, u.Valid := fun u hu => hl u (by simp [hu])
    rw [List.foldl_cons]
    by_cases hgt : v.GreaterThan m0 = true
    · have hstep : getMaxVersionStep (some m0) v = some v := by
        simp [getMaxVersionStep, hgt]
      rw [hstep]
      obtain ⟨m, hm, hmem, hmax⟩ := ih v hv hvs
      have hmValid : m.Valid := by
        rcases List.mem_cons.1 hmem with h | h
        · rw [h]; exact hv
        · exact hvs m h
      refine ⟨m, hm, ?_, ?_⟩
      · rcases List.mem_cons.1 hmem with h | h
        · simp [h]
        · simp [h]
      · intro u hu
        rcases List.mem_cons.1 hu with h | h
        · rw [h]
          have h1 : 0 ≤ m.Compare v := hmax v (by simp)
          have h2 : 0 ≤ v.Compare m0 := by
            have : v.Compare m0 > 0 := by simpa [Version.GreaterThan] using hgt
            omega
          exact Version.Compare_ge_trans m v m0 hmValid hv hm0 h1 h2
        · exact hmax u h
    · have hstep : getMaxVersionStep (some m0) v = some m0 := by
        simp [getMaxVersionStep, hgt]
      rw [hstep]
      obtain ⟨m, hm, hmem, hmax⟩ := ih m0 hm0 hvs
      have hmValid : m.Valid := by
        rcases List.mem_cons.1 hmem with h | h
        · rw [h]; exact hm0
        · exact hvs m h
      refine ⟨m, hm, ?_, ?_⟩
      · rcases List.mem_cons.1 hmem with h | h
        · simp [h]
        · simp [h]
      · intro u hu
        rcases List.mem_cons.1 hu with h | h
        · exact hmax u (by simp [h])
        · rcases List.mem_cons.1 h with h' | h'
          · rw [h']
            have h1 : 0 ≤ m.Compare m0 := hmax m0 (by simp)
            have h2 : 0 ≤ m0.Compare v := by
              have hle : ¬ v.Compare m0 > 0 := by simpa [Version.GreaterThan] using hgt
              have := Version.Compare_symm m0 v hm0 hv
              omega
            exact Version.Compare_ge_trans m m0 v hmValid hm0 hv h1 h2
          · exact hmax u (by simp [h'])

theorem foldl_getMaxVersionStep_none (l : List Version) (hne : l ≠ [])
    (hl : ∀ u ∈ l, u.Valid) :
    ∃ m, l.foldl getMaxVersionStep none = some m ∧ m ∈ l ∧ ∀ u ∈ l, 0 ≤ m.Compare u := by
  cases l with
  | nil => exact absurd rfl hne
  | cons v vs =>
    rw [List.foldl_cons]
    have : getMaxVersionStep none v = some v := rfl
    rw [this]
    exact foldl_getMaxVersionStep_some vs v (hl v (by simp)) (fun u hu => hl u (by simp [hu]))

end SourceGroup

/-- C6: when fetching raises no error and at least one version is available, all
available versions being values the parser produces, `GetMax` returns, with a nil error,
one of the explicit or fetched versions that is greater than or equal to each of them;
with no names it calls no source and leaves the world as it was. -/
theorem C6_GetMax_is_maximum {σ : Type} (g : SourceGroup σ) (sortFunc : SortFunc σ)
    (names : List Name) (versions : List Version) (w : σ)
    (herr : names.length > 0 → (g.Fetch sortFunc names w).err = none)
    (hne : g.available sortFunc names versions w ≠ [])
    (hvalid : ∀ u ∈ g.available sortFunc names versions w, u.Valid) :
    (∃ m, (g.GetMax sortFunc names versions w).out = Outcome.ret (some m, none)
        ∧ m ∈ g.available sortFunc names versions w
        ∧ ∀ u ∈ g.available sortFunc names versions w,
            m.GreaterThan u = true ∨ m.Equal u = true)
      ∧ (names = [] → (g.GetMax sortFunc names versions w).events = []
          ∧ (g.GetMax sortFunc names versions w).world = w) := by
  obtain ⟨m, hm, hmem, hmax⟩ := SourceGroup.foldl_getMaxVersionStep_none _ hne hvalid
  have hge : ∀ u ∈ g.available sortFunc names versions w,
      m.GreaterThan u = true ∨ m.Equal u = true := by
    intro u hu
    have := hmax u hu
    simp only [Version.GreaterThan, Version.Equal, decide_eq_true_eq, beq_iff_eq]
    omega
  constructor
  · refine ⟨m, ?_, hmem, hge⟩
    unfold SourceGroup.available at hm
    rw [List.foldl_append, ← SourceGroup.foldl_getMaxReportStep] at hm
    unfold SourceGroup.GetMax
    by_cases hn : names.length > 0
    · simp only [hn, if_true] at hm ⊢
      simp only [herr hn, ne_eq, not_true_eq_false, if_false, hm]
      simp
    · simp only [hn, if_false] at hm ⊢
      simp only [ne_eq, not_true_eq_false, if_false, hm]
      simp
  · intro hnames
    subst hnames
    unfold SourceGroup.GetMax
    simp only [List.length_nil, gt_iff_lt, lt_self_iff_false, if_false, ne_eq,
      not_true_eq_false]
    split
    · split <;> exact ⟨rfl, rfl⟩
    · exact ⟨rfl, rfl⟩

/-! ## Insertion sort has the contract of `slices.SortFunc` -/

theorem insertSorted_perm {α : Type} (cmp : α → α → Int) (a : α) (l : List α) :
    (insertSorted cmp a l).Perm (a :: l) := by
  induction l with
  | nil => exact List.Perm.refl _
  | cons b l ih =>
    unfold insertSorted
    split
    · exact List.Perm.refl _
    · exact (List.Perm.cons b ih).trans (List.Perm.swap a b l)

theorem insertionSortFunc_perm {α : Type} (cmp : α → α → Int) (l : List α) :
    (insertionSortFunc cmp l).Perm l := by
  induction l with
  | nil => exact List.Perm.refl _
  | cons a l ih =>
    unfold insertionSortFunc
    exact (insertSorted_perm cmp a _).trans (List.Perm.cons a ih)

theorem insertSorted_pairwise {α : Type} {P : α → Prop} {cmp : α → α → Int}
    (h : CmpOK P cmp) (a : α) (ha : P a) (l : List α) (hl : ∀ x ∈ l, P x)
    (hs : l.Pairwise fun x y => 0 ≤ cmp y x) :
    (insertSorted cmp a l).Pairwise fun x y => 0 ≤ cmp y x := by
  induction l with
  | nil => simp [insertSorted]
  | cons b l ih =>
    have hb : P b := hl b (by simp)
    have hl' : ∀ x ∈ l, P x := fun x hx => hl x (by simp [hx])
    obtain ⟨hbl, hsl⟩ := List.pairwise_cons.1 hs
    have hsym := h.symm a b ha hb
    unfold insertSorted
    split
    · rename_i hab
      refine List.Pairwise.cons ?_ hs
      intro x hx
      rcases List.mem_cons.1 hx with hxb | hxl
      · rw [hxb]; omega
      · have hbx : 0 ≤ cmp x b := hbl x hxl
        have hx' : P x := hl' x hxl
        have s1 := h.symm x b hx' hb
        have s2 := h.symm x a hx' ha
        have := h.trans a b x ha hb hx' hab (by omega)
        omega
    · rename_i hab
      refine List.Pairwise.cons ?_ (ih hl' hsl)
      intro x hx
      have hmem := (insertSorted_perm cmp a l).subset hx
      rcases List.mem_cons.1 hmem with hxa | hxl
      · rw [hxa]; omega
      · exact hbl x hxl

theorem insertionSortFunc_pairwise {α : Type} {P : α → Prop} {cmp : α → α → Int}
    (h : CmpOK P cmp) (l : List α) (hl : ∀ x ∈ l, P x) :
    (insertionSortFunc cmp l).Pairwise fun x y => 0 ≤ cmp y x := by
  induction l with
  | nil => simp [insertionSortFunc]
  | cons a l ih =>
    unfold insertionSortFunc
    have hl' : ∀ x ∈ l, P x := fun x hx => hl x (by simp [hx])
    apply insertSorted_pairwise h a (hl a (by simp)) _ _ (ih hl')
    intro x hx
    exact hl' x ((insertionSortFunc_perm cmp l).subset hx)

theorem isSortedFunc_of_pairwise {α : Type} (cmp : α → α → Int) (l : List α)
    (h : l.Pairwise fun x y => 0 ≤ cmp y x) : IsSortedFunc cmp l = true := by
  induction l with
  | nil => rfl
  | cons a l ih =>
    obtain ⟨ha, hl⟩ := List.pairwise_cons.1 h
    cases l with
    | nil => rfl
    | cons b l =>
      simp only [IsSortedFunc, Bool.and_eq_true, decide_eq_true_eq]
      refine ⟨ha b (by simp), ?_⟩
      have := ih hl
      simpa [IsSortedFunc] using this

namespace SourceGroup

variable {σ : Type}

theorem reportCmp_symm (x y : report σ) (hx : ∀ u, x.v = some u → u.Valid)
    (hy : ∀ u, y.v = some u → u.Valid) : reportCmp x y = -(reportCmp y x) := by
  cases hxv : x.v with
  | none =>
    cases hyv : y.v with
    | none => rw [reportCmp_none_none x y hxv hyv, reportCmp_none_none y x hyv hxv]; rfl
    | some b => rw [reportCmp_none_some x y b hxv hyv, reportCmp_some_none y x b hyv hxv]; rfl
  | some a =>
    cases hyv : y.v with
    | none => rw [reportCmp_some_none x y a hxv hyv, reportCmp_none_some y x a hyv hxv]
    | some b =>
      rw [reportCmp_some_some x y a b hxv hyv, reportCmp_some_some y x b a hyv hxv]
      exact Version.Compare_symm b a (hy b hyv) (hx a hxv)

/-- The comparison `Fetch` sorts with is a total preorder on reports of valid versions. -/
theorem reportCmp_cmpOK :
    CmpOK (fun r : report σ => ∀ u, r.v = some u → u.Valid) reportCmp where
  refl := by
    intro x
    cases hx : x.v with
    | none => exact reportCmp_none_none x x hx hx
    | some u => rw [reportCmp_some_some x x u u hx hx]; exact Version.Compare_self u
  symm := reportCmp_symm
  trans := by
    intro x y z hx hy hz h1 h2
    have s1 := reportCmp_symm x y hx hy
    have s2 := reportCmp_symm y z hy hz
    have s3 := reportCmp_symm x z hx hz
    have := reportCmp_trans x y z hx hy hz (by omega) (by omega)
    omega

/-- With insertion sort as the sorting function, `Fetch` returns, when no source failed
with valid versions reported, a permutation of the collected reports that
`slices.IsSortedFunc` accepts: descending by version, absent reports last. -/
theorem insertionSortFunc_contract (l : List (report σ)) (hl : validReports l) :
    (insertionSortFunc reportCmp l).Perm l
      ∧ IsSortedFunc reportCmp (insertionSortFunc reportCmp l) = true :=
  ⟨insertionSortFunc_perm reportCmp l,
    isSortedFunc_of_pairwise reportCmp _ (insertionSortFunc_pairwise reportCmp_cmpOK l hl)⟩

end SourceGroup

/-! ## The claims on concrete runs -/

/-- C1 (the code at the failing input): two sources that cannot lag report 1.2.0 and
1.3.0. In strict and in non-strict mode the loop of `Get` reports the conflict on the
error sink, yet `Get` returns the default version 0.1.0 with a nil error. -/
theorem C1_conflict_error_not_returned :
    ∀ strict : Bool,
      ((debugGroup "" strict conflictSources).Get insertionSortFunc [] ()).out
          = Outcome.ret (some (plainVersion 0 1 0 "0.1.0"), none)
        ∧ Event.Err "  A report different version: 1.2.0"
          ∈ ((debugGroup "" strict conflictSources).Get insertionSortFunc [] ()).events := by
  decide

/-- C2 (the code at the failing input): sources report 1.2.0, 1.2.0 and 1.1.9. In strict
mode, and in non-strict mode when the lagging source is not CanBeLesser, `Get` returns a
nil error, with version 0.1.0 when no default version is configured and a nil version
when one is. -/
theorem C2_lag_conflict_error_not_returned :
    ((debugGroup "" true (lagSources true)).Get insertionSortFunc [] ()).out
        = Outcome.ret (some (plainVersion 0 1 0 "0.1.0"), none)
      ∧ ((debugGroup "" false (lagSources false)).Get insertionSortFunc [] ()).out
        = Outcome.ret (some (plainVersion 0 1 0 "0.1.0"), none)
      ∧ ((debugGroup "3.0.0" true (lagSources true)).Get insertionSortFunc [] ()).out
        = Outcome.ret (none, none)
      ∧ Event.Err "  Tag report different version: 1.1.9"
        ∈ ((debugGroup "" true (lagSources true)).Get insertionSortFunc [] ()).events := by
  decide

/-- C4 (the code at the failing input): no source reports a version and the default
version is "2.0.0". `Get` returns a nil version with a nil error, while `GetMax` on the
same group returns 2.0.0; with an empty default version `Get` returns 0.1.0. -/
theorem C4_default_version_not_parsed :
    ((debugGroup "2.0.0" false silentSources).Get insertionSortFunc [] ()).out
        = Outcome.ret (none, none)
      ∧ ((debugGroup "2.0.0" false silentSources).GetMax insertionSortFunc [] [] ()).out
        = Outcome.ret (some (plainVersion 2 0 0 "2.0.0"), none)
      ∧ ((debugGroup "" false silentSources).Get insertionSortFunc [] ()).out
        = Outcome.ret (some (plainVersion 0 1 0 "0.1.0"), none) := by
  decide

theorem validReports_of_all {σ : Type} (l : List (report σ))
    (h : l.all (fun r => match r.v with
      | none => true
      | some u => decide u.Valid) = true) : validReports l := by
  intro r hr u hu
  have := List.all_eq_true.1 h r hr
  simpa [hu] using this

/-- C5 where the consensus 1.2.0 was reported without a leading `v` and another source
reported `v1.2.0`. -/
theorem C5_leading_v_propagates_witness :
    ∃ x s, ((debugGroup "" false mixedSpellingSources).Get insertionSortFunc [] ()).out
        = Outcome.ret (some x, none) ∧ x.Equal (plainVersion 1 2 0 "1.2.0") = true
      ∧ verToString (some x) = Outcome.ret s ∧ HasPrefix s "v" = true :=
  C5_leading_v_propagates (debugGroup "" false mixedSpellingSources) insertionSortFunc [] ()
    (plainVersion 1 2 0 "1.2.0") (by decide) (by decide) (by decide) (by decide)
    ⟨⟨"B", ⟨VPrefixAuto, false, (⟨"v1.2.0", false, false⟩ : DebugSource).toSource⟩,
        some (plainVersion 1 2 0 "v1.2.0"), none⟩,
      List.mem_cons_of_mem _ (List.mem_cons_self _ _), rfl, by decide⟩

/-- C6 at the spec's example: no names, explicit versions 2.0.0 and 1.0.0. -/
theorem C6_GetMax_is_maximum_witness :
    (∃ m, ((debugGroup "" false conflictSources).GetMax insertionSortFunc []
          [plainVersion 2 0 0 "2.0.0", plainVersion 1 0 0 "1.0.0"] ()).out
          = Outcome.ret (some m, none)
        ∧ m ∈ (debugGroup "" false conflictSources).available insertionSortFunc []
          [plainVersion 2 0 0 "2.0.0", plainVersion 1 0 0 "1.0.0"] ()
        ∧ ∀ u ∈ (debugGroup "" false conflictSources).available insertionSortFunc []
            [plainVersion 2 0 0 "2.0.0", plainVersion 1 0 0 "1.0.0"] (),
            m.GreaterThan u = true ∨ m.Equal u = true)
      ∧ (([] : List Name) = [] →
          ((debugGroup "" false conflictSources).GetMax insertionSortFunc []
            [plainVersion 2 0 0 "2.0.0", plainVersion 1 0 0 "1.0.0"] ()).events = []
          ∧ ((debugGroup "" false conflictSources).GetMax insertionSortFunc []
            [plainVersion 2 0 0 "2.0.0", plainVersion 1 0 0 "1.0.0"] ()).world = ()) :=
  C6_GetMax_is_maximum (debugGroup "" false conflictSources) insertionSortFunc []
    [plainVersion 2 0 0 "2.0.0", plainVersion 1 0 0 "1.0.0"] ()
    (fun h => absurd h (by decide)) (by decide) (by decide)

/-- C8 on a group with one source of each policy, a disabled and a read-only source. -/
theorem C8_Set_tries_every_source_witness :
    (plainVersion 1 2 0 "1.2.0").Valid
      ∧ (setCalls (policyGroup.Set (plainVersion 1 2 0 "1.2.0") [] ()).events).map (·.1)
        = (writableSources (policyGroup.selected [])).map (·.1)
      ∧ ((policyGroup.Set (plainVersion 1 2 0 "1.2.0") [] ()).out = Outcome.ret none ↔
          ∀ c ∈ (policyGroup.setCallsMade (plainVersion 1 2 0 "1.2.0") [] ()).1,
            c.err = none ∨ errorsIs c.err Error.errNoChanges = true) :=
  ⟨by decide,
    (C8_Set_tries_every_source policyGroup (plainVersion 1 2 0 "1.2.0") [] () (by decide)
      (by decide)).1,
    (C8_Set_tries_every_source policyGroup (plainVersion 1 2 0 "1.2.0") [] () (by decide)
      (by decide)).2.2.1⟩

/-- C9 on a group with one source of each policy: every call of `Set` made when
writing 1.2.0 obeys the policy of its source. -/
theorem C9_written_spelling_witness :
    (plainVersion 1 2 0 "1.2.0").Valid
      ∧ ∀ c ∈ setCalls (policyGroup.Set (plainVersion 1 2 0 "1.2.0") [] ()).events,
        ∃ e ∈ policyGroup.selected [], e.1 = c.1
          ∧ (e.2.VPrefix = VPrefixAuto → c.2 = plainVersion 1 2 0 "1.2.0")
          ∧ (e.2.VPrefix = VPrefixTrue → c.2.Equal (plainVersion 1 2 0 "1.2.0") = true
              ∧ ∃ s, verToString (some c.2) = Outcome.ret s ∧ HasPrefix s "v" = true)
          ∧ (e.2.VPrefix = VPrefixFalse → c.2.Equal (plainVersion 1 2 0 "1.2.0") = true
              ∧ ∃ s, verToString (some c.2) = Outcome.ret s ∧ HasPrefix s "v" = false) :=
  ⟨by decide,
    (C9_written_spelling policyGroup (plainVersion 1 2 0 "1.2.0") [] () (by decide)).1⟩

/-- C10 on a group with a disabled source `Off` and a read-only source `Locked`. -/
theorem C10_disabled_and_read_only_skipped_witness :
    (policyGroup.Sources.map (·.1)).Nodup
      ∧ "Off" ∉ getCalls (policyGroup.Get insertionSortFunc [] ()).events
      ∧ (∀ x, ("Off", x) ∉ setCalls (policyGroup.Set (plainVersion 1 2 0 "1.2.0") [] ()).events)
      ∧ (∀ x, ("Locked", x)
          ∉ setCalls (policyGroup.Set (plainVersion 1 2 0 "1.2.0") [] ()).events) :=
  ⟨by decide,
    ((C10_disabled_and_read_only_skipped policyGroup insertionSortFunc [] []
      (plainVersion 1 2 0 "1.2.0") () "Off" offSource (by decide)
      (List.mem_cons_of_mem _ (List.mem_cons_of_mem _ (List.mem_cons_of_mem _
        (List.mem_cons_self _ _))))).1 rfl).2.1,
    ((C10_disabled_and_read_only_skipped policyGroup insertionSortFunc [] []
      (plainVersion 1 2 0 "1.2.0") () "Off" offSource (by decide)
      (List.mem_cons_of_mem _ (List.mem_cons_of_mem _ (List.mem_cons_of_mem _
        (List.mem_cons_self _ _))))).1 rfl).2.2.2,
    (C10_disabled_and_read_only_skipped policyGroup insertionSortFunc [] []
      (plainVersion 1 2 0 "1.2.0") () "Locked" lockedSource (by decide)
      (List.mem_cons_of_mem _ (List.mem_cons_of_mem _ (List.mem_cons_of_mem _
        (List.mem_cons_of_mem _ (List.mem_cons_self _ _)))))).2 rfl⟩

/-! ## Names of sources: `startsWithCapital` and `verify` -/

theorem startsWithCapital_iff (t : UnicodeTables) (s : String) :
    startsWithCapital t s = true ↔ StartsWithUpper t s := by
  unfold startsWithCapital StartsWithUpper
  cases h : s.data with
  | nil => simp
  | cons r rest => simp

theorem startsWithCapital_false_iff (t : UnicodeTables) (s : String) :
    startsWithCapital t s = false ↔ ¬ StartsWithUpper t s := by
  rw [← startsWithCapital_iff]
  simp

theorem verifyNames_none_iff (t : UnicodeTables) (names : List Name) :
    verifyNames t names = none ↔ ∀ n ∈ names, StartsWithUpper t n := by
  induction names with
  | nil => simp [verifyNames]
  | cons n ns ih =>
    unfold verifyNames
    by_cases h : startsWithCapital t n = true
    · simp [h, ih, (startsWithCapital_iff t n).1 h]
    · have h2 : ¬ StartsWithUpper t n := fun hc => h ((startsWithCapital_iff t n).2 hc)
      simp [h, h2]

theorem verifyNames_some (t : UnicodeTables) (names : List Name) (e : Error)
    (h : verifyNames t names = some e) :
    ∃ n ∈ names, ¬ StartsWithUpper t n ∧ e = Error.other (n ++ " must be in CamelCase") := by
  induction names with
  | nil => simp [verifyNames] at h
  | cons n ns ih =>
    unfold verifyNames at h
    by_cases hc : startsWithCapital t n = true
    · simp only [hc, Bool.not_true, Bool.false_eq_true, if_false] at h
      obtain ⟨m, hm, h1, h2⟩ := ih h
      exact ⟨m, List.mem_cons_of_mem _ hm, h1, h2⟩
    · have h2 : ¬ StartsWithUpper t n := fun hx => hc ((startsWithCapital_iff t n).2 hx)
      simp only [Bool.not_eq_true] at hc
      simp only [hc, Bool.not_false, if_true, Option.some.injEq] at h
      exact ⟨n, List.mem_cons_self _ _, h2, h.symm⟩

/-- The two results of `NewGroupSource`: an error of `verify` and no group, or the group
with the two views and no error. -/
theorem NewGroupSource_cases {σ : Type} (t : UnicodeTables) (defaultVersion : String)
    (sources : List (Name × SourceWithMeta σ)) (strict : Bool) (fs : FS)
    (ignoredFiles roFiles : List String) :
    (∃ e, verifyNames t (sources.map (·.1)) = some e
        ∧ NewGroupSource t defaultVersion sources strict fs ignoredFiles roFiles = (none, some e))
      ∨ (verifyNames t (sources.map (·.1)) = none
        ∧ NewGroupSource t defaultVersion sources strict fs ignoredFiles roFiles
          = (some ⟨defaultVersion, sources, strict, FS.filteredFS fs ignoredFiles,
              FS.filteredFS (FS.filteredFS fs ignoredFiles) roFiles, ignoredFiles, roFiles⟩,
            none)) := by
  unfold NewGroupSource SourceGroup.verify
  cases h : verifyNames t (sources.map (·.1)) with
  | none => exact Or.inr ⟨rfl, rfl⟩
  | some e => exact Or.inl ⟨e, rfl, rfl⟩

/-- The two results of `GroupFromToml` on a file that loads, has the subtree and
decodes. -/
theorem GroupFromToml_cases {σ τ : Type} (t : UnicodeTables) (lib : TomlLib σ τ) (data : Bytes)
    (fs : FS) (subtree : String) (tree : τ) (stree : Option τ) (gf : GroupFile σ)
    (hload : lib.LoadBytes data = Except.ok tree) (hget : lib.Get tree subtree = some stree)
    (hun : lib.Unmarshal (stree.getD tree) = Except.ok gf) :
    (∃ e, verifyNames t (gf.Sources.map (·.1)) = some e
        ∧ GroupFromToml t lib data fs subtree = (none, some e))
      ∨ (verifyNames t (gf.Sources.map (·.1)) = none
        ∧ GroupFromToml t lib data fs subtree
          = (some ⟨gf.DefaultVersion, gf.Sources, gf.Strict, FS.filteredFS fs gf.IgnoredFiles,
              FS.filteredFS (FS.filteredFS fs gf.IgnoredFiles) gf.ReadOnlyFiles,
              gf.IgnoredFiles, gf.ReadOnlyFiles⟩, none)) := by
  unfold GroupFromToml SourceGroup.verify
  simp only [hload, hget, hun]
  cases h : verifyNames t (gf.Sources.map (·.1)) with
  | none => exact Or.inr ⟨rfl, rfl⟩
  | some e => exact Or.inl ⟨e, rfl, rfl⟩

/-- An ASCII rune that is not one of `A`-`Z` does not start a name. -/
theorem startsWithCapital_ascii (t : UnicodeTables) (c : Char) (rest : List Char)
    (hc : c.toNat < 128) :
    startsWithCapital t ⟨c :: rest⟩ = (decide (65 ≤ c.toNat) && decide (c.toNat ≤ 90)) := by
  unfold startsWithCapital IsLetter IsUpper
  simp only [hc, if_true]
  by_cases h1 : 65 ≤ c.toNat <;> by_cases h2 : c.toNat ≤ 90 <;> simp [h1, h2]

/-- C11: `NewGroupSource` returns an error and no group if and only if some key of the
sources map does not start with an uppercase letter, and otherwise the group and no
error; so does `GroupFromToml` on a file that loads, has the subtree and decodes. Every
group they return has the given sources, and all its names start with an uppercase
letter. The empty name and a name starting with an ASCII rune other than `A`-`Z` (a
digit, the underscore, a lowercase letter) do not start with an uppercase letter, and a
name starting with one of `A`-`Z` does. -/
theorem C11_names_start_with_capital {σ τ : Type} (t : UnicodeTables) (defaultVersion : String)
    (sources : List (Name × SourceWithMeta σ)) (strict : Bool) (fs : FS)
    (ignoredFiles roFiles : List String) (lib : TomlLib σ τ) (data : Bytes) (subtree : String)
    (tree : τ) (stree : Option τ) (gf : GroupFile σ)
    (hload : lib.LoadBytes data = Except.ok tree) (hget : lib.Get tree subtree = some stree)
    (hun : lib.Unmarshal (stree.getD tree) = Except.ok gf) :
    (((NewGroupSource t defaultVersion sources strict fs ignoredFiles roFiles).1 = none
          ∧ (NewGroupSource t defaultVersion sources strict fs ignoredFiles roFiles).2 ≠ none)
        ↔ ∃ e ∈ sources, ¬ StartsWithUpper t e.1)
      ∧ ((∃ g, NewGroupSource t defaultVersion sources strict fs ignoredFiles roFiles
            = (some g, none) ∧ g.Sources = sources ∧ ∀ e ∈ g.Sources, StartsWithUpper t e.1)
        ↔ ¬ ∃ e ∈ sources, ¬ StartsWithUpper t e.1)
      ∧ (((GroupFromToml t lib data fs subtree).1 = none
          ∧ (GroupFromToml t lib data fs subtree).2 ≠ none)
        ↔ ∃ e ∈ gf.Sources, ¬ StartsWithUpper t e.1)
      ∧ ((∃ g, GroupFromToml t lib data fs subtree = (some g, none) ∧ g.Sources = gf.Sources
            ∧ ∀ e ∈ g.Sources, StartsWithUpper t e.1)
        ↔ ¬ ∃ e ∈ gf.Sources, ¬ StartsWithUpper t e.1)
      ∧ ¬ StartsWithUpper t ""
      ∧ (∀ c rest, c.toNat < 128 → (c.toNat < 65 ∨ 90 < c.toNat) →
          ¬ StartsWithUpper t ⟨c :: rest⟩)
      ∧ (∀ c rest, 65 ≤ c.toNat → c.toNat ≤ 90 → StartsWithUpper t ⟨c :: rest⟩) := by
  have key : ∀ l : List (Name × SourceWithMeta σ),
      (verifyNames t (l.map (·.1)) = none ↔ ¬ ∃ e ∈ l, ¬ StartsWithUpper t e.1) := by
    intro l
    rw [verifyNames_none_iff]
    simp
  refine ⟨?_, ?_, ?_, ?_, ?_, ?_, ?_⟩
  · rcases NewGroupSource_cases t defaultVersion sources strict fs ignoredFiles roFiles with
      ⟨e, he, h⟩ | ⟨hn, h⟩
    · rw [h]
      have : ¬ verifyNames t (sources.map (·.1)) = none := by rw [he]; simp
      rw [key] at this
      simpa using this
    · rw [h]
      have := (key sources).1 hn
      simp only [reduceCtorEq, ne_eq, not_true_eq_false, and_false, false_iff]
      exact this
  · rcases NewGroupSource_cases t defaultVersion sources strict fs ignoredFiles roFiles with
      ⟨e, he, h⟩ | ⟨hn, h⟩
    · rw [h]
      have : ¬ verifyNames t (sources.map (·.1)) = none := by rw [he]; simp
      rw [key] at this
      simp only [Prod.mk.injEq, reduceCtorEq, false_and, and_false, exists_false, false_iff]
      exact this
    · rw [h]
      have h2 := (key sources).1 hn
      refine ⟨fun _ => h2, fun _ => ⟨_, rfl, rfl, ?_⟩⟩
      intro e he
      by_contra hc
      exact h2 ⟨e, he, hc⟩
  · rcases GroupFromToml_cases t lib data fs subtree tree stree gf hload hget hun with
      ⟨e, he, h⟩ | ⟨hn, h⟩
    · rw [h]
      have : ¬ verifyNames t (gf.Sources.map (·.1)) = none := by rw [he]; simp
      rw [key] at this
      simpa using this
    · rw [h]
      have := (key gf.Sources).1 hn
      simp only [reduceCtorEq, ne_eq, not_true_eq_false, and_false, false_iff]
      exact this
  · rcases GroupFromToml_cases t lib data fs subtree tree stree gf hload hget hun with
      ⟨e, he, h⟩ | ⟨hn, h⟩
    · rw [h]
      have : ¬ verifyNames t (gf.Sources.map (·.1)) = none := by rw [he]; simp
      rw [key] at this
      simp only [Prod.mk.injEq, reduceCtorEq, false_and, and_false, exists_false, false_iff]
      exact this
    · rw [h]
      have h2 := (key gf.Sources).1 hn
      refine ⟨fun _ => h2, fun _ => ⟨_, rfl, rfl, ?_⟩⟩
      intro e he
      by_contra hc
      exact h2 ⟨e, he, hc⟩
  · rw [← startsWithCapital_iff]
    simp [startsWithCapital]
  · intro c rest hc hout
    rw [← startsWithCapital_iff, startsWithCapital_ascii t c rest hc]
    rcases hout with h | h
    · simp; omega
    · simp; omega
  · intro c rest h1 h2
    rw [← startsWithCapital_iff, startsWithCapital_ascii t c rest (by omega)]
    simp [h1, h2]

theorem not_startsWithUpper_debug : ¬ StartsWithUpper asciiTables "debug" := by
  rw [← startsWithCapital_iff]
  decide

/-- C11 on the decoder `nameToml`: the file `debug` gives a group whose only name starts
with a lowercase letter, and both constructors refuse it. -/
theorem C11_names_start_with_capital_witness :
    nameToml.LoadBytes "debug" = Except.ok "debug"
      ∧ nameToml.Get "debug" "" = some (some "debug")
      ∧ ((NewGroupSource asciiTables "" [("debug", offSource)] false FS.osRootFS [] []).1 = none
        ∧ (NewGroupSource asciiTables "" [("debug", offSource)] false FS.osRootFS [] []).2 ≠ none)
      ∧ ((GroupFromToml asciiTables nameToml "debug" FS.osRootFS "").1 = none
        ∧ (GroupFromToml asciiTables nameToml "debug" FS.osRootFS "").2 ≠ none) :=
  ⟨rfl, rfl,
    (C11_names_start_with_capital asciiTables "" [("debug", offSource)] false FS.osRootFS [] []
      nameToml "debug" "" "debug" (some "debug")
      ⟨"", [("debug", ⟨VPrefixAuto, false, (⟨"1.2.0", false, false⟩ : DebugSource).toSource⟩)],
        false, [], []⟩ rfl rfl rfl).1.2
      ⟨("debug", offSource), List.mem_cons_self _ _, not_startsWithUpper_debug⟩,
    (C11_names_start_with_capital asciiTables "" [("debug", offSource)] false FS.osRootFS [] []
      nameToml "debug" "" "debug" (some "debug")
      ⟨"", [("debug", ⟨VPrefixAuto, false, (⟨"1.2.0", false, false⟩ : DebugSource).toSource⟩)],
        false, [], []⟩ rfl rfl rfl).2.2.1.2
      ⟨("debug", ⟨VPrefixAuto, false, (⟨"1.2.0", false, false⟩ : DebugSource).toSource⟩),
        List.mem_cons_self _ _, not_startsWithUpper_debug⟩⟩

/-! ## `GroupFromConfig` -/

/-- A result of `GroupFromToml` with an error has no group. -/
theorem GroupFromToml_error {σ τ : Type} (t : UnicodeTables) (lib : TomlLib σ τ) (data : Bytes)
    (fs : FS) (subtree : String) (e : Error)
    (h : (GroupFromToml t lib data fs subtree).2 = some e) :
    (GroupFromToml t lib data fs subtree).1 = none := by
  unfold GroupFromToml at h ⊢
  cases h1 : lib.LoadBytes data with
  | error e1 => rfl
  | ok tree =>
    simp only [h1] at h ⊢
    cases h2 : lib.Get tree subtree with
    | none => rfl
    | some stree =>
      simp only [h2] at h ⊢
      cases h3 : lib.Unmarshal (stree.getD tree) with
      | error e3 => rfl
      | ok gf =>
        simp only [h3] at h ⊢
        split
        · rfl
        · rename_i h4
          rw [h4] at h
          simp at h

/-- The loop of `GroupFromConfig` passes over the candidates that do not open. -/
theorem configLoop_skip {σ τ : Type} (t : UnicodeTables) (lib : TomlLib σ τ) (disk : Disk)
    (fs : FS) (defaultSources : List (Name × SourceWithMeta σ)) (strict : Bool)
    (pre rest : List (String × String)) (hpre : ∀ f ∈ pre, ∃ e, disk.file f.1 = Except.error e) :
    configLoop t lib disk fs defaultSources strict (pre ++ rest)
      = configLoop t lib disk fs defaultSources strict rest := by
  induction pre with
  | nil => rfl
  | cons f fs1 ih =>
    obtain ⟨e, he⟩ := hpre f (List.mem_cons_self _ _)
    rw [List.cons_append, configLoop]
    simp only [he]
    exact ih fun x hx => hpre x (List.mem_cons_of_mem _ hx)

/-- The loop of `GroupFromConfig` at a candidate that opens and for which
`GroupFromToml` returns an error other than `errSubtreeNotFound`: the error is dropped,
and the nil group pointer is dereferenced in strict mode and returned otherwise. -/
theorem configLoop_error {σ τ : Type} (t : UnicodeTables) (lib : TomlLib σ τ) (disk : Disk)
    (fs : FS) (defaultSources : List (Name × SourceWithMeta σ)) (strict : Bool)
    (file : String × String) (rest : List (String × String)) (bytes : Bytes) (e : Error)
    (hread : disk.file file.1 = Except.ok bytes)
    (herr : (GroupFromToml t lib bytes fs file.2).2 = some e)
    (hnot : e.Is Error.errSubtreeNotFound = false) :
    configLoop t lib disk fs defaultSources strict (file :: rest)
      = if strict then Outcome.panic else Outcome.ret (none, none) := by
  rw [configLoop]
  simp only [hread]
  have h1 := GroupFromToml_error t lib bytes fs file.2 e herr
  have h2 : errorsIs (GroupFromToml t lib bytes fs file.2).2 Error.errSubtreeNotFound = false := by
    rw [herr]
    simpa [errorsIs] using hnot
  rw [h2, h1]
  cases strict <;> simp [finishConfig]

/-- C12: a candidate of `GroupFromConfig` is the first one that opens, and it is a
malformed group file (it does not load), or names an unknown source type (it does not
decode), or holds a name that does not start with an uppercase letter; the error of the
library is not `errSubtreeNotFound`. Then `GroupFromToml` returns an error for it, and
`GroupFromConfig` does not return that error: in strict mode it panics on the nil group
pointer, otherwise it returns a nil group with a nil error. -/
theorem C12_config_error_not_returned {σ τ : Type} (t : UnicodeTables) (lib : TomlLib σ τ)
    (disk : Disk) (fs : FS) (defaultSources : List (Name × SourceWithMeta σ)) (strict : Bool)
    (pre rest : List (String × String)) (file : String × String) (bytes : Bytes)
    (hfiles : configFiles = pre ++ file :: rest)
    (hpre : ∀ f ∈ pre, ∃ e, disk.file f.1 = Except.error e)
    (hread : disk.file file.1 = Except.ok bytes)
    (hkind :
      (∃ e, lib.LoadBytes bytes = Except.error e ∧ e.Is Error.errSubtreeNotFound = false)
      ∨ (∃ tree stree e, lib.LoadBytes bytes = Except.ok tree
          ∧ lib.Get tree file.2 = some stree
          ∧ lib.Unmarshal (stree.getD tree) = Except.error e
          ∧ e.Is Error.errSubtreeNotFound = false)
      ∨ (∃ tree stree gf, lib.LoadBytes bytes = Except.ok tree
          ∧ lib.Get tree file.2 = some stree
          ∧ lib.Unmarshal (stree.getD tree) = Except.ok gf
          ∧ ∃ n ∈ gf.Sources, ¬ StartsWithUpper t n.1)) :
    (∃ e, GroupFromToml t lib bytes fs file.2 = (none, some e))
      ∧ GroupFromConfig t lib disk fs defaultSources strict
        = if strict then Outcome.panic else Outcome.ret (none, none) := by
  have herr : ∃ e, GroupFromToml t lib bytes fs file.2 = (none, some e)
      ∧ e.Is Error.errSubtreeNotFound = false := by
    rcases hkind with ⟨e, h1, h2⟩ | ⟨tree, stree, e, h1, h2, h3, h4⟩ | ⟨tree, stree, gf, h1, h2, h3, h4⟩
    · exact ⟨e, by simp [GroupFromToml, h1], h2⟩
    · exact ⟨e, by simp [GroupFromToml, h1, h2, h3], h4⟩
    · rcases GroupFromToml_cases t lib bytes fs file.2 tree stree gf h1 h2 h3 with
        ⟨e, he, h⟩ | ⟨hn, _⟩
      · obtain ⟨n, _, _, hmsg⟩ := verifyNames_some t _ e he
        exact ⟨e, h, by rw [hmsg]; rfl⟩
      · exfalso
        obtain ⟨n, hn1, hn2⟩ := h4
        exact hn2 ((verifyNames_none_iff t _).1 hn n.1 (List.mem_map_of_mem _ hn1))
  obtain ⟨e, h1, h2⟩ := herr
  refine ⟨⟨e, h1⟩, ?_⟩
  unfold GroupFromConfig
  rw [hfiles, configLoop_skip t lib disk fs defaultSources strict pre (file :: rest) hpre]
  exact configLoop_error t lib disk fs defaultSources strict file rest bytes e hread
    (by rw [h1]) h2

/-- C12 on the decoder `nameToml`: a `version.toml` that does not load in strict mode, a
`.version.toml` with an unknown source type and a `version.toml` with the name `debug`
in non-strict mode. -/
theorem C12_config_error_not_returned_witness :
    GroupFromConfig asciiTables nameToml
        (diskOf [] [("version.toml", "broken")] (Error.other "no such file")) FS.osRootFS
        ([] : List (Name × SourceWithMeta Unit)) true = Outcome.panic
      ∧ GroupFromConfig asciiTables nameToml
        (diskOf [] [(".version.toml", "unknown")] (Error.other "no such file")) FS.osRootFS
        ([] : List (Name × SourceWithMeta Unit)) false = Outcome.ret (none, none)
      ∧ GroupFromConfig asciiTables nameToml
        (diskOf [] [("version.toml", "debug")] (Error.other "no such file")) FS.osRootFS
        ([] : List (Name × SourceWithMeta Unit)) false = Outcome.ret (none, none) :=
  ⟨(C12_config_error_not_returned asciiTables nameToml
      (diskOf [] [("version.toml", "broken")] (Error.other "no such file")) FS.osRootFS [] true
      [] [(".version.toml", ""), ("pyproject.toml", "tool.version")] ("version.toml", "")
      "broken" rfl (by simp) rfl (Or.inl ⟨Error.other "toml: parse error", rfl, rfl⟩)).2,
    (C12_config_error_not_returned asciiTables nameToml
      (diskOf [] [(".version.toml", "unknown")] (Error.other "no such file")) FS.osRootFS []
      false [("version.toml", "")] [("pyproject.toml", "tool.version")] (".version.toml", "")
      "unknown" rfl
      (fun f hf => ⟨Error.other "no such file", by
        rw [List.mem_singleton.1 hf]
        rfl⟩)
      rfl
      (Or.inr (Or.inl ⟨"unknown", some "unknown", Error.other "unknown source type", rfl, rfl,
        rfl, rfl⟩))).2,
    (C12_config_error_not_returned asciiTables nameToml
      (diskOf [] [("version.toml", "debug")] (Error.other "no such file")) FS.osRootFS [] false
      [] [(".version.toml", ""), ("pyproject.toml", "tool.version")] ("version.toml", "")
      "debug" rfl (by simp) rfl
      (Or.inr (Or.inr ⟨"debug", some "debug",
        ⟨"", [("debug", ⟨VPrefixAuto, false, (⟨"1.2.0", false, false⟩ : DebugSource).toSource⟩)],
          false, [], []⟩, rfl, rfl, rfl,
        ("debug", ⟨VPrefixAuto, false, (⟨"1.2.0", false, false⟩ : DebugSource).toSource⟩),
        List.mem_cons_self _ _, not_startsWithUpper_debug⟩))).2⟩

/-! ## Filtered views: `filteredFS.Glob` -/

theorem Glob_filtered_ok (pm : PathMatch) (disk : Disk) (fs : FS) (patterns : List String)
    (pattern : String) (m : List String) (h : FS.Glob pm disk fs pattern = Except.ok m) :
    FS.Glob pm disk (FS.filteredFS fs patterns) pattern
      = Except.ok (List.replicate m.length "" ++ m.filter fun x => !skipEntry pm patterns x) := by
  rw [FS.Glob, h]

theorem Glob_filtered_error (pm : PathMatch) (disk : Disk) (fs : FS) (patterns : List String)
    (pattern : String) (e : Error) (h : FS.Glob pm disk fs pattern = Except.error e) :
    FS.Glob pm disk (FS.filteredFS fs patterns) pattern = Except.error e := by
  rw [FS.Glob, h]

/-- The entries of the result of a filtered view: the empty string when the underlying
result is not empty, and the entries of the underlying result that are not skipped. -/
theorem mem_filtered (pm : PathMatch) (patterns : List String) (m : List String) (x : String) :
    x ∈ List.replicate m.length "" ++ m.filter (fun x => !skipEntry pm patterns x)
      ↔ (x = "" ∧ m ≠ []) ∨ (x ∈ m ∧ skipEntry pm patterns x = false) := by
  simp only [List.mem_append, List.mem_replicate, List.mem_filter, Bool.not_eq_true',
    ne_eq, List.length_eq_zero]
  tauto

/-- An entry is skipped when it matches a pattern. -/
theorem skipEntry_of_matches (pm : PathMatch) (patterns : List String) (x p : String)
    (hp : p ∈ patterns) (h : Matches pm p x) : skipEntry pm patterns x = true := by
  unfold skipEntry
  rw [List.any_eq_true]
  exact ⟨p, hp, by rw [h]⟩

/-- An entry is kept when every pattern is well-formed for it and does not match it. -/
theorem skipEntry_false_iff (pm : PathMatch) (patterns : List String) (x : String) :
    skipEntry pm patterns x = false ↔ ∀ p ∈ patterns, pm p x = some false := by
  unfold skipEntry
  rw [List.any_eq_false]
  constructor
  · intro h p hp
    have := h p hp
    cases hpm : pm p x with
    | none => simp [hpm] at this
    | some b =>
      cases b
      · rfl
      · simp [hpm] at this
  · intro h p hp
    rw [h p hp]
    simp

/-- C13: a filtered view whose underlying `Glob` returns a non-empty list `m` of
non-empty paths does not return the entries of `m` that match none of the patterns: its
result is `len(m)` empty strings followed by the entries that `path.Match` accepted for
no pattern, so it holds the empty string, which is no entry of `m`; with an empty
pattern list it returns `len(m)` empty strings followed by `m`, not `m`. -/
theorem C13_filtered_glob_pads_result (pm : PathMatch) (disk : Disk) (fs : FS)
    (patterns : List String) (pattern : String) (m : List String)
    (hbase : FS.Glob pm disk fs pattern = Except.ok m) (hne : m ≠ []) (hpaths : "" ∉ m) :
    (∃ r, FS.Glob pm disk (FS.filteredFS fs patterns) pattern = Except.ok r
        ∧ r = List.replicate m.length "" ++ m.filter (fun x => !skipEntry pm patterns x)
        ∧ "" ∈ r ∧ "" ∉ matchNone pm patterns m ∧ r ≠ matchNone pm patterns m)
      ∧ FS.Glob pm disk (FS.filteredFS fs []) pattern
        = Except.ok (List.replicate m.length "" ++ m)
      ∧ FS.Glob pm disk (FS.filteredFS fs []) pattern ≠ Except.ok m := by
  have hin : "" ∈ List.replicate m.length "" ++ m.filter (fun x => !skipEntry pm patterns x) :=
    (mem_filtered pm patterns m "").2 (Or.inl ⟨rfl, hne⟩)
  have hout : "" ∉ matchNone pm patterns m := fun h => hpaths (List.mem_filter.1 h).1
  refine ⟨⟨_, Glob_filtered_ok pm disk fs patterns pattern m hbase, rfl, hin, hout, ?_⟩, ?_, ?_⟩
  · intro h
    rw [h] at hin
    exact hout hin
  · rw [Glob_filtered_ok pm disk fs [] pattern m hbase]
    simp [skipEntry]
  · rw [Glob_filtered_ok pm disk fs [] pattern m hbase]
    intro h
    have h2 := congrArg List.length (Except.ok.inj h)
    simp only [List.length_append, List.length_replicate] at h2
    have h3 : 0 < m.length := List.length_pos.2 hne
    have h4 : (m.filter fun x => !skipEntry pm [] x).length = m.length := by
      simp [skipEntry]
    omega

/-- C13 on a disk on which the pattern `*.json` matches the one file `package.json`,
seen through a view without patterns. -/
theorem C13_filtered_glob_pads_result_witness :
    FS.Glob literalMatch
        (diskOf [("*.json", ["package.json"])] [("package.json", "1.2.0")]
          (Error.other "no such file")) FS.osRootFS "*.json" = Except.ok ["package.json"]
      ∧ FS.Glob literalMatch
        (diskOf [("*.json", ["package.json"])] [("package.json", "1.2.0")]
          (Error.other "no such file")) (FS.filteredFS FS.osRootFS []) "*.json"
        = Except.ok ["", "package.json"] :=
  ⟨rfl,
    (C13_filtered_glob_pads_result literalMatch
      (diskOf [("*.json", ["package.json"])] [("package.json", "1.2.0")]
        (Error.other "no such file")) FS.osRootFS [] "*.json" ["package.json"] rfl
      (by simp) (by simp)).2.1⟩

/-! ## The two views of a group -/

/-- A group is built by one of the two constructors over the filesystem `fs`. -/
theorem built_views {σ τ : Type} (t : UnicodeTables) (defaultVersion : String)
    (sources : List (Name × SourceWithMeta σ)) (strict : Bool) (fs : FS)
    (ignoredFiles roFiles : List String) (lib : TomlLib σ τ) (data : Bytes) (subtree : String)
    (g : SourceGroup σ)
    (hbuilt : NewGroupSource t defaultVersion sources strict fs ignoredFiles roFiles
        = (some g, none)
      ∨ GroupFromToml t lib data fs subtree = (some g, none)) :
    g.getFS = FS.filteredFS fs g.IgnoredFiles
      ∧ g.setFS = FS.filteredFS (FS.filteredFS fs g.IgnoredFiles) g.ReadOnlyFiles := by
  rcases hbuilt with h | h
  · rcases NewGroupSource_cases t defaultVersion sources strict fs ignoredFiles roFiles with
      ⟨e, _, h2⟩ | ⟨_, h2⟩
    · rw [h2] at h
      simp at h
    · rw [h2] at h
      have := (Prod.mk.inj h).1
      rw [Option.some.injEq] at this
      subst this
      exact ⟨rfl, rfl⟩
  · unfold GroupFromToml at h
    split at h
    · simp at h
    · split at h
      · simp at h
      · split at h
        · simp at h
        · split at h
          · simp at h
          · have := (Prod.mk.inj h).1
            rw [Option.some.injEq] at this
            subst this
            exact ⟨rfl, rfl⟩

/-- The results of `Glob` on the two views of a group over a base result `m`. -/
theorem Glob_views (pm : PathMatch) (disk : Disk) (fs : FS) (ign ro : List String)
    (pattern : String) (m : List String) (hbase : FS.Glob pm disk fs pattern = Except.ok m) :
    FS.Glob pm disk (FS.filteredFS fs ign) pattern
        = Except.ok (List.replicate m.length "" ++ m.filter fun x => !skipEntry pm ign x)
      ∧ FS.Glob pm disk (FS.filteredFS (FS.filteredFS fs ign) ro) pattern
        = Except.ok (List.replicate
            (List.replicate m.length "" ++ m.filter fun x => !skipEntry pm ign x).length ""
          ++ (List.replicate m.length "" ++ m.filter fun x => !skipEntry pm ign x).filter
            fun x => !skipEntry pm ro x) :=
  ⟨Glob_filtered_ok pm disk fs ign pattern m hbase,
    Glob_filtered_ok pm disk (FS.filteredFS fs ign) ro pattern _
      (Glob_filtered_ok pm disk fs ign pattern m hbase)⟩

/-- The claim C14 fails on a group with a malformed ignore pattern: `package.json`
matches the read-only pattern `package.json` and does not match the ignore pattern `[`,
for which `path.Match` returns an error, and yet it is absent from the `Glob` result of
the gettable view. -/
theorem C14_malformed_ignore_pattern_hides_file :
    ∃ g : SourceGroup Unit,
      NewGroupSource asciiTables "" [] false FS.osRootFS ["["] ["package.json"] = (some g, none)
        ∧ FS.Glob literalMatch
            (diskOf [("*.json", ["package.json"])] [("package.json", "1.2.0")]
              (Error.other "no such file")) FS.osRootFS "*.json" = Except.ok ["package.json"]
        ∧ (∃ p ∈ g.ReadOnlyFiles, Matches literalMatch p "package.json")
        ∧ (¬ ∃ p ∈ g.IgnoredFiles, Matches literalMatch p "package.json")
        ∧ FS.Glob literalMatch
            (diskOf [("*.json", ["package.json"])] [("package.json", "1.2.0")]
              (Error.other "no such file")) g.getFS "*.json" = Except.ok [""]
        ∧ "package.json" ∉ [""] :=
  ⟨_, rfl, rfl, ⟨"package.json", List.mem_cons_self _ _, by decide⟩, by
    rintro ⟨p, hp, h⟩
    rw [List.mem_singleton.1 hp] at h
    revert h
    decide, rfl, by decide⟩

/-- C14, amended: for a group built by `NewGroupSource` or `GroupFromToml` over a
filesystem and a non-empty path `f` that the base filesystem's `Glob` returns for a
pattern, both views return a result for the pattern; if `f` matches some `IgnoredFiles`
pattern it is in neither result; if `f` matches some `ReadOnlyFiles` pattern and every
`IgnoredFiles` pattern is well-formed and does not match `f`, then `f` is in the result
of the gettable view and not in that of the settable view. -/
theorem C14_ignored_and_read_only_files {σ τ : Type} (t : UnicodeTables)
    (defaultVersion : String) (sources : List (Name × SourceWithMeta σ)) (strict : Bool)
    (fs : FS) (ignoredFiles roFiles : List String) (lib : TomlLib σ τ) (data : Bytes)
    (subtree : String) (g : SourceGroup σ) (pm : PathMatch) (disk : Disk) (pattern : String)
    (m : List String) (f : String)
    (hbuilt : NewGroupSource t defaultVersion sources strict fs ignoredFiles roFiles
        = (some g, none)
      ∨ GroupFromToml t lib data fs subtree = (some g, none))
    (hbase : FS.Glob pm disk fs pattern = Except.ok m) (hf : f ∈ m) (hne : f ≠ "") :
    ∃ rg rs, FS.Glob pm disk g.getFS pattern = Except.ok rg
      ∧ FS.Glob pm disk g.setFS pattern = Except.ok rs
      ∧ ((∃ p ∈ g.IgnoredFiles, Matches pm p f) → f ∉ rg ∧ f ∉ rs)
      ∧ ((∃ p ∈ g.ReadOnlyFiles, Matches pm p f) →
          (∀ p ∈ g.IgnoredFiles, WellFormed pm p f ∧ ¬ Matches pm p f) → f ∈ rg ∧ f ∉ rs) := by
  obtain ⟨hg, hs⟩ := built_views t defaultVersion sources strict fs ignoredFiles roFiles lib
    data subtree g hbuilt
  obtain ⟨h1, h2⟩ := Glob_views pm disk fs g.IgnoredFiles g.ReadOnlyFiles pattern m hbase
  rw [hg, hs]
  refine ⟨_, _, h1, h2, ?_, ?_⟩
  · rintro ⟨p, hp, hmatch⟩
    have hskip := skipEntry_of_matches pm g.IgnoredFiles f p hp hmatch
    have hrg : f ∉ List.replicate m.length "" ++ m.filter fun x => !skipEntry pm g.IgnoredFiles x := by
      rw [mem_filtered]
      rintro (⟨h, _⟩ | ⟨_, h⟩)
      · exact hne h
      · rw [hskip] at h
        exact absurd h (by simp)
    refine ⟨hrg, ?_⟩
    rw [mem_filtered]
    rintro (⟨h, _⟩ | ⟨h, _⟩)
    · exact hne h
    · exact hrg h
  · rintro ⟨p, hp, hmatch⟩ hign
    have hkeep : skipEntry pm g.IgnoredFiles f = false := by
      rw [skipEntry_false_iff]
      intro q hq
      obtain ⟨hw, hn⟩ := hign q hq
      unfold WellFormed at hw
      unfold Matches at hn
      cases hpm : pm q f with
      | none => exact absurd hpm hw
      | some b =>
        cases b
        · rfl
        · exact absurd hpm hn
    refine ⟨(mem_filtered pm g.IgnoredFiles m f).2 (Or.inr ⟨hf, hkeep⟩), ?_⟩
    rw [mem_filtered]
    rintro (⟨h, _⟩ | ⟨_, h⟩)
    · exact hne h
    · rw [skipEntry_of_matches pm g.ReadOnlyFiles f p hp hmatch] at h
      exact absurd h (by simp)

/-- C14 on a group with the ignore pattern `secret.json` and the read-only pattern
`package.json`, over a disk on which `*.json` matches both files. -/
theorem C14_ignored_and_read_only_files_witness :
    ∃ rg rs,
      FS.Glob literalMatch
          (diskOf [("*.json", ["secret.json", "package.json"])] [] (Error.other "no such file"))
          (FS.filteredFS FS.osRootFS ["secret.json"]) "*.json" = Except.ok rg
        ∧ FS.Glob literalMatch
          (diskOf [("*.json", ["secret.json", "package.json"])] [] (Error.other "no such file"))
          (FS.filteredFS (FS.filteredFS FS.osRootFS ["secret.json"]) ["package.json"]) "*.json"
          = Except.ok rs
        ∧ ((∃ p ∈ ["secret.json"], Matches literalMatch p "package.json") →
            "package.json" ∉ rg ∧ "package.json" ∉ rs)
        ∧ ((∃ p ∈ ["package.json"], Matches literalMatch p "package.json") →
            (∀ p ∈ ["secret.json"], WellFormed literalMatch p "package.json"
              ∧ ¬ Matches literalMatch p "package.json") →
            "package.json" ∈ rg ∧ "package.json" ∉ rs) :=
  C14_ignored_and_read_only_files asciiTables "" ([] : List (Name × SourceWithMeta Unit)) false
    FS.osRootFS ["secret.json"] ["package.json"] nameToml "" ""
    ⟨"", [], false, FS.filteredFS FS.osRootFS ["secret.json"],
      FS.filteredFS (FS.filteredFS FS.osRootFS ["secret.json"]) ["package.json"],
      ["secret.json"], ["package.json"]⟩
    literalMatch
    (diskOf [("*.json", ["secret.json", "package.json"])] [] (Error.other "no such file"))
    "*.json" ["secret.json", "package.json"] "package.json" (Or.inl rfl) rfl (by simp)
    (by decide)

/-- C15: for a group built by `NewGroupSource` or `GroupFromToml` over a filesystem, and
every pattern: when the base filesystem's `Glob` fails, so does that of both views, with
the same error; when it returns a result, so do both views, and every entry of the
result of the settable view is an entry of the result of the gettable view. -/
theorem C15_write_view_within_read_view {σ τ : Type} (t : UnicodeTables)
    (defaultVersion : String) (sources : List (Name × SourceWithMeta σ)) (strict : Bool)
    (fs : FS) (ignoredFiles roFiles : List String) (lib : TomlLib σ τ) (data : Bytes)
    (subtree : String) (g : SourceGroup σ) (pm : PathMatch) (disk : Disk) (pattern : String)
    (hbuilt : NewGroupSource t defaultVersion sources strict fs ignoredFiles roFiles
        = (some g, none)
      ∨ GroupFromToml t lib data fs subtree = (some g, none)) :
    (∀ e, FS.Glob pm disk fs pattern = Except.error e →
        FS.Glob pm disk g.getFS pattern = Except.error e
          ∧ FS.Glob pm disk g.setFS pattern = Except.error e)
      ∧ (∀ m, FS.Glob pm disk fs pattern = Except.ok m →
        ∃ rg rs, FS.Glob pm disk g.getFS pattern = Except.ok rg
          ∧ FS.Glob pm disk g.setFS pattern = Except.ok rs ∧ ∀ x ∈ rs, x ∈ rg) := by
  obtain ⟨hg, hs⟩ := built_views t defaultVersion sources strict fs ignoredFiles roFiles lib
    data subtree g hbuilt
  rw [hg, hs]
  constructor
  · intro e he
    exact ⟨Glob_filtered_error pm disk fs _ pattern e he,
      Glob_filtered_error pm disk _ _ pattern e (Glob_filtered_error pm disk fs _ pattern e he)⟩
  · intro m hm
    obtain ⟨h1, h2⟩ := Glob_views pm disk fs g.IgnoredFiles g.ReadOnlyFiles pattern m hm
    refine ⟨_, _, h1, h2, ?_⟩
    intro x hx
    rw [mem_filtered] at hx
    rcases hx with ⟨hx1, hx2⟩ | ⟨hx1, _⟩
    · rw [mem_filtered]
      refine Or.inl ⟨hx1, ?_⟩
      intro hm0
      apply hx2
      rw [hm0]
      rfl
    · exact hx1

/-- C15 on a group with the ignore pattern `secret.json` and the read-only pattern
`package.json`, over a disk on which `*.json` matches three files. -/
theorem C15_write_view_within_read_view_witness :
    ∃ rg rs,
      FS.Glob literalMatch
          (diskOf [("*.json", ["secret.json", "package.json", "deno.json"])] []
            (Error.other "no such file"))
          (FS.filteredFS FS.osRootFS ["secret.json"]) "*.json" = Except.ok rg
        ∧ FS.Glob literalMatch
          (diskOf [("*.json", ["secret.json", "package.json", "deno.json"])] []
            (Error.other "no such file"))
          (FS.filteredFS (FS.filteredFS FS.osRootFS ["secret.json"]) ["package.json"]) "*.json"
          = Except.ok rs
        ∧ ∀ x ∈ rs, x ∈ rg :=
  (C15_write_view_within_read_view asciiTables "" ([] : List (Name × SourceWithMeta Unit)) false
    FS.osRootFS ["secret.json"] ["package.json"] nameToml "" ""
    ⟨"", [], false, FS.filteredFS FS.osRootFS ["secret.json"],
      FS.filteredFS (FS.filteredFS FS.osRootFS ["secret.json"]) ["package.json"],
      ["secret.json"], ["package.json"]⟩
    literalMatch
    (diskOf [("*.json", ["secret.json", "package.json", "deno.json"])] []
      (Error.other "no such file"))
    "*.json" (Or.inl rfl)).2 ["secret.json", "package.json", "deno.json"] rfl

/-! ## `getFromDoc` -/

namespace Version

theorem Equal_self (v : Version) : v.Equal v = true := by
  rw [Equal_iff]
  exact Compare_self v

theorem Equal_symm (a b : Version) (ha : a.Valid) (hb : b.Valid) (h : a.Equal b = true) :
    b.Equal a = true := by
  rw [Equal_iff] at h ⊢
  have := Compare_symm b a hb ha
  omega

theorem Equal_trans (a b c : Version) (ha : a.Valid) (hb : b.Valid) (hc : c.Valid)
    (h1 : a.Equal b = true) (h2 : b.Equal c = true) : a.Equal c = true := by
  rw [Equal_iff] at h1 h2 ⊢
  have s := Compare_symm c b hc hb
  exact Compare_eq_of_eq a c b ha hc hb h1 (by omega)

end Version

theorem fileVersion_valid {δ : Type} (codec : Codec δ) (disk : Disk) (kp : KeyPath) (p : String)
    (a : Version) (h : fileVersion codec disk kp p = some a) : a.Valid := by
  unfold fileVersion at h
  cases ht : fileText codec disk kp p with
  | none => simp [ht] at h
  | some s =>
    rw [ht] at h
    exact Version.NewVersion_valid s a h

/-- The loop of `getFromDoc` once a version has been found, over entries that open and
decode, or fail to open and are skipped, and whose values parse. -/
theorem getFromDocLoop_some {δ : Type} (codec : Codec δ) (disk : Disk) (kp : KeyPath) (n : Nat)
    (v0 : Version) (ps : List String)
    (hopen : ∀ p ∈ ps, ((∃ e, disk.file p = Except.error e) ∧ 2 ≤ n)
      ∨ ∃ b d, disk.file p = Except.ok b ∧ codec.New b = Except.ok d)
    (hparse : ∀ p ∈ ps, fileText codec disk kp p ≠ none → fileVersion codec disk kp p ≠ none) :
    getFromDocLoop codec disk kp n ps (some v0)
      = if (ps.filterMap (fileVersion codec disk kp)).all (fun a => a.Equal v0) then
          (some v0, none)
        else (none, some Error.errUnsync) := by
  induction ps with
  | nil => simp [getFromDocLoop]
  | cons p ps ih =>
    have ih2 := ih (fun q hq => hopen q (List.mem_cons_of_mem _ hq))
      (fun q hq => hparse q (List.mem_cons_of_mem _ hq))
    rcases hopen p (List.mem_cons_self _ _) with ⟨⟨e, he⟩, hn⟩ | ⟨b, d, hb, hd⟩
    · have hfv : fileVersion codec disk kp p = none := by
        simp [fileVersion, fileText, he]
      rw [getFromDocLoop]
      simp only [he]
      rw [if_neg (by omega), ih2, List.filterMap_cons, hfv]
    rw [getFromDocLoop]
    simp only [hb, hd]
    by_cases hval : codec.Get d kp = ""
    · have hfv : fileVersion codec disk kp p = none := by
        simp [fileVersion, fileText, hb, hd, hval]
      simp only [hval, ne_eq, not_true_eq_false, if_false]
      rw [ih2, List.filterMap_cons, hfv]
    · have hft : fileText codec disk kp p = some (codec.Get d kp) := by
        simp [fileText, hb, hd, hval]
      have hp := hparse p (List.mem_cons_self _ _) (by rw [hft]; simp)
      have hfv : fileVersion codec disk kp p = Version.NewVersion (codec.Get d kp) := by
        simp [fileVersion, hft]
      rw [hfv] at hp
      cases hnv : Version.NewVersion (codec.Get d kp) with
      | none => exact absurd hnv hp
      | some cv =>
        simp only [hval, ne_eq, not_false_eq_true, if_true]
        rw [List.filterMap_cons, hfv, hnv]
        simp only [List.all_cons]
        by_cases heq : cv.Equal v0 = true
        · simp only [heq, Bool.not_true, Bool.false_eq_true, if_false, Bool.true_and]
          exact ih2
        · simp only [Bool.not_eq_true] at heq
          simp [heq]

/-- The loop of `getFromDoc` before a version has been found, over entries that open and
decode, or fail to open and are skipped, and whose values parse. -/
theorem getFromDocLoop_none {δ : Type} (codec : Codec δ) (disk : Disk) (kp : KeyPath) (n : Nat)
    (ps : List String)
    (hopen : ∀ p ∈ ps, ((∃ e, disk.file p = Except.error e) ∧ 2 ≤ n)
      ∨ ∃ b d, disk.file p = Except.ok b ∧ codec.New b = Except.ok d)
    (hparse : ∀ p ∈ ps, fileText codec disk kp p ≠ none → fileVersion codec disk kp p ≠ none) :
    getFromDocLoop codec disk kp n ps none
      = match ps.filterMap (fileVersion codec disk kp) with
        | [] => (none, none)
        | a :: rest =>
          if rest.all (fun x => x.Equal a) then (some a, none) else (none, some Error.errUnsync) := by
  induction ps with
  | nil => simp [getFromDocLoop]
  | cons p ps ih =>
    have hopen2 := fun q hq => hopen q (List.mem_cons_of_mem p hq)
    have hparse2 := fun q hq => hparse q (List.mem_cons_of_mem p hq)
    rcases hopen p (List.mem_cons_self _ _) with ⟨⟨e, he⟩, hn⟩ | ⟨b, d, hb, hd⟩
    · have hfv : fileVersion codec disk kp p = none := by
        simp [fileVersion, fileText, he]
      rw [getFromDocLoop]
      simp only [he]
      rw [if_neg (by omega), ih hopen2 hparse2, List.filterMap_cons, hfv]
    rw [getFromDocLoop]
    simp only [hb, hd]
    by_cases hval : codec.Get d kp = ""
    · have hfv : fileVersion codec disk kp p = none := by
        simp [fileVersion, fileText, hb, hd, hval]
      simp only [hval, ne_eq, not_true_eq_false, if_false]
      rw [ih hopen2 hparse2, List.filterMap_cons, hfv]
    · have hft : fileText codec disk kp p = some (codec.Get d kp) := by
        simp [fileText, hb, hd, hval]
      have hp := hparse p (List.mem_cons_self _ _) (by rw [hft]; simp)
      have hfv : fileVersion codec disk kp p = Version.NewVersion (codec.Get d kp) := by
        simp [fileVersion, hft]
      rw [hfv] at hp
      cases hnv : Version.NewVersion (codec.Get d kp) with
      | none => exact absurd hnv hp
      | some cv =>
        simp only [hval, ne_eq, not_false_eq_true, if_true]
        rw [List.filterMap_cons, hfv, hnv]
        exact getFromDocLoop_some codec disk kp n cv ps hopen2 hparse2

theorem decodes_iff {δ : Type} (codec : Codec δ) (disk : Disk) (p : String) :
    decodes codec disk p = true
      ↔ ∃ b d, disk.file p = Except.ok b ∧ codec.New b = Except.ok d := by
  unfold decodes
  cases h1 : disk.file p with
  | error e => simp
  | ok b =>
    cases h2 : codec.New b with
    | error e => simp [h2]
    | ok d => simp [h2]

/-- C16: for a filesystem view, glob and codec where every entry the view's `Glob`
returns that opens also decodes, where the entries that fail to open are passed over
(two or more entries were returned, as when a filtered view puts its empty entries
before the files it keeps, or every entry opens), and where every non-empty value at the
key-path parses as a version, `getFromDoc` returns `errUnsync` (and no version) if and
only if two matched files hold versions that are not Equal; it returns no version and no
error if and only if no matched file holds a value; and otherwise it returns, without an
error, a version that is Equal to the version of every matched file that holds one. -/
theorem C16_getFromDoc_trichotomy {δ : Type} (pm : PathMatch) (codec : Codec δ) (disk : Disk)
    (fs : FS) (kp : KeyPath) (path : String) (files : List String)
    (hglob : FS.Glob pm disk fs path = Except.ok files)
    (hdec : ∀ p ∈ files, opens disk p = true → decodes codec disk p = true)
    (hskip : 2 ≤ files.length ∨ ∀ p ∈ files, opens disk p = true)
    (hparse : ∀ p ∈ files,
      fileText codec disk kp p ≠ none → fileVersion codec disk kp p ≠ none) :
    (getFromDoc pm codec disk fs kp path = (none, some Error.errUnsync)
        ↔ ∃ p ∈ files, ∃ q ∈ files, ∃ a b, fileVersion codec disk kp p = some a
            ∧ fileVersion codec disk kp q = some b ∧ a.Equal b = false)
      ∧ (getFromDoc pm codec disk fs kp path = (none, none)
        ↔ ∀ p ∈ files, fileText codec disk kp p = none)
      ∧ (getFromDoc pm codec disk fs kp path ≠ (none, some Error.errUnsync) →
          getFromDoc pm codec disk fs kp path ≠ (none, none) →
          ∃ v, getFromDoc pm codec disk fs kp path = (some v, none)
            ∧ ∀ p ∈ files, ∀ a, fileVersion codec disk kp p = some a → v.Equal a = true) := by
  have hopen : ∀ p ∈ files, ((∃ e, disk.file p = Except.error e) ∧ 2 ≤ files.length)
      ∨ ∃ b d, disk.file p = Except.ok b ∧ codec.New b = Except.ok d := by
    intro p hp
    cases hf : disk.file p with
    | error e =>
      rcases hskip with h | h
      · exact Or.inl ⟨⟨e, rfl⟩, h⟩
      · have ho := h p hp
        simp [opens, hf] at ho
    | ok b =>
      obtain ⟨b2, d, h1, h2⟩ := (decodes_iff codec disk p).1 (hdec p hp (by simp [opens, hf]))
      rw [hf] at h1
      cases h1
      exact Or.inr ⟨b, d, rfl, h2⟩
  have hloop := getFromDocLoop_none codec disk kp files.length files hopen hparse
  have hget : getFromDoc pm codec disk fs kp path
      = getFromDocLoop codec disk kp files.length files none := by
    unfold getFromDoc
    rw [hglob]
  rw [hget, hloop]
  have hmem : ∀ a, a ∈ files.filterMap (fileVersion codec disk kp)
      ↔ ∃ p ∈ files, fileVersion codec disk kp p = some a := by
    intro a
    rw [List.mem_filterMap]
  have hvalid : ∀ a ∈ files.filterMap (fileVersion codec disk kp), a.Valid := by
    intro a ha
    obtain ⟨p, _, hp⟩ := (hmem a).1 ha
    exact fileVersion_valid codec disk kp p a hp
  have hnil : files.filterMap (fileVersion codec disk kp) = []
      ↔ ∀ p ∈ files, fileText codec disk kp p = none := by
    rw [List.filterMap_eq_nil_iff]
    constructor
    · intro h p hp
      by_contra hc
      exact hparse p hp hc (h p hp)
    · intro h p hp
      simp [fileVersion, h p hp]
  have hpair : (∃ p ∈ files, ∃ q ∈ files, ∃ a b, fileVersion codec disk kp p = some a
        ∧ fileVersion codec disk kp q = some b ∧ a.Equal b = false)
      ↔ ∃ a ∈ files.filterMap (fileVersion codec disk kp),
          ∃ b ∈ files.filterMap (fileVersion codec disk kp), a.Equal b = false := by
    constructor
    · rintro ⟨p, hp, q, hq, a, b, ha, hb, hab⟩
      exact ⟨a, (hmem a).2 ⟨p, hp, ha⟩, b, (hmem b).2 ⟨q, hq, hb⟩, hab⟩
    · rintro ⟨a, ha, b, hb, hab⟩
      obtain ⟨p, hp, hpa⟩ := (hmem a).1 ha
      obtain ⟨q, hq, hqb⟩ := (hmem b).1 hb
      exact ⟨p, hp, q, hq, a, b, hpa, hqb, hab⟩
  rw [hpair, ← hnil]
  cases hvals : files.filterMap (fileVersion codec disk kp) with
  | nil =>
    refine ⟨?_, ?_, ?_⟩
    · simp
    · simp
    · intro _ h
      exact absurd rfl h
  | cons a rest =>
    rw [hvals] at hvalid
    have hva : a.Valid := hvalid a (List.mem_cons_self _ _)
    have hall : rest.all (fun x => x.Equal a) = true
        ↔ ¬ ∃ x ∈ a :: rest, ∃ y ∈ a :: rest, x.Equal y = false := by
      rw [List.all_eq_true]
      constructor
      · intro h
        have h2 : ∀ x ∈ a :: rest, x.Equal a = true := by
          intro x hx
          rcases List.mem_cons.1 hx with hx | hx
          · rw [hx]
            exact Version.Equal_self a
          · exact h x hx
        rintro ⟨x, hx, y, hy, hxy⟩
        have := Version.Equal_trans x a y (hvalid x hx) hva (hvalid y hy) (h2 x hx)
          (Version.Equal_symm y a (hvalid y hy) hva (h2 y hy))
        rw [this] at hxy
        exact absurd hxy (by simp)
      · intro h x hx
        by_contra hc
        exact h ⟨x, List.mem_cons_of_mem _ hx, a, List.mem_cons_self _ _, by simpa using hc⟩
    by_cases hc : rest.all (fun x => x.Equal a) = true
    · have hno := hall.1 hc
      simp only [hc, if_true]
      refine ⟨?_, ?_, ?_⟩
      · constructor
        · intro h
          simp at h
        · intro h
          exact absurd h hno
      · simp
      · intro _ _
        refine ⟨a, rfl, ?_⟩
        intro p hp b hb
        have hbm : b ∈ a :: rest := by
          rw [← hvals]
          exact (hmem b).2 ⟨p, hp, hb⟩
        rcases List.mem_cons.1 hbm with h | h
        · rw [h]
          exact Version.Equal_self a
        · exact Version.Equal_symm b a (hvalid b hbm) hva (List.all_eq_true.1 hc b h)
    · have hyes : ∃ x ∈ a :: rest, ∃ y ∈ a :: rest, x.Equal y = false := by
        by_contra hn
        exact hc (hall.2 hn)
      simp only [hc, Bool.false_eq_true, if_false]
      refine ⟨?_, ?_, ?_⟩
      · exact ⟨fun _ => hyes, fun _ => by trivial⟩
      · simp
      · intro h
        exact absurd rfl h

/-- C16 through a filtered view that ignores `b.txt`, on files read with `markCodec`:
`a.txt` and `c.txt` hold 1.2.0, one with a leading `v`, `d.txt` holds no value, and the
ignored `b.txt` does not decode. The view returns four empty entries, which do not
open, before the three files it keeps. -/
theorem C16_getFromDoc_trichotomy_witness :
    FS.Glob literalMatch
        (diskOf [("*.txt", ["a.txt", "b.txt", "c.txt", "d.txt"])]
          [("a.txt", "=1.2.0"), ("b.txt", "oops"), ("c.txt", "=v1.2.0"), ("d.txt", "=")]
          (Error.other "no such file")) (FS.filteredFS FS.osRootFS ["b.txt"]) "*.txt"
        = Except.ok ["", "", "", "", "a.txt", "c.txt", "d.txt"]
      ∧ ∃ v, getFromDoc literalMatch markCodec
          (diskOf [("*.txt", ["a.txt", "b.txt", "c.txt", "d.txt"])]
            [("a.txt", "=1.2.0"), ("b.txt", "oops"), ("c.txt", "=v1.2.0"), ("d.txt", "=")]
            (Error.other "no such file")) (FS.filteredFS FS.osRootFS ["b.txt"]) [] "*.txt"
          = (some v, none)
        ∧ ∀ p ∈ ["", "", "", "", "a.txt", "c.txt", "d.txt"], ∀ a,
          fileVersion markCodec
            (diskOf [("*.txt", ["a.txt", "b.txt", "c.txt", "d.txt"])]
              [("a.txt", "=1.2.0"), ("b.txt", "oops"), ("c.txt", "=v1.2.0"), ("d.txt", "=")]
              (Error.other "no such file")) [] p = some a → v.Equal a = true :=
  ⟨rfl,
    (C16_getFromDoc_trichotomy literalMatch markCodec
      (diskOf [("*.txt", ["a.txt", "b.txt", "c.txt", "d.txt"])]
        [("a.txt", "=1.2.0"), ("b.txt", "oops"), ("c.txt", "=v1.2.0"), ("d.txt", "=")]
        (Error.other "no such file")) (FS.filteredFS FS.osRootFS ["b.txt"]) [] "*.txt"
      ["", "", "", "", "a.txt", "c.txt", "d.txt"] rfl
      (by decide) (Or.inl (by decide)) (by decide)).2.2 (by decide) (by decide)⟩

/-- A file that fails to open is skipped by the loop of `getFromDoc` when the glob
returned two or more entries. -/
theorem getFromDocLoop_unreadable {δ : Type} (codec : Codec δ) (disk : Disk) (kp : KeyPath)
    (n : Nat) (p : String) (ps : List String) (v : Option Version) (e : Error) (hn : 2 ≤ n)
    (hp : disk.file p = Except.error e) :
    getFromDocLoop codec disk kp n (p :: ps) v = getFromDocLoop codec disk kp n ps v := by
  rw [getFromDocLoop]
  simp only [hp]
  rw [if_neg (by omega)]

theorem getFromDoc_of_glob {δ : Type} (pm : PathMatch) (codec : Codec δ) (disk : Disk)
    (fs : FS) (kp : KeyPath) (path : String) (files : List String)
    (h : FS.Glob pm disk fs path = Except.ok files) :
    getFromDoc pm codec disk fs kp path
      = getFromDocLoop codec disk kp files.length files none := by
  unfold getFromDoc
  rw [h]

/-- The gettable view of a group that `NewGroupSource` returns. -/
theorem NewGroupSource_getFS {σ : Type} (t : UnicodeTables) (defaultVersion : String)
    (sources : List (Name × SourceWithMeta σ)) (strict : Bool) (fs : FS)
    (ignoredFiles roFiles : List String) (g : SourceGroup σ)
    (h : NewGroupSource t defaultVersion sources strict fs ignoredFiles roFiles = (some g, none)) :
    g.getFS = FS.filteredFS fs ignoredFiles := by
  rcases NewGroupSource_cases t defaultVersion sources strict fs ignoredFiles roFiles with
    ⟨e, _, h2⟩ | ⟨_, h2⟩
  · rw [h2] at h
    simp at h
  · rw [h2] at h
    have := (Prod.mk.inj h).1
    rw [Option.some.injEq] at this
    subst this
    rfl

/-- C17: the only file that matches a glob fails to open with the error `e` (and so does
the empty path), and no ignore pattern of a group built by `NewGroupSource` skips it.
Called on the base filesystem, `getFromDoc` returns `e`. Called on the gettable view of
the group, it does not: the view's `Glob` returns two entries, the empty string and the
file, so both read errors are skipped and `getFromDoc` returns no version and no
error. -/
theorem C17_only_match_read_error_lost {σ δ : Type} (t : UnicodeTables)
    (defaultVersion : String) (sources : List (Name × SourceWithMeta σ)) (strict : Bool)
    (fs : FS) (ignoredFiles roFiles : List String) (g : SourceGroup σ) (pm : PathMatch)
    (codec : Codec δ) (disk : Disk) (kp : KeyPath) (path x : String) (e e0 : Error)
    (hbuilt : NewGroupSource t defaultVersion sources strict fs ignoredFiles roFiles
      = (some g, none))
    (hbase : FS.Glob pm disk fs path = Except.ok [x])
    (hx : disk.file x = Except.error e) (hempty : disk.file "" = Except.error e0)
    (hkeep : skipEntry pm ignoredFiles x = false) :
    getFromDoc pm codec disk fs kp path = (none, some e)
      ∧ FS.Glob pm disk g.getFS path = Except.ok ["", x]
      ∧ getFromDoc pm codec disk g.getFS kp path = (none, none) := by
  have hview : FS.Glob pm disk g.getFS path = Except.ok ["", x] := by
    rw [NewGroupSource_getFS t defaultVersion sources strict fs ignoredFiles roFiles g hbuilt,
      Glob_filtered_ok pm disk fs ignoredFiles path [x] hbase]
    simp [hkeep]
  refine ⟨?_, hview, ?_⟩
  · rw [getFromDoc_of_glob pm codec disk fs kp path [x] hbase]
    simp [getFromDocLoop, hx]
  · rw [getFromDoc_of_glob pm codec disk g.getFS kp path ["", x] hview,
      getFromDocLoop_unreadable codec disk kp _ "" [x] none e0 (by simp) hempty,
      getFromDocLoop_unreadable codec disk kp _ x [] none e (by simp) hx]
    rfl

/-- C17 on a disk whose only match for `package.json` cannot be opened, and a group
without ignore patterns. -/
theorem C17_only_match_read_error_lost_witness :
    getFromDoc literalMatch markCodec
        (diskOf [("package.json", ["package.json"])] [] (Error.other "permission denied"))
        FS.osRootFS [] "package.json" = (none, some (Error.other "permission denied"))
      ∧ FS.Glob literalMatch
        (diskOf [("package.json", ["package.json"])] [] (Error.other "permission denied"))
        (FS.filteredFS FS.osRootFS []) "package.json" = Except.ok ["", "package.json"]
      ∧ getFromDoc literalMatch markCodec
        (diskOf [("package.json", ["package.json"])] [] (Error.other "permission denied"))
        (FS.filteredFS FS.osRootFS []) [] "package.json" = (none, none) :=
  C17_only_match_read_error_lost asciiTables "" ([] : List (Name × SourceWithMeta Unit)) false
    FS.osRootFS [] []
    ⟨"", [], false, FS.filteredFS FS.osRootFS [],
      FS.filteredFS (FS.filteredFS FS.osRootFS []) [], [], []⟩
    literalMatch markCodec
    (diskOf [("package.json", ["package.json"])] [] (Error.other "permission denied"))
    [] "package.json" "package.json" (Error.other "permission denied")
    (Error.other "permission denied") rfl rfl rfl rfl rfl

/-! ## `setToDoc` -/

theorem verToString_some (v : Version) : verToString (some v) = Outcome.ret (writtenText v) := by
  unfold verToString writtenText
  by_cases h : hasVPrefix (some v) = true <;> simp [h]

theorem Disk.write_ok (d : Disk) (p : String) (b : Bytes) (hw : d.writeErr p = none) :
    ∃ d1, d.write p b = Except.ok d1 := by
  unfold Disk.write
  rw [hw]
  exact ⟨_, rfl⟩

theorem Disk.write_spec (d d1 : Disk) (p : String) (b : Bytes)
    (h : d.write p b = Except.ok d1) :
    d1.file p = Except.ok b ∧ (∀ q, q ≠ p → d1.file q = d.file q) ∧ d1.glob = d.glob
      ∧ d1.writeErr = d.writeErr := by
  unfold Disk.write at h
  cases hw : d.writeErr p with
  | some e => simp [hw] at h
  | none =>
    simp only [hw, Except.ok.injEq] at h
    subst h
    refine ⟨by simp, ?_, rfl, rfl⟩
    intro q hq
    simp [hq]

/-- Writing the bytes a file already holds leaves the disk as it is. -/
theorem Disk.write_same (d : Disk) (p : String) (b : Bytes) (hb : d.file p = Except.ok b)
    (hw : d.writeErr p = none) : d.write p b = Except.ok d := by
  unfold Disk.write
  simp only [hw]
  congr 1
  cases d with
  | mk glob file writeErr =>
    simp only [Disk.mk.injEq, true_and, and_true]
    funext q
    by_cases hq : q = p
    · simp only [hq, if_true]
      exact hb.symm
    · simp [hq]

theorem fileText_congr {δ : Type} (codec : Codec δ) (d d1 : Disk) (kp : KeyPath) (q : String)
    (h : d1.file q = d.file q) : fileText codec d1 kp q = fileText codec d kp q := by
  unfold fileText
  rw [h]

/-- A file without a value is passed over by the loop of `setToDoc`. -/
theorem setToDocLoop_skip {δ : Type} (codec : Codec δ) (kp : KeyPath) (val : String)
    (p : String) (ps : List String) (d : Disk) (changes : Bool)
    (h : fileText codec d kp p = none) :
    setToDocLoop codec kp val (p :: ps) d changes = setToDocLoop codec kp val ps d changes := by
  unfold fileText at h
  rw [setToDocLoop]
  cases hf : d.file p with
  | error e => rfl
  | ok b =>
    simp only [hf] at h ⊢
    cases hn : codec.New b with
    | error e => rfl
    | ok doc =>
      simp only [hn] at h ⊢
      by_cases hg : codec.Get doc kp = ""
      · simp [hg]
      · simp [hg] at h

/-- A file with a value is given the new value by the loop of `setToDoc`. -/
theorem setToDocLoop_value {δ : Type} (codec : Codec δ) (kp : KeyPath) (val : String)
    (p : String) (ps : List String) (d : Disk) (changes : Bool)
    (h : fileText codec d kp p ≠ none) :
    ∃ b doc, d.file p = Except.ok b ∧ codec.New b = Except.ok doc ∧ codec.Get doc kp ≠ ""
      ∧ setToDocLoop codec kp val (p :: ps) d changes
        = match codec.Set doc kp val with
          | Except.error e => (some e, d)
          | Except.ok doc1 =>
            match d.write p (codec.Save doc1) with
            | Except.error e => (some e, d)
            | Except.ok d1 => setToDocLoop codec kp val ps d1 true := by
  unfold fileText at h
  rw [setToDocLoop]
  cases hf : d.file p with
  | error e => simp [hf] at h
  | ok b =>
    simp only [hf] at h ⊢
    cases hn : codec.New b with
    | error e => simp [hn] at h
    | ok doc =>
      simp only [hn] at h ⊢
      by_cases hg : codec.Get doc kp = ""
      · simp [hg] at h
      · exact ⟨b, doc, rfl, hn, hg, by simp [hg]⟩

/-- When no file has a value, the loop of `setToDoc` leaves the disk as it is and reports
"no changes" unless a change was made before. -/
theorem setToDocLoop_no_value {δ : Type} (codec : Codec δ) (kp : KeyPath) (val : String)
    (ps : List String) (d : Disk) (changes : Bool)
    (h : ∀ p ∈ ps, fileText codec d kp p = none) :
    setToDocLoop codec kp val ps d changes
      = (if changes then none else some Error.errNoChanges, d) := by
  induction ps with
  | nil => simp [setToDocLoop]
  | cons p ps ih =>
    rw [setToDocLoop_skip codec kp val p ps d changes (h p (List.mem_cons_self _ _))]
    exact ih fun q hq => h q (List.mem_cons_of_mem _ hq)

/-- What the loop of `setToDoc` leaves, whatever it returns: the glob results and the
write errors of the disk, every file without a value, every file outside the list, and
every other file either as it was or as `Save` gave it after `Set(kp, val)`. -/
theorem setToDocLoop_frame {δ : Type} (codec : Codec δ) (kp : KeyPath) (val : String)
    (ps : List String) :
    ∀ (d : Disk) (changes : Bool),
      (setToDocLoop codec kp val ps d changes).2.glob = d.glob
        ∧ (setToDocLoop codec kp val ps d changes).2.writeErr = d.writeErr
        ∧ ∀ q, (fileText codec d kp q = none →
              (setToDocLoop codec kp val ps d changes).2.file q = d.file q)
          ∧ (q ∉ ps → (setToDocLoop codec kp val ps d changes).2.file q = d.file q)
          ∧ ((setToDocLoop codec kp val ps d changes).2.file q = d.file q
            ∨ WrittenWith codec (setToDocLoop codec kp val ps d changes).2 kp val q) := by
  induction ps with
  | nil =>
    intro d changes
    simp [setToDocLoop]
  | cons p ps ih =>
    intro d changes
    by_cases hv : fileText codec d kp p = none
    · rw [setToDocLoop_skip codec kp val p ps d changes hv]
      obtain ⟨h1, h2, h3⟩ := ih d changes
      refine ⟨h1, h2, fun q => ⟨(h3 q).1, fun hq => (h3 q).2.1 ?_, (h3 q).2.2⟩⟩
      exact fun hc => hq (List.mem_cons_of_mem _ hc)
    · obtain ⟨b, doc, hb, hdoc, hget, hloop⟩ :=
        setToDocLoop_value codec kp val p ps d changes hv
      rw [hloop]
      cases hset : codec.Set doc kp val with
      | error e => exact ⟨rfl, rfl, fun q => ⟨fun _ => rfl, fun _ => rfl, Or.inl rfl⟩⟩
      | ok doc1 =>
        simp only
        cases hw : d.write p (codec.Save doc1) with
        | error e => exact ⟨rfl, rfl, fun q => ⟨fun _ => rfl, fun _ => rfl, Or.inl rfl⟩⟩
        | ok d1 =>
          simp only
          obtain ⟨w1, w2, w3, w4⟩ := Disk.write_spec d d1 p _ hw
          obtain ⟨h1, h2, h3⟩ := ih d1 true
          refine ⟨h1.trans w3, h2.trans w4, fun q => ⟨?_, ?_, ?_⟩⟩
          · intro hq
            have hne : q ≠ p := fun hc => hv (hc ▸ hq)
            rw [← w2 q hne]
            exact (h3 q).1 (by rw [fileText_congr codec d d1 kp q (w2 q hne)]; exact hq)
          · intro hq
            have hne : q ≠ p := fun hc => hq (hc ▸ List.mem_cons_self _ _)
            rw [← w2 q hne]
            exact (h3 q).2.1 fun hc => hq (List.mem_cons_of_mem _ hc)
          · rcases (h3 q).2.2 with h | h
            · by_cases hqp : q = p
              · right
                exact ⟨doc, doc1, hset, by rw [h, hqp, w1]⟩
              · left
                rw [h, w2 q hqp]
            · exact Or.inr h

/-- What a run of the loop of `setToDoc` that returns no error has done: a change was
made, and every listed file that had a value holds what `Save` gave after
`Set(kp, val)`. -/
theorem setToDocLoop_done {δ : Type} (codec : Codec δ) (kp : KeyPath) (val : String)
    (ps : List String) :
    ∀ (d : Disk) (changes : Bool), (setToDocLoop codec kp val ps d changes).1 = none →
      (changes = true ∨ ∃ q ∈ ps, fileText codec d kp q ≠ none)
        ∧ ∀ q ∈ ps, fileText codec d kp q ≠ none →
          WrittenWith codec (setToDocLoop codec kp val ps d changes).2 kp val q := by
  induction ps with
  | nil =>
    intro d changes h
    cases changes <;> simp [setToDocLoop] at h ⊢
  | cons p ps ih =>
    intro d changes
    by_cases hv : fileText codec d kp p = none
    · rw [setToDocLoop_skip codec kp val p ps d changes hv]
      intro h
      obtain ⟨h1, h2⟩ := ih d changes h
      refine ⟨?_, ?_⟩
      · rcases h1 with h1 | ⟨q, hq, hq2⟩
        · exact Or.inl h1
        · exact Or.inr ⟨q, List.mem_cons_of_mem _ hq, hq2⟩
      · intro q hq hq2
        rcases List.mem_cons.1 hq with hqp | hqp
        · exact absurd (hqp ▸ hv) hq2
        · exact h2 q hqp hq2
    · obtain ⟨b, doc, hb, hdoc, hget, hloop⟩ :=
        setToDocLoop_value codec kp val p ps d changes hv
      rw [hloop]
      cases hset : codec.Set doc kp val with
      | error e => intro h; simp at h
      | ok doc1 =>
        simp only
        cases hw : d.write p (codec.Save doc1) with
        | error e => intro h; simp at h
        | ok d1 =>
          simp only
          intro h
          obtain ⟨w1, w2, w3, w4⟩ := Disk.write_spec d d1 p _ hw
          obtain ⟨_, h2⟩ := ih d1 true h
          refine ⟨Or.inr ⟨p, List.mem_cons_self _ _, hv⟩, ?_⟩
          intro q hq hq2
          by_cases hqp : q = p
          · rcases ((setToDocLoop_frame codec kp val ps d1 true).2.2 q).2.2 with h3 | h3
            · exact ⟨doc, doc1, hset, by rw [h3, hqp, w1]⟩
            · exact h3
          · rcases List.mem_cons.1 hq with hq3 | hq3
            · exact absurd hq3 hqp
            · exact h2 q hq3 (by rw [fileText_congr codec d d1 kp q (w2 q hqp)]; exact hq2)

/-- No call of `Set` or of a write is made on a file without a value. -/
theorem setToDocLoopFails_skip {δ : Type} (codec : Codec δ) (kp : KeyPath) (val : String)
    (p : String) (ps : List String) (d : Disk)
    (h : fileText codec d kp p = none) :
    setToDocLoopFails codec kp val (p :: ps) d = setToDocLoopFails codec kp val ps d := by
  unfold fileText at h
  rw [setToDocLoopFails]
  cases hf : d.file p with
  | error e => rfl
  | ok b =>
    simp only [hf] at h ⊢
    cases hn : codec.New b with
    | error e => rfl
    | ok doc =>
      simp only [hn] at h ⊢
      by_cases hg : codec.Get doc kp = ""
      · simp [hg]
      · simp [hg] at h

/-- When no call of `Set` and no write fails in the loop of `setToDoc`, the loop returns
no error as soon as a change was made before or a listed file has a value. -/
theorem setToDocLoop_completes {δ : Type} (codec : Codec δ) (kp : KeyPath) (val : String)
    (ps : List String) :
    ∀ (d : Disk) (changes : Bool), setToDocLoopFails codec kp val ps d = false →
      (changes = true ∨ ∃ q ∈ ps, fileText codec d kp q ≠ none) →
      (setToDocLoop codec kp val ps d changes).1 = none := by
  induction ps with
  | nil =>
    intro d changes _ h
    rcases h with h | ⟨q, hq, _⟩
    · simp [setToDocLoop, h]
    · simp at hq
  | cons p ps ih =>
    intro d changes hrun h
    by_cases hv : fileText codec d kp p = none
    · rw [setToDocLoop_skip codec kp val p ps d changes hv]
      rw [setToDocLoopFails_skip codec kp val p ps d hv] at hrun
      apply ih d changes hrun
      rcases h with h | ⟨q, hq, hq2⟩
      · exact Or.inl h
      · rcases List.mem_cons.1 hq with hqp | hqp
        · exact absurd (hqp ▸ hv) hq2
        · exact Or.inr ⟨q, hqp, hq2⟩
    · obtain ⟨b, doc, hb, hdoc, hget, hloop⟩ :=
        setToDocLoop_value codec kp val p ps d changes hv
      rw [hloop]
      rw [setToDocLoopFails] at hrun
      simp only [hb, hdoc, hget, if_false] at hrun
      cases hs : codec.Set doc kp val with
      | error e => simp [hs] at hrun
      | ok doc1 =>
        simp only [hs] at hrun ⊢
        cases hw : d.write p (codec.Save doc1) with
        | error e => simp [hw] at hrun
        | ok d1 =>
          simp only [hw] at hrun ⊢
          exact ih d1 true hrun (Or.inl rfl)

theorem setToDoc_of_glob {δ : Type} (pm : PathMatch) (codec : Codec δ) (v : Version)
    (disk : Disk) (fs : FS) (kp : KeyPath) (path : String) (files : List String)
    (h : FS.Glob pm disk fs path = Except.ok files) :
    setToDoc pm codec v disk fs kp path
      = setToDocLoop codec kp (writtenText v) files disk false := by
  unfold setToDoc
  rw [h]

/-- A file written with a value holds that value, for a codec that reads back what it
stored. -/
theorem HoldsValue_of_written {δ : Type} (codec : Codec δ) (disk : Disk) (kp : KeyPath)
    (val : String) (p : String) (hlaw : codec.ReadsBack kp val)
    (h : WrittenWith codec disk kp val p) : HoldsValue codec disk kp val p := by
  obtain ⟨doc, doc1, hset, hfile⟩ := h
  obtain ⟨doc2, h1, h2⟩ := hlaw doc doc1 hset
  exact ⟨_, doc2, hfile, h1, h2⟩

/-- The claim C18 fails for a codec that does not read back what it stored: with
`coreCodec`, no `Set` and no write fails, the file `a.txt` has the value 1.0.0, and
after `setToDoc` has written 1.2.3-rc1 without an error the value of the file is 1.2.3,
not the written text. -/
theorem C18_value_not_read_back :
    (∀ doc kp val, ∃ doc1, coreCodec.Set doc kp val = Except.ok doc1)
      ∧ (∀ p, (diskOf [("*.txt", ["a.txt"])] [("a.txt", "=1.0.0")]
          (Error.other "no such file")).writeErr p = none)
      ∧ FS.Glob literalMatch
          (diskOf [("*.txt", ["a.txt"])] [("a.txt", "=1.0.0")] (Error.other "no such file"))
          FS.osRootFS "*.txt" = Except.ok ["a.txt"]
      ∧ fileText coreCodec
          (diskOf [("*.txt", ["a.txt"])] [("a.txt", "=1.0.0")] (Error.other "no such file"))
          [] "a.txt" = some "1.0.0"
      ∧ Version.NewVersion "1.2.3-rc1" = some ⟨1, 2, 3, "rc1", "", "1.2.3-rc1"⟩
      ∧ verToString (some ⟨1, 2, 3, "rc1", "", "1.2.3-rc1"⟩) = Outcome.ret "1.2.3-rc1"
      ∧ (setToDoc literalMatch coreCodec ⟨1, 2, 3, "rc1", "", "1.2.3-rc1"⟩
          (diskOf [("*.txt", ["a.txt"])] [("a.txt", "=1.0.0")] (Error.other "no such file"))
          FS.osRootFS [] "*.txt").1 = none
      ∧ fileText coreCodec
          (setToDoc literalMatch coreCodec ⟨1, 2, 3, "rc1", "", "1.2.3-rc1"⟩
            (diskOf [("*.txt", ["a.txt"])] [("a.txt", "=1.0.0")] (Error.other "no such file"))
            FS.osRootFS [] "*.txt").2 [] "a.txt" = some "1.2.3" :=
  ⟨fun _ _ val => ⟨val, rfl⟩, fun _ => rfl, rfl, by decide, by decide, by decide, by decide,
    by decide⟩

/-- C18, amended: for every version, filesystem view, glob and codec where no call of
`Set` on a document and no write of a file that `setToDoc` makes fails, and the codec
reads back what it stored, `setToDoc` leaves every matched file without a value at the
key-path as it is, leaves every matched file that had a value holding the value
`verToString(v)`, returns `errNoChanges` if and only if no matched file had a value, and
returns no error if and only if one had. -/
theorem C18_setToDoc_rewrites_valued_files {δ : Type} (pm : PathMatch) (codec : Codec δ)
    (v : Version) (disk : Disk) (fs : FS) (kp : KeyPath) (path : String) (files : List String)
    (hglob : FS.Glob pm disk fs path = Except.ok files)
    (hrun : setToDocLoopFails codec kp (writtenText v) files disk = false)
    (hlaw : codec.ReadsBack kp (writtenText v)) :
    verToString (some v) = Outcome.ret (writtenText v)
      ∧ (∀ p ∈ files, fileText codec disk kp p = none →
          (setToDoc pm codec v disk fs kp path).2.file p = disk.file p)
      ∧ (∀ p ∈ files, fileText codec disk kp p ≠ none →
          HoldsValue codec (setToDoc pm codec v disk fs kp path).2 kp (writtenText v) p)
      ∧ ((setToDoc pm codec v disk fs kp path).1 = some Error.errNoChanges
          ↔ ∀ p ∈ files, fileText codec disk kp p = none)
      ∧ ((setToDoc pm codec v disk fs kp path).1 = none
          ↔ ∃ p ∈ files, fileText codec disk kp p ≠ none) := by
  rw [setToDoc_of_glob pm codec v disk fs kp path files hglob]
  have hsome : (∃ p ∈ files, fileText codec disk kp p ≠ none) →
      (setToDocLoop codec kp (writtenText v) files disk false).1 = none := fun h =>
    setToDocLoop_completes codec kp (writtenText v) files disk false hrun (Or.inr h)
  have hnone : (∀ p ∈ files, fileText codec disk kp p = none) →
      (setToDocLoop codec kp (writtenText v) files disk false).1 = some Error.errNoChanges := by
    intro h
    rw [setToDocLoop_no_value codec kp (writtenText v) files disk false h]
    rfl
  refine ⟨verToString_some v, ?_, ?_, ?_, ?_⟩
  · intro p _ hp
    exact ((setToDocLoop_frame codec kp (writtenText v) files disk false).2.2 p).1 hp
  · intro p hp hval
    exact HoldsValue_of_written codec _ kp _ p hlaw
      ((setToDocLoop_done codec kp (writtenText v) files disk false
        (hsome ⟨p, hp, hval⟩)).2 p hp hval)
  · constructor
    · intro h p hp
      by_contra hc
      rw [hsome ⟨p, hp, hc⟩] at h
      simp at h
    · exact hnone
  · constructor
    · intro h
      by_contra hc
      rw [hnone (fun p hp => by
        by_contra hc2
        exact hc ⟨p, hp, hc2⟩)] at h
      simp at h
    · exact hsome

/-- The codec `strictCodec` reads back what it stored. -/
theorem strictCodec_readsBack (kp : KeyPath) (val : String) : strictCodec.ReadsBack kp val := by
  intro doc doc1 h
  refine ⟨doc1, rfl, ?_⟩
  by_cases hd : doc = ""
  · simp [strictCodec, hd] at h
  · simp only [strictCodec, hd, if_false, Except.ok.injEq] at h
    rw [← h]
    rfl

/-- C18 through the settable view of a group, on two files read with `strictCodec`, one
with the value 1.0.0 and one without a value, on which `Set` would fail and which cannot
be written: `setToDoc` makes no call on it, so writing v2.0.0 leaves it as it is and
leaves the first file holding `v2.0.0`. -/
theorem C18_setToDoc_rewrites_valued_files_witness :
    strictCodec.Set "" [] "v2.0.0" = Except.error (Error.other "no such key")
      ∧ (lockedDisk [("*.txt", ["a.txt", "b.txt"])] [("a.txt", "=1.0.0"), ("b.txt", "=")]
          (Error.other "no such file") ["b.txt"]).writeErr "b.txt"
        = some (Error.other "permission denied")
      ∧ FS.Glob literalMatch
        (lockedDisk [("*.txt", ["a.txt", "b.txt"])] [("a.txt", "=1.0.0"), ("b.txt", "=")]
          (Error.other "no such file") ["b.txt"])
        (FS.filteredFS (FS.filteredFS FS.osRootFS []) []) "*.txt"
        = Except.ok ["", "", "", "", "", "", "a.txt", "b.txt"]
      ∧ (setToDoc literalMatch strictCodec ⟨2, 0, 0, "", "", "v2.0.0"⟩
        (lockedDisk [("*.txt", ["a.txt", "b.txt"])] [("a.txt", "=1.0.0"), ("b.txt", "=")]
          (Error.other "no such file") ["b.txt"])
        (FS.filteredFS (FS.filteredFS FS.osRootFS []) []) [] "*.txt").2.file "b.txt"
        = Except.ok "="
      ∧ HoldsValue strictCodec
        (setToDoc literalMatch strictCodec ⟨2, 0, 0, "", "", "v2.0.0"⟩
          (lockedDisk [("*.txt", ["a.txt", "b.txt"])] [("a.txt", "=1.0.0"), ("b.txt", "=")]
            (Error.other "no such file") ["b.txt"])
          (FS.filteredFS (FS.filteredFS FS.osRootFS []) []) [] "*.txt").2 [] "v2.0.0" "a.txt"
      ∧ (setToDoc literalMatch strictCodec ⟨2, 0, 0, "", "", "v2.0.0"⟩
        (lockedDisk [("*.txt", ["a.txt", "b.txt"])] [("a.txt", "=1.0.0"), ("b.txt", "=")]
          (Error.other "no such file") ["b.txt"])
        (FS.filteredFS (FS.filteredFS FS.osRootFS []) []) [] "*.txt").1 = none :=
  ⟨rfl, rfl, rfl,
    (C18_setToDoc_rewrites_valued_files literalMatch strictCodec ⟨2, 0, 0, "", "", "v2.0.0"⟩
      (lockedDisk [("*.txt", ["a.txt", "b.txt"])] [("a.txt", "=1.0.0"), ("b.txt", "=")]
        (Error.other "no such file") ["b.txt"])
      (FS.filteredFS (FS.filteredFS FS.osRootFS []) []) [] "*.txt"
      ["", "", "", "", "", "", "a.txt", "b.txt"] rfl (by decide)
      (strictCodec_readsBack [] "v2.0.0")).2.1 "b.txt" (by decide) (by decide),
    (C18_setToDoc_rewrites_valued_files literalMatch strictCodec ⟨2, 0, 0, "", "", "v2.0.0"⟩
      (lockedDisk [("*.txt", ["a.txt", "b.txt"])] [("a.txt", "=1.0.0"), ("b.txt", "=")]
        (Error.other "no such file") ["b.txt"])
      (FS.filteredFS (FS.filteredFS FS.osRootFS []) []) [] "*.txt"
      ["", "", "", "", "", "", "a.txt", "b.txt"] rfl (by decide)
      (strictCodec_readsBack [] "v2.0.0")).2.2.1 "a.txt" (by decide) (by decide),
    (C18_setToDoc_rewrites_valued_files literalMatch strictCodec ⟨2, 0, 0, "", "", "v2.0.0"⟩
      (lockedDisk [("*.txt", ["a.txt", "b.txt"])] [("a.txt", "=1.0.0"), ("b.txt", "=")]
        (Error.other "no such file") ["b.txt"])
      (FS.filteredFS (FS.filteredFS FS.osRootFS []) []) [] "*.txt"
      ["", "", "", "", "", "", "a.txt", "b.txt"] rfl (by decide)
      (strictCodec_readsBack [] "v2.0.0")).2.2.2.2.2 ⟨"a.txt", by decide, by decide⟩⟩

/-! ## `setToDoc` followed by `getFromDoc` -/

/-- The text `setToDoc` writes for a valid version parses to that version, spelled as
written. -/
theorem writtenText_parse (v : Version) (hv : v.Valid) :
    Version.NewVersion (writtenText v) = some { v with original := writtenText v } := by
  unfold writtenText
  by_cases h : hasVPrefix (some v) = true
  · simp only [h, if_true]
    exact Version.NewVersion_vString v hv
  · simp only [h, if_false]
    exact Version.NewVersion_String v hv

theorem writtenText_spelling (v : Version) :
    hasVPrefix (some { v with original := writtenText v }) = hasVPrefix (some v) := by
  by_cases h : hasVPrefix (some v) = true
  · rw [h]
    unfold writtenText
    simp only [h, if_true]
    exact HasPrefix_v_append v.String
  · simp only [Bool.not_eq_true] at h
    rw [h]
    unfold writtenText
    simp only [h, Bool.false_eq_true, if_false]
    exact HasPrefix_String v

theorem NewVersion_empty : Version.NewVersion "" = none := by decide

theorem fileText_of_holds {δ : Type} (codec : Codec δ) (disk : Disk) (kp : KeyPath)
    (val : String) (p : String) (hval : val ≠ "") (h : HoldsValue codec disk kp val p) :
    fileText codec disk kp p = some val := by
  obtain ⟨b, doc, h1, h2, h3⟩ := h
  unfold fileText
  simp [h1, h2, h3, hval]

/-- The loop of `getFromDoc` over files each of which fails to open (with two or more
entries in the glob result), holds no value, or holds the text of the version `cv`. -/
theorem getFromDocLoop_settled {δ : Type} (codec : Codec δ) (disk : Disk) (kp : KeyPath)
    (n : Nat) (val : String) (cv : Version) (hcv : Version.NewVersion val = some cv)
    (ps : List String)
    (hcls : ∀ p ∈ ps, ((∃ e, disk.file p = Except.error e) ∧ 2 ≤ n)
      ∨ (∃ b doc, disk.file p = Except.ok b ∧ codec.New b = Except.ok doc
          ∧ codec.Get doc kp = "")
      ∨ HoldsValue codec disk kp val p) :
    getFromDocLoop codec disk kp n ps (some cv) = (some cv, none)
      ∧ ((∃ p ∈ ps, HoldsValue codec disk kp val p) →
          getFromDocLoop codec disk kp n ps none = (some cv, none))
      ∧ ((∀ p ∈ ps, ¬ HoldsValue codec disk kp val p) →
          getFromDocLoop codec disk kp n ps none = (none, none)) := by
  have hval : val ≠ "" := by
    intro h
    rw [h, NewVersion_empty] at hcv
    simp at hcv
  induction ps with
  | nil => simp [getFromDocLoop]
  | cons p ps ih =>
    obtain ⟨ih1, ih2, ih3⟩ := ih fun q hq => hcls q (List.mem_cons_of_mem _ hq)
    rcases hcls p (List.mem_cons_self _ _) with ⟨⟨e, he⟩, hn⟩ | ⟨b, doc, hb, hdoc, hget⟩
      | ⟨b, doc, hb, hdoc, hget⟩
    · have hnot : ¬ HoldsValue codec disk kp val p := by
        rintro ⟨b, doc, hb, _, _⟩
        rw [he] at hb
        simp at hb
      rw [getFromDocLoop_unreadable codec disk kp n p ps _ e hn he,
        getFromDocLoop_unreadable codec disk kp n p ps _ e hn he]
      refine ⟨ih1, ?_, ?_⟩
      · rintro ⟨q, hq, hq2⟩
        rcases List.mem_cons.1 hq with hqp | hqp
        · exact absurd (hqp ▸ hq2) hnot
        · exact ih2 ⟨q, hqp, hq2⟩
      · intro h
        exact ih3 fun q hq => h q (List.mem_cons_of_mem _ hq)
    · have hnot : ¬ HoldsValue codec disk kp val p := by
        rintro ⟨b2, doc2, hb2, hdoc2, hget2⟩
        rw [hb] at hb2
        cases hb2
        rw [hdoc] at hdoc2
        cases hdoc2
        exact hval (hget2.symm.trans hget)
      have hstep : ∀ acc, getFromDocLoop codec disk kp n (p :: ps) acc
          = getFromDocLoop codec disk kp n ps acc := by
        intro acc
        rw [getFromDocLoop]
        simp [hb, hdoc, hget]
      rw [hstep, hstep]
      refine ⟨ih1, ?_, ?_⟩
      · rintro ⟨q, hq, hq2⟩
        rcases List.mem_cons.1 hq with hqp | hqp
        · exact absurd (hqp ▸ hq2) hnot
        · exact ih2 ⟨q, hqp, hq2⟩
      · intro h
        exact ih3 fun q hq => h q (List.mem_cons_of_mem _ hq)
    · have hne : codec.Get doc kp ≠ "" := by rw [hget]; exact hval
      refine ⟨?_, ?_, ?_⟩
      · rw [getFromDocLoop]
        simp only [hb, hdoc, hne, ne_eq, not_false_eq_true, if_true, hget, hcv,
          Version.Equal_self, Bool.not_true, Bool.false_eq_true, if_false]
        rw [if_pos hval]
        exact ih1
      · intro _
        rw [getFromDocLoop]
        simp only [hb, hdoc, hne, ne_eq, not_false_eq_true, if_true, hget, hcv]
        rw [if_pos hval]
        exact ih1
      · intro h
        exact absurd ⟨b, doc, hb, hdoc, hget⟩ (h p (List.mem_cons_self _ _))

/-- A second run of the loop of `setToDoc` with the same value, over files each of which
has no value or holds what the first run wrote, leaves the disk as it is. -/
theorem setToDocLoop_again {δ : Type} (codec : Codec δ) (kp : KeyPath) (val : String)
    (hstable : codec.Stable kp val) (d : Disk)
    (ps : List String)
    (hcls : ∀ p ∈ ps, fileText codec d kp p = none ∨ WrittenWith codec d kp val p) :
    ∀ changes, (setToDocLoop codec kp val ps d changes).2 = d := by
  induction ps with
  | nil =>
    intro changes
    simp [setToDocLoop]
  | cons p ps ih =>
    intro changes
    have ih2 := ih fun q hq => hcls q (List.mem_cons_of_mem _ hq)
    by_cases hv : fileText codec d kp p = none
    · rw [setToDocLoop_skip codec kp val p ps d changes hv]
      exact ih2 changes
    · obtain ⟨b, doc, hb, hdoc, _, hloop⟩ := setToDocLoop_value codec kp val p ps d changes hv
      rw [hloop]
      rcases hcls p (List.mem_cons_self _ _) with h | ⟨doc0, doc1, hset0, hfile⟩
      · exact absurd h hv
      · rw [hb] at hfile
        cases hfile
        cases hset : codec.Set doc kp val with
        | error e => rfl
        | ok doc3 =>
          simp only
          rw [hstable doc0 doc1 doc doc3 hset0 hdoc hset]
          cases hw : d.writeErr p with
          | some e =>
            have : d.write p (codec.Save doc1) = Except.error e := by
              unfold Disk.write
              rw [hw]
            rw [this]
          | none =>
            rw [Disk.write_same d p (codec.Save doc1) hb hw]
            exact ih2 true

/-- The result of `Glob` depends on the disk only through its glob results. -/
theorem FS.Glob_congr (pm : PathMatch) (d1 d : Disk) (fs : FS) (pattern : String)
    (h : d1.glob = d.glob) : FS.Glob pm d1 fs pattern = FS.Glob pm d fs pattern := by
  induction fs with
  | osRootFS => simp [FS.Glob, h]
  | filteredFS fs patterns ih => simp [FS.Glob, ih]

theorem two_le_length_of_ne {α : Type} (l : List α) (p q : α) (hp : p ∈ l) (hq : q ∈ l)
    (hne : p ≠ q) : 2 ≤ l.length := by
  match l, hp, hq with
  | [a], hp, hq =>
    exact absurd ((List.mem_singleton.1 hp).trans (List.mem_singleton.1 hq).symm) hne
  | _ :: _ :: _, _, _ => simp

/-- The claim C19 fails when a matched file does not decode: `markCodec` reads back what
it stored, `setToDoc` writes 2.0.0 to `a.txt` and passes over `b.txt`, which does not
decode, and returns no error; the following `getFromDoc` returns the decode error of
`b.txt` and no version. -/
theorem C19_undecodable_file_breaks_round_trip :
    (∀ kp val, markCodec.ReadsBack kp val)
      ∧ FS.Glob literalMatch
          (diskOf [("*.txt", ["a.txt", "b.txt"])] [("a.txt", "=1.0.0"), ("b.txt", "oops")]
            (Error.other "no such file")) FS.osRootFS "*.txt" = Except.ok ["a.txt", "b.txt"]
      ∧ Version.NewVersion "2.0.0" = some ⟨2, 0, 0, "", "", "2.0.0"⟩
      ∧ (setToDoc literalMatch markCodec ⟨2, 0, 0, "", "", "2.0.0"⟩
          (diskOf [("*.txt", ["a.txt", "b.txt"])] [("a.txt", "=1.0.0"), ("b.txt", "oops")]
            (Error.other "no such file")) FS.osRootFS [] "*.txt").1 = none
      ∧ getFromDoc literalMatch markCodec
          (setToDoc literalMatch markCodec ⟨2, 0, 0, "", "", "2.0.0"⟩
            (diskOf [("*.txt", ["a.txt", "b.txt"])] [("a.txt", "=1.0.0"), ("b.txt", "oops")]
              (Error.other "no such file")) FS.osRootFS [] "*.txt").2
          FS.osRootFS [] "*.txt" = (none, some (Error.other "syntax error")) :=
  ⟨fun _ _ _ doc1 h => ⟨doc1, rfl, by
      cases h
      rfl⟩, rfl, by decide, by decide, by decide⟩

/-- C19, amended: for every version the parser can produce and every document source
state (same filesystem view, glob, key-path, and a codec that reads back what it stored
and saves the same bytes when the stored value is stored again) in which every matched
file that opens also decodes: if `setToDoc` returns no error, a following `getFromDoc`
returns, without an error, a version Equal to `v` with the same leading-`v` spelling,
and a second `setToDoc` with `v` leaves the disk as it is; if no matched file has a
value at the key-path, `setToDoc` returns `errNoChanges` and leaves the disk as it is,
so `getFromDoc` returns what it returned before, which is no version and no error when
two or more entries matched or every matched file opens. -/
theorem C19_set_then_get {δ : Type} (pm : PathMatch) (codec : Codec δ) (v : Version)
    (disk : Disk) (fs : FS) (kp : KeyPath) (path : String) (files : List String)
    (hv : v.Valid) (hglob : FS.Glob pm disk fs path = Except.ok files)
    (hlaw : codec.ReadsBack kp (writtenText v)) (hstable : codec.Stable kp (writtenText v))
    (hopens : ∀ p ∈ files, opens disk p = true → decodes codec disk p = true) :
    ((setToDoc pm codec v disk fs kp path).1 = none →
        (∃ cv, getFromDoc pm codec (setToDoc pm codec v disk fs kp path).2 fs kp path
              = (some cv, none)
            ∧ cv.Equal v = true ∧ hasVPrefix (some cv) = hasVPrefix (some v))
          ∧ (setToDoc pm codec v (setToDoc pm codec v disk fs kp path).2 fs kp path).2
            = (setToDoc pm codec v disk fs kp path).2)
      ∧ ((∀ p ∈ files, fileText codec disk kp p = none) →
        setToDoc pm codec v disk fs kp path = (some Error.errNoChanges, disk)
          ∧ getFromDoc pm codec (setToDoc pm codec v disk fs kp path).2 fs kp path
            = getFromDoc pm codec disk fs kp path
          ∧ ((2 ≤ files.length ∨ ∀ p ∈ files, opens disk p = true) →
            getFromDoc pm codec (setToDoc pm codec v disk fs kp path).2 fs kp path
              = (none, none))) := by
  have hcv := writtenText_parse v hv
  have hval : writtenText v ≠ "" := by
    intro h
    rw [h, NewVersion_empty] at hcv
    simp at hcv
  have hdec : ∀ p ∈ files, ∀ b, disk.file p = Except.ok b →
      ∃ doc, codec.New b = Except.ok doc := by
    intro p hp b hb
    obtain ⟨b2, doc, h1, h2⟩ := (decodes_iff codec disk p).1
      (hopens p hp (by simp [opens, hb]))
    rw [hb] at h1
    cases h1
    exact ⟨doc, h2⟩
  -- how a file without a value looks
  have hempty : ∀ (d : Disk) (p : String), (∀ b, d.file p = Except.ok b →
      ∃ doc, codec.New b = Except.ok doc) → fileText codec d kp p = none →
      (∃ e, d.file p = Except.error e)
        ∨ (∃ b doc, d.file p = Except.ok b ∧ codec.New b = Except.ok doc
            ∧ codec.Get doc kp = "") := by
    intro d p hd hnone
    unfold fileText at hnone
    cases hf : d.file p with
    | error e => exact Or.inl ⟨e, rfl⟩
    | ok b =>
      obtain ⟨doc, hdoc⟩ := hd b hf
      simp only [hf, hdoc] at hnone
      by_cases hg : codec.Get doc kp = ""
      · exact Or.inr ⟨b, doc, rfl, hdoc, hg⟩
      · simp [hg] at hnone
  rw [setToDoc_of_glob pm codec v disk fs kp path files hglob]
  constructor
  · intro hok
    obtain ⟨hg, _, hframe⟩ := setToDocLoop_frame codec kp (writtenText v) files disk false
    obtain ⟨hsome, hwritten⟩ := setToDocLoop_done codec kp (writtenText v) files disk false hok
    have hglob2 : FS.Glob pm (setToDocLoop codec kp (writtenText v) files disk false).2 fs path
        = Except.ok files := by
      rw [← hglob]
      exact FS.Glob_congr pm _ disk fs path hg
    obtain ⟨q, hq, hqv⟩ : ∃ q ∈ files, fileText codec disk kp q ≠ none := by
      rcases hsome with h | h
      · simp at h
      · exact h
    constructor
    · refine ⟨{ v with original := writtenText v }, ?_, ?_, writtenText_spelling v⟩
      · rw [getFromDoc_of_glob pm codec _ fs kp path files hglob2]
        refine (getFromDocLoop_settled codec _ kp files.length (writtenText v) _ hcv files
          ?_).2.1 ⟨q, hq, HoldsValue_of_written codec _ kp _ q hlaw (hwritten q hq hqv)⟩
        intro p hp
        by_cases hpv : fileText codec disk kp p = none
        · have hsame := (hframe p).1 hpv
          rcases hempty disk p (hdec p hp) hpv with ⟨e, he⟩ | ⟨b, doc, hb, hdoc, hget⟩
          · refine Or.inl ⟨⟨e, by rw [hsame, he]⟩, ?_⟩
            exact two_le_length_of_ne files p q hp hq fun h => hqv (h ▸ hpv)
          · exact Or.inr (Or.inl ⟨b, doc, by rw [hsame, hb], hdoc, hget⟩)
        · exact Or.inr (Or.inr (HoldsValue_of_written codec _ kp _ p hlaw (hwritten p hp hpv)))
      · rw [Version.Equal_iff, Version.Compare_with_original]
        exact Version.Compare_self v
    · rw [setToDoc_of_glob pm codec v _ fs kp path files hglob2]
      apply setToDocLoop_again codec kp (writtenText v) hstable
      intro p hp
      by_cases hpv : fileText codec disk kp p = none
      · left
        rw [fileText_congr codec disk _ kp p ((hframe p).1 hpv)]
        exact hpv
      · exact Or.inr (hwritten p hp hpv)
  · intro hnone
    have hrun := setToDocLoop_no_value codec kp (writtenText v) files disk false hnone
    rw [hrun]
    refine ⟨rfl, rfl, ?_⟩
    intro hcond
    rw [getFromDoc_of_glob pm codec disk fs kp path files hglob]
    refine (getFromDocLoop_settled codec disk kp files.length (writtenText v) _ hcv files
      ?_).2.2 ?_
    · intro p hp
      rcases hempty disk p (hdec p hp) (hnone p hp) with ⟨e, he⟩ | h
      · rcases hcond with h2 | h2
        · exact Or.inl ⟨⟨e, he⟩, h2⟩
        · have hb := h2 p hp
          simp [opens, he] at hb
      · exact Or.inr (Or.inl h)
    · intro p hp hh
      have hcon := hnone p hp
      rw [fileText_of_holds codec disk kp _ p hval hh] at hcon
      simp at hcon

/-- C19 on two files read with `markCodec`, one with the value 1.0.0 and one without a
value: after `setToDoc` has written v2.0.0, `getFromDoc` returns a version Equal to it
that is spelled with a leading `v`, and writing v2.0.0 again changes nothing. -/
theorem C19_set_then_get_witness :
    (⟨2, 0, 0, "", "", "v2.0.0"⟩ : Version).Valid
      ∧ (setToDoc literalMatch markCodec ⟨2, 0, 0, "", "", "v2.0.0"⟩
        (diskOf [("*.txt", ["a.txt", "b.txt"])] [("a.txt", "=1.0.0"), ("b.txt", "=")]
          (Error.other "no such file")) FS.osRootFS [] "*.txt").1 = none
      ∧ (∃ cv, getFromDoc literalMatch markCodec
            (setToDoc literalMatch markCodec ⟨2, 0, 0, "", "", "v2.0.0"⟩
              (diskOf [("*.txt", ["a.txt", "b.txt"])] [("a.txt", "=1.0.0"), ("b.txt", "=")]
                (Error.other "no such file")) FS.osRootFS [] "*.txt").2
            FS.osRootFS [] "*.txt" = (some cv, none)
          ∧ cv.Equal ⟨2, 0, 0, "", "", "v2.0.0"⟩ = true
          ∧ hasVPrefix (some cv) = hasVPrefix (some ⟨2, 0, 0, "", "", "v2.0.0"⟩))
      ∧ (setToDoc literalMatch markCodec ⟨2, 0, 0, "", "", "v2.0.0"⟩
          (setToDoc literalMatch markCodec ⟨2, 0, 0, "", "", "v2.0.0"⟩
            (diskOf [("*.txt", ["a.txt", "b.txt"])] [("a.txt", "=1.0.0"), ("b.txt", "=")]
              (Error.other "no such file")) FS.osRootFS [] "*.txt").2
          FS.osRootFS [] "*.txt").2
        = (setToDoc literalMatch markCodec ⟨2, 0, 0, "", "", "v2.0.0"⟩
          (diskOf [("*.txt", ["a.txt", "b.txt"])] [("a.txt", "=1.0.0"), ("b.txt", "=")]
            (Error.other "no such file")) FS.osRootFS [] "*.txt").2 :=
  ⟨by decide, by decide,
    (C19_set_then_get literalMatch markCodec ⟨2, 0, 0, "", "", "v2.0.0"⟩
      (diskOf [("*.txt", ["a.txt", "b.txt"])] [("a.txt", "=1.0.0"), ("b.txt", "=")]
        (Error.other "no such file")) FS.osRootFS [] "*.txt" ["a.txt", "b.txt"] (by decide) rfl
      (fun _ doc1 h => ⟨doc1, rfl, by
        cases h
        rfl⟩)
      (fun _ _ _ _ h1 _ h3 => by
        cases h1
        cases h3
        rfl)
      (by decide)).1 (by decide)⟩

/-! ## `Filter` -/

namespace SourceGroup

variable {σ : Type}

theorem Filter_of_none (g : SourceGroup σ) (names : List Name) (h : "none" ∈ names) :
    g.Filter names = [] := by
  unfold Filter
  rw [List.filter_eq_nil_iff]
  intro e _
  simp [h]

theorem mem_Filter (g : SourceGroup σ) (names : List Name) (h : "none" ∉ names)
    (e : Name × SourceWithMeta σ) : e ∈ g.Filter names ↔ e ∈ g.Sources ∧ e.1 ∈ names := by
  unfold Filter
  rw [List.mem_filter]
  simp [h]

theorem selected_of_none (g : SourceGroup σ) (names : List Name) (h : "none" ∈ names) :
    g.selected names = [] := by
  unfold selected
  have : names.length > 0 := List.length_pos_of_mem h
  rw [if_pos this]
  exact Filter_of_none g names h

theorem selected_nil (g : SourceGroup σ) : g.selected [] = g.Sources := by
  simp [selected]

end SourceGroup

/-- C20: when the list of names does not contain `"none"`, `Filter` returns exactly the
sources of the group whose name is in the list, in the order of the group; when it
contains `"none"`, `Filter` returns the empty map, `Fetch` asks no source and yields no
reports and no error, and `Set` writes no source and leaves the world as it is; with an
empty list `Fetch` asks every enabled source of the group and `Set` writes every one
that is enabled and not read-only. An empty slice is taken to be sorted to an empty
slice; the version written is one the parser can produce. -/
theorem C20_Filter_by_names {σ : Type} (g : SourceGroup σ) (sortFunc : SortFunc σ)
    (names : List Name) (v : Version) (w : σ) (hsort : sortFunc SourceGroup.reportCmp [] = [])
    (hv : v.Valid)
    (hmodes : ∀ e ∈ g.Sources, e.2.VPrefix = VPrefixAuto ∨ e.2.VPrefix = VPrefixTrue
      ∨ e.2.VPrefix = VPrefixFalse) :
    ("none" ∉ names →
        g.Filter names = g.Sources.filter (fun e => decide (e.1 ∈ names))
          ∧ ∀ e, e ∈ g.Filter names ↔ e ∈ g.Sources ∧ e.1 ∈ names)
      ∧ ("none" ∈ names →
        g.Filter names = []
          ∧ (g.Fetch sortFunc names w).reports = []
          ∧ (g.Fetch sortFunc names w).err = none
          ∧ getCalls (g.Fetch sortFunc names w).events = []
          ∧ (g.Fetch sortFunc names w).world = w
          ∧ setCalls (g.Set v names w).events = []
          ∧ (g.Set v names w).world = w)
      ∧ getCalls (g.Fetch sortFunc [] w).events = (enabledSources g.Sources).map (·.1)
      ∧ (setCalls (g.Set v [] w).events).map (·.1) = (writableSources g.Sources).map (·.1) := by
  refine ⟨?_, ?_, ?_, ?_⟩
  · intro h
    refine ⟨?_, SourceGroup.mem_Filter g names h⟩
    unfold SourceGroup.Filter
    congr 1
    funext e
    simp [h]
  · intro h
    have hsel := SourceGroup.selected_of_none g names h
    refine ⟨SourceGroup.Filter_of_none g names h, ?_, ?_, ?_, ?_, ?_, ?_⟩
    · simp [SourceGroup.Fetch, hsel, hsort]
    · simp [SourceGroup.Fetch, hsel]
    · rw [SourceGroup.Fetch_getCalls, hsel]
      rfl
    · simp [SourceGroup.Fetch, hsel]
    · simp [SourceGroup.Set, hsel, setCalls]
    · simp [SourceGroup.Set, hsel]
  · rw [SourceGroup.Fetch_getCalls, SourceGroup.selected_nil]
  · rw [(SourceGroup.Set_spec g v [] w hv hmodes).2.1]
    unfold SourceGroup.setCallsMade
    rw [SourceGroup.selected_nil, List.map_map]
    exact SourceGroup.callSets_names g.setFS _ (writableSources g.Sources) w

/-- C20 on the group `policyGroup`: with the names `none` and `Auto` no source is asked
or written; with no names all four enabled sources are asked and the three of them that
are not read-only are written. -/
theorem C20_Filter_by_names_witness :
    insertionSortFunc (SourceGroup.reportCmp : report Unit → report Unit → Int) [] = []
      ∧ policyGroup.Filter ["none", "Auto"] = []
      ∧ getCalls (policyGroup.Fetch insertionSortFunc ["none", "Auto"] ()).events = []
      ∧ setCalls (policyGroup.Set (plainVersion 1 2 0 "1.2.0") ["none", "Auto"] ()).events = []
      ∧ getCalls (policyGroup.Fetch insertionSortFunc [] ()).events
        = ["Auto", "WithV", "NoV", "Locked"]
      ∧ (setCalls (policyGroup.Set (plainVersion 1 2 0 "1.2.0") [] ()).events).map (·.1)
        = ["Auto", "WithV", "NoV"] :=
  ⟨rfl,
    ((C20_Filter_by_names policyGroup insertionSortFunc ["none", "Auto"]
      (plainVersion 1 2 0 "1.2.0") () rfl (by decide) (by decide)).2.1 (by decide)).1,
    ((C20_Filter_by_names policyGroup insertionSortFunc ["none", "Auto"]
      (plainVersion 1 2 0 "1.2.0") () rfl (by decide) (by decide)).2.1 (by decide)).2.2.2.1,
    ((C20_Filter_by_names policyGroup insertionSortFunc ["none", "Auto"]
      (plainVersion 1 2 0 "1.2.0") () rfl (by decide) (by decide)).2.1
        (by decide)).2.2.2.2.2.1,
    (C20_Filter_by_names policyGroup insertionSortFunc ["none", "Auto"]
      (plainVersion 1 2 0 "1.2.0") () rfl (by decide) (by decide)).2.2.1,
    (C20_Filter_by_names policyGroup insertionSortFunc ["none", "Auto"]
      (plainVersion 1 2 0 "1.2.0") () rfl (by decide) (by decide)).2.2.2⟩

/-! ## `ToolSource.exec` -/

/-- The function `constructCmd` returns a command when the arguments are not empty and the
directory is empty or absolute, or `os.Getwd` succeeds. -/
theorem constructCmd_ok (os : OSEnv) (args : List String) (pwd : String)
    (env : List (String × String)) (hargs : args ≠ [])
    (hdir : pwd = "" ∨ os.isAbs pwd = true ∨ ∃ wd, os.getwd = Except.ok wd) :
    ∃ cmd, constructCmd os args pwd env = Outcome.ret (Except.ok cmd) ∧ cmd.Args = args := by
  cases args with
  | nil => exact absurd rfl hargs
  | cons a as =>
    unfold constructCmd
    by_cases hp : pwd = ""
    · simp [hp]
    · by_cases ha : os.isAbs pwd = true
      · simp [hp, ha]
      · rcases hdir with h | h | ⟨wd, h⟩
        · exact absurd h hp
        · exact absurd h ha
        · simp [hp, ha, h]

theorem choosePipe_spec (pipe : String) (stdout stderr : Bytes) :
    ((pipe = "" ∨ pipe = "stdout") → choosePipe pipe stdout stderr = stdout)
      ∧ (pipe = "stderr" → choosePipe pipe stdout stderr = stderr)
      ∧ (pipe = "both" → choosePipe pipe stdout stderr = stdout ++ stderr)
      ∧ (pipe ≠ "stderr" → pipe ≠ "both" → choosePipe pipe stdout stderr = stdout) := by
  refine ⟨?_, ?_, ?_, ?_⟩
  · intro h
    simp [choosePipe, h]
  · intro h
    subst h
    simp [choosePipe]
  · intro h
    subst h
    simp [choosePipe]
  · intro h1 h2
    unfold choosePipe
    by_cases h : pipe = "" ∨ pipe = "stdout"
    · simp [h]
    · simp [h, h1, h2]

/-- The method `exec` once the command was constructed, by the error of `cmd.Run()`. -/
theorem exec_of_cmd (os : OSEnv) (d : ToolSource) (cmd : ExecCmd) (hcmd : d.Cmd ≠ [])
    (h : constructCmd os d.Cmd d.CD d.Env = Outcome.ret (Except.ok cmd)) :
    ToolSource.exec os d
      = Outcome.ret (some (choosePipe d.Pipe (os.run cmd).stdout (os.run cmd).stderr),
        match (os.run cmd).err with
        | some (RunError.other runErr) => some (Error.wrap "failed to run command: " runErr)
        | _ =>
          if (os.run cmd).exitCode ≠ d.ExpectedStatus then
            some (Error.other ("unexpected exit status: got " ++ formatInt (os.run cmd).exitCode
              ++ ", expected " ++ formatInt d.ExpectedStatus))
          else none) := by
  have hlen : ¬ d.Cmd.length = 0 := fun hc => hcmd (List.length_eq_zero.1 hc)
  unfold ToolSource.exec
  simp only [hlen, if_false, h]
  cases hr : (os.run cmd).err with
  | none =>
    simp only [RunResult.exitCode, hr]
    split <;> rfl
  | some re =>
    cases re with
    | other e => rfl
    | exitError code =>
      simp only [RunResult.exitCode, hr]
      split <;> rfl

/-- C23: for a `ToolSource` with a non-empty `Cmd` whose command is run (the directory
is empty or absolute, or `os.Getwd` succeeds), whatever `cmd.Run()` leaves: `exec`
returns the bytes `choosePipe(Pipe, stdout, stderr)`; it returns a nil error if and only
if the process started and its exit code is `ExpectedStatus`; when the process did not
start it returns the error of `cmd.Run()`, wrapped, whatever `ExpectedStatus` is; and
`choosePipe` is stdout for `""`, `"stdout"` and every selector other than `"stderr"`
and `"both"`, stderr for `"stderr"`, and stdout followed by stderr for `"both"`. -/
theorem C23_exec_status_and_pipe (os : OSEnv) (d : ToolSource) (hcmd : d.Cmd ≠ [])
    (hdir : d.CD = "" ∨ os.isAbs d.CD = true ∨ ∃ wd, os.getwd = Except.ok wd) :
    ∃ cmd, constructCmd os d.Cmd d.CD d.Env = Outcome.ret (Except.ok cmd) ∧ cmd.Args = d.Cmd
      ∧ (∃ err, ToolSource.exec os d
          = Outcome.ret (some (choosePipe d.Pipe (os.run cmd).stdout (os.run cmd).stderr), err)
        ∧ (err = none ↔ (os.run cmd).started = true
            ∧ (os.run cmd).exitCode = d.ExpectedStatus)
        ∧ (∀ e, (os.run cmd).err = some (RunError.other e) →
            err = some (Error.wrap "failed to run command: " e)))
      ∧ (∀ stdout stderr pipe,
          ((pipe = "" ∨ pipe = "stdout") → choosePipe pipe stdout stderr = stdout)
            ∧ (pipe = "stderr" → choosePipe pipe stdout stderr = stderr)
            ∧ (pipe = "both" → choosePipe pipe stdout stderr = stdout ++ stderr)
            ∧ (pipe ≠ "stderr" → pipe ≠ "both" → choosePipe pipe stdout stderr = stdout)) := by
  obtain ⟨cmd, hc, hargs⟩ := constructCmd_ok os d.Cmd d.CD d.Env hcmd hdir
  refine ⟨cmd, hc, hargs, ⟨_, exec_of_cmd os d cmd hcmd hc, ?_, ?_⟩,
    fun stdout stderr pipe => choosePipe_spec pipe stdout stderr⟩
  · cases hr : (os.run cmd).err with
    | none =>
      simp only [RunResult.started, RunResult.exitCode, hr]
      by_cases h : (0 : Int) = d.ExpectedStatus <;> simp [h]
    | some re =>
      cases re with
      | other e => simp [RunResult.started, hr]
      | exitError code =>
        simp only [RunResult.started, RunResult.exitCode, hr]
        by_cases h : code = d.ExpectedStatus <;> simp [h]
  · intro e he
    rw [he]

/-- C23 on a tool that exits with code 3, expected, having written to both pipes. -/
theorem C23_exec_status_and_pipe_witness :
    ∃ cmd, constructCmd (osOf ⟨some (RunError.exitError 3), "1.2.3", "warning"⟩)
          ["tool", "--version"] "" [] = Outcome.ret (Except.ok cmd)
      ∧ cmd.Args = ["tool", "--version"]
      ∧ ∃ err, ToolSource.exec (osOf ⟨some (RunError.exitError 3), "1.2.3", "warning"⟩)
            ⟨["tool", "--version"], "both", 3, [], "", []⟩
          = Outcome.ret (some (choosePipe "both"
              ((osOf ⟨some (RunError.exitError 3), "1.2.3", "warning"⟩).run cmd).stdout
              ((osOf ⟨some (RunError.exitError 3), "1.2.3", "warning"⟩).run cmd).stderr), err)
        ∧ (err = none ↔
            ((osOf ⟨some (RunError.exitError 3), "1.2.3", "warning"⟩).run cmd).started = true
              ∧ ((osOf ⟨some (RunError.exitError 3), "1.2.3", "warning"⟩).run cmd).exitCode = 3)
        ∧ ∀ e, ((osOf ⟨some (RunError.exitError 3), "1.2.3", "warning"⟩).run cmd).err
            = some (RunError.other e) → err = some (Error.wrap "failed to run command: " e) :=
  (C23_exec_status_and_pipe (osOf ⟨some (RunError.exitError 3), "1.2.3", "warning"⟩)
    ⟨["tool", "--version"], "both", 3, [], "", []⟩ (by decide) (Or.inl rfl)).imp
    fun _ h => ⟨h.1, h.2.1, h.2.2.1⟩

/-! ## `UnmarshalTOML`: the keys `VPrefix` and `Disabled` -/

/-- The result of `UnmarshalTOML`, when it returns no error, has the policy and the flag
that the second loop leaves. -/
theorem UnmarshalTOML_ok {σ : Type} (t : FoldTable) (sources : Registry σ) (swm : SourceMeta)
    (first second : TomlTable) (r : SourceWithMeta σ)
    (h : UnmarshalTOML t sources swm (TomlData.table first second) = Except.ok r) :
    r.VPrefix = (metaLoop t second swm).VPrefix
      ∧ r.Disabled = (metaLoop t second swm).Disabled := by
  unfold UnmarshalTOML at h
  simp only at h
  split at h
  · simp at h
  · split at h
    · simp at h
    · split at h
      · simp at h
      · split at h
        · simp at h
        · simp only [Except.ok.injEq] at h
          subst h
          exact ⟨rfl, rfl⟩

/-- The second loop passes over the keys that fold neither to `VPrefix` nor to
`Disabled`. -/
theorem metaLoop_skip (t : FoldTable) (pre rest : TomlTable) (swm : SourceMeta)
    (hpre : ∀ e ∈ pre, EqualFold t e.1 "VPrefix" = false ∧ EqualFold t e.1 "Disabled" = false) :
    metaLoop t (pre ++ rest) swm = metaLoop t rest swm := by
  induction pre with
  | nil => rfl
  | cons e es ih =>
    obtain ⟨h1, h2⟩ := hpre e (List.mem_cons_self _ _)
    rw [List.cons_append, metaLoop]
    simp only [h1, h2, Bool.false_eq_true, if_false]
    exact ih fun x hx => hpre x (List.mem_cons_of_mem _ hx)

theorem vprefixOf_Disabled (t : FoldTable) (swm : SourceMeta) (v : TomlValue) :
    (vprefixOf t swm v).Disabled = swm.Disabled := by
  cases v <;> rfl

/-- Once the flag is set the second loop leaves it set. -/
theorem metaLoop_keeps (t : FoldTable) (l : TomlTable) :
    ∀ swm, swm.Disabled = true → (metaLoop t l swm).Disabled = true := by
  induction l with
  | nil => intro swm h; exact h
  | cons e es ih =>
    intro swm h
    rw [metaLoop]
    by_cases h1 : EqualFold t e.1 "VPrefix" = true
    · simp only [h1, if_true]
      rw [vprefixOf_Disabled]
      exact h
    · by_cases h2 : EqualFold t e.1 "Disabled" = true
      · simp only [h1, h2, if_true, if_false]
        apply ih
        split
        · rfl
        · exact h
      · simp only [h1, h2, if_false]
        exact ih swm h

/-- The second loop sets the flag when it meets a `Disabled` key that prints as `true`
before any `VPrefix` key. -/
theorem metaLoop_sets (t : FoldTable) (l rest : TomlTable) (k : String) (v : TomlValue)
    (hk : EqualFold t k "Disabled" = true) (hv : EqualFold t v.Sprint "true" = true)
    (hnot : EqualFold t k "VPrefix" = false) :
    ∀ swm, (∀ e ∈ l, EqualFold t e.1 "VPrefix" = false) →
      (metaLoop t (l ++ (k, v) :: rest) swm).Disabled = true := by
  induction l with
  | nil =>
    intro swm _
    rw [List.nil_append, metaLoop]
    simp only [hnot, hk, hv, if_true, Bool.false_eq_true, if_false]
    exact metaLoop_keeps t rest _ rfl
  | cons e es ih =>
    intro swm hl
    have h1 := hl e (List.mem_cons_self _ _)
    rw [List.cons_append, metaLoop]
    simp only [h1, Bool.false_eq_true, if_false]
    split <;> exact ih _ fun x hx => hl x (List.mem_cons_of_mem _ hx)

/-- C25: a source table holds a `VPrefix` key, visited by the second loop of
`UnmarshalTOML` before any `Disabled` key, and after it a `Disabled` key whose value
prints as `true`. Then the loop ends at the `VPrefix` key (`break`) and the result, on a
receiver that was not disabled, has `Disabled = false`; when the same entries are
visited with the `VPrefix` key last, the result has `Disabled = true`. -/
theorem C25_disabled_depends_on_visit_order {σ : Type} (t : FoldTable) (sources : Registry σ)
    (swm : SourceMeta) (first pre rest : TomlTable) (k : String) (v : TomlValue)
    (kd : String) (vd : TomlValue)
    (hk : EqualFold t k "VPrefix" = true)
    (hpre : ∀ e ∈ pre, EqualFold t e.1 "VPrefix" = false ∧ EqualFold t e.1 "Disabled" = false)
    (hrest : ∀ e ∈ rest, EqualFold t e.1 "VPrefix" = false)
    (hkd : EqualFold t kd "Disabled" = true ∧ EqualFold t kd "VPrefix" = false)
    (hvd : EqualFold t vd.Sprint "true" = true) (hmem : (kd, vd) ∈ rest)
    (hswm : swm.Disabled = false) :
    (∀ r, UnmarshalTOML t sources swm (TomlData.table first (pre ++ (k, v) :: rest))
        = Except.ok r → r.Disabled = false)
      ∧ (∀ r, UnmarshalTOML t sources swm (TomlData.table first (pre ++ rest ++ [(k, v)]))
        = Except.ok r → r.Disabled = true) := by
  constructor
  · intro r hr
    rw [(UnmarshalTOML_ok t sources swm first _ r hr).2, metaLoop_skip t pre _ swm hpre, metaLoop]
    simp only [hk, if_true]
    rw [vprefixOf_Disabled]
    exact hswm
  · intro r hr
    rw [(UnmarshalTOML_ok t sources swm first _ r hr).2, List.append_assoc,
      metaLoop_skip t pre _ swm hpre]
    obtain ⟨l1, l2, hsplit⟩ := List.append_of_mem hmem
    rw [hsplit, List.append_assoc, List.cons_append]
    apply metaLoop_sets t l1 (l2 ++ [(k, v)]) kd vd hkd.1 hvd hkd.2
    intro e he
    exact hrest e (by rw [hsplit]; exact List.mem_append_left _ he)

/-- C25 on the table `Type = "debug"`, `VPrefix = "true"`, `Disabled = true`: visited
with `VPrefix` first the source is not disabled, visited with `VPrefix` last it is. -/
theorem C25_disabled_depends_on_visit_order_witness :
    (∃ r, UnmarshalTOML asciiFold debugRegistry ⟨VPrefixAuto, false⟩
          (TomlData.table
            [("Type", TomlValue.str "debug"), ("VPrefix", TomlValue.str "true"),
              ("Disabled", TomlValue.bool true)]
            [("VPrefix", TomlValue.str "true"), ("Disabled", TomlValue.bool true),
              ("Type", TomlValue.str "debug")]) = Except.ok r
        ∧ r.Disabled = false)
      ∧ ∃ r, UnmarshalTOML asciiFold debugRegistry ⟨VPrefixAuto, false⟩
          (TomlData.table
            [("Type", TomlValue.str "debug"), ("VPrefix", TomlValue.str "true"),
              ("Disabled", TomlValue.bool true)]
            [("Disabled", TomlValue.bool true), ("Type", TomlValue.str "debug"),
              ("VPrefix", TomlValue.str "true")]) = Except.ok r
        ∧ r.Disabled = true :=
  ⟨⟨_, rfl,
      (C25_disabled_depends_on_visit_order asciiFold debugRegistry ⟨VPrefixAuto, false⟩
        [("Type", TomlValue.str "debug"), ("VPrefix", TomlValue.str "true"),
          ("Disabled", TomlValue.bool true)]
        [] [("Disabled", TomlValue.bool true), ("Type", TomlValue.str "debug")]
        "VPrefix" (TomlValue.str "true") "Disabled" (TomlValue.bool true)
        (by decide) (by simp) (by decide) (by decide) (by decide) (by simp) rfl).1 _ rfl⟩,
    ⟨_, rfl,
      (C25_disabled_depends_on_visit_order asciiFold debugRegistry ⟨VPrefixAuto, false⟩
        [("Type", TomlValue.str "debug"), ("VPrefix", TomlValue.str "true"),
          ("Disabled", TomlValue.bool true)]
        [] [("Disabled", TomlValue.bool true), ("Type", TomlValue.str "debug")]
        "VPrefix" (TomlValue.str "true") "Disabled" (TomlValue.bool true)
        (by decide) (by simp) (by decide) (by decide) (by decide) (by simp) rfl).2 _ rfl⟩⟩

/-! ## `Set` on a source whose policy is none of the three constants -/

namespace SourceGroup

variable {σ : Type}

theorem versionToWrite_other (mode : VPrefixMode) (v : Version)
    (hmode : mode ≠ VPrefixAuto ∧ mode ≠ VPrefixTrue ∧ mode ≠ VPrefixFalse) :
    versionToWrite mode v = Outcome.ret none := by
  unfold versionToWrite
  simp [hmode.1, hmode.2.1, hmode.2.2]

/-- For a version the parser can produce, the choice of the version to write does not
panic. -/
theorem versionToWrite_ne_panic (mode : VPrefixMode) (v : Version) (hv : v.Valid) :
    versionToWrite mode v ≠ Outcome.panic := by
  by_cases h : mode = VPrefixAuto ∨ mode = VPrefixTrue ∨ mode = VPrefixFalse
  · rw [versionToWrite_valid mode v hv h]
    simp
  · rw [versionToWrite_other mode v ⟨fun hc => h (Or.inl hc), fun hc => h (Or.inr (Or.inl hc)),
      fun hc => h (Or.inr (Or.inr hc))⟩]
    simp

theorem setFinish_fields (st : SetState σ) (name : Name) (e : Option Error)
    (events : List Event) (w : σ) :
    (setFinish st name e events w).panicked = st.panicked
      ∧ ∀ x ∈ events, x ∈ (setFinish st name e events w).events := by
  unfold setFinish
  split
  · exact ⟨rfl, fun x hx => List.mem_append_left _ hx⟩
  · split
    · exact ⟨rfl, fun x hx => List.mem_append_left _ hx⟩
    · exact ⟨rfl, fun x hx => List.mem_append_left _ hx⟩

/-- An iteration of the loop of `Set` keeps the events so far and, for a version the
parser can produce, does not panic. -/
theorem setStep_mono (g : SourceGroup σ) (v : Version) (hv : v.Valid) (st : SetState σ)
    (entry : Name × SourceWithMeta σ) (hp : st.panicked = false) :
    (setStep g v st entry).panicked = false
      ∧ ∀ x ∈ st.events, x ∈ (setStep g v st entry).events := by
  unfold setStep
  simp only [hp, Bool.false_eq_true, if_false]
  split
  · exact ⟨rfl, fun x hx => List.mem_append_left _ hx⟩
  · split
    · exact ⟨rfl, fun x hx => List.mem_append_left _ hx⟩
    · split
      · rename_i h
        exact absurd h (versionToWrite_ne_panic _ v hv)
      · obtain ⟨h1, h2⟩ := setFinish_fields st entry.1 none st.events st.world
        exact ⟨h1.trans hp, h2⟩
      · obtain ⟨h1, h2⟩ := setFinish_fields st entry.1
          (entry.2.Source.Set _ g.setFS st.world).1 (st.events ++ [Event.sourceSet entry.1 _])
          (entry.2.Source.Set _ g.setFS st.world).2
        exact ⟨h1.trans hp, fun x hx => h2 x (List.mem_append_left _ hx)⟩

theorem setLoop_mono (g : SourceGroup σ) (v : Version) (hv : v.Valid)
    (l : List (Name × SourceWithMeta σ)) :
    ∀ st : SetState σ, st.panicked = false →
      (l.foldl (setStep g v) st).panicked = false
        ∧ ∀ x ∈ st.events, x ∈ (l.foldl (setStep g v) st).events := by
  induction l with
  | nil => intro st hp; exact ⟨hp, fun x hx => hx⟩
  | cons e es ih =>
    intro st hp
    obtain ⟨h1, h2⟩ := setStep_mono g v hv st e hp
    obtain ⟨h3, h4⟩ := ih (setStep g v st e) h1
    exact ⟨h3, fun x hx => h4 x (h2 x hx)⟩

/-- The iteration of the loop of `Set` at an enabled, writable source whose policy is
none of the three constants: no call is made and `ok` is logged. -/
theorem setStep_other (g : SourceGroup σ) (v : Version) (st : SetState σ)
    (entry : Name × SourceWithMeta σ) (hp : st.panicked = false)
    (hen : entry.2.Disabled = false) (hro : entry.2.Source.IsReadOnly = false)
    (hmode : entry.2.VPrefix ≠ VPrefixAuto ∧ entry.2.VPrefix ≠ VPrefixTrue
      ∧ entry.2.VPrefix ≠ VPrefixFalse) :
    setStep g v st entry
      = { st with events := st.events ++ [Event.Log ("  " ++ entry.1 ++ ": ok")] } := by
  unfold setStep
  simp only [hp, hen, hro, Bool.false_eq_true, if_false, versionToWrite_other _ v hmode]
  simp [setFinish, errorsIs, hp]

theorem setLoop_other_logged (g : SourceGroup σ) (v : Version) (hv : v.Valid)
    (entry : Name × SourceWithMeta σ) (hen : entry.2.Disabled = false)
    (hro : entry.2.Source.IsReadOnly = false)
    (hmode : entry.2.VPrefix ≠ VPrefixAuto ∧ entry.2.VPrefix ≠ VPrefixTrue
      ∧ entry.2.VPrefix ≠ VPrefixFalse)
    (l : List (Name × SourceWithMeta σ)) (hmem : entry ∈ l) :
    ∀ st : SetState σ, st.panicked = false →
      Event.Log ("  " ++ entry.1 ++ ": ok") ∈ (l.foldl (setStep g v) st).events := by
  induction l with
  | nil => simp at hmem
  | cons e es ih =>
    intro st hp
    rw [List.foldl_cons]
    rcases List.mem_cons.1 hmem with h | h
    · subst h
      apply (setLoop_mono g v hv es _ (setStep_mono g v hv st entry hp).1).2
      rw [setStep_other g v st entry hp hen hro hmode]
      simp
    · exact ih h _ (setStep_mono g v hv st e hp).1

end SourceGroup

/-- C24: for an enabled, non-read-only selected source whose `VPrefix` is none of Auto
(0), True (1) and False (2), `Set` makes no call of the source's `Set`, and it sends
`ok` for the source to the log sink; such a value is reachable, since `UnmarshalTOML`
stores any `int64` of the `VPrefix` key in the field. The names of a group are the keys
of a map, hence distinct; the version written is one the parser can produce. -/
theorem C24_unknown_policy_not_written {σ : Type} (g : SourceGroup σ) (v : Version)
    (names : List Name) (w : σ) (n : Name) (src : SourceWithMeta σ) (hv : v.Valid)
    (hkeys : (g.Sources.map (·.1)).Nodup) (hmem : (n, src) ∈ g.selected names)
    (hen : src.Disabled = false) (hro : src.Source.IsReadOnly = false)
    (hmode : src.VPrefix ≠ VPrefixAuto ∧ src.VPrefix ≠ VPrefixTrue
      ∧ src.VPrefix ≠ VPrefixFalse) :
    (∀ x, (n, x) ∉ setCalls (g.Set v names w).events)
      ∧ Event.Log ("  " ++ n ++ ": ok") ∈ (g.Set v names w).events
      ∧ (g.Set v names w).out ≠ Outcome.panic
      ∧ ∀ (t : FoldTable) (reg : Registry σ) (swm : SourceMeta) (first rest : TomlTable) (i : Int)
          (r : SourceWithMeta σ),
          UnmarshalTOML t reg swm
              (TomlData.table first (("VPrefix", TomlValue.int64 i) :: rest)) = Except.ok r →
            r.VPrefix = i := by
  refine ⟨?_, ?_, ?_, ?_⟩
  · intro x hx
    obtain ⟨e, he, _, _, hname, hwrite⟩ := SourceGroup.Set_setCalls_mem g v names w (n, x) hx
    have heq : e = (n, src) :=
      SourceGroup.unique_of_nodup_keys g.Sources hkeys e (n, src)
        (SourceGroup.selected_subset g names e he)
        (SourceGroup.selected_subset g names _ hmem) hname.symm
    rw [heq, SourceGroup.versionToWrite_other src.VPrefix v hmode] at hwrite
    simp at hwrite
  · exact SourceGroup.setLoop_other_logged g v hv (n, src) hen hro hmode _ hmem _ rfl
  · have hnp := (SourceGroup.setLoop_mono g v hv (g.selected names)
      ⟨none, [Event.Log "writing versions to sources..."], w, false⟩ rfl).1
    unfold SourceGroup.Set
    simp only [hnp]
    simp
  · intro t reg swm first rest i r hr
    rw [(UnmarshalTOML_ok t reg swm first _ r hr).1, metaLoop]
    have : EqualFold t "VPrefix" "VPrefix" = true := by
      simp [EqualFold]
    simp only [this, if_true]
    rfl

/-- C24 on a group whose only source has `VPrefix = 3`: writing 1.2.0 makes no call and
logs `ok`. -/
theorem C24_unknown_policy_not_written_witness :
    (plainVersion 1 2 0 "1.2.0").Valid
      ∧ (∀ x, ("Odd", x) ∉ setCalls (oddGroup.Set (plainVersion 1 2 0 "1.2.0") [] ()).events)
      ∧ Event.Log "  Odd: ok" ∈ (oddGroup.Set (plainVersion 1 2 0 "1.2.0") [] ()).events
      ∧ (oddGroup.Set (plainVersion 1 2 0 "1.2.0") [] ()).events
        = [Event.Log "writing versions to sources...", Event.Log "  Odd: ok"] :=
  ⟨by decide,
    (C24_unknown_policy_not_written oddGroup (plainVersion 1 2 0 "1.2.0") [] () "Odd" oddSource
      (by decide) (by decide)
      (List.mem_cons_self _ _ : ("Odd", oddSource) ∈ [("Odd", oddSource)]) rfl rfl
      (by decide)).1,
    (C24_unknown_policy_not_written oddGroup (plainVersion 1 2 0 "1.2.0") [] () "Odd" oddSource
      (by decide) (by decide)
      (List.mem_cons_self _ _ : ("Odd", oddSource) ∈ [("Odd", oddSource)]) rfl rfl
      (by decide)).2.1,
    by decide⟩

/-! ## The loop of `Get` after a tolerated lag -/

namespace SourceGroup

variable {σ : Type}

theorem reconcile_events_append (g : SourceGroup σ) (l1 l2 : List (report σ)) :
    ∀ st, (g.reconcile (l1 ++ l2) st).2
      = (g.reconcile l1 st).2 ++ (g.reconcile l2 (g.reconcile l1 st).1).2 := by
  induction l1 with
  | nil => intro st; rfl
  | cons r rs ih =>
    intro st
    simp only [List.cons_append, reconcile, List.cons.injEq, true_and]
    exact ih _

theorem reconcile_events_cons (g : SourceGroup σ) (r : report σ) (l : List (report σ))
    (st : GetState) :
    (g.reconcile (r :: l) st).2 = (getStep g st r).2 :: (g.reconcile l (getStep g st r).1).2 :=
  rfl

theorem firstVersion_cons_none (r : report σ) (l : List (report σ)) (h : r.v = none) :
    firstVersion (r :: l) = firstVersion l := by
  simp [firstVersion, List.filterMap_cons, h]

theorem firstVersion_cons_some (r : report σ) (l : List (report σ)) (u : Version)
    (h : r.v = some u) : firstVersion (r :: l) = some u := by
  simp [firstVersion, List.filterMap_cons, h]

theorem firstVersion_append (l1 l2 : List (report σ)) :
    firstVersion (l1 ++ l2) = (firstVersion l1).orElse fun _ => firstVersion l2 := by
  induction l1 with
  | nil => simp [firstVersion]
  | cons r rs ih =>
    cases h : r.v with
    | none =>
      rw [List.cons_append, firstVersion_cons_none r _ h, firstVersion_cons_none r _ h, ih]
    | some u =>
      rw [List.cons_append, firstVersion_cons_some r _ u h, firstVersion_cons_some r _ u h]
      rfl

/-- With the consensus `c` established and no lag tolerated so far, reports that do not
lag leave both as they are. -/
theorem reconcile_no_lag (g : SourceGroup σ) (c : Version) (l : List (report σ)) :
    ∀ st : GetState, st.version = some c → st.lower = none → (∀ r ∈ l, r.lagging c = false) →
      (g.reconcile l st).1.version = some c ∧ (g.reconcile l st).1.lower = none := by
  induction l with
  | nil => intro st h1 h2 _; exact ⟨h1, h2⟩
  | cons r rs ih =>
    intro st h1 h2 hl
    rw [reconcile_cons]
    have hrs := fun x hx => hl x (List.mem_cons_of_mem r hx)
    have hr := hl r (List.mem_cons_self _ _)
    cases hv : r.v with
    | none =>
      have : (getStep g st r).1 = st := by simp [getStep, hv]
      rw [this]
      exact ih st h1 h2 hrs
    | some u =>
      by_cases heq : c.Equal u = true
      · have : (getStep g st r).1 = st := by simp [getStep, hv, h1, heq]
        rw [this]
        exact ih st h1 h2 hrs
      · by_cases hcond : (!g.Strict && st.lower = none && r.s.Source.IsCanBeLesser
            && u.LessThan c) = true
        · exfalso
          simp only [Bool.and_eq_true] at hcond
          simp [report.lagging, hv, hcond.2, hcond.1.2] at hr
        · have : (getStep g st r).1
              = ⟨st.version, st.lower,
                  if st.err = none then some Error.differentVersions else st.err⟩ := by
            simp only [getStep, hv, h1, heq]
            simp only [Bool.false_eq_true, if_false, hcond]
          rw [this]
          exact ih _ h1 h2 hrs

/-- From the start of the loop, reports that do not lag behind the consensus establish it
and tolerate no lag. -/
theorem reconcile_no_lag_init (g : SourceGroup σ) (c : Version) (l : List (report σ)) :
    ∀ st : GetState, st.version = none → st.lower = none → firstVersion l = some c →
      (∀ r ∈ l, r.lagging c = false) →
      (g.reconcile l st).1.version = some c ∧ (g.reconcile l st).1.lower = none := by
  induction l with
  | nil => intro st _ _ h; simp [firstVersion] at h
  | cons r rs ih =>
    intro st h1 h2 hfirst hl
    rw [reconcile_cons]
    have hrs := fun x hx => hl x (List.mem_cons_of_mem r hx)
    cases hv : r.v with
    | none =>
      have : (getStep g st r).1 = st := by simp [getStep, hv]
      rw [this]
      rw [firstVersion_cons_none r rs hv] at hfirst
      exact ih st h1 h2 hfirst hrs
    | some u =>
      rw [firstVersion_cons_some r rs u hv, Option.some.injEq] at hfirst
      subst hfirst
      rw [getStep_first g st r u h1 hv]
      exact reconcile_no_lag g u rs _ rfl h2 hrs

/-- Once a lag has been tolerated, the loop of `Get` tolerates no other: each report is
logged as absent, as agreeing, or as a conflict on the error sink. -/
theorem reconcile_after_lag (g : SourceGroup σ) (c : Version) (l : List (report σ)) :
    ∀ st : GetState, st.version = some c → st.lower ≠ none →
      (g.reconcile l st).2 = l.map (laterEvent c)
        ∧ (g.reconcile l st).1.lower = st.lower := by
  induction l with
  | nil => intro st _ _; exact ⟨rfl, rfl⟩
  | cons r rs ih =>
    intro st h1 h2
    rw [reconcile_events_cons, reconcile_cons, List.map_cons]
    cases hv : r.v with
    | none =>
      have hs : getStep g st r = (st, Event.Trace ("  " ++ r.n ++ " reports no version")) := by
        simp [getStep, hv]
      rw [hs]
      obtain ⟨i1, i2⟩ := ih st h1 h2
      exact ⟨by rw [i1]; simp [laterEvent, hv], i2⟩
    | some u =>
      by_cases heq : c.Equal u = true
      · have hs : getStep g st r
            = (st, Event.Log ("  " ++ r.n ++ " report version: " ++ u.String)) := by
          simp [getStep, hv, h1, heq]
        rw [hs]
        obtain ⟨i1, i2⟩ := ih st h1 h2
        exact ⟨by rw [i1]; simp [laterEvent, hv, heq], i2⟩
      · have hs : getStep g st r
            = (⟨st.version, st.lower,
                  if st.err = none then some Error.differentVersions else st.err⟩,
                Event.Err ("  " ++ r.n ++ " report different version: " ++ u.String)) := by
          simp only [getStep, hv, h1, heq]
          simp [h2]
        rw [hs]
        obtain ⟨i1, i2⟩ := ih ⟨st.version, st.lower,
          if st.err = none then some Error.differentVersions else st.err⟩ h1 h2
        exact ⟨by rw [i1]; simp [laterEvent, hv, heq], i2⟩

/-- The messages of the loop of `Get` are among the events of `Get` when no source
failed. -/
theorem Get_events_loop (g : SourceGroup σ) (sortFunc : SortFunc σ) (names : List Name)
    (w : σ) (herr : (g.Fetch sortFunc names w).err = none) :
    ∀ e ∈ (g.reconcile (g.Fetch sortFunc names w).reports ⟨none, none, none⟩).2,
      e ∈ (g.Get sortFunc names w).events := by
  intro e he
  unfold Get
  simp only [herr, ne_eq, not_true_eq_false, if_false]
  split
  · exact List.mem_append_right _ he
  · rw [finishGet_events]
    split
    · exact List.mem_append_left _ (List.mem_append_right _ he)
    · exact List.mem_append_right _ he

end SourceGroup

/-- The loop of `Get` at the first report, in the list `Fetch` returned, that comes from
a CanBeLesser source and is strictly lower than the consensus `c`: it is logged as
allowed and its version is kept as the one tolerated lag; every report after it is
logged as absent, as agreeing with `c`, or as a conflict on the error sink. -/
theorem Get_lag_events_of_split {σ : Type} (g : SourceGroup σ) (sortFunc : SortFunc σ)
    (names : List Name) (w : σ) (c lv : Version) (before after : List (report σ))
    (low : report σ)
    (hstrict : g.Strict = false)
    (herr : (g.Fetch sortFunc names w).err = none)
    (hvalid : validReports (g.Fetch sortFunc names w).reports)
    (hcons : firstVersion (g.Fetch sortFunc names w).reports = some c)
    (hsplit : (g.Fetch sortFunc names w).reports = before ++ low :: after)
    (hlow : low.v = some lv ∧ lv.LessThan c = true ∧ low.s.Source.IsCanBeLesser = true)
    (hfirst : ∀ r ∈ before, r.lagging c = false) :
    (g.reconcile (g.Fetch sortFunc names w).reports ⟨none, none, none⟩).2
        = (g.reconcile before ⟨none, none, none⟩).2
          ++ Event.Log ("  " ++ low.n ++ " report lesser version: " ++ lv.String ++ " (allowed)")
            :: after.map (laterEvent c)
      ∧ (g.reconcile (g.Fetch sortFunc names w).reports ⟨none, none, none⟩).1.lower = some lv
      ∧ Event.Log ("  " ++ low.n ++ " report lesser version: " ++ lv.String ++ " (allowed)")
        ∈ (g.Get sortFunc names w).events
      ∧ ∀ r ∈ after, ∀ u, r.v = some u → u.LessThan c = true →
          laterEvent c r = Event.Err ("  " ++ r.n ++ " report different version: " ++ u.String)
            ∧ Event.Err ("  " ++ r.n ++ " report different version: " ++ u.String)
              ∈ (g.Get sortFunc names w).events := by
  have hcv : c.Valid := by
    have hm : c ∈ (g.Fetch sortFunc names w).reports.filterMap (·.v) :=
      List.mem_of_mem_head? hcons
    obtain ⟨r, hr, hrv⟩ := List.mem_filterMap.1 hm
    exact hvalid r hr c hrv
  have hne : ∀ r ∈ (g.Fetch sortFunc names w).reports, ∀ u, r.v = some u →
      u.LessThan c = true → c.Equal u = false := by
    intro r hr u hu hlt
    have hs := Version.Compare_symm c u hcv (hvalid r hr u hu)
    rw [Version.LessThan_iff] at hlt
    cases h : c.Equal u with
    | false => rfl
    | true =>
      rw [Version.Equal_iff] at h
      omega
  -- the consensus is established before `low`
  have hbefore : firstVersion before = some c := by
    rw [hsplit, SourceGroup.firstVersion_append] at hcons
    cases hb : firstVersion before with
    | some x =>
      rw [hb] at hcons
      exact hcons
    | none =>
      rw [hb] at hcons
      simp only [Option.orElse] at hcons
      rw [SourceGroup.firstVersion_cons_some low after lv hlow.1, Option.some.injEq] at hcons
      have := hlow.2.1
      rw [hcons, Version.LessThan_iff, Version.Compare_self] at this
      omega
  obtain ⟨hver, hlower⟩ := SourceGroup.reconcile_no_lag_init g c before ⟨none, none, none⟩
    rfl rfl hbefore hfirst
  have hlowmem : low ∈ (g.Fetch sortFunc names w).reports := by
    rw [hsplit]
    exact List.mem_append_right _ (List.mem_cons_self _ _)
  have hstep : SourceGroup.getStep g (g.reconcile before ⟨none, none, none⟩).1 low
      = ({ (g.reconcile before ⟨none, none, none⟩).1 with lower := some lv },
          Event.Log ("  " ++ low.n ++ " report lesser version: " ++ lv.String
            ++ " (allowed)")) := by
    simp [SourceGroup.getStep, hlow.1, hver, hne low hlowmem lv hlow.1 hlow.2.1, hstrict,
      hlower, hlow.2.1, hlow.2.2]
  obtain ⟨hev, hlo⟩ := SourceGroup.reconcile_after_lag g c after
    { (g.reconcile before ⟨none, none, none⟩).1 with lower := some lv } hver (by simp)
  have hevents : (g.reconcile (g.Fetch sortFunc names w).reports ⟨none, none, none⟩).2
      = (g.reconcile before ⟨none, none, none⟩).2
        ++ Event.Log ("  " ++ low.n ++ " report lesser version: " ++ lv.String ++ " (allowed)")
          :: after.map (laterEvent c) := by
    rw [hsplit, SourceGroup.reconcile_events_append, SourceGroup.reconcile_events_cons, hstep,
      hev]
  refine ⟨hevents, ?_, ?_, ?_⟩
  · rw [hsplit, SourceGroup.reconcile_append, SourceGroup.reconcile_cons, hstep, hlo]
  · apply SourceGroup.Get_events_loop g sortFunc names w herr
    rw [hevents]
    exact List.mem_append_right _ (List.mem_cons_self _ _)
  · intro r hr u hu hlt
    have hrm : r ∈ (g.Fetch sortFunc names w).reports := by
      rw [hsplit]
      exact List.mem_append_right _ (List.mem_cons_of_mem _ hr)
    have hlater : laterEvent c r
        = Event.Err ("  " ++ r.n ++ " report different version: " ++ u.String) := by
      simp [laterEvent, hu, hne r hrm u hu hlt]
    refine ⟨hlater, ?_⟩
    apply SourceGroup.Get_events_loop g sortFunc names w herr
    rw [hevents, ← hlater]
    exact List.mem_append_right _ (List.mem_cons_of_mem _ (List.mem_map_of_mem _ hr))

/-! ## Equal versions differ at most in metadata and spelling -/

namespace Version

theorem splitDots_inj (cs : List Char) : ∀ ds, splitDots cs = splitDots ds → cs = ds := by
  induction cs with
  | nil =>
    intro ds h
    cases ds with
    | nil => rfl
    | cons d ds =>
      exfalso
      simp only [splitDots] at h
      by_cases hd : d = '.'
      · simp only [hd, if_true, List.cons.injEq, true_and] at h
        exact splitDots_ne_nil ds h.symm
      · simp only [hd, if_false] at h
        cases hs : splitDots ds with
        | nil => exact splitDots_ne_nil ds hs
        | cons p ps => simp [hs] at h
  | cons c cs ih =>
    intro ds h
    cases ds with
    | nil =>
      exfalso
      simp only [splitDots] at h
      by_cases hc : c = '.'
      · simp only [hc, if_true, List.cons.injEq, true_and] at h
        exact splitDots_ne_nil cs h
      · simp only [hc, if_false] at h
        cases hs : splitDots cs with
        | nil => exact splitDots_ne_nil cs hs
        | cons p ps => simp [hs] at h
    | cons d ds =>
      simp only [splitDots] at h
      by_cases hc : c = '.'
      · by_cases hd : d = '.'
        · simp only [hc, hd, if_true, List.cons.injEq, true_and] at h
          rw [hc, hd, ih ds h]
        · exfalso
          simp only [hc, hd, if_true, if_false] at h
          cases hs : splitDots ds with
          | nil => exact splitDots_ne_nil ds hs
          | cons p ps => simp [hs] at h
      · by_cases hd : d = '.'
        · exfalso
          simp only [hc, hd, if_true, if_false] at h
          cases hs : splitDots cs with
          | nil => exact splitDots_ne_nil cs hs
          | cons p ps => simp [hs] at h
        · simp only [hc, hd, if_false] at h
          cases hs : splitDots cs with
          | nil => exact absurd hs (splitDots_ne_nil cs)
          | cons p ps =>
            cases hs2 : splitDots ds with
            | nil => exact absurd hs2 (splitDots_ne_nil ds)
            | cons q qs =>
              simp only [hs, hs2, List.cons.injEq] at h
              obtain ⟨⟨h1, h2⟩, h3⟩ := h
              have := ih ds (by rw [hs, hs2, h2, h3])
              rw [h1, this]

theorem compareParts_eq_zero (a : List (List Char)) :
    ∀ b, PartsOK a → PartsOK b → compareParts a b = 0 → a = b := by
  induction a with
  | nil =>
    intro b _ hb h
    cases b with
    | nil => rfl
    | cons o os =>
      rw [compareParts_nil_cons o os (hb o (List.mem_cons_self _ _)).1] at h
      omega
  | cons s ss ih =>
    intro b ha hb h
    cases b with
    | nil =>
      rw [compareParts_cons_nil s ss (ha s (List.mem_cons_self _ _)).1] at h
      omega
    | cons o os =>
      rw [compareParts_cons_cons] at h
      by_cases hso : comparePrePart s o = 0
      · simp only [hso, ne_eq, not_true_eq_false, if_false] at h
        rw [comparePrePart_eq_zero s o hso,
          ih os (fun p hp => ha p (List.mem_cons_of_mem _ hp))
            (fun p hp => hb p (List.mem_cons_of_mem _ hp)) h]
      · simp only [hso, ne_eq, not_false_eq_true, if_true] at h

theorem compareSegment_eq_zero (a b : Nat) (h : compareSegment a b = 0) : a = b := by
  unfold compareSegment at h
  by_cases h1 : a < b
  · simp [h1] at h
  · by_cases h2 : a > b
    · simp [h1, h2] at h
    · omega

/-- Versions the parser can produce that are Equal have the same numeric segments and
the same pre-release. -/
theorem fields_of_Equal (x y : Version) (hx : x.Valid) (hy : y.Valid)
    (h : x.Equal y = true) :
    x.major = y.major ∧ x.minor = y.minor ∧ x.patch = y.patch ∧ x.pre = y.pre := by
  rw [Equal_iff] at h
  unfold Compare at h
  by_cases h1 : compareSegment x.major y.major = 0
  · by_cases h2 : compareSegment x.minor y.minor = 0
    · by_cases h3 : compareSegment x.patch y.patch = 0
      · refine ⟨compareSegment_eq_zero _ _ h1, compareSegment_eq_zero _ _ h2,
          compareSegment_eq_zero _ _ h3, ?_⟩
        simp only [h1, h2, h3, ne_eq, not_true_eq_false, if_false] at h
        by_cases hxp : x.pre = ""
        · by_cases hyp : y.pre = ""
          · rw [hxp, hyp]
          · simp [hxp, hyp] at h
        · by_cases hyp : y.pre = ""
          · simp [hxp, hyp] at h
          · simp only [hxp, hyp, false_and, if_false] at h
            unfold comparePrerelease at h
            have := compareParts_eq_zero _ _ (hx.partsOK hxp) (hy.partsOK hyp) h
            exact String.ext (splitDots_inj _ _ this)
      · simp only [h1, h2, h3, ne_eq, not_true_eq_false, not_false_eq_true, if_false,
          if_true] at h
    · simp only [h1, h2, ne_eq, not_true_eq_false, not_false_eq_true, if_false, if_true] at h
  · simp only [h1, ne_eq, not_false_eq_true, if_true] at h

/-- Equal versions with the same build metadata have the same canonical text. -/
theorem String_eq_of_Equal (x y : Version) (hx : x.Valid) (hy : y.Valid)
    (h : x.Equal y = true) (hm : x.metadata = y.metadata) : x.String = y.String := by
  obtain ⟨h1, h2, h3, h4⟩ := fields_of_Equal x y hx hy h
  unfold Version.String
  rw [h1, h2, h3, h4, hm]

end Version

/-! ## `Fetch` on sources that report the same whenever they are asked -/

namespace SourceGroup

variable {σ : Type}

/-- The loop of `Fetch` over sources each of which returns the version `res` gives for
it and no error, in whatever world it is asked. -/
theorem fetchLoop_pure (g : SourceGroup σ) (res : Name × SourceWithMeta σ → Option Version)
    (l : List (Name × SourceWithMeta σ))
    (hpure : ∀ e ∈ l, e.2.Disabled = false →
      ∀ w, (e.2.Source.Get g.getFS w).1 = (res e, none)) :
    ∀ st : FetchState σ, st.err = none →
      (l.foldl (fetchStep g) st).reports = st.reports ++ reportsOf res l
        ∧ (l.foldl (fetchStep g) st).vp
          = (st.vp || (reportsOf res l).any fun r => hasVPrefix r.v)
        ∧ (l.foldl (fetchStep g) st).err = none := by
  induction l with
  | nil =>
    intro st h
    simp [reportsOf, enabledSources, h]
  | cons e es ih =>
    intro st h
    have ih2 := ih fun x hx => hpure x (List.mem_cons_of_mem _ hx)
    rw [List.foldl_cons]
    by_cases hd : e.2.Disabled = true
    · have hs : fetchStep g st e = { st with events := st.events
          ++ [Event.Trace ("  " ++ e.1 ++ " skipped as disabled")] } := by
        simp [fetchStep, hd]
      obtain ⟨i1, i2, i3⟩ := ih2 (fetchStep g st e) (by rw [hs]; exact h)
      refine ⟨?_, ?_, i3⟩
      · rw [i1, hs]
        simp [reportsOf, enabledSources, List.filter_cons, hd]
      · rw [i2, hs]
        simp [reportsOf, enabledSources, List.filter_cons, hd]
    · simp only [Bool.not_eq_true] at hd
      have hget := hpure e (List.mem_cons_self _ _) hd st.world
      have hs : fetchStep g st e
          = ⟨st.reports ++ [⟨res e, e.2, e.1⟩], st.vp || hasVPrefix (res e), st.err,
              st.events ++ [Event.sourceGet e.1], (e.2.Source.Get g.getFS st.world).2⟩ := by
        unfold fetchStep
        simp only [hd, Bool.false_eq_true, if_false]
        rcases hg : e.2.Source.Get g.getFS st.world with ⟨⟨v, err⟩, w2⟩
        rw [hg] at hget
        simp only [Prod.mk.injEq] at hget
        obtain ⟨hv, he⟩ := hget
        subst hv
        subst he
        rfl
      obtain ⟨i1, i2, i3⟩ := ih2 (fetchStep g st e) (by rw [hs]; exact h)
      refine ⟨?_, ?_, i3⟩
      · rw [i1, hs]
        simp [reportsOf, enabledSources, List.filter_cons, hd]
      · rw [i2, hs]
        simp [reportsOf, enabledSources, List.filter_cons, hd, Bool.or_assoc]

/-- What `Fetch` returns for sources that report the same whenever they are asked. -/
theorem Fetch_pure (g : SourceGroup σ) (sortFunc : SortFunc σ) (names : List Name) (w : σ)
    (res : Name × SourceWithMeta σ → Option Version)
    (hpure : ∀ e ∈ g.Sources, e.2.Disabled = false →
      ∀ w, (e.2.Source.Get g.getFS w).1 = (res e, none)) :
    (g.Fetch sortFunc names w).reports = sortFunc reportCmp (reportsOf res (g.selected names))
      ∧ (g.Fetch sortFunc names w).vp
        = (reportsOf res (g.selected names)).any (fun r => hasVPrefix r.v)
      ∧ (g.Fetch sortFunc names w).err = none := by
  obtain ⟨h1, h2, h3⟩ := fetchLoop_pure g res (g.selected names)
    (fun e he => hpure e (selected_subset g names e he)) ⟨[], false, none, [], w⟩ rfl
  unfold Fetch
  simp only [h3, ne_eq, not_true_eq_false, if_false]
  exact ⟨by rw [h1]; rfl, by rw [h2]; rfl, trivial⟩

/-- The reports collected in another iteration order of the same sources are a
permutation. -/
theorem reportsOf_perm (g : SourceGroup σ) (sources : List (Name × SourceWithMeta σ))
    (names : List Name) (res : Name × SourceWithMeta σ → Option Version)
    (hperm : sources.Perm g.Sources) :
    (reportsOf res ((g.reordered sources).selected names)).Perm
      (reportsOf res (g.selected names)) := by
  unfold reportsOf enabledSources selected Filter reordered
  simp only
  split
  · exact ((hperm.filter _).filter _).map _
  · exact (hperm.filter _).map _

theorem any_perm {α : Type} (p : α → Bool) (l1 l2 : List α) (h : l1.Perm l2) :
    l1.any p = l2.any p := by
  rw [Bool.eq_iff_iff, List.any_eq_true, List.any_eq_true]
  constructor
  · rintro ⟨x, hx, hp⟩
    exact ⟨x, h.mem_iff.1 hx, hp⟩
  · rintro ⟨x, hx, hp⟩
    exact ⟨x, h.mem_iff.2 hx, hp⟩

end SourceGroup

/-! ## The loop of `Get` on sorted reports -/

namespace SourceGroup

variable {σ : Type}

/-- An error recorded by the loop of `Get` stays recorded, and the consensus stays. -/
theorem reconcile_keeps (g : SourceGroup σ) (c : Version) (l : List (report σ)) :
    ∀ st : GetState, st.version = some c →
      (g.reconcile l st).1.version = some c
        ∧ (st.err ≠ none → (g.reconcile l st).1.err ≠ none) := by
  induction l with
  | nil => intro st h; exact ⟨h, fun h => h⟩
  | cons r rs ih =>
    intro st h
    rw [reconcile_cons]
    have hstep : (getStep g st r).1.version = some c
        ∧ (st.err ≠ none → (getStep g st r).1.err ≠ none) := by
      unfold getStep
      cases hv : r.v with
      | none => exact ⟨h, fun h => h⟩
      | some u =>
        simp only [h]
        split
        · exact ⟨h, fun h => h⟩
        · split
          · exact ⟨rfl, fun h => h⟩
          · refine ⟨rfl, fun he => ?_⟩
            simp [he]
    obtain ⟨i1, i2⟩ := ih (getStep g st r).1 hstep.1
    exact ⟨i1, fun he => i2 (hstep.2 he)⟩

theorem disagreeing_cons_agree (c : Version) (r : report σ) (l : List (report σ))
    (h : r.v = none ∨ ∃ u, r.v = some u ∧ c.Equal u = true) :
    disagreeing c (r :: l) = disagreeing c l := by
  unfold disagreeing
  rcases h with h | ⟨u, h, hu⟩
  · simp [List.filter_cons, h]
  · simp [List.filter_cons, h, hu]

theorem disagreeing_cons_differ (c : Version) (r : report σ) (l : List (report σ)) (u : Version)
    (h : r.v = some u) (hu : c.Equal u = false) :
    disagreeing c (r :: l) = r :: disagreeing c l := by
  unfold disagreeing
  simp [List.filter_cons, h, hu]

/-- The loop of `Get` with the consensus `c` established, over reports none of which is
above `c`: it ends without a recorded error exactly when none was recorded before and
the disagreeing reports are none, or one that is tolerated, no lag having been tolerated
before. -/
theorem reconcile_err_iff (g : SourceGroup σ) (c : Version) (l : List (report σ)) :
    ∀ st : GetState, st.version = some c →
      (∀ r ∈ l, ∀ u, r.v = some u → c.Equal u = true ∨ u.LessThan c = true) →
      ((g.reconcile l st).1.err = none
        ↔ st.err = none ∧ (disagreeing c l = []
            ∨ (st.lower = none ∧ tolerable g.Strict (disagreeing c l) = true))) := by
  induction l with
  | nil =>
    intro st _ _
    simp [reconcile, disagreeing]
  | cons r rs ih =>
    intro st h hl
    have hrs := fun x hx => hl x (List.mem_cons_of_mem r hx)
    rw [reconcile_cons]
    cases hv : r.v with
    | none =>
      have hs : (getStep g st r).1 = st := by simp [getStep, hv]
      rw [hs, disagreeing_cons_agree c r rs (Or.inl hv)]
      exact ih st h hrs
    | some u =>
      by_cases heq : c.Equal u = true
      · have hs : (getStep g st r).1 = st := by simp [getStep, hv, h, heq]
        rw [hs, disagreeing_cons_agree c r rs (Or.inr ⟨u, hv, heq⟩)]
        exact ih st h hrs
      · simp only [Bool.not_eq_true] at heq
        have hlt : u.LessThan c = true := by
          rcases hl r (List.mem_cons_self _ _) u hv with h1 | h1
          · rw [h1] at heq
            exact absurd heq (by simp)
          · exact h1
        rw [disagreeing_cons_differ c r rs u hv heq]
        by_cases hcond : g.Strict = false ∧ st.lower = none ∧ r.s.Source.IsCanBeLesser = true
        · obtain ⟨c1, c2, c3⟩ := hcond
          rw [getStep_lower g st r c u h c2 c1 hv c3 heq hlt,
            ih ⟨st.version, some u, st.err⟩ h hrs]
          simp only [reduceCtorEq, false_and, or_false]
          constructor
          · rintro ⟨e1, e2⟩
            refine ⟨e1, Or.inr ⟨c2, ?_⟩⟩
            rw [e2]
            simp [tolerable, c1, c3]
          · rintro ⟨e1, e2⟩
            refine ⟨e1, ?_⟩
            rcases e2 with e2 | ⟨_, e2⟩
            · simp at e2
            · cases hd : disagreeing c rs with
              | nil => rfl
              | cons x xs =>
                rw [hd] at e2
                simp [tolerable] at e2
        · have hs : (getStep g st r).1
              = ⟨st.version, st.lower,
                  if st.err = none then some Error.differentVersions else st.err⟩ := by
            simp only [getStep, hv, h, heq, hlt]
            have : (!g.Strict && decide (st.lower = none) && r.s.Source.IsCanBeLesser
                && true) = false := by
              by_contra hc
              simp only [Bool.not_eq_false, Bool.and_eq_true, Bool.not_eq_true',
                decide_eq_true_eq, and_true] at hc
              exact hcond ⟨hc.1.1, hc.1.2, hc.2⟩
            simp [this]
          have hne : (g.reconcile rs (getStep g st r).1).1.err ≠ none := by
            apply (reconcile_keeps g c rs _ (by rw [hs]; exact h)).2
            rw [hs]
            by_cases he : st.err = none <;> simp [he]
          constructor
          · intro hcon
            exact absurd hcon hne
          · rintro ⟨_, e2⟩
            exfalso
            rcases e2 with e2 | ⟨e2, e3⟩
            · simp at e2
            · cases hd : disagreeing c rs with
              | nil =>
                rw [hd] at e3
                simp only [tolerable, Bool.and_eq_true, Bool.not_eq_true'] at e3
                exact hcond ⟨e3.1, e2, e3.2⟩
              | cons x xs =>
                rw [hd] at e3
                simp [tolerable] at e3

/-- The first report of sorted reports that has a version is not below any other. -/
theorem firstVersion_max (l : List (report σ)) (c : Version)
    (hsorted : l.Pairwise fun a b => 0 ≤ reportCmp b a) (hfirst : firstVersion l = some c) :
    ∀ r ∈ l, ∀ u, r.v = some u → 0 ≤ c.Compare u := by
  induction l with
  | nil => simp [firstVersion] at hfirst
  | cons r rs ih =>
    intro x hx u hu
    obtain ⟨hhead, htail⟩ := List.pairwise_cons.1 hsorted
    cases hv : r.v with
    | none =>
      rcases List.mem_cons.1 hx with h | h
      · rw [h, hv] at hu
        simp at hu
      · rw [firstVersion_cons_none r rs hv] at hfirst
        exact ih htail hfirst x h u hu
    | some y =>
      rw [firstVersion_cons_some r rs y hv, Option.some.injEq] at hfirst
      subst hfirst
      rcases List.mem_cons.1 hx with h | h
      · rw [h, hv, Option.some.injEq] at hu
        rw [← hu, Version.Compare_self]
      · have := hhead x h
        rw [reportCmp_some_some x r u y hu hv] at this
        exact this

/-- The loop of `Get` over sorted reports of versions the parser produces: it ends with
the consensus, and without a recorded error exactly when the disagreeing reports are
tolerable. -/
theorem reconcile_sorted (g : SourceGroup σ) (l : List (report σ)) (c : Version)
    (hsorted : l.Pairwise fun a b => 0 ≤ reportCmp b a) (hvalid : validReports l)
    (hfirst : firstVersion l = some c) :
    (g.reconcile l ⟨none, none, none⟩).1.version = some c
      ∧ ((g.reconcile l ⟨none, none, none⟩).1.err = none
        ↔ tolerable g.Strict (disagreeing c l) = true) := by
  have hmax := firstVersion_max l c hsorted hfirst
  have hcv : c.Valid := by
    obtain ⟨r, hr, hrv⟩ := List.mem_filterMap.1 (List.mem_of_mem_head? hfirst)
    exact hvalid r hr c hrv
  clear hsorted
  induction l with
  | nil => simp [firstVersion] at hfirst
  | cons r rs ih =>
    have hvrs : validReports rs := fun x hx => hvalid x (List.mem_cons_of_mem _ hx)
    have hmrs := fun x hx => hmax x (List.mem_cons_of_mem r hx)
    rw [reconcile_cons]
    cases hv : r.v with
    | none =>
      have hs : (getStep g ⟨none, none, none⟩ r).1 = ⟨none, none, none⟩ := by
        simp [getStep, hv]
      rw [hs, disagreeing_cons_agree c r rs (Or.inl hv)]
      rw [firstVersion_cons_none r rs hv] at hfirst
      exact ih hvrs hfirst hmrs
    | some y =>
      rw [firstVersion_cons_some r rs y hv, Option.some.injEq] at hfirst
      subst hfirst
      rw [getStep_first g ⟨none, none, none⟩ r y rfl hv,
        disagreeing_cons_agree y r rs (Or.inr ⟨y, hv, Version.Equal_self y⟩)]
      refine ⟨(reconcile_keeps g y rs _ rfl).1, ?_⟩
      rw [reconcile_err_iff g y rs _ rfl]
      · simp only [true_and]
        constructor
        · rintro (h | h)
          · rw [h]
            rfl
          · exact h
        · intro h
          exact Or.inr h
      · intro x hx u hu
        have h1 := hmrs x hx u hu
        have h2 := Version.Compare_symm y u hcv (hvrs x hx u hu)
        by_cases h0 : y.Compare u = 0
        · exact Or.inl ((Version.Equal_iff y u).2 h0)
        · right
          rw [Version.LessThan_iff]
          omega

end SourceGroup

/-! ## `Get` and the iteration order of the sources -/

theorem SameOutcome_refl (v : Option Version) :
    SameOutcome (Outcome.ret (v, none)) (Outcome.ret (v, none)) := by
  refine ⟨v, v, rfl, rfl, ?_⟩
  cases v with
  | none => exact Or.inl ⟨rfl, rfl⟩
  | some x => exact Or.inr ⟨x, x, rfl, rfl, Version.Equal_self x, rfl, fun _ => rfl⟩

/-- The version `Get` returns for the consensus `c`: `c` itself, or `c` spelled with a
leading `v`; the two differ in the original text only. -/
theorem withV_fields (vp : Bool) (c : Version) :
    (if vp = true ∧ hasVPrefix (some c) = false then { c with original := "v" ++ c.String }
      else c).major = c.major
      ∧ (if vp = true ∧ hasVPrefix (some c) = false then { c with original := "v" ++ c.String }
        else c).minor = c.minor
      ∧ (if vp = true ∧ hasVPrefix (some c) = false then { c with original := "v" ++ c.String }
        else c).patch = c.patch
      ∧ (if vp = true ∧ hasVPrefix (some c) = false then { c with original := "v" ++ c.String }
        else c).pre = c.pre
      ∧ (if vp = true ∧ hasVPrefix (some c) = false then { c with original := "v" ++ c.String }
        else c).metadata = c.metadata
      ∧ (if vp = true ∧ hasVPrefix (some c) = false then { c with original := "v" ++ c.String }
        else c).String = c.String := by
  split <;> exact ⟨rfl, rfl, rfl, rfl, rfl, rfl⟩

/-- The version `Get` returns is spelled with a leading `v` exactly when some report
was, `c` being one of the reports. -/
theorem withV_spelling (vp : Bool) (c : Version) (h : vp = false → hasVPrefix (some c) = false) :
    hasVPrefix (some (if vp = true ∧ hasVPrefix (some c) = false then
      { c with original := "v" ++ c.String } else c)) = vp := by
  cases vp with
  | false => simpa using h rfl
  | true =>
    by_cases hc : hasVPrefix (some c) = true
    · simp [hc]
    · simp only [Bool.not_eq_true] at hc
      simp only [hc, and_self, if_true]
      exact HasPrefix_v_append c.String

namespace SourceGroup

variable {σ : Type}

theorem tolerable_perm (strict : Bool) (l1 l2 : List (report σ)) (h : l1.Perm l2) :
    tolerable strict l1 = tolerable strict l2 := by
  have hlen := h.length_eq
  match l1, l2, h, hlen with
  | [], [], _, _ => rfl
  | [a], [b], h, _ =>
    have := List.perm_singleton.1 h
    rw [this]
  | _ :: _ :: _, _ :: _ :: _, _, _ => rfl
  | [], _ :: _, _, hlen => simp at hlen
  | _ :: _, [], _, hlen => simp at hlen
  | [_], _ :: _ :: _, _, hlen => simp at hlen
  | _ :: _ :: _, [_], _, hlen => simp at hlen

theorem firstVersion_none_iff (l : List (report σ)) :
    firstVersion l = none ↔ ∀ r ∈ l, r.v = none := by
  unfold firstVersion
  rw [List.head?_eq_none_iff, List.filterMap_eq_nil_iff]

theorem reconcile_all_none (g : SourceGroup σ) (l : List (report σ)) (st : GetState)
    (h : ∀ r ∈ l, r.v = none) : (g.reconcile l st).1 = st := by
  induction l with
  | nil => rfl
  | cons r rs ih =>
    rw [reconcile_cons]
    have hs : (getStep g st r).1 = st := by simp [getStep, h r (List.mem_cons_self _ _)]
    rw [hs]
    exact ih fun x hx => h x (List.mem_cons_of_mem _ hx)

/-- What `Get` returns when no source failed and the loop ended without a version or
with a recorded conflict: the version 0.1.0 when the default version is empty, no
version otherwise, and no error. -/
theorem Get_out_default (g : SourceGroup σ) (sortFunc : SortFunc σ) (names : List Name)
    (w : σ) (herr : (g.Fetch sortFunc names w).err = none)
    (h : (g.reconcile (g.Fetch sortFunc names w).reports ⟨none, none, none⟩).1.version = none
      ∨ ∃ c, (g.reconcile (g.Fetch sortFunc names w).reports ⟨none, none, none⟩).1.version
            = some c ∧ c.Valid
          ∧ (g.reconcile (g.Fetch sortFunc names w).reports ⟨none, none, none⟩).1.err ≠ none) :
    (g.Get sortFunc names w).out
      = if g.DefaultVersion = "" then Outcome.ret (some ⟨0, 1, 0, "", "", "0.1.0"⟩, none)
        else Outcome.ret (none, none) := by
  unfold Get
  simp only [herr, ne_eq, not_true_eq_false, if_false]
  rcases h with h | ⟨c, hc, hcv, he⟩
  · simp only [h, not_true_eq_false, decide_False, Bool.and_false, Bool.false_eq_true, if_false]
    rw [finishGet_out]
    simp
  · by_cases hvp : (g.Fetch sortFunc names w).vp = true
    · simp only [hc, hvp, Bool.true_and, reduceCtorEq, not_false_eq_true, decide_True, if_true,
        addVPrefix_valid c hcv]
      rw [finishGet_out]
      simp [he]
    · simp only [hc, hvp, Bool.false_and, Bool.false_eq_true, if_false]
      rw [finishGet_out]
      simp [he]

end SourceGroup

/-- C21, amended: a group whose enabled sources each return the same version and no
error whenever they are asked, versions the parser produces, and a sorting function
that returns its input sorted. For every two iteration orders of the same sources and
every selection, `Get` returns the same outcome: no error both times, and no version
both times, or versions that are Equal and have the same leading-`v` spelling, and the
same `verToString` when their build metadata is the same. -/
theorem C21_Get_same_for_iteration_orders {σ : Type} (g : SourceGroup σ)
    (sources : List (Name × SourceWithMeta σ)) (sortFunc : SortFunc σ) (names : List Name)
    (w1 w2 : σ) (res : Name × SourceWithMeta σ → Option Version)
    (hperm : sources.Perm g.Sources)
    (hpure : ∀ e ∈ g.Sources, e.2.Disabled = false →
      ∀ w, (e.2.Source.Get g.getFS w).1 = (res e, none))
    (hvalid : ∀ e ∈ g.Sources, ∀ u, res e = some u → u.Valid)
    (hsort : ∀ l : List (report σ), validReports l →
      (sortFunc SourceGroup.reportCmp l).Perm l
        ∧ IsSortedFunc SourceGroup.reportCmp (sortFunc SourceGroup.reportCmp l) = true) :
    SameOutcome (g.Get sortFunc names w1).out ((g.reordered sources).Get sortFunc names w2).out := by
  -- the reports of the two runs
  have hpure2 : ∀ e ∈ (g.reordered sources).Sources, e.2.Disabled = false →
      ∀ w, (e.2.Source.Get (g.reordered sources).getFS w).1 = (res e, none) :=
    fun e he => hpure e (hperm.mem_iff.1 he)
  obtain ⟨f1, fvp1, ferr1⟩ := SourceGroup.Fetch_pure g sortFunc names w1 res hpure
  obtain ⟨f2, fvp2, ferr2⟩ :=
    SourceGroup.Fetch_pure (g.reordered sources) sortFunc names w2 res hpure2
  have hR := SourceGroup.reportsOf_perm g sources names res hperm
  have hvR1 : validReports (reportsOf res (g.selected names)) := by
    intro r hr u hu
    obtain ⟨e, he, hre⟩ := List.mem_map.1 hr
    rw [← hre] at hu
    exact hvalid e (SourceGroup.selected_subset g names e (List.mem_filter.1 he).1) u hu
  have hvR2 : validReports (reportsOf res ((g.reordered sources).selected names)) :=
    fun r hr => hvR1 r (hR.mem_iff.1 hr)
  obtain ⟨hp1, hs1⟩ := hsort _ hvR1
  obtain ⟨hp2, hs2⟩ := hsort _ hvR2
  rw [← f1] at hp1 hs1
  rw [← f2] at hp2 hs2
  have hS : ((g.reordered sources).Fetch sortFunc names w2).reports.Perm
      (g.Fetch sortFunc names w1).reports := (hp2.trans hR).trans hp1.symm
  have hv1 : validReports (g.Fetch sortFunc names w1).reports :=
    fun r hr => hvR1 r (hp1.mem_iff.1 hr)
  have hv2 : validReports ((g.reordered sources).Fetch sortFunc names w2).reports :=
    fun r hr => hv1 r (hS.mem_iff.1 hr)
  have hpw1 := SourceGroup.pairwise_of_isSortedFunc _ hv1 hs1
  have hpw2 := SourceGroup.pairwise_of_isSortedFunc _ hv2 hs2
  have hvp : ((g.reordered sources).Fetch sortFunc names w2).vp
      = (g.Fetch sortFunc names w1).vp := by
    rw [fvp1, fvp2]
    exact SourceGroup.any_perm _ _ _ hR
  have hdv : (g.reordered sources).DefaultVersion = g.DefaultVersion := rfl
  have hst : (g.reordered sources).Strict = g.Strict := rfl
  cases hc1 : firstVersion (g.Fetch sortFunc names w1).reports with
  | none =>
    -- no report has a version
    have hn1 := (SourceGroup.firstVersion_none_iff _).1 hc1
    have hn2 : ∀ r ∈ ((g.reordered sources).Fetch sortFunc names w2).reports, r.v = none :=
      fun r hr => hn1 r (hS.mem_iff.1 hr)
    rw [SourceGroup.Get_out_default g sortFunc names w1 ferr1
        (Or.inl (by rw [SourceGroup.reconcile_all_none g _ _ hn1])),
      SourceGroup.Get_out_default (g.reordered sources) sortFunc names w2 ferr2
        (Or.inl (by rw [SourceGroup.reconcile_all_none _ _ _ hn2])), hdv]
    split <;> exact SameOutcome_refl _
  | some c1 =>
    cases hc2 : firstVersion ((g.reordered sources).Fetch sortFunc names w2).reports with
    | none =>
      exfalso
      have hn2 := (SourceGroup.firstVersion_none_iff _).1 hc2
      have hn1 : ∀ r ∈ (g.Fetch sortFunc names w1).reports, r.v = none :=
        fun r hr => hn2 r (hS.mem_iff.2 hr)
      rw [(SourceGroup.firstVersion_none_iff _).2 hn1] at hc1
      simp at hc1
    | some c2 =>
      obtain ⟨r1, hr1, hrv1⟩ := List.mem_filterMap.1 (List.mem_of_mem_head? hc1)
      obtain ⟨r2, hr2, hrv2⟩ := List.mem_filterMap.1 (List.mem_of_mem_head? hc2)
      have hcv1 : c1.Valid := hv1 r1 hr1 c1 hrv1
      have hcv2 : c2.Valid := hv2 r2 hr2 c2 hrv2
      -- the two consensus versions are Equal
      have hge1 := SourceGroup.firstVersion_max _ c1 hpw1 hc1 r2 (hS.mem_iff.1 hr2) c2 hrv2
      have hge2 := SourceGroup.firstVersion_max _ c2 hpw2 hc2 r1 (hS.mem_iff.2 hr1) c1 hrv1
      have hsym := Version.Compare_symm c1 c2 hcv1 hcv2
      have heq : c1.Equal c2 = true := by
        rw [Version.Equal_iff]
        omega
      obtain ⟨hver1, herr1⟩ := SourceGroup.reconcile_sorted g _ c1 hpw1 hv1 hc1
      obtain ⟨hver2, herr2⟩ := SourceGroup.reconcile_sorted (g.reordered sources) _ c2 hpw2 hv2 hc2
      -- the same reports disagree with both
      have hdis : (disagreeing c2 ((g.reordered sources).Fetch sortFunc names w2).reports).Perm
          (disagreeing c1 (g.Fetch sortFunc names w1).reports) := by
        unfold disagreeing
        have hcongr : ∀ r ∈ ((g.reordered sources).Fetch sortFunc names w2).reports,
            (match r.v with
              | none => false
              | some u => !c2.Equal u)
            = (match r.v with
              | none => false
              | some u => !c1.Equal u) := by
          intro r hr
          cases hv : r.v with
          | none => rfl
          | some u =>
            have hu : u.Valid := hv2 r hr u hv
            simp only
            congr 1
            rw [Bool.eq_iff_iff]
            constructor
            · intro h
              exact Version.Equal_trans c1 c2 u hcv1 hcv2 hu heq h
            · intro h
              exact Version.Equal_trans c2 c1 u hcv2 hcv1 hu
                (Version.Equal_symm c1 c2 hcv1 hcv2 heq) h
        rw [List.filter_congr hcongr]
        exact hS.filter _
      have htol := SourceGroup.tolerable_perm g.Strict _ _ hdis
      rw [hst] at herr2
      rw [htol] at herr2
      by_cases ht : tolerable g.Strict (disagreeing c1 (g.Fetch sortFunc names w1).reports) = true
      · -- both runs end on their consensus
        have he1 := herr1.2 ht
        have he2 := herr2.2 ht
        rw [SourceGroup.Get_out_of_consensus g sortFunc names w1 c1 ferr1 hver1 he1 hcv1,
          SourceGroup.Get_out_of_consensus (g.reordered sources) sortFunc names w2 c2 ferr2 hver2
            he2 hcv2, hvp]
        have hnov : (g.Fetch sortFunc names w1).vp = false →
            hasVPrefix (some c1) = false ∧ hasVPrefix (some c2) = false := by
          intro hfalse
          rw [fvp1, List.any_eq_false] at hfalse
          have h1 := hfalse r1 (hp1.mem_iff.1 hr1)
          have h2 := hfalse r2 (hp1.mem_iff.1 (hS.mem_iff.1 hr2))
          rw [hrv1] at h1
          rw [hrv2] at h2
          exact ⟨by simpa using h1, by simpa using h2⟩
        obtain ⟨a1, a2, a3, a4, a5, a6⟩ := withV_fields (g.Fetch sortFunc names w1).vp c1
        obtain ⟨b1, b2, b3, b4, b5, b6⟩ := withV_fields (g.Fetch sortFunc names w1).vp c2
        obtain ⟨e1, e2, e3, e4⟩ := Version.fields_of_Equal c1 c2 hcv1 hcv2 heq
        have hsp1 := withV_spelling (g.Fetch sortFunc names w1).vp c1 fun h => (hnov h).1
        have hsp2 := withV_spelling (g.Fetch sortFunc names w1).vp c2 fun h => (hnov h).2
        refine ⟨_, _, rfl, rfl, Or.inr ⟨_, _, rfl, rfl, ?_, ?_, ?_⟩⟩
        · exact Version.Equal_of_fields _ _ (by rw [a1, b1, e1]) (by rw [a2, b2, e2])
            (by rw [a3, b3, e3]) (by rw [a4, b4, e4])
        · rw [hsp1, hsp2]
        · intro hmeta
          rw [a5, b5] at hmeta
          have hstr := Version.String_eq_of_Equal c1 c2 hcv1 hcv2 heq hmeta
          rw [verToString_some, verToString_some]
          unfold writtenText
          rw [hsp1, hsp2, a6, b6, hstr]
      · -- both runs record a conflict
        have he1 : (g.reconcile (g.Fetch sortFunc names w1).reports ⟨none, none, none⟩).1.err
            ≠ none := fun h => ht (herr1.1 h)
        have he2 : ((g.reordered sources).reconcile
            ((g.reordered sources).Fetch sortFunc names w2).reports ⟨none, none, none⟩).1.err
            ≠ none := fun h => ht (herr2.1 h)
        rw [SourceGroup.Get_out_default g sortFunc names w1 ferr1
            (Or.inr ⟨c1, hver1, hcv1, he1⟩),
          SourceGroup.Get_out_default (g.reordered sources) sortFunc names w2 ferr2
            (Or.inr ⟨c2, hver2, hcv2, he2⟩), hdv]
        split <;> exact SameOutcome_refl _

/-- The claim C21 fails when two sources report Equal versions with different build
metadata: `A` reports 1.2.0+a and `B` reports 1.2.0+b, both fetch successfully, and
`Get` returns 1.2.0+a when `A` is visited first and 1.2.0+b when `B` is, which
`verToString` spells differently. The sorting function leaves tied reports in the order
in which they were fetched, as `slices.SortFunc` does on a slice of two. -/
theorem C21_metadata_depends_on_iteration_order :
    metadataSources.reverse.Perm metadataSources
      ∧ ((debugGroup "" false metadataSources).Fetch insertionSortFunc [] ()).err = none
      ∧ ((debugGroup "" false metadataSources.reverse).Fetch insertionSortFunc [] ()).err = none
      ∧ ((debugGroup "" false metadataSources).Get insertionSortFunc [] ()).out
        = Outcome.ret (some ⟨1, 2, 0, "", "a", "1.2.0+a"⟩, none)
      ∧ ((debugGroup "" false metadataSources.reverse).Get insertionSortFunc [] ()).out
        = Outcome.ret (some ⟨1, 2, 0, "", "b", "1.2.0+b"⟩, none)
      ∧ Version.Equal ⟨1, 2, 0, "", "a", "1.2.0+a"⟩ ⟨1, 2, 0, "", "b", "1.2.0+b"⟩ = true
      ∧ verToString (some ⟨1, 2, 0, "", "a", "1.2.0+a"⟩) = Outcome.ret "1.2.0+a"
      ∧ verToString (some ⟨1, 2, 0, "", "b", "1.2.0+b"⟩) = Outcome.ret "1.2.0+b" :=
  ⟨List.reverse_perm _, by decide, by decide, by decide, by decide, by decide, by decide,
    by decide⟩

/-- C21 on the group where `A` reports `1.2.0` and `B` reports `v1.2.0`, visited in the
two possible orders. -/
theorem C21_Get_same_for_iteration_orders_witness :
    SameOutcome ((debugGroup "" false mixedSpellingSources).Get insertionSortFunc [] ()).out
      (((debugGroup "" false mixedSpellingSources).reordered
        (debugGroup "" false mixedSpellingSources).Sources.reverse).Get
          insertionSortFunc [] ()).out :=
  C21_Get_same_for_iteration_orders (debugGroup "" false mixedSpellingSources)
    (debugGroup "" false mixedSpellingSources).Sources.reverse insertionSortFunc [] () ()
    mixedSpellingReports (List.reverse_perm _)
    (by
      intro e he _ w
      simp only [debugGroup, mixedSpellingSources, List.map_cons, List.map_nil, List.mem_cons,
        List.mem_singleton, List.not_mem_nil, or_false] at he
      rcases he with h | h <;> subst h <;> rfl)
    (by
      intro e _ u hu
      unfold mixedSpellingReports at hu
      by_cases h : e.1 = "A"
      · rw [if_pos h, Option.some.injEq] at hu
        subst hu
        decide
      · rw [if_neg h, Option.some.injEq] at hu
        subst hu
        decide)
    (fun l hl => SourceGroup.insertionSortFunc_contract l hl)

/-! ## One lagging report, in any order of the calls -/

/-- When every call of `Get` on an enabled selected source returns no error, `Fetch`
returns no error, and its reports are those of the calls, in the order of the calls,
handed to `slices.SortFunc`. -/
theorem SourceGroup.Fetch_of_ok {σ : Type} (g : SourceGroup σ) (sortFunc : SortFunc σ)
    (names : List Name) (w : σ)
    (hok : ∀ c ∈ (callGets g.getFS (enabledSources (g.selected names)) w).1, c.err = none) :
    (g.Fetch sortFunc names w).err = none
      ∧ (g.Fetch sortFunc names w).reports = sortFunc SourceGroup.reportCmp
          ((callGets g.getFS (enabledSources (g.selected names)) w).1.map GetCall.report) := by
  obtain ⟨h1, _, h3, _, _⟩ :=
    SourceGroup.fetchLoop_spec g (g.selected names) ⟨[], false, none, [], w⟩
  have herr : firstError
      ((callGets g.getFS (enabledSources (g.selected names)) w).1.map (·.err)) = none := by
    by_contra h
    obtain ⟨x, hx, hne⟩ := (SourceGroup.firstError_ne_none_iff _).1 h
    obtain ⟨c, hc, hcx⟩ := List.mem_map.1 hx
    exact hne (by rw [← hcx]; exact hok c hc)
  have hfilter : (callGets g.getFS (enabledSources (g.selected names)) w).1.filter
      (fun c => c.err = none) = (callGets g.getFS (enabledSources (g.selected names)) w).1 :=
    List.filter_eq_self.2 (fun c hc => by simp [hok c hc])
  simp only [if_true, List.nil_append, hfilter, herr] at h1 h3
  unfold SourceGroup.Fetch
  simp only [h3, ne_eq, not_true_eq_false, if_false, h1]
  exact ⟨trivial, trivial⟩

/-- A list that is a permutation of `before ++ low :: after` splits at `low`, the rest
being a permutation of `before ++ after`. -/
theorem perm_split_at {α : Type} (l before after : List α) (low : α)
    (h : l.Perm (before ++ low :: after)) :
    ∃ b a, l = b ++ low :: a ∧ (b ++ a).Perm (before ++ after) := by
  have hmem : low ∈ l := h.mem_iff.2 (by simp)
  obtain ⟨b, a, hl⟩ := List.append_of_mem hmem
  refine ⟨b, a, hl, ?_⟩
  rw [hl] at h
  exact ((List.perm_middle.symm.trans h).trans List.perm_middle).cons_inv

/-- C3: in a non-strict group whose enabled selected sources all fetch successfully,
when one of the calls, on a CanBeLesser source, returns a version strictly lower than `V`
and every other call returns no version or one Equal to `V`, at least one being Equal to
`V`, `Get` returns a version Equal to `V` and a nil error. This holds for every order in
which the sources are called and every sorting function that returns its input sorted;
the versions returned are values the parser produces. -/
theorem C3_one_lag_tolerated {σ : Type} (g : SourceGroup σ) (sortFunc : SortFunc σ)
    (names : List Name) (w : σ) (V lv : Version) (before after : List (GetCall σ))
    (low : GetCall σ)
    (hstrict : g.Strict = false)
    (hsort : ∀ l : List (report σ), validReports l →
      (sortFunc SourceGroup.reportCmp l).Perm l
        ∧ IsSortedFunc SourceGroup.reportCmp (sortFunc SourceGroup.reportCmp l) = true)
    (hcalls : (callGets g.getFS (enabledSources (g.selected names)) w).1
      = before ++ low :: after)
    (hok : ∀ c ∈ before ++ low :: after, c.err = none)
    (hvalid : ∀ c ∈ before ++ low :: after, ∀ u, c.v = some u → u.Valid)
    (hV : V.Valid)
    (hlow : low.v = some lv ∧ lv.LessThan V = true ∧ low.src.Source.IsCanBeLesser = true)
    (hothers : ∀ c ∈ before ++ after, c.v = none ∨ ∃ u, c.v = some u ∧ u.Equal V = true)
    (hreported : ∃ c ∈ before ++ after, ∃ u, c.v = some u ∧ u.Equal V = true) :
    ∃ x, (g.Get sortFunc names w).out = Outcome.ret (some x, none) ∧ x.Equal V = true := by
  obtain ⟨herr, hreports⟩ := SourceGroup.Fetch_of_ok g sortFunc names w
    (by rw [hcalls]; exact hok)
  rw [hcalls] at hreports
  have hvR : validReports ((before ++ low :: after).map GetCall.report) := by
    intro r hr u hu
    obtain ⟨c, hc, hcr⟩ := List.mem_map.1 hr
    rw [← hcr] at hu
    exact hvalid c hc u hu
  obtain ⟨hperm, hsorted⟩ := hsort _ hvR
  rw [← hreports] at hperm hsorted
  have hperm2 : (g.Fetch sortFunc names w).reports.Perm
      (before.map GetCall.report ++ low.report :: after.map GetCall.report) := by
    simpa using hperm
  obtain ⟨b, a, hsplit, hrest⟩ := perm_split_at _ _ _ _ hperm2
  have hrest2 : (b ++ a).Perm ((before ++ after).map GetCall.report) := by
    simpa using hrest
  refine Get_one_lag_of_sorted g sortFunc names w V lv b a low.report hstrict herr hsorted
    (fun r hr => hvR r (hperm.mem_iff.1 hr)) hV hsplit hlow ?_ ?_
  · intro r hr
    obtain ⟨c, hc, hcr⟩ := List.mem_map.1 (hrest2.mem_iff.1 hr)
    rw [← hcr]
    exact hothers c hc
  · obtain ⟨c, hc, u, hcu, huV⟩ := hreported
    exact ⟨c.report, hrest2.mem_iff.2 (List.mem_map.2 ⟨c, hc, rfl⟩), u, hcu, huV⟩

/-- C3 at the spec's example, with the lagging source called first: the calls return
1.1.9 from the CanBeLesser source `Tag`, then 1.2.0 from `A` and from `B`, non-strict
mode. -/
theorem C3_one_lag_tolerated_witness :
    ∃ x, ((debugGroup "" false lagFirstSources).Get insertionSortFunc [] ()).out
        = Outcome.ret (some x, none) ∧ x.Equal (plainVersion 1 2 0 "1.2.0") = true :=
  C3_one_lag_tolerated (debugGroup "" false lagFirstSources) insertionSortFunc [] ()
    (plainVersion 1 2 0 "1.2.0") (plainVersion 1 1 9 "1.1.9")
    []
    [debugCall "A" ⟨"1.2.0", false, false⟩ (some (plainVersion 1 2 0 "1.2.0")),
      debugCall "B" ⟨"1.2.0", false, false⟩ (some (plainVersion 1 2 0 "1.2.0"))]
    (debugCall "Tag" ⟨"1.1.9", false, true⟩ (some (plainVersion 1 1 9 "1.1.9")))
    rfl (fun l hl => SourceGroup.insertionSortFunc_contract l hl) rfl
    (by
      intro c hc
      simp only [List.nil_append, List.mem_cons, List.mem_singleton, List.not_mem_nil,
        or_false] at hc
      rcases hc with h | h | h <;> subst h <;> rfl)
    (by
      intro c hc u hu
      simp only [List.nil_append, List.mem_cons, List.mem_singleton, List.not_mem_nil,
        or_false] at hc
      rcases hc with h | h | h <;> subst h <;>
        (simp only [debugCall, Option.some.injEq] at hu; subst hu; decide))
    (by decide) ⟨rfl, by decide, rfl⟩
    (by
      intro c hc
      simp only [List.nil_append, List.mem_cons, List.mem_singleton, List.not_mem_nil,
        or_false] at hc
      rcases hc with h | h <;> subst h <;>
        exact Or.inr ⟨plainVersion 1 2 0 "1.2.0", rfl, by decide⟩)
    ⟨_, List.mem_cons_self _ _, plainVersion 1 2 0 "1.2.0", rfl, by decide⟩

/-! ## Only the first lagging report in sorted order is tolerated -/

/-- A list with an element satisfying `p` splits at the first such element. -/
theorem exists_first_split {α : Type} (p : α → Bool) (l : List α)
    (h : ∃ x ∈ l, p x = true) :
    ∃ b x a, l = b ++ x :: a ∧ p x = true ∧ ∀ y ∈ b, p y = false := by
  induction l with
  | nil => simp at h
  | cons y ys ih =>
    cases hy : p y with
    | true => exact ⟨[], y, ys, rfl, hy, by simp⟩
    | false =>
      obtain ⟨x, hx, hpx⟩ := h
      have hx2 : x ∈ ys := by
        rcases List.mem_cons.1 hx with e | e
        · rw [e, hy] at hpx
          simp at hpx
        · exact e
      obtain ⟨b, x1, a, hl, hp1, hb⟩ := ih ⟨x, hx2, hpx⟩
      refine ⟨y :: b, x1, a, by rw [hl]; rfl, hp1, ?_⟩
      intro z hz
      rcases List.mem_cons.1 hz with e | e
      · rw [e]; exact hy
      · exact hb z e

/-- C22: in a non-strict group whose enabled selected sources all fetch successfully,
where a CanBeLesser source returns a version strictly lower than another returned
version, whatever the order in which the sources are called and for every sorting
function that returns its input sorted. The reports `Get` ranges over are the reports of
the calls in sorted order; `c`, the version of the first of them that has one, is not
below any returned version; `low` is the first report in sorted order that comes from a
CanBeLesser source with a version strictly lower than `c`. The loop of `Get` logs `low`
as allowed and keeps its version as the one tolerated lag, and logs every report after
`low` by `laterEvent`: every later report strictly lower than `c`, CanBeLesser or not,
with the same version as `low` or not, is a conflict on the error sink. -/
theorem C22_only_first_lag_tolerated {σ : Type} (g : SourceGroup σ) (sortFunc : SortFunc σ)
    (names : List Name) (w : σ)
    (hstrict : g.Strict = false)
    (hsort : ∀ l : List (report σ), validReports l →
      (sortFunc SourceGroup.reportCmp l).Perm l
        ∧ IsSortedFunc SourceGroup.reportCmp (sortFunc SourceGroup.reportCmp l) = true)
    (hok : ∀ x ∈ (callGets g.getFS (enabledSources (g.selected names)) w).1, x.err = none)
    (hvalid : ∀ x ∈ (callGets g.getFS (enabledSources (g.selected names)) w).1,
      ∀ u, x.v = some u → u.Valid)
    (hlag : ∃ x ∈ (callGets g.getFS (enabledSources (g.selected names)) w).1,
      ∃ o ∈ (callGets g.getFS (enabledSources (g.selected names)) w).1,
        ∃ u m, x.v = some u ∧ o.v = some m ∧ u.LessThan m = true
          ∧ x.src.Source.IsCanBeLesser = true) :
    ∃ (c lv : Version) (before after : List (report σ)) (low : report σ),
      (g.Fetch sortFunc names w).reports = before ++ low :: after
      ∧ (before ++ low :: after).Perm
          ((callGets g.getFS (enabledSources (g.selected names)) w).1.map GetCall.report)
      ∧ IsSortedFunc SourceGroup.reportCmp (before ++ low :: after) = true
      ∧ firstVersion (before ++ low :: after) = some c
      ∧ (∀ x ∈ (callGets g.getFS (enabledSources (g.selected names)) w).1,
          ∀ u, x.v = some u → 0 ≤ c.Compare u)
      ∧ low.v = some lv ∧ lv.LessThan c = true ∧ low.s.Source.IsCanBeLesser = true
      ∧ (∀ r ∈ before, r.lagging c = false)
      ∧ (g.reconcile (g.Fetch sortFunc names w).reports ⟨none, none, none⟩).2
          = (g.reconcile before ⟨none, none, none⟩).2
            ++ Event.Log ("  " ++ low.n ++ " report lesser version: " ++ lv.String
                ++ " (allowed)")
              :: after.map (laterEvent c)
      ∧ (g.reconcile (g.Fetch sortFunc names w).reports ⟨none, none, none⟩).1.lower = some lv
      ∧ Event.Log ("  " ++ low.n ++ " report lesser version: " ++ lv.String ++ " (allowed)")
          ∈ (g.Get sortFunc names w).events
      ∧ ∀ r ∈ after, ∀ u, r.v = some u → u.LessThan c = true →
          laterEvent c r = Event.Err ("  " ++ r.n ++ " report different version: " ++ u.String)
            ∧ Event.Err ("  " ++ r.n ++ " report different version: " ++ u.String)
              ∈ (g.Get sortFunc names w).events := by
  obtain ⟨herr, hreports⟩ := SourceGroup.Fetch_of_ok g sortFunc names w hok
  have hvR : validReports
      ((callGets g.getFS (enabledSources (g.selected names)) w).1.map GetCall.report) := by
    intro r hr u hu
    obtain ⟨x, hx, hxr⟩ := List.mem_map.1 hr
    rw [← hxr] at hu
    exact hvalid x hx u hu
  obtain ⟨hperm, hsorted⟩ := hsort _ hvR
  rw [← hreports] at hperm hsorted
  have hvS : validReports (g.Fetch sortFunc names w).reports :=
    fun r hr => hvR r (hperm.mem_iff.1 hr)
  have hpw := SourceGroup.pairwise_of_isSortedFunc _ hvS hsorted
  obtain ⟨x, hx, o, ho, u, m, hxu, hom, hlt, hcan⟩ := hlag
  have hxS : x.report ∈ (g.Fetch sortFunc names w).reports :=
    hperm.mem_iff.2 (List.mem_map.2 ⟨x, hx, rfl⟩)
  have hoS : o.report ∈ (g.Fetch sortFunc names w).reports :=
    hperm.mem_iff.2 (List.mem_map.2 ⟨o, ho, rfl⟩)
  -- the consensus
  obtain ⟨c, hc⟩ : ∃ c, firstVersion (g.Fetch sortFunc names w).reports = some c := by
    cases hf : firstVersion (g.Fetch sortFunc names w).reports with
    | some c => exact ⟨c, rfl⟩
    | none =>
      have := (SourceGroup.firstVersion_none_iff _).1 hf o.report hoS
      rw [show o.report.v = o.v from rfl, hom] at this
      simp at this
  have hmax := SourceGroup.firstVersion_max _ c hpw hc
  have hcv : c.Valid := by
    have hm : c ∈ (g.Fetch sortFunc names w).reports.filterMap (·.v) :=
      List.mem_of_mem_head? hc
    obtain ⟨r, hr, hrv⟩ := List.mem_filterMap.1 hm
    exact hvS r hr c hrv
  have huv : u.Valid := hvalid x hx u hxu
  have hmv : m.Valid := hvalid o ho m hom
  have hcm : 0 ≤ c.Compare m := hmax o.report hoS m hom
  have huc : u.LessThan c = true := by
    rw [Version.LessThan_iff] at hlt ⊢
    by_contra hcon
    have := Version.Compare_ge_trans u c m huv hcv hmv (by omega) hcm
    omega
  have hxlag : x.report.lagging c = true := by
    simp [report.lagging, GetCall.report, hxu, huc, hcan]
  obtain ⟨before, low, after, hsplit, hlowlag, hfirst⟩ :=
    exists_first_split (report.lagging c) _ ⟨x.report, hxS, hxlag⟩
  obtain ⟨lv, hlv, hlvc, hlcan⟩ :
      ∃ lv, low.v = some lv ∧ lv.LessThan c = true ∧ low.s.Source.IsCanBeLesser = true := by
    unfold report.lagging at hlowlag
    cases hv : low.v with
    | none => rw [hv] at hlowlag; simp at hlowlag
    | some lv =>
      rw [hv] at hlowlag
      simp only [Bool.and_eq_true] at hlowlag
      exact ⟨lv, rfl, hlowlag.1, hlowlag.2⟩
  obtain ⟨e1, e2, e3, e4⟩ := Get_lag_events_of_split g sortFunc names w c lv before after low
    hstrict herr hvS hc hsplit ⟨hlv, hlvc, hlcan⟩ hfirst
  refine ⟨c, lv, before, after, low, hsplit, ?_, ?_, ?_, ?_, hlv, hlvc, hlcan, hfirst,
    e1, e2, e3, e4⟩
  · rw [← hsplit]; exact hperm
  · rw [← hsplit]; exact hsorted
  · rw [← hsplit]; exact hc
  · intro y hy v hyv
    exact hmax y.report (hperm.mem_iff.2 (List.mem_map.2 ⟨y, hy, rfl⟩)) v hyv

/-- The calls of `Get` on the sources of `twoLagFirstSources`, in iteration order. -/
theorem twoLagFirst_calls :
    (callGets (debugGroup "" false twoLagFirstSources).getFS
        (enabledSources ((debugGroup "" false twoLagFirstSources).selected [])) ()).1
      = [debugCall "TagA" ⟨"1.1.9", false, true⟩ (some (plainVersion 1 1 9 "1.1.9")),
          debugCall "A" ⟨"1.2.0", false, false⟩ (some (plainVersion 1 2 0 "1.2.0")),
          debugCall "TagB" ⟨"1.1.9", false, true⟩ (some (plainVersion 1 1 9 "1.1.9"))] := rfl

/-- C22 on a non-strict group where the CanBeLesser sources `TagA` and `TagB` both report
1.1.9 and `A` reports 1.2.0, called in the order `TagA`, `A`, `TagB`: in sorted order
`TagA` is the first lagging report and is allowed, `TagB` is a conflict on the error
sink. -/
theorem C22_only_first_lag_tolerated_witness :
    (∃ (c lv : Version) (before after : List (report Unit)) (low : report Unit),
      ((debugGroup "" false twoLagFirstSources).Fetch insertionSortFunc [] ()).reports
          = before ++ low :: after
      ∧ (before ++ low :: after).Perm
          ((callGets (debugGroup "" false twoLagFirstSources).getFS
            (enabledSources ((debugGroup "" false twoLagFirstSources).selected [])) ()).1.map
              GetCall.report)
      ∧ IsSortedFunc SourceGroup.reportCmp (before ++ low :: after) = true
      ∧ firstVersion (before ++ low :: after) = some c
      ∧ (∀ x ∈ (callGets (debugGroup "" false twoLagFirstSources).getFS
            (enabledSources ((debugGroup "" false twoLagFirstSources).selected [])) ()).1,
          ∀ u, x.v = some u → 0 ≤ c.Compare u)
      ∧ low.v = some lv ∧ lv.LessThan c = true ∧ low.s.Source.IsCanBeLesser = true
      ∧ (∀ r ∈ before, r.lagging c = false)
      ∧ ((debugGroup "" false twoLagFirstSources).reconcile
            ((debugGroup "" false twoLagFirstSources).Fetch insertionSortFunc [] ()).reports
            ⟨none, none, none⟩).2
          = ((debugGroup "" false twoLagFirstSources).reconcile before ⟨none, none, none⟩).2
            ++ Event.Log ("  " ++ low.n ++ " report lesser version: " ++ lv.String
                ++ " (allowed)")
              :: after.map (laterEvent c)
      ∧ ((debugGroup "" false twoLagFirstSources).reconcile
            ((debugGroup "" false twoLagFirstSources).Fetch insertionSortFunc [] ()).reports
            ⟨none, none, none⟩).1.lower = some lv
      ∧ Event.Log ("  " ++ low.n ++ " report lesser version: " ++ lv.String ++ " (allowed)")
          ∈ ((debugGroup "" false twoLagFirstSources).Get insertionSortFunc [] ()).events
      ∧ ∀ r ∈ after, ∀ u, r.v = some u → u.LessThan c = true →
          laterEvent c r = Event.Err ("  " ++ r.n ++ " report different version: " ++ u.String)
            ∧ Event.Err ("  " ++ r.n ++ " report different version: " ++ u.String)
              ∈ ((debugGroup "" false twoLagFirstSources).Get insertionSortFunc [] ()).events)
      ∧ ((debugGroup "" false twoLagFirstSources).Get insertionSortFunc [] ()).events
          = [Event.Log "fetching versions from sources...",
              Event.sourceGet "TagA", Event.sourceGet "A", Event.sourceGet "TagB",
              Event.Log "  A reports version: 1.2.0",
              Event.Log "  TagA report lesser version: 1.1.9 (allowed)",
              Event.Err "  TagB report different version: 1.1.9",
              Event.Log "  no version found in project, using default one"] :=
  ⟨C22_only_first_lag_tolerated (debugGroup "" false twoLagFirstSources) insertionSortFunc
      [] () rfl (fun l hl => SourceGroup.insertionSortFunc_contract l hl)
      (by
        intro x hx
        rw [twoLagFirst_calls] at hx
        simp only [List.mem_cons, List.mem_singleton, List.not_mem_nil, or_false] at hx
        rcases hx with h | h | h <;> subst h <;> rfl)
      (by
        intro x hx u hu
        rw [twoLagFirst_calls] at hx
        simp only [List.mem_cons, List.mem_singleton, List.not_mem_nil, or_false] at hx
        rcases hx with h | h | h <;> subst h <;>
          (simp only [debugCall, Option.some.injEq] at hu; subst hu; decide))
      ⟨debugCall "TagA" ⟨"1.1.9", false, true⟩ (some (plainVersion 1 1 9 "1.1.9")),
        by rw [twoLagFirst_calls]; exact List.mem_cons_self _ _,
        debugCall "A" ⟨"1.2.0", false, false⟩ (some (plainVersion 1 2 0 "1.2.0")),
        by rw [twoLagFirst_calls]; exact List.mem_cons_of_mem _ (List.mem_cons_self _ _),
        plainVersion 1 1 9 "1.1.9", plainVersion 1 2 0 "1.2.0", rfl, rfl, by decide, rfl⟩,
    by decide⟩
